import Mathlib

/-!
# Chess rule engine: shallow embedding of `core.hpp` / `core.cpp`

The board, the per-piece move generators, attack detection and the
`Game` operations `makeMove`, `makeNullMove`, `undoMove`, `legalMoves`
are translated function by function.

Conventions of the embedding

* `uint8_t` values are natural numbers; a narrowing conversion from `int`
  is written `u8 x = (x % 256).toNat`.
* `std::unique_ptr<Piece>` slots are `Option Piece`; a piece is its colour
  and its `PieceType` (the subclasses carry no other data), and the virtual
  call `p->legalMoves` is a dispatch on the type.
* `std::array<std::unique_ptr<Piece>, 64>` is a map from the linear index to
  the slot.  Every access in the source is guarded by `isValid`, so only the
  indices `0..63` are ever read or written.
* A function that can throw `RuleError` returns `Except`; `makeMove`
  mutates `*this` before some of its checks, therefore its error value also
  carries the state the object is left in.
-/

namespace chess

/-! ## Common types -/

inductive Color where
  | WHITE
  | BLACK
  deriving DecidableEq, Repr

/-- The `operator~` of the source. -/
def Color.flip : Color → Color
  | .WHITE => .BLACK
  | .BLACK => .WHITE

/-- Narrowing conversion `int → uint8_t`. -/
def u8 (x : Int) : Nat := (x % 256).toNat

@[ext]
structure Square where
  file : Nat := 0
  rank : Nat := 0
  deriving DecidableEq, Repr

def Square.index (s : Square) : Nat := (s.rank * 8 + s.file) % 256

def Square.isValid (s : Square) : Bool := decide (s.file < 8) && decide (s.rank < 8)

/-! ## Moves -/

def QUIET : Nat := 0
def CAPTURE : Nat := 1
def PROMOTION : Nat := 2
def EN_PASSANT : Nat := 4
def CASTLING_K : Nat := 8
def CASTLING_Q : Nat := 16
def NULL_MOVE : Nat := 32

def hasFlag (fl : Nat) (f : Nat) : Bool := (fl &&& f) != 0

def WK : Nat := 1
def WQ : Nat := 2
def BK : Nat := 4
def BQ : Nat := 8

@[ext]
structure Move where
  src : Square := {}
  dst : Square := {}
  flags : Nat := QUIET
  promoPiece : Nat := 0
  deriving DecidableEq, Repr

/-! ## Pieces -/

inductive PieceType where
  | KING
  | QUEEN
  | ROOK
  | BISHOP
  | KNIGHT
  | PAWN
  deriving DecidableEq, Repr

/-- The numeric value of the enumerator (`static_cast<uint8_t>`). -/
def PieceType.code : PieceType → Nat
  | .KING => 0
  | .QUEEN => 1
  | .ROOK => 2
  | .BISHOP => 3
  | .KNIGHT => 4
  | .PAWN => 5

structure Piece where
  color : Color
  type : PieceType
  deriving DecidableEq, Repr

/-! ## Board -/

@[ext]
structure Board where
  squares : Nat → Option Piece
  enPassantTarget : Option Square := none
  castlingRights : Nat := 15

/-- `Board::at`. -/
def Board.atSq (b : Board) (s : Square) : Option Piece := b.squares s.index

/-- `Board::set` and `Board::putPiece`: overwrite one slot. -/
def Board.putPiece (b : Board) (s : Square) (p : Option Piece) : Board :=
  { b with squares := fun i => if i = s.index then p else b.squares i }

/-- `Board::takePiece`: move the slot out and leave it empty. -/
def Board.takePiece (b : Board) (s : Square) : Option Piece × Board :=
  (b.squares s.index, { b with squares := fun i => if i = s.index then none else b.squares i })

def Board.setEnPassantTarget (b : Board) (sq : Option Square) : Board :=
  { b with enPassantTarget := sq }

def Board.setCastlingRights (b : Board) (rights : Nat) : Board :=
  { b with castlingRights := rights }

/-- The back rank array of the constructor. -/
def backRankTypes : List PieceType :=
  [.ROOK, .KNIGHT, .BISHOP, .QUEEN, .KING, .BISHOP, .KNIGHT, .ROOK]

/-- The `place` lambda of `Board::Board`. -/
def Board.place (b : Board) (c : Color) (rank : Nat) : Board :=
  (List.range 8).foldl
    (fun acc f =>
      match backRankTypes.get? f with
      | some t => acc.putPiece ⟨f, rank⟩ (some ⟨c, t⟩)
      | none => acc)
    b

/-- `Board::Board()`: the initial position. -/
def Board.initial : Board :=
  let b0 : Board := { squares := fun _ => none }
  let b1 := (b0.place .WHITE 0).place .BLACK 7
  (List.range 8).foldl
    (fun acc f =>
      (acc.putPiece ⟨f, 1⟩ (some ⟨.WHITE, .PAWN⟩)).putPiece ⟨f, 6⟩ (some ⟨.BLACK, .PAWN⟩))
    b1

/-! ## Attack detection -/

def knightJumps : List (Int × Int) :=
  [(1, 2), (2, 1), (2, -1), (1, -2), (-1, -2), (-2, -1), (-2, 1), (-1, 2)]

def diagDirs : List (Int × Int) := [(1, 1), (1, -1), (-1, 1), (-1, -1)]

def orthoDirs : List (Int × Int) := [(1, 0), (-1, 0), (0, 1), (0, -1)]

/-- The `(dx, dy)` pairs visited by the two nested king loops, in loop order. -/
def kingSteps : List (Int × Int) :=
  [(-1, -1), (-1, 0), (-1, 1), (0, -1), (0, 1), (1, -1), (1, 0), (1, 1)]

/-- Offset square with both coordinates narrowed to `uint8_t`. -/
def Square.offset (s : Square) (dx dy : Int) : Square :=
  ⟨u8 (s.file + dx), u8 (s.rank + dy)⟩

/-- One attack ray of `isSquareAttacked`: the loop `for (int s = 1;; ++s)`.
`n` bounds the number of iterations still allowed; the loop leaves the board
after at most eight steps, see `attackRay_fuel`. -/
def attackRay (b : Board) (sq : Square) (byColor : Color) (t1 t2 : PieceType)
    (d : Int × Int) : Nat → Nat → Bool
  | _, 0 => false
  | s, n + 1 =>
    let tsq := sq.offset (d.1 * s) (d.2 * s)
    if !tsq.isValid then false
    else
      match b.atSq tsq with
      | none => attackRay b sq byColor t1 t2 d (s + 1) n
      | some p => p.color == byColor && (p.type == t1 || p.type == t2)

/-- The probe of a single square for a piece of the given colour and type. -/
def probe (b : Board) (s : Square) (byColor : Color) (t : PieceType) : Bool :=
  if !s.isValid then false
  else
    match b.atSq s with
    | none => false
    | some p => p.color == byColor && p.type == t

/-- `Board::isSquareAttacked`. -/
def Board.isSquareAttacked (b : Board) (sq : Square) (byColor : Color) : Bool :=
  let dir : Int := if byColor = .WHITE then -1 else 1
  ([(-1 : Int), 1].any fun df => probe b (sq.offset df dir) byColor .PAWN)
  || (knightJumps.any fun j => probe b (sq.offset j.1 j.2) byColor .KNIGHT)
  || (diagDirs.any fun d => attackRay b sq byColor .BISHOP .QUEEN d 1 9)
  || (orthoDirs.any fun d => attackRay b sq byColor .ROOK .QUEEN d 1 9)
  || (kingSteps.any fun k => probe b (sq.offset k.1 k.2) byColor .KING)

/-! ## Move generators -/

/-- The shared body of `Bishop::legalMoves` and `Rook::legalMoves` for one
direction: the loop `for (int step = 1; step < 8; ++step)`; `n` is the number
of iterations left. -/
def slideRay (b : Board) (c : Color) (src : Square) (d : Int × Int) : Nat → Nat → List Move
  | _, 0 => []
  | step, n + 1 =>
    let dst := src.offset (d.1 * step) (d.2 * step)
    if !dst.isValid then []
    else
      match b.atSq dst with
      | none => { src := src, dst := dst } :: slideRay b c src d (step + 1) n
      | some tgt => if tgt.color != c then [{ src := src, dst := dst, flags := CAPTURE }] else []

/-- `Bishop::legalMoves`. -/
def Bishop.legalMoves (c : Color) (b : Board) (src : Square) : List Move :=
  diagDirs.flatMap fun d => slideRay b c src d 1 7

/-- `Rook::legalMoves`. -/
def Rook.legalMoves (c : Color) (b : Board) (src : Square) : List Move :=
  orthoDirs.flatMap fun d => slideRay b c src d 1 7

/-- `Queen::legalMoves`: a temporary bishop, then a temporary rook. -/
def Queen.legalMoves (c : Color) (b : Board) (src : Square) : List Move :=
  Bishop.legalMoves c b src ++ Rook.legalMoves c b src

/-- The body shared by the knight loop and the first loop of the king: one
step to an empty or enemy-held square. -/
def stepMove (b : Board) (c : Color) (src : Square) (j : Int × Int) : List Move :=
  let dst := src.offset j.1 j.2
  if !dst.isValid then []
  else
    match b.atSq dst with
    | none => [{ src := src, dst := dst, flags := QUIET }]
    | some tgt => if tgt.color != c then [{ src := src, dst := dst, flags := CAPTURE }] else []

/-- `Knight::legalMoves`. -/
def Knight.legalMoves (c : Color) (b : Board) (src : Square) : List Move :=
  knightJumps.flatMap fun j => stepMove b c src j

/-- `Pawn::legalMoves`. -/
def Pawn.legalMoves (c : Color) (b : Board) (src : Square) : List Move :=
  let dir : Int := if c = .WHITE then 1 else -1
  let startRank : Int := if c = .WHITE then 1 else 6
  let promoRank : Int := if c = .WHITE then 7 else 0
  let forward : Square := ⟨src.file, u8 (src.rank + dir)⟩
  let pushes : List Move :=
    if forward.isValid && (b.atSq forward).isNone then
      let m : Move :=
        if (forward.rank : Int) = promoRank then
          { src := src, dst := forward, flags := PROMOTION, promoPiece := PieceType.QUEEN.code }
        else { src := src, dst := forward }
      let dbl : Square := ⟨src.file, u8 (src.rank + 2 * dir)⟩
      m :: (if (src.rank : Int) = startRank then
              if dbl.isValid && (b.atSq dbl).isNone then [{ src := src, dst := dbl }] else []
            else [])
    else []
  pushes ++ [(-1 : Int), 1].flatMap fun df =>
    let cap : Square := ⟨u8 (src.file + df), u8 (src.rank + dir)⟩
    if !cap.isValid then []
    else
      (match b.atSq cap with
        | some tgt =>
          if tgt.color != c then
            [if (cap.rank : Int) = promoRank then
               { src := src, dst := cap, flags := CAPTURE ||| PROMOTION,
                 promoPiece := PieceType.QUEEN.code }
             else { src := src, dst := cap, flags := CAPTURE }]
          else []
        | none => [])
      ++
      (match b.enPassantTarget with
        | some ep =>
          if (ep.rank : Int) = src.rank + dir ∧
              ((ep.file : Int) = src.file + 1 ∨ (ep.file : Int) = src.file - 1) then
            [{ src := src, dst := ep, flags := EN_PASSANT }]
          else []
        | none => [])

/-- The castling part of `King::legalMoves`. -/
def King.castlingMoves (c : Color) (b : Board) (src : Square) : List Move :=
  let backRank : Nat := if c = .WHITE then 0 else 7
  let rights := b.castlingRights
  let opponent := c.flip
  let canK : Bool := if c = .WHITE then (rights &&& WK) != 0 else (rights &&& BK) != 0
  let canQ : Bool := if c = .WHITE then (rights &&& WQ) != 0 else (rights &&& BQ) != 0
  let eSquare : Square := ⟨4, backRank⟩
  let fSquare : Square := ⟨5, backRank⟩
  let gSquare : Square := ⟨6, backRank⟩
  let dSquare : Square := ⟨3, backRank⟩
  let cSquare : Square := ⟨2, backRank⟩
  let bSquare : Square := ⟨1, backRank⟩
  (if canK then
    if (b.atSq fSquare).isNone && (b.atSq gSquare).isNone then
      let eSafe := !b.isSquareAttacked eSquare opponent
      let fSafe := !b.isSquareAttacked fSquare opponent
      let gSafe := !b.isSquareAttacked gSquare opponent
      if eSafe && fSafe && gSafe then [{ src := src, dst := gSquare, flags := CASTLING_K }] else []
    else []
  else [])
  ++
  (if canQ then
    if (b.atSq dSquare).isNone && (b.atSq cSquare).isNone && (b.atSq bSquare).isNone then
      let eSafe := !b.isSquareAttacked eSquare opponent
      let dSafe := !b.isSquareAttacked dSquare opponent
      let cSafe := !b.isSquareAttacked cSquare opponent
      if eSafe && dSafe && cSafe then [{ src := src, dst := cSquare, flags := CASTLING_Q }] else []
    else []
  else [])

/-- `King::legalMoves`. -/
def King.legalMoves (c : Color) (b : Board) (src : Square) : List Move :=
  (kingSteps.flatMap fun k => stepMove b c src k) ++ King.castlingMoves c b src

/-- The virtual call `p->legalMoves(board, from, out)`. -/
def Piece.legalMoves (p : Piece) (b : Board) (src : Square) : List Move :=
  match p.type with
  | .KING => King.legalMoves p.color b src
  | .QUEEN => Queen.legalMoves p.color b src
  | .ROOK => Rook.legalMoves p.color b src
  | .BISHOP => Bishop.legalMoves p.color b src
  | .KNIGHT => Knight.legalMoves p.color b src
  | .PAWN => Pawn.legalMoves p.color b src

/-- The squares in the order of the loops `for rank … for file …`. -/
def allSquares : List Square :=
  (List.range 8).flatMap fun r => (List.range 8).map fun f => ⟨f, r⟩

/-- `Board::generateLegalMoves`. -/
def Board.generateLegalMoves (b : Board) (side : Color) : List Move :=
  allSquares.flatMap fun sq =>
    match b.atSq sq with
    | some p => if p.color = side then p.legalMoves b sq else []
    | none => []

/-! ## Game state -/

structure HistoryEntry where
  move : Move := {}
  captured : Option Piece := none
  prevCastlingRights : Nat := 0
  prevEnPassantTarget : Option Square := none
  deriving DecidableEq, Repr

@[ext]
structure Game where
  board : Board := Board.initial
  side : Color := .WHITE
  history : List HistoryEntry := []

/-- The three `throw RuleError(...)` sites of `makeMove`. -/
inductive RuleError where
  | moveOutOfBoard
  | noPieceOnSource
  | cannotCaptureOwn
  deriving DecidableEq, Repr

/-- The lambda `clearR`: `rights &= ~mask` on `uint8_t`. -/
def clearR (rights mask : Nat) : Nat := rights &&& (255 ^^^ mask)

/-- The piece a promoting mover is replaced with (`switch` on `promoPiece`). -/
def promoted (c : Color) (promoPiece : Nat) : Piece :=
  if promoPiece = PieceType.ROOK.code then ⟨c, .ROOK⟩
  else if promoPiece = PieceType.BISHOP.code then ⟨c, .BISHOP⟩
  else if promoPiece = PieceType.KNIGHT.code then ⟨c, .KNIGHT⟩
  else ⟨c, .QUEEN⟩

/-- Lines 344–347 of `makeMove`: the captured piece is taken off the board into
the history entry (`h.captured`). -/
def captureStep (b : Board) (m : Move) : Option Piece × Board :=
  if hasFlag m.flags EN_PASSANT then b.takePiece ⟨m.dst.file, m.src.rank⟩
  else if hasFlag m.flags CAPTURE then b.takePiece m.dst
  else (none, b)

/-- The friendly-capture test of line 361. -/
def ownPieceOn (b : Board) (m : Move) (movingPiece : Piece) : Bool :=
  match b.atSq m.dst with
  | some target => target.color == movingPiece.color
  | none => false

/-- Lines 365–367 of `makeMove`: a king move clears both rights of the side to move. -/
def rightsKing (side : Color) (rights : Nat) (movingPiece : Piece) : Nat :=
  if movingPiece.type = .KING then
    clearR rights (if side = .WHITE then WK ||| WQ else BK ||| BQ)
  else rights

/-- Lines 369–374 of `makeMove`: a rook leaving a corner of the back rank of the
side to move clears the right of that corner. -/
def rightsRook (side : Color) (rights : Nat) (movingPiece : Piece) (m : Move) : Nat :=
  let myBack : Nat := if side = .WHITE then 0 else 7
  if movingPiece.type = .ROOK then
    let rights :=
      if m.src = ⟨0, myBack⟩ then clearR rights (if side = .WHITE then WQ else BQ)
      else rights
    if m.src = ⟨7, myBack⟩ then clearR rights (if side = .WHITE then WK else BK)
    else rights
  else rights

/-- Lines 376–382 of `makeMove`: a rook captured on a corner of the opponent's
back rank clears the opponent's right of that corner. -/
def rightsCaptured (side : Color) (rights : Nat) (captured : Option Piece) (m : Move) : Nat :=
  let myBack : Nat := if side = .WHITE then 0 else 7
  match captured with
  | some cp =>
    if cp.type = .ROOK then
      let opBack : Nat := if myBack ≠ 0 then 0 else 7
      let rights :=
        if m.dst = ⟨0, opBack⟩ then clearR rights (if side = .WHITE then BQ else WQ)
        else rights
      if m.dst = ⟨7, opBack⟩ then clearR rights (if side = .WHITE then BK else WK)
      else rights
    else rights
  | none => rights

/-- Lines 350–382 of `makeMove`: the castling rights after the move. -/
def rightsAfter (side : Color) (rights : Nat) (movingPiece : Piece) (captured : Option Piece)
    (m : Move) : Nat :=
  rightsCaptured side (rightsRook side (rightsKing side rights movingPiece) movingPiece m)
    captured m

/-- Lines 388–396 of `makeMove`: a promoting mover is replaced. -/
def promoteStep (m : Move) (movingPiece : Piece) (mover : Option Piece) : Option Piece :=
  if hasFlag m.flags PROMOTION then some (promoted movingPiece.color m.promoPiece) else mover

/-- Lines 398–410 of `makeMove`: the mover is put down; castling also moves the
rook of the back rank of the side to move. -/
def placeStep (b : Board) (side : Color) (m : Move) (mover : Option Piece) : Board :=
  let myBack : Nat := if side = .WHITE then 0 else 7
  if hasFlag m.flags CASTLING_K then
    let b := b.putPiece m.dst mover
    let (rook, b) := b.takePiece ⟨7, myBack⟩
    b.putPiece ⟨5, myBack⟩ rook
  else if hasFlag m.flags CASTLING_Q then
    let b := b.putPiece m.dst mover
    let (rook, b) := b.takePiece ⟨0, myBack⟩
    b.putPiece ⟨3, myBack⟩ rook
  else b.putPiece m.dst mover

/-- Lines 412–417 of `makeMove`: the en-passant target is cleared, then set to
the skipped square after a two-rank pawn move. -/
def enPassantStep (b : Board) (m : Move) (movingPiece : Piece) : Board :=
  let b := b.setEnPassantTarget none
  if movingPiece.type = .PAWN ∧ ((m.dst.rank : Int) - (m.src.rank : Int)).natAbs = 2 then
    b.setEnPassantTarget (some ⟨m.src.file, u8 (((m.src.rank + m.dst.rank : Nat) : Int) / 2)⟩)
  else b

/-- Lines 365–420 of `makeMove`: what runs once the three checks have passed.
`b1` is the board after `captureStep`, `movingPiece` the piece found on the
source square.  Line 413 reads the type through the pointer obtained before the
mover was taken; this definition gives the read the type the piece found on the
source square had.  That is what the source reads as long as the object is
alive.  After a move with the PROMOTION flag, or a castling flag and `m.to` on
the rook's landing square, the object has been destroyed and the read is
undefined: `Game.applyCheckedRead` and `Game.makeMoveRead` make the value read a
parameter; they agree with this definition while the object is alive and for
every move a generator emits (`makeMoveRead_eq_makeMove`,
`makeMoveRead_generated`). -/
def Game.applyChecked (g : Game) (m : Move) (captured : Option Piece) (b1 : Board)
    (movingPiece : Piece) : Game :=
  let b2 := b1.setCastlingRights (rightsAfter g.side b1.castlingRights movingPiece captured m)
  let (mover, b3) := b2.takePiece m.src
  let mover := promoteStep m movingPiece mover
  let b4 := placeStep b3 g.side m mover
  let b6 := enPassantStep b4 m movingPiece
  { board := b6,
    side := g.side.flip,
    history := g.history ++ [{ move := m, captured := captured,
                               prevCastlingRights := g.board.castlingRights,
                               prevEnPassantTarget := g.board.enPassantTarget }] }

/-- `Game::makeMove`.  On success the new state; on `throw` the error together
with the state `*this` is left in (the capture is taken off the board before
the source and destination checks run). -/
def Game.makeMove (g : Game) (m : Move) : Except (RuleError × Game) Game :=
  if !m.src.isValid || !m.dst.isValid then .error (.moveOutOfBoard, g)
  else
    let cb := captureStep g.board m
    match cb.2.atSq m.src with
    | none => .error (.noPieceOnSource, { g with board := cb.2 })
    | some movingPiece =>
      if ownPieceOn cb.2 m movingPiece then .error (.cannotCaptureOwn, { g with board := cb.2 })
      else .ok (g.applyChecked m cb.1 cb.2 movingPiece)

/-- `Game::makeNullMove`. -/
def Game.makeNullMove (g : Game) : Game :=
  { board := g.board.setEnPassantTarget none,
    side := g.side.flip,
    history := g.history ++ [{ move := { flags := NULL_MOVE },
                               prevCastlingRights := g.board.castlingRights,
                               prevEnPassantTarget := g.board.enPassantTarget }] }

/-- `Game::undoMove`; `none` is the failed `assert(!m_history.empty())`. -/
def Game.undoMove (g : Game) : Option Game :=
  match g.history.getLast? with
  | none => none
  | some h =>
    let history := g.history.dropLast
    let m := h.move
    let side := g.side.flip
    let b := (g.board.setCastlingRights h.prevCastlingRights).setEnPassantTarget
      h.prevEnPassantTarget
    if hasFlag m.flags NULL_MOVE then some { board := b, side := side, history := history }
    else
      let flag := fun f => hasFlag m.flags f
      let back : Nat := if side = .WHITE then 0 else 7
      let (piece, b) := b.takePiece m.dst
      let piece := if flag PROMOTION then some ⟨side, .PAWN⟩ else piece
      let b :=
        if flag CASTLING_K then
          let b := b.putPiece m.src piece
          let (rook, b) := b.takePiece ⟨5, back⟩
          b.putPiece ⟨7, back⟩ rook
        else if flag CASTLING_Q then
          let b := b.putPiece m.src piece
          let (rook, b) := b.takePiece ⟨3, back⟩
          b.putPiece ⟨0, back⟩ rook
        else b.putPiece m.src piece
      let b :=
        match h.captured with
        | some cp =>
          if flag EN_PASSANT then b.putPiece ⟨m.dst.file, m.src.rank⟩ (some cp)
          else b.putPiece m.dst (some cp)
        | none => b
      some { board := b, side := side, history := history }

/-- The king search of `Game::legalMoves` and `alphaBeta`: the last square, in
loop order, that holds a king of colour `c`; `Square{}` when there is none. -/
def findKing (b : Board) (c : Color) : Square :=
  allSquares.foldl
    (fun k sq =>
      match b.atSq sq with
      | some p => if p.type = .KING ∧ p.color = c then sq else k
      | none => k)
    {}

/-- The loop of `Game::legalMoves` over the generated moves; an exception of
`makeMove` on the copy propagates. -/
def Game.filterLegal (g : Game) : List Move → Except RuleError (List Move)
  | [] => .ok []
  | m :: rest =>
    match g.makeMove m with
    | .error e => .error e.1
    | .ok tmp =>
      let k := findKing tmp.board g.side
      match Game.filterLegal g rest with
      | .error e => .error e
      | .ok legal =>
        if !tmp.board.isSquareAttacked k g.side.flip then .ok (m :: legal) else .ok legal

/-- `Game::legalMoves`. -/
def Game.legalMoves (g : Game) : Except RuleError (List Move) :=
  g.filterLegal (g.board.generateLegalMoves g.side)

/-! ## Zobrist hash (`ai.cpp`) -/

/-- The tables `zobristTable`, `zobristSide`, `castleHash`, `epHash` that
`initZobrist` fills from `std::mt19937_64 rng(2025)`.  Their values are
parameters of the model. -/
structure Zobrist where
  table : Nat → Nat → Nat → Nat
  side : Nat
  castle : Nat → Nat
  ep : Nat → Nat

/-- The numeric value of the enumerator (`int(p->color())`). -/
def Color.code : Color → Nat
  | .WHITE => 0
  | .BLACK => 1

/-- `hashPosition`. -/
def hashPosition (z : Zobrist) (g : Game) : Nat :=
  let h := allSquares.foldl
    (fun h s =>
      match g.board.atSq s with
      | some p => h ^^^ z.table s.index p.type.code p.color.code
      | none => h)
    0
  let h := h ^^^ z.castle g.board.castlingRights
  let h :=
    match g.board.enPassantTarget with
    | some ep => h ^^^ z.ep ep.file
    | none => h
  if g.side = .WHITE then h ^^^ z.side else h

/-! ## Search (`ai.hpp`, `ai.cpp`)

The worker pool is modelled by running the root thunks one after the other in
queue order (the schedule of a pool with a single idle worker); the wait of the
root branch in `f.get()` is not part of these definitions, which describe the
runs in which the pool has a worker for the thunks.  `alphaBetaP` below adds the
wait.  The wall clock is a parameter `clock d`, the outcome of the test
`now - t0 > timeMs` made after the iteration of depth `d`. -/

structure SearchOptions where
  maxDepth : Int := 6
  timeMs : Int := 5000
  useNNUE : Bool := false

inductive Bound where
  | EXACT
  | LOWER
  | UPPER
  deriving DecidableEq, Repr

structure TTEntry where
  zobrist : Nat := 0
  score : Int := 0
  depth : Int := -1
  bound : Bound := .EXACT
  bestMove : Move := {}
  deriving DecidableEq, Repr

/-- `TranspositionTable`: the number of slots and their contents. -/
structure TranspositionTable where
  size : Nat := 1048576
  entries : Nat → TTEntry := fun _ => {}

/-- `TranspositionTable::probe(key, out)`: the returned flag and the value of
`out` after the call.  The source indexes `m_entries[key % m_entries.size()]`,
which is undefined for a table of capacity 0; the definition is meant for
`0 < size` only (at `size = 0` it reads slot `key`). -/
def TranspositionTable.probe (t : TranspositionTable) (key : Nat) (out : TTEntry) :
    Bool × TTEntry :=
  let e := t.entries (key % t.size)
  if e.zobrist = key then (true, e) else (false, out)

/-- `TranspositionTable::store`. -/
def TranspositionTable.store (t : TranspositionTable) (e : TTEntry) : TranspositionTable :=
  let slot := t.entries (e.zobrist % t.size)
  if e.depth ≥ slot.depth then
    { t with entries := fun i => if i = e.zobrist % t.size then e else t.entries i }
  else t

/-- The mutable members of `AIEngine`: `m_history`, `m_killers`, `m_tt`, `m_opt`,
`m_stop`. -/
structure EngineState where
  history : Nat → Nat → Nat := fun _ _ => 0
  killers : Int → Nat → Move := fun _ _ => {}
  tt : TranspositionTable := {}
  opt : SearchOptions := {}
  stop : Bool := false

/-- What can end a search abnormally: a `RuleError` that escapes, or the failed
`assert` of `undoMove`. -/
inductive Fault where
  | ruleError (e : RuleError)
  | assertion
  deriving DecidableEq, Repr

/-- `pieceValue`. -/
def pieceValue : PieceType → Int
  | .PAWN => 100
  | .KNIGHT => 320
  | .BISHOP => 330
  | .ROOK => 500
  | .QUEEN => 900
  | .KING => 0

/-- The material loop of `evaluate`: white counts positive, black negative. -/
def materialScore (b : Board) : Int :=
  allSquares.foldl
    (fun score s =>
      match b.atSq s with
      | some p => score + (if p.color = .WHITE then pieceValue p.type else -pieceValue p.type)
      | none => score)
    0

/-- `AIEngine::evaluate`. -/
def evaluate (g : Game) : Except RuleError Int :=
  match g.legalMoves with
  | .error e => .error e
  | .ok self =>
    match g.makeNullMove.legalMoves with
    | .error e => .error e
    | .ok opp =>
      if self.isEmpty && opp.isEmpty then .ok 0
      else
        let score := materialScore g.board
        let movesSelf : Int := self.length
        let movesOpp : Int := opp.length
        let score := score + (5 * movesSelf - 5 * movesOpp)
        .ok (if g.side = .WHITE then score else -score)

/-- `isCapture`. -/
def isCapture (m : Move) : Bool := hasFlag m.flags CAPTURE

/-- The `score` lambda of `orderMoves`. -/
def orderScore (st : EngineState) (pvMove : Move) (depth : Int) (m : Move) : Int :=
  if m = pvMove then 10000
  else if isCapture m then 8000
  else if m = st.killers depth 0 then 5000
  else if m = st.killers depth 1 then 4000
  else st.history m.src.index m.dst.index

/-- `AIEngine::orderMoves`: a stable sort by descending score. -/
def orderMoves (st : EngineState) (moves : List Move) (pvMove : Move) (depth : Int) : List Move :=
  moves.insertionSort fun a b => orderScore st pvMove depth a ≥ orderScore st pvMove depth b

/-- Conversion to `int16_t`. -/
def toInt16 (x : Int) : Int := (x + 32768) % 65536 - 32768

/-- Conversion to `int8_t`. -/
def toInt8 (x : Int) : Int := (x + 128) % 256 - 128

/-- The result of a search call: the returned score or the fault that escaped,
the state the `Game&` argument is left in, and the engine state. -/
structure SearchResult where
  value : Except Fault Int
  game : Game
  state : EngineState

/-- The type of `alphaBeta` at a fixed remaining depth. -/
abbrev SearchFn := Game → Int → Int → Bool → EngineState → SearchResult

/-- The accumulator of the root loop: `bestScore`, `bestLocal` and the engine. -/
structure RootAcc where
  bestScore : Int := -100000
  bestLocal : Move := {}
  state : EngineState

/-- One thunk of the root loop (lines 161–179): the exceptions of `makeMove` and
of the child search are caught inside the thunk. -/
def rootTask (child : SearchFn) (g : Game) (alpha beta : Int) (acc : RootAcc) (mv : Move) :
    Except Fault RootAcc :=
  match g.makeMove mv with
  | .error _ => .ok acc
  | .ok c =>
    let r := child c (-beta) (-alpha) true acc.state
    match r.value with
    | .error (.ruleError _) => .ok { acc with state := r.state }
    | .error .assertion => .error .assertion
    | .ok v =>
      let sc := -v
      if sc > acc.bestScore then .ok { bestScore := sc, bestLocal := mv, state := r.state }
      else .ok { acc with state := r.state }

/-- The root loop over the ordered moves: the thunks in queue order, as a worker
of the pool that is idle runs them (whether there is one is the matter of
`searchMovesP`). -/
def rootLoop (child : SearchFn) (g : Game) (alpha beta : Int) :
    List Move → RootAcc → Except Fault RootAcc
  | [], acc => .ok acc
  | mv :: rest, acc =>
    match rootTask child g alpha beta acc mv with
    | .error f => .error f
    | .ok acc => rootLoop child g alpha beta rest acc

/-- The accumulator of the sequential loop: `alpha`, `bestLocal`, the game (it is
made and unmade in place) and the engine. -/
structure SeqAcc where
  alpha : Int
  bestLocal : Move := {}
  game : Game
  state : EngineState

/-- The sequential loop of `alphaBeta` (lines 189–208) at remaining depth
`depth`; `.error` carries the fault and the state at the time it escaped. -/
def seqLoop (child : SearchFn) (depth : Nat) (beta : Int) :
    List Move → SeqAcc → Except (Fault × SeqAcc) SeqAcc
  | [], acc => .ok acc
  | mv :: rest, acc =>
    match acc.game.makeMove mv with
    | .error e => .error (.ruleError e.1, { acc with game := e.2 })
    | .ok g1 =>
      let r := child g1 (-beta) (-acc.alpha) true acc.state
      match r.value with
      | .error f => .error (f, { acc with game := r.game, state := r.state })
      | .ok v =>
        match r.game.undoMove with
        | none => .error (.assertion, { acc with game := r.game, state := r.state })
        | some g2 =>
          let score := -v
          if score > acc.alpha then
            let st := { r.state with
              history := fun i j =>
                if i = mv.src.index ∧ j = mv.dst.index then
                  (r.state.history i j + depth * depth) % 65536
                else r.state.history i j }
            if score ≥ beta then
              let st := { st with
                killers := fun d i =>
                  if d = (depth : Int) then
                    (if i = 1 then st.killers d 0 else if i = 0 then mv else st.killers d i)
                  else st.killers d i }
              .ok { alpha := score, bestLocal := mv, game := g2, state := st }
            else seqLoop child depth beta rest { alpha := score, bestLocal := mv, game := g2, state := st }
          else seqLoop child depth beta rest { acc with game := g2, state := r.state }

/-- Lines 211–216 of `alphaBeta`: the entry written for the node. -/
def nodeEntry (key : Nat) (alpha origAlpha beta : Int) (depth : Nat) (bestLocal : Move) :
    TTEntry :=
  { zobrist := key, score := toInt16 alpha, depth := toInt8 depth,
    bound := if alpha ≤ origAlpha then .UPPER else if alpha ≥ beta then .LOWER else .EXACT,
    bestMove := bestLocal }

/-- Lines 131–216 of `alphaBeta`: move generation, the mate/stalemate return, the
ordering, the root or the sequential loop, and the store.  `entry` is the local
`TTEntry` after the probe. -/
def searchMoves (z : Zobrist) (child : SearchFn) (g : Game) (depth : Nat) (alpha beta : Int)
    (entry : TTEntry) (st : EngineState) : SearchResult :=
  match g.legalMoves with
  | .error e => { value := .error (.ruleError e), game := g, state := st }
  | .ok moves =>
    if moves.isEmpty then
      let k := findKing g.board g.side
      let mated := g.board.isSquareAttacked k g.side.flip
      let ply : Int := st.opt.maxDepth - depth
      { value := .ok (if mated then -10000 + ply else 0), game := g, state := st }
    else
      let moves := orderMoves st moves entry.bestMove (st.opt.maxDepth - depth)
      let key := hashPosition z g
      if (depth : Int) = st.opt.maxDepth then
        match rootLoop child g alpha beta moves { state := st } with
        | .error f => { value := .error f, game := g, state := st }
        | .ok acc =>
          let bestLocal :=
            if acc.bestScore = -100000 then moves.headD {} else acc.bestLocal
          let a := acc.bestScore
          { value := .ok a, game := g,
            state := { acc.state with
              tt := acc.state.tt.store (nodeEntry key a alpha beta depth bestLocal) } }
      else
        match seqLoop child depth beta moves { alpha := alpha, game := g, state := st } with
        | .error (f, acc) => { value := .error f, game := acc.game, state := acc.state }
        | .ok acc =>
          { value := .ok acc.alpha, game := acc.game,
            state := { acc.state with
              tt := acc.state.tt.store
                (nodeEntry key acc.alpha alpha beta depth acc.bestLocal) } }

/-- The value `evaluate(g)` as a search result. -/
def evalResult (g : Game) (st : EngineState) : SearchResult :=
  { value := match evaluate g with
      | .ok v => .ok v
      | .error e => .error (.ruleError e),
    game := g, state := st }

/-- `AIEngine::alphaBeta`; `depth` is the remaining depth, never negative in the
calls the engine makes. -/
def alphaBeta (z : Zobrist) (depth : Nat) (g : Game) (alpha beta : Int) (nullAllowed : Bool)
    (st : EngineState) : SearchResult :=
  if st.stop then evalResult g st
  else if h0 : depth = 0 then evalResult g st
  else
    let key := hashPosition z g
    let pr := st.tt.probe key {}
    let entry := pr.2
    if pr.1 && decide (entry.depth ≥ depth) &&
        (entry.bound == .EXACT || (entry.bound == .LOWER && decide (entry.score ≥ beta)) ||
          (entry.bound == .UPPER && decide (entry.score ≤ alpha))) then
      { value := .ok entry.score, game := g, state := st }
    else
      if h3 : nullAllowed = true ∧ 3 ≤ depth then
        let r := alphaBeta z (depth - 3) g.makeNullMove (-beta) (-beta + 1) false st
        match r.value with
        | .error f => { value := .error f, game := g, state := r.state }
        | .ok v =>
          if -v ≥ beta then { value := .ok (-v), game := g, state := r.state }
          else
            searchMoves z (fun c a b n s => alphaBeta z (depth - 1) c a b n s) g depth alpha beta
              entry r.state
      else
        searchMoves z (fun c a b n s => alphaBeta z (depth - 1) c a b n s) g depth alpha beta
          entry st
termination_by depth
decreasing_by all_goals omega

/-- The accumulator of the loop of `iterativeDeepening`. -/
structure DeepenAcc where
  alpha : Int := -100000
  beta : Int := 100000
  bestScore : Int := 0
  game : Game
  state : EngineState

/-- The loop `for (depth = 1; depth <= maxDepth; ++depth)` of
`iterativeDeepening`, entered at `depth` with `n` iterations left. -/
def deepenLoop (z : Zobrist) (clock : Nat → Bool) :
    Nat → Nat → DeepenAcc → Except (Fault × DeepenAcc) DeepenAcc
  | 0, _, acc => .ok acc
  | n + 1, depth, acc =>
    let r := alphaBeta z depth acc.game acc.alpha acc.beta true acc.state
    match r.value with
    | .error f => .error (f, { acc with game := r.game, state := r.state })
    | .ok score =>
      let r2 : Except (Fault × DeepenAcc) (Int × Game × EngineState) :=
        if score ≤ acc.alpha ∨ score ≥ acc.beta then
          let r' := alphaBeta z depth r.game (-100000) 100000 true r.state
          match r'.value with
          | .error f => .error (f, { acc with game := r'.game, state := r'.state })
          | .ok s => .ok (s, r'.game, r'.state)
        else .ok (score, r.game, r.state)
      match r2 with
      | .error e => .error e
      | .ok (score, g, st) =>
        let acc' : DeepenAcc :=
          { alpha := score - 50, beta := score + 50, bestScore := score, game := g, state := st }
        if clock depth then .ok { acc' with state := { st with stop := true } }
        else deepenLoop z clock n (depth + 1) acc'

/-- `AIEngine::iterativeDeepening`: the score, the chosen move (`none` when
`front()` is taken of an empty list) and the engine afterwards. -/
def iterativeDeepening (z : Zobrist) (clock : Nat → Bool) (root : Game) (st : EngineState) :
    Except Fault (Int × Option Move) × EngineState :=
  match deepenLoop z clock st.opt.maxDepth.toNat 1 { game := root, state := st } with
  | .error (f, acc) => (.error f, acc.state)
  | .ok acc =>
    let pr := acc.state.tt.probe (hashPosition z acc.game) {}
    if pr.1 then (.ok (acc.bestScore, some pr.2.bestMove), acc.state)
    else
      match acc.game.legalMoves with
      | .error e => (.error (.ruleError e), acc.state)
      | .ok ms => (.ok (acc.bestScore, ms.head?), acc.state)

/-- `AIEngine::chooseMove`: the returned move and the engine afterwards. -/
def chooseMove (z : Zobrist) (clock : Nat → Bool) (st : EngineState) (rootGame : Game) :
    Except Fault (Option Move) × EngineState :=
  let st := { st with stop := false, history := fun _ _ => 0, killers := fun _ _ => {} }
  let r := iterativeDeepening z clock rootGame st
  (match r.1 with
    | .ok (_, best) => .ok best
    | .error f => .error f,
   r.2)

/-! ## Names used in the statements -/

/-- The back rank of a colour, as computed in `King::legalMoves` and `makeMove`. -/
def backRankOf (c : Color) : Nat := if c = .WHITE then 0 else 7

/-- The kingside castling right of a colour. -/
def kingsideBit (c : Color) : Nat := if c = .WHITE then WK else BK

/-- The queenside castling right of a colour. -/
def queensideBit (c : Color) : Nat := if c = .WHITE then WQ else BQ


/-- Forward direction of a pawn (`dir` in `Pawn::legalMoves`). -/
def pawnDir (c : Color) : Int := if c = .WHITE then 1 else -1

/-- The rank pawns start from (`startRank`). -/
def pawnStartRank (c : Color) : Int := if c = .WHITE then 1 else 6

/-- The rank pawns promote on (`promoRank`). -/
def pawnPromoRank (c : Color) : Int := if c = .WHITE then 7 else 0

/-- The forms of the moves a piece `p` standing on `src` can be given by its
generator on the board `b` (proved in `generated_shape`). -/
inductive Generated (b : Board) (p : Piece) (src : Square) : Move → Prop
  | quiet (dst : Square) (hv : dst.isValid = true) (he : b.atSq dst = none)
      (hpawn : p.type = .PAWN → dst.file = src.file ∧
        ((dst.rank : Int) = src.rank + pawnDir p.color ∨
          ((dst.rank : Int) = src.rank + 2 * pawnDir p.color ∧
            b.atSq ⟨src.file, u8 (src.rank + pawnDir p.color)⟩ = none))) :
      Generated b p src (Move.mk src dst QUIET 0)
  | promotion (dst : Square) (hp : p.type = .PAWN) (hv : dst.isValid = true)
      (he : b.atSq dst = none) (hr : (dst.rank : Int) = src.rank + pawnDir p.color) :
      Generated b p src (Move.mk src dst PROMOTION PieceType.QUEEN.code)
  | capture (dst : Square) (t : Piece) (hv : dst.isValid = true) (ht : b.atSq dst = some t)
      (hc : t.color ≠ p.color)
      (hpawn : p.type = .PAWN → (dst.rank : Int) = src.rank + pawnDir p.color) :
      Generated b p src (Move.mk src dst CAPTURE 0)
  | capturePromotion (dst : Square) (t : Piece) (hp : p.type = .PAWN)
      (hv : dst.isValid = true) (ht : b.atSq dst = some t) (hc : t.color ≠ p.color)
      (hr : (dst.rank : Int) = src.rank + pawnDir p.color) :
      Generated b p src (Move.mk src dst (CAPTURE ||| PROMOTION) PieceType.QUEEN.code)
  | enPassant (dst : Square) (hp : p.type = .PAWN) (hep : b.enPassantTarget = some dst)
      (hr : (dst.rank : Int) = src.rank + pawnDir p.color)
      (hf : (dst.file : Int) = src.file + 1 ∨ (dst.file : Int) = src.file - 1) :
      Generated b p src (Move.mk src dst EN_PASSANT 0)
  | castleK (hp : p.type = .KING)
      (hr : hasFlag b.castlingRights (kingsideBit p.color) = true)
      (hf : b.atSq ⟨5, backRankOf p.color⟩ = none) (hg : b.atSq ⟨6, backRankOf p.color⟩ = none)
      (ha : b.isSquareAttacked ⟨4, backRankOf p.color⟩ p.color.flip = false ∧
        b.isSquareAttacked ⟨5, backRankOf p.color⟩ p.color.flip = false ∧
        b.isSquareAttacked ⟨6, backRankOf p.color⟩ p.color.flip = false) :
      Generated b p src (Move.mk src ⟨6, backRankOf p.color⟩ CASTLING_K 0)
  | castleQ (hp : p.type = .KING)
      (hr : hasFlag b.castlingRights (queensideBit p.color) = true)
      (hd : b.atSq ⟨3, backRankOf p.color⟩ = none) (hc : b.atSq ⟨2, backRankOf p.color⟩ = none)
      (hb : b.atSq ⟨1, backRankOf p.color⟩ = none)
      (ha : b.isSquareAttacked ⟨4, backRankOf p.color⟩ p.color.flip = false ∧
        b.isSquareAttacked ⟨3, backRankOf p.color⟩ p.color.flip = false ∧
        b.isSquareAttacked ⟨2, backRankOf p.color⟩ p.color.flip = false) :
      Generated b p src (Move.mk src ⟨2, backRankOf p.color⟩ CASTLING_Q 0)

/-- Indicator of "this slot holds the king of colour `c`". -/
def isKing (o : Option Piece) (c : Color) : Nat := if o = some ⟨c, .KING⟩ then 1 else 0

/-- The number of kings of colour `c` on the 64 squares. -/
def kingCount (b : Board) (c : Color) : Nat :=
  (allSquares.map fun s => isKing (b.atSq s) c).sum

/-- Positions reachable from the initial position by moves taken from
`legalMoves()` of the current position. -/
inductive Reachable : Game → Prop
  | init : Reachable {}
  | step {g g' : Game} {ms : List Move} {m : Move} (hg : Reachable g)
      (hl : g.legalMoves = .ok ms) (hm : m ∈ ms) (hmk : g.makeMove m = .ok g') : Reachable g'

/-- The invariant carried along legal play. -/
structure Inv (g : Game) : Prop where
  whiteKing : kingCount g.board .WHITE = 1
  blackKing : kingCount g.board .BLACK = 1
  safe : g.board.isSquareAttacked (findKing g.board g.side.flip) g.side = false
  enPassant : ∀ t, g.board.enPassantTarget = some t →
    t.isValid = true ∧ g.board.atSq t = none ∧
      ∃ q, g.board.atSq ⟨t.file, u8 (t.rank - pawnDir g.side)⟩ = some q ∧ q.type = .PAWN
  corners : ∀ c : Color,
    (hasFlag g.board.castlingRights (kingsideBit c) = true →
      g.board.atSq ⟨7, backRankOf c⟩ ≠ some ⟨c, .KING⟩) ∧
    (hasFlag g.board.castlingRights (queensideBit c) = true →
      g.board.atSq ⟨0, backRankOf c⟩ ≠ some ⟨c, .KING⟩)

/-! ## Positions used as concrete inputs -/

/-- A board with no piece, no right and no en-passant target. -/
def Board.empty : Board := { squares := fun _ => none, castlingRights := 0 }

/-- White king `e1`, white rook `h1`, black king `e8`; white to move with the
kingside right. -/
def castleReady : Game :=
  { board := (((Board.empty.putPiece ⟨4, 0⟩ (some ⟨.WHITE, .KING⟩)).putPiece ⟨7, 0⟩
      (some ⟨.WHITE, .ROOK⟩)).putPiece ⟨4, 7⟩ (some ⟨.BLACK, .KING⟩)).setCastlingRights WK,
    side := .WHITE }

/-- A sequence of `makeMove` calls: `none` as soon as one of them raises. -/
def playMoves (g : Game) : List Move → Option Game
  | [] => some g
  | m :: rest =>
    match g.makeMove m with
    | .ok g' => playMoves g' rest
    | .error _ => none

/-- Sixteen quiet moves from the initial position: the white king's knight goes
`g1-f3-e5-c4-b6`, the white `a` pawn to `a5`, then `e2-e3` and `Bf1-e2`, while
the black king's knight shuttles between `g8` and `f6`; with its last move black
advances `b7-b5` over the knight on `b6`, which `makeMove` accepts. -/
def castleTrapMoves : List Move :=
  [Move.mk ⟨6, 0⟩ ⟨5, 2⟩ QUIET 0, Move.mk ⟨6, 7⟩ ⟨5, 5⟩ QUIET 0,
   Move.mk ⟨5, 2⟩ ⟨4, 4⟩ QUIET 0, Move.mk ⟨5, 5⟩ ⟨6, 7⟩ QUIET 0,
   Move.mk ⟨4, 4⟩ ⟨2, 3⟩ QUIET 0, Move.mk ⟨6, 7⟩ ⟨5, 5⟩ QUIET 0,
   Move.mk ⟨2, 3⟩ ⟨1, 5⟩ QUIET 0, Move.mk ⟨5, 5⟩ ⟨6, 7⟩ QUIET 0,
   Move.mk ⟨0, 1⟩ ⟨0, 3⟩ QUIET 0, Move.mk ⟨6, 7⟩ ⟨5, 5⟩ QUIET 0,
   Move.mk ⟨0, 3⟩ ⟨0, 4⟩ QUIET 0, Move.mk ⟨5, 5⟩ ⟨6, 7⟩ QUIET 0,
   Move.mk ⟨4, 1⟩ ⟨4, 2⟩ QUIET 0, Move.mk ⟨6, 7⟩ ⟨5, 5⟩ QUIET 0,
   Move.mk ⟨5, 0⟩ ⟨4, 1⟩ QUIET 0, Move.mk ⟨1, 6⟩ ⟨1, 4⟩ QUIET 0]

/-- The entry an earlier search leaves for a position that was an interior node
of remaining depth 2 and failed low: bound UPPER and the default-constructed
`bestLocal`. -/
def staleEntry (z : Zobrist) (g : Game) : TTEntry :=
  { zobrist := hashPosition z g, score := 0, depth := 2, bound := .UPPER, bestMove := {} }

/-- An engine with `maxDepth = 1` whose table holds `staleEntry` for `g`. -/
def staleEngine (z : Zobrist) (g : Game) : EngineState :=
  { tt := { entries := fun i => if i = hashPosition z g % 1048576 then staleEntry z g else {} },
    opt := { maxDepth := 1 } }

/-- The moves `f2-f3`, `e7-e5`, `g2-g4`, `d8-h4`. -/
def foolsMateMoves : List Move :=
  [Move.mk ⟨5, 1⟩ ⟨5, 2⟩ QUIET 0, Move.mk ⟨4, 6⟩ ⟨4, 4⟩ QUIET 0,
   Move.mk ⟨6, 1⟩ ⟨6, 3⟩ QUIET 0, Move.mk ⟨3, 7⟩ ⟨7, 3⟩ QUIET 0]

/-- White king `e1`, black king `e3`, black queen `e2` and nothing else; white to
move, no castling right, no en-passant target. -/
def queenOnE2 : Game :=
  { board := ((Board.empty.putPiece ⟨4, 0⟩ (some ⟨.WHITE, .KING⟩)).putPiece ⟨4, 2⟩
      (some ⟨.BLACK, .KING⟩)).putPiece ⟨4, 1⟩ (some ⟨.BLACK, .QUEEN⟩),
    side := .WHITE }

/-- A white pawn on `b7` and a black rook on `a7`, nothing else; white to move,
black holds its queenside right. -/
def rookBesidePawn : Game :=
  { board := ((Board.empty.putPiece ⟨1, 6⟩ (some ⟨.WHITE, .PAWN⟩)).putPiece ⟨0, 6⟩
      (some ⟨.BLACK, .ROOK⟩)).setCastlingRights BQ,
    side := .WHITE }

/-- A white pawn on `e5` and a black pawn on `d7`, nothing else; black to move. -/
def pawnsE5D7 : Game :=
  { board := (Board.empty.putPiece ⟨4, 4⟩ (some ⟨.WHITE, .PAWN⟩)).putPiece ⟨3, 6⟩
      (some ⟨.BLACK, .PAWN⟩),
    side := .BLACK }

/-- A white pawn on `e7` and nothing else; white to move, and the en-passant
target is `d8`. -/
def pawnBelowTarget : Game :=
  { board := (Board.empty.putPiece ⟨4, 6⟩ (some ⟨.WHITE, .PAWN⟩)).setEnPassantTarget
      (some ⟨3, 7⟩),
    side := .WHITE }

/-- A white pawn on `e7` and nothing else; white to move. -/
def pawnOnE7 : Game :=
  { board := Board.empty.putPiece ⟨4, 6⟩ (some ⟨.WHITE, .PAWN⟩), side := .WHITE }

/-! ## The hash and the rights update in the words of the specification -/

/-- The piece-table entries of the occupied squares, in the order of the loops. -/
def pieceEntries (z : Zobrist) (b : Board) : List Nat :=
  allSquares.filterMap fun s =>
    (b.atSq s).map fun p => z.table s.index p.type.code p.color.code

/-- The XOR of a list of words. -/
def xorAll (l : List Nat) : Nat := l.foldr (fun a h => a ^^^ h) 0

/-- The hash as the specification words it, to be compared with `hashPosition`:
the XOR of the piece entries of the occupied squares, of the castling entry, of
the en-passant entry of the target's file when there is a target, and of the
side constant when white is to move. -/
def specHash (z : Zobrist) (g : Game) : Nat :=
  xorAll (pieceEntries z g.board) ^^^ z.castle g.board.castlingRights
    ^^^ (match g.board.enPassantTarget with
          | some ep => z.ep ep.file
          | none => 0)
    ^^^ (if g.side = .WHITE then z.side else 0)

/-- The right bits `makeMove` clears for a move, as one mask: both bits of the
side to move when the moved piece is a king, the bit of the corner a moved rook
leaves on the back rank of the side to move, and the opponent's bit of the
corner `m.to` on the opponent's back rank when the captured piece is a rook. -/
def clearedBits (side : Color) (moved : Piece) (captured : Option Piece) (m : Move) : Nat :=
  (if moved.type = .KING then kingsideBit side ||| queensideBit side else 0)
  ||| (if moved.type = .ROOK ∧ m.src = ⟨0, backRankOf side⟩ then queensideBit side else 0)
  ||| (if moved.type = .ROOK ∧ m.src = ⟨7, backRankOf side⟩ then kingsideBit side else 0)
  ||| (if captured.map (fun cp => cp.type) = some .ROOK ∧ m.dst = ⟨0, backRankOf side.flip⟩ then
        queensideBit side.flip else 0)
  ||| (if captured.map (fun cp => cp.type) = some .ROOK ∧ m.dst = ⟨7, backRankOf side.flip⟩ then
        kingsideBit side.flip else 0)

/-- Every castling right that is set has its king on the home square and its
rook on the matching home corner. -/
def RightsAtHome (g : Game) : Prop :=
  ∀ c : Color,
    (hasFlag g.board.castlingRights (kingsideBit c) = true →
      g.board.atSq ⟨4, backRankOf c⟩ = some ⟨c, .KING⟩ ∧
        g.board.atSq ⟨7, backRankOf c⟩ = some ⟨c, .ROOK⟩) ∧
    (hasFlag g.board.castlingRights (queensideBit c) = true →
      g.board.atSq ⟨4, backRankOf c⟩ = some ⟨c, .KING⟩ ∧
        g.board.atSq ⟨0, backRankOf c⟩ = some ⟨c, .ROOK⟩)

/-! ## Option setters of `AIEngine` (`ai.hpp`) -/

/-- `AIEngine::MAX_PLY`. -/
def MAX_PLY : Int := 64

/-- The two `throw chess::EngineError(...)` sites of the setters. -/
inductive EngineError where
  | timeLimitTooSmall (ms : Int)
  | depthOutOfRange (depth : Int)
  deriving DecidableEq, Repr

/-- `AIEngine::setTimeLimit`; on `throw` the error together with the state the
engine is left in. -/
def setTimeLimit (st : EngineState) (ms : Int) : Except (EngineError × EngineState) EngineState :=
  if ms < 100 then .error (.timeLimitTooSmall ms, st)
  else .ok { st with opt := { st.opt with timeMs := ms } }

/-- `AIEngine::setMaxDepth`; on `throw` the error together with the state the
engine is left in. -/
def setMaxDepth (st : EngineState) (depth : Int) :
    Except (EngineError × EngineState) EngineState :=
  if depth < 1 ∨ depth ≥ MAX_PLY then .error (.depthOutOfRange depth, st)
  else .ok { st with opt := { st.opt with maxDepth := depth } }

/-! ## More names and inputs used in the statements -/

/-- A sequence of moves each taken from `legalMoves()` of the position it is made
in: `none` as soon as `legalMoves()` raises, the move is not in the list, or
`makeMove` raises. -/
def playLegal (g : Game) : List Move → Option Game
  | [] => some g
  | m :: rest =>
    match g.legalMoves with
    | .ok ms =>
      if m ∈ ms then
        match g.makeMove m with
        | .ok g' => playLegal g' rest
        | .error _ => none
      else none
    | .error _ => none

/-- The moves `e2-e4`, `a7-a6`, `e4-e5`, `d7-d5`. -/
def advanceE5D5 : List Move :=
  [Move.mk ⟨4, 1⟩ ⟨4, 3⟩ QUIET 0, Move.mk ⟨0, 6⟩ ⟨0, 5⟩ QUIET 0,
   Move.mk ⟨4, 3⟩ ⟨4, 4⟩ QUIET 0, Move.mk ⟨3, 6⟩ ⟨3, 4⟩ QUIET 0]

/-- The material of one colour: the sum of `pieceValue` over its pieces. -/
def materialOf (b : Board) (c : Color) : Int :=
  (allSquares.map fun s =>
    match b.atSq s with
    | some p => if p.color = c then pieceValue p.type else 0
    | none => 0).sum

/-! ## The part of `alphaBeta` after the probe, and engines used as inputs -/

/-- Lines 123–216 of `alphaBeta`: what runs when the probe gives no cutoff, the
null-move search and then `searchMoves`.  `entry` is the local `TTEntry` after
the probe. -/
def afterProbe (z : Zobrist) (depth : Nat) (g : Game) (alpha beta : Int) (nullAllowed : Bool)
    (entry : TTEntry) (st : EngineState) : SearchResult :=
  if nullAllowed = true ∧ 3 ≤ depth then
    let r := alphaBeta z (depth - 3) g.makeNullMove (-beta) (-beta + 1) false st
    match r.value with
    | .error f => { value := .error f, game := g, state := r.state }
    | .ok v =>
      if -v ≥ beta then { value := .ok (-v), game := g, state := r.state }
      else
        searchMoves z (fun c a b n s => alphaBeta z (depth - 1) c a b n s) g depth alpha beta
          entry r.state
  else
    searchMoves z (fun c a b n s => alphaBeta z (depth - 1) c a b n s) g depth alpha beta
      entry st

/-- The test of lines 117–120 on the entry the probe returned: deep enough and a
bound that permits the cutoff. -/
def probeCutoff (entry : TTEntry) (depth : Nat) (alpha beta : Int) : Bool :=
  decide (entry.depth ≥ depth) &&
    (entry.bound == .EXACT || (entry.bound == .LOWER && decide (entry.score ≥ beta)) ||
      (entry.bound == .UPPER && decide (entry.score ≤ alpha)))

/-- Zobrist tables with every word zero. -/
def flatZobrist : Zobrist := ⟨fun _ _ _ => 0, 0, fun _ => 0, fun _ => 0⟩

/-- An engine whose table holds, for the hash of `g`, an entry with score 120,
depth 4 and bound LOWER. -/
def lowerEngine (z : Zobrist) (g : Game) : EngineState :=
  { tt := { entries := fun i =>
      if i = hashPosition z g % 1048576 then
        { zobrist := hashPosition z g, score := 120, depth := 4, bound := .LOWER, bestMove := {} }
      else {} } }

/-- Two engine states with the same options, stop flag and table capacity. -/
def SameSettings (a b : EngineState) : Prop :=
  a.opt = b.opt ∧ a.stop = b.stop ∧ a.tt.size = b.tt.size

/-! ## Worker pool (`threadpool.h`, `threadpool.cpp`)

The pool as a state machine.  A thunk is named by a number.  The steps are the
critical sections of the source: `enqueue` (push under the mutex), the store
`stop = true` of the destructor, one turn of a worker from its wait to the pop
(`wake`), and the return of the thunk a worker runs (`finish`). -/

/-- What a worker thread is doing: blocked in `condition.wait`, running the thunk
it popped, or returned from `workerThread`. -/
inductive Worker where
  | waiting
  | running (task : Nat)
  | exited
  deriving DecidableEq, Repr

/-- The members `tasks`, `stop` and `workers` of `ThreadPool`, and the thunks
that have been run to completion, in order. -/
structure Pool where
  tasks : List Nat := []
  stop : Bool := false
  workers : List Worker := []
  executed : List Nat := []
  deriving DecidableEq, Repr

/-- `ThreadPool::ThreadPool(numThreads)`. -/
def Pool.create (numThreads : Nat) : Pool :=
  { workers := List.replicate numThreads .waiting }

/-- `ThreadPool::enqueue`: push the thunk at the back of the queue. -/
def Pool.enqueue (p : Pool) (task : Nat) : Pool :=
  { p with tasks := p.tasks ++ [task] }

/-- `ThreadPool::~ThreadPool` up to the joins: `stop.store(true)`. -/
def Pool.setStop (p : Pool) : Pool :=
  { p with stop := true }

/-- One turn of worker `i` in `workerThread`, holding the mutex: the wait
predicate `stop || !tasks.empty()`, the exit test `stop && tasks.empty()`, and
otherwise the pop of the front thunk. -/
def Pool.wake (p : Pool) (i : Nat) : Pool :=
  match p.workers[i]? with
  | some .waiting =>
    if p.stop || !p.tasks.isEmpty then
      if p.stop && p.tasks.isEmpty then { p with workers := p.workers.set i .exited }
      else
        match p.tasks with
        | task :: rest => { p with tasks := rest, workers := p.workers.set i (.running task) }
        | [] => p
    else p
  | _ => p

/-- The call `task()` of worker `i` returns; the worker goes back to the wait. -/
def Pool.finish (p : Pool) (i : Nat) : Pool :=
  match p.workers[i]? with
  | some (.running task) =>
    { p with executed := p.executed ++ [task], workers := p.workers.set i .waiting }
  | _ => p

/-- The turns of a lone worker `i` that finds `k` thunks one after the other:
`k` times pop and run, then one more turn. -/
def Pool.drain (p : Pool) (i : Nat) : Nat → Pool
  | 0 => p.wake i
  | k + 1 => Pool.drain ((p.wake i).finish i) i k

/-! ## A newly constructed table, and the standard starting position -/

/-- `TranspositionTable(size)`: the constructor value-initialises `size` slots,
each a default `TTEntry`. -/
def TranspositionTable.create (size : Nat) : TranspositionTable := { size := size }

/-- The starting position of chess in the words of the rules: the piece on the
square of file `f` and rank `r` (both counted from 0). -/
def standardStart (f r : Nat) : Option Piece :=
  let back : List PieceType := [.ROOK, .KNIGHT, .BISHOP, .QUEEN, .KING, .BISHOP, .KNIGHT, .ROOK]
  if r = 0 then (back.get? f).map fun t => ⟨.WHITE, t⟩
  else if r = 1 then some ⟨.WHITE, .PAWN⟩
  else if r = 6 then some ⟨.BLACK, .PAWN⟩
  else if r = 7 then (back.get? f).map fun t => ⟨.BLACK, t⟩
  else none
/-! ## Positions for the killer and history updates -/

/-- White king `a1`, white pawn `b4`, black king `h8`, black pawn `c5`; white to
move, no castling right. -/
def pawnTakes : Game :=
  { board := (((Board.empty.putPiece ⟨0, 0⟩ (some ⟨.WHITE, .KING⟩)).putPiece ⟨1, 3⟩
      (some ⟨.WHITE, .PAWN⟩)).putPiece ⟨7, 7⟩ (some ⟨.BLACK, .KING⟩)).putPiece ⟨2, 4⟩
      (some ⟨.BLACK, .PAWN⟩),
    side := .WHITE }

/-- White king `a1`, white pawn `b4`, black king `h8`; white to move, no
castling right. -/
def kingAndPawn : Game :=
  { board := ((Board.empty.putPiece ⟨0, 0⟩ (some ⟨.WHITE, .KING⟩)).putPiece ⟨1, 3⟩
      (some ⟨.WHITE, .PAWN⟩)).putPiece ⟨7, 7⟩ (some ⟨.BLACK, .KING⟩),
    side := .WHITE }

/-- The game `pawnTakes` after `makeMove(b4xc5)`. -/
def pawnTaken : Game :=
  match pawnTakes.makeMove (Move.mk ⟨1, 3⟩ ⟨2, 4⟩ CAPTURE 0) with
  | .ok g => g
  | .error e => e.2

/-- The game `kingAndPawn` after `makeMove(a1-a2)`. -/
def kingStepped : Game :=
  match kingAndPawn.makeMove (Move.mk ⟨0, 0⟩ ⟨0, 1⟩ QUIET 0) with
  | .ok g => g
  | .error e => e.2

/-! ## A locked position and a search that revisits one move -/

/-- White `Ka1`, pawns `b2`, `d4`, `d6`, `g6`, `h7`; black `Kh8`, pawns `a2`,
`b3`, `b4`, `d7`, `g7`; white to move, no castling right.  Every piece is
blocked except the white pawn on `d4`, which can advance once. -/
def deadlock : Game :=
  { board := (((((((((((Board.empty.putPiece ⟨0, 0⟩ (some ⟨.WHITE, .KING⟩)).putPiece ⟨1, 1⟩
      (some ⟨.WHITE, .PAWN⟩)).putPiece ⟨3, 3⟩ (some ⟨.WHITE, .PAWN⟩)).putPiece ⟨3, 5⟩
      (some ⟨.WHITE, .PAWN⟩)).putPiece ⟨6, 5⟩ (some ⟨.WHITE, .PAWN⟩)).putPiece ⟨7, 6⟩
      (some ⟨.WHITE, .PAWN⟩)).putPiece ⟨7, 7⟩ (some ⟨.BLACK, .KING⟩)).putPiece ⟨0, 1⟩
      (some ⟨.BLACK, .PAWN⟩)).putPiece ⟨1, 2⟩ (some ⟨.BLACK, .PAWN⟩)).putPiece ⟨1, 3⟩
      (some ⟨.BLACK, .PAWN⟩)).putPiece ⟨3, 6⟩ (some ⟨.BLACK, .PAWN⟩)).putPiece ⟨6, 6⟩
      (some ⟨.BLACK, .PAWN⟩),
    side := .WHITE }

/-- The quiet move `d4-d5`. -/
def pushD4 : Move := Move.mk ⟨3, 3⟩ ⟨3, 4⟩ QUIET 0

/-- The game `deadlock` after `makeMove(d4-d5)`. -/
def deadlockPushed : Game :=
  match deadlock.makeMove pushD4 with
  | .ok g => g
  | .error e => e.2

/-- Zobrist tables in which the word of a piece is the index of its square plus
one, the side word is 128 and the castling and en-passant words are zero. -/
def countingZobrist : Zobrist := ⟨fun s _ _ => s + 1, 128, fun _ => 0, fun _ => 0⟩

/-- A newly constructed engine with `maxDepth = 63`. -/
def deepEngine : EngineState := { opt := { maxDepth := 63 } }

/-- The value of the counter `m_history[from][to]` after alpha improvements at
the remaining depths `1, 2, ..., k`, each adding `depth * depth` to the 16-bit
counter. -/
def historyAfter : Nat → Nat
  | 0 => 0
  | k + 1 => (historyAfter k + (k + 1) * (k + 1)) % 65536

/-- Zobrist tables under which the three positions that a search of `deadlock`
visits besides `deadlock` itself fall into table slots other than the slot of
`deadlock` (capacity `2^20`). -/
def SeparateSlots (z : Zobrist) : Prop :=
  hashPosition z deadlock.makeNullMove % 1048576 ≠ hashPosition z deadlock % 1048576 ∧
  hashPosition z deadlockPushed % 1048576 ≠ hashPosition z deadlock % 1048576 ∧
  hashPosition z deadlockPushed.makeNullMove % 1048576 ≠ hashPosition z deadlock % 1048576

/-- The engine between two iterations of the deepening loop on `deadlock`, after
the iteration of depth `k`: the stop flag is unset, `maxDepth = 63`, the table
has `2^20` slots of which only the slot of `deadlock` was written, with an entry
of depth at most `k`, the counter of `d4-d5` is `historyAfter k`, and the killer
slots hold the default move. -/
structure DeadlockInv (z : Zobrist) (k : Nat) (st : EngineState) : Prop where
  stop : st.stop = false
  maxDepth : st.opt.maxDepth = 63
  size : st.tt.size = 1048576
  others : ∀ i, i ≠ hashPosition z deadlock % 1048576 → st.tt.entries i = {}
  depth : (st.tt.entries (hashPosition z deadlock % 1048576)).depth ≤ k
  best : 1 ≤ k → (st.tt.entries (hashPosition z deadlock % 1048576)).zobrist
      = hashPosition z deadlock ∧
    (st.tt.entries (hashPosition z deadlock % 1048576)).bestMove = pushD4
  history : st.history 27 35 = historyAfter k
  killers : st.killers = fun _ _ => {}

/-! ## The search with its implicit assumptions made explicit

`alphaBetaG`, its loops, `iterativeDeepeningG` and `chooseMoveG` repeat the
search with `depth` an `int`, as in the source, and with a bound `fuel` on the
nesting of `alphaBeta` calls.  Two switches add tests the source does not make:
with `index` set, every access to `castleHash`, `epHash`, `zobristTable`,
`m_history` and `m_killers` is preceded by a test that the index is inside the
array; with `stop` set, the branch `if (m_stop) return evaluate(g)` is replaced
by a mark.  A failed test, the mark, and `fuel` running out end the search with
an `Anomaly`. -/

inductive Anomaly where
  | outOfFuel
  | indexOutOfRange
  | stopSeen
  deriving DecidableEq, Repr

/-- Which of the added tests are switched on. -/
structure Guards where
  index : Bool
  stop : Bool

/-- The type of `alphaBetaG` at a fixed remaining depth. -/
abbrev GuardedFn := Game → Int → Int → Bool → EngineState → Except Anomaly SearchResult

/-- The indices `hashPosition` uses are inside their arrays:
`castleHash[16]`, `epHash[8]`, `zobristTable[64][6][2]`. -/
def hashInRange (g : Game) : Bool :=
  decide (g.board.castlingRights < 16) &&
    (match g.board.enPassantTarget with
      | some ep => decide (ep.file < 8)
      | none => true) &&
    allSquares.all fun s =>
      decide (s.index < 64) &&
        (match g.board.atSq s with
          | some p => decide (p.type.code < 6) && decide (p.color.code < 2)
          | none => true)

/-- The indices `m_history[from.index()][to.index()]` of a move are inside
`m_history[64][64]`. -/
def moveInRange (m : Move) : Bool := decide (m.src.index < 64) && decide (m.dst.index < 64)

/-- An index of `m_killers[64][2]`. -/
def plyInRange (d : Int) : Bool := decide (0 ≤ d) && decide (d < 64)

/-- Lines 211–216 of `alphaBeta` with `depth` an `int`. -/
def nodeEntryG (key : Nat) (alpha origAlpha beta : Int) (depth : Int) (bestLocal : Move) :
    TTEntry :=
  { zobrist := key, score := toInt16 alpha, depth := toInt8 depth,
    bound := if alpha ≤ origAlpha then .UPPER else if alpha ≥ beta then .LOWER else .EXACT,
    bestMove := bestLocal }

/-- One thunk of the root loop; an anomaly in the child ends the search. -/
def rootTaskG (child : GuardedFn) (g : Game) (alpha beta : Int) (acc : RootAcc) (mv : Move) :
    Except Anomaly (Except Fault RootAcc) :=
  match g.makeMove mv with
  | .error _ => .ok (.ok acc)
  | .ok c =>
    match child c (-beta) (-alpha) true acc.state with
    | .error a => .error a
    | .ok r =>
      match r.value with
      | .error (.ruleError _) => .ok (.ok { acc with state := r.state })
      | .error .assertion => .ok (.error .assertion)
      | .ok v =>
        let sc := -v
        if sc > acc.bestScore then
          .ok (.ok { bestScore := sc, bestLocal := mv, state := r.state })
        else .ok (.ok { acc with state := r.state })

/-- The root loop over the ordered moves; as in `rootLoop` the thunks are run in
queue order, and the wait for the pool is left to `searchMovesP`. -/
def rootLoopG (child : GuardedFn) (g : Game) (alpha beta : Int) :
    List Move → RootAcc → Except Anomaly (Except Fault RootAcc)
  | [], acc => .ok (.ok acc)
  | mv :: rest, acc =>
    match rootTaskG child g alpha beta acc mv with
    | .error a => .error a
    | .ok (.error f) => .ok (.error f)
    | .ok (.ok acc) => rootLoopG child g alpha beta rest acc

/-- The sequential loop of `alphaBeta` (lines 189–208); the writes to
`m_history` and `m_killers` are guarded. -/
def seqLoopG (ck : Guards) (child : GuardedFn) (depth : Int) (beta : Int) :
    List Move → SeqAcc → Except Anomaly (Except (Fault × SeqAcc) SeqAcc)
  | [], acc => .ok (.ok acc)
  | mv :: rest, acc =>
    match acc.game.makeMove mv with
    | .error e => .ok (.error (.ruleError e.1, { acc with game := e.2 }))
    | .ok g1 =>
      match child g1 (-beta) (-acc.alpha) true acc.state with
      | .error a => .error a
      | .ok r =>
        match r.value with
        | .error f => .ok (.error (f, { acc with game := r.game, state := r.state }))
        | .ok v =>
          match r.game.undoMove with
          | none => .ok (.error (.assertion, { acc with game := r.game, state := r.state }))
          | some g2 =>
            let score := -v
            if score > acc.alpha then
              if ck.index && !moveInRange mv then .error .indexOutOfRange
              else
                let st := { r.state with
                  history := fun i j =>
                    if i = mv.src.index ∧ j = mv.dst.index then
                      (r.state.history i j + (depth * depth).toNat) % 65536
                    else r.state.history i j }
                if score ≥ beta then
                  if ck.index && !plyInRange depth then .error .indexOutOfRange
                  else
                    let st := { st with
                      killers := fun d i =>
                        if d = depth then
                          (if i = 1 then st.killers d 0 else if i = 0 then mv else st.killers d i)
                        else st.killers d i }
                    .ok (.ok { alpha := score, bestLocal := mv, game := g2, state := st })
                else
                  seqLoopG ck child depth beta rest
                    { alpha := score, bestLocal := mv, game := g2, state := st }
            else seqLoopG ck child depth beta rest { acc with game := g2, state := r.state }

/-- Lines 131–216 of `alphaBeta`; the reads of `m_killers[maxDepth - depth]` and
`m_history[from][to]` that `orderMoves` can make are guarded before the call. -/
def searchMovesG (ck : Guards) (z : Zobrist) (child : GuardedFn) (g : Game) (depth : Int)
    (alpha beta : Int) (entry : TTEntry) (st : EngineState) : Except Anomaly SearchResult :=
  match g.legalMoves with
  | .error e => .ok { value := .error (.ruleError e), game := g, state := st }
  | .ok moves =>
    if moves.isEmpty then
      let k := findKing g.board g.side
      let mated := g.board.isSquareAttacked k g.side.flip
      let ply : Int := st.opt.maxDepth - depth
      .ok { value := .ok (if mated then -10000 + ply else 0), game := g, state := st }
    else
      if ck.index && !(plyInRange (st.opt.maxDepth - depth) && moves.all moveInRange) then
        .error .indexOutOfRange
      else
        let moves := orderMoves st moves entry.bestMove (st.opt.maxDepth - depth)
        let key := hashPosition z g
        if depth = st.opt.maxDepth then
          match rootLoopG child g alpha beta moves { state := st } with
          | .error a => .error a
          | .ok (.error f) => .ok { value := .error f, game := g, state := st }
          | .ok (.ok acc) =>
            let bestLocal :=
              if acc.bestScore = -100000 then moves.headD {} else acc.bestLocal
            let a := acc.bestScore
            .ok { value := .ok a, game := g,
                  state := { acc.state with
                    tt := acc.state.tt.store (nodeEntryG key a alpha beta depth bestLocal) } }
        else
          match seqLoopG ck child depth beta moves { alpha := alpha, game := g, state := st } with
          | .error a => .error a
          | .ok (.error (f, acc)) => .ok { value := .error f, game := acc.game, state := acc.state }
          | .ok (.ok acc) =>
            .ok { value := .ok acc.alpha, game := acc.game,
                  state := { acc.state with
                    tt := acc.state.tt.store
                      (nodeEntryG key acc.alpha alpha beta depth acc.bestLocal) } }

/-- `AIEngine::alphaBeta` with `int depth`; every nested call uses up one unit
of `fuel`. -/
def alphaBetaG (ck : Guards) (z : Zobrist) :
    Nat → Int → Game → Int → Int → Bool → EngineState → Except Anomaly SearchResult
  | 0, _, _, _, _, _, _ => .error .outOfFuel
  | fuel + 1, depth, g, alpha, beta, nullAllowed, st =>
    if st.stop then
      if ck.stop then .error .stopSeen else .ok (evalResult g st)
    else if depth = 0 then .ok (evalResult g st)
    else
      if ck.index && !hashInRange g then .error .indexOutOfRange
      else
        let key := hashPosition z g
        let pr := st.tt.probe key {}
        let entry := pr.2
        if pr.1 && decide (entry.depth ≥ depth) &&
            (entry.bound == .EXACT || (entry.bound == .LOWER && decide (entry.score ≥ beta)) ||
              (entry.bound == .UPPER && decide (entry.score ≤ alpha))) then
          .ok { value := .ok entry.score, game := g, state := st }
        else
          if nullAllowed = true ∧ 3 ≤ depth then
            match alphaBetaG ck z fuel (depth - 3) g.makeNullMove (-beta) (-beta + 1) false st with
            | .error a => .error a
            | .ok r =>
              match r.value with
              | .error f => .ok { value := .error f, game := g, state := r.state }
              | .ok v =>
                if -v ≥ beta then .ok { value := .ok (-v), game := g, state := r.state }
                else
                  searchMovesG ck z (fun c a b n s => alphaBetaG ck z fuel (depth - 1) c a b n s)
                    g depth alpha beta entry r.state
          else
            searchMovesG ck z (fun c a b n s => alphaBetaG ck z fuel (depth - 1) c a b n s)
              g depth alpha beta entry st

/-- The loop of `iterativeDeepening`, entered at `depth` with `n` iterations
left. -/
def deepenLoopG (ck : Guards) (z : Zobrist) (clock : Nat → Bool) (fuel : Nat) :
    Nat → Nat → DeepenAcc → Except Anomaly (Except (Fault × DeepenAcc) DeepenAcc)
  | 0, _, acc => .ok (.ok acc)
  | n + 1, depth, acc =>
    match alphaBetaG ck z fuel depth acc.game acc.alpha acc.beta true acc.state with
    | .error a => .error a
    | .ok r =>
      match r.value with
      | .error f => .ok (.error (f, { acc with game := r.game, state := r.state }))
      | .ok score =>
        let r2 : Except Anomaly (Except (Fault × DeepenAcc) (Int × Game × EngineState)) :=
          if score ≤ acc.alpha ∨ score ≥ acc.beta then
            match alphaBetaG ck z fuel depth r.game (-100000) 100000 true r.state with
            | .error a => .error a
            | .ok r' =>
              match r'.value with
              | .error f => .ok (.error (f, { acc with game := r'.game, state := r'.state }))
              | .ok s => .ok (.ok (s, r'.game, r'.state))
          else .ok (.ok (score, r.game, r.state))
        match r2 with
        | .error a => .error a
        | .ok (.error e) => .ok (.error e)
        | .ok (.ok (score, g, st)) =>
          let acc' : DeepenAcc :=
            { alpha := score - 50, beta := score + 50, bestScore := score, game := g, state := st }
          if clock depth then .ok (.ok { acc' with state := { st with stop := true } })
          else deepenLoopG ck z clock fuel n (depth + 1) acc'

/-- `AIEngine::iterativeDeepening`; the final `hashPosition(root)` is guarded. -/
def iterativeDeepeningG (ck : Guards) (z : Zobrist) (clock : Nat → Bool) (fuel : Nat)
    (root : Game) (st : EngineState) :
    Except Anomaly (Except Fault (Int × Option Move) × EngineState) :=
  match deepenLoopG ck z clock fuel st.opt.maxDepth.toNat 1 { game := root, state := st } with
  | .error a => .error a
  | .ok (.error (f, acc)) => .ok (.error f, acc.state)
  | .ok (.ok acc) =>
    if ck.index && !hashInRange acc.game then .error .indexOutOfRange
    else
      let pr := acc.state.tt.probe (hashPosition z acc.game) {}
      if pr.1 then .ok (.ok (acc.bestScore, some pr.2.bestMove), acc.state)
      else
        match acc.game.legalMoves with
        | .error e => .ok (.error (.ruleError e), acc.state)
        | .ok ms => .ok (.ok (acc.bestScore, ms.head?), acc.state)

/-- `AIEngine::chooseMove`. -/
def chooseMoveG (ck : Guards) (z : Zobrist) (clock : Nat → Bool) (fuel : Nat)
    (st : EngineState) (rootGame : Game) :
    Except Anomaly (Except Fault (Option Move) × EngineState) :=
  let st := { st with stop := false, history := fun _ _ => 0, killers := fun _ _ => {} }
  match iterativeDeepeningG ck z clock fuel rootGame st with
  | .error a => .error a
  | .ok r =>
    .ok (match r.1 with
      | .ok (_, best) => .ok best
      | .error f => .error f,
     r.2)

/-- The numbers a game carries into the hash tables are inside them: the
castling rights are below 16 and the en-passant target, if any, has a file
below 8, on the board and in every history entry. -/
def SmallGame (g : Game) : Prop :=
  g.board.castlingRights < 16 ∧ (∀ ep, g.board.enPassantTarget = some ep → ep.file < 8) ∧
    ∀ h ∈ g.history, h.prevCastlingRights < 16 ∧
      ∀ ep, h.prevEnPassantTarget = some ep → ep.file < 8

/-- What the switched-on tests need of a call on game `g` with engine `s`: the
stop flag is unset (switch `stop`); the numbers of the game fit the hash tables
and `maxDepth` is `M` (switch `index`). -/
def GuardsHold (ck : Guards) (M : Int) (g : Game) (s : EngineState) : Prop :=
  (ck.stop = true → s.stop = false) ∧ (ck.index = true → SmallGame g ∧ s.opt.maxDepth = M)

/-! ## A king beside its own pawn -/

/-- Four `makeMove` calls from the initial position, none of them rejected:
`a2-a3`, then the white pawn `e2` to `e5`, the white king `e1` to `d5`, and the
black pawn `d7` to `c5`, a two-rank move that sets the en-passant target `d6`. -/
def kingBesidePawnMoves : List Move :=
  [Move.mk ⟨0, 1⟩ ⟨0, 2⟩ QUIET 0, Move.mk ⟨4, 1⟩ ⟨4, 4⟩ QUIET 0,
   Move.mk ⟨4, 0⟩ ⟨3, 4⟩ QUIET 0, Move.mk ⟨3, 6⟩ ⟨2, 4⟩ QUIET 0]

/-! ## `makeMove` with the read of line 413 made explicit

`movingPiece` is a raw pointer to the piece on `m.from`, taken at line 354.  The
object it points to is destroyed before line 413 when the move has the
PROMOTION flag (`mover = std::make_unique<...>` at lines 390–395 releases it),
and when a castling flag is set and `m.to` is the square the rook is then put on
(`putPiece` at line 401 or 406 overwrites the slot that owns it).  The value of
`movingPiece->type()` is then whatever the freed memory holds; here it is the
parameter `read`. -/

/-- Whether the object `movingPiece` points to has been destroyed when line 413
reads its type. -/
def moverDestroyed (side : Color) (m : Move) : Bool :=
  let myBack : Nat := if side = .WHITE then 0 else 7
  hasFlag m.flags PROMOTION ||
    (if hasFlag m.flags CASTLING_K then
      decide (m.dst.index = (⟨5, myBack⟩ : Square).index)
    else if hasFlag m.flags CASTLING_Q then
      decide (m.dst.index = (⟨3, myBack⟩ : Square).index)
    else false)

/-- Lines 365–420 of `makeMove`, with `read` for the value of
`movingPiece->type()` at line 413 when the object has been destroyed. -/
def Game.applyCheckedRead (read : PieceType) (g : Game) (m : Move) (captured : Option Piece)
    (b1 : Board) (movingPiece : Piece) : Game :=
  let b2 := b1.setCastlingRights (rightsAfter g.side b1.castlingRights movingPiece captured m)
  let (mover, b3) := b2.takePiece m.src
  let mover := promoteStep m movingPiece mover
  let b4 := placeStep b3 g.side m mover
  let seen : Piece :=
    if moverDestroyed g.side m then ⟨movingPiece.color, read⟩ else movingPiece
  let b6 := enPassantStep b4 m seen
  { board := b6,
    side := g.side.flip,
    history := g.history ++ [{ move := m, captured := captured,
                               prevCastlingRights := g.board.castlingRights,
                               prevEnPassantTarget := g.board.enPassantTarget }] }

/-- `Game::makeMove` with the read of line 413 made explicit. -/
def Game.makeMoveRead (read : PieceType) (g : Game) (m : Move) :
    Except (RuleError × Game) Game :=
  if !m.src.isValid || !m.dst.isValid then .error (.moveOutOfBoard, g)
  else
    let cb := captureStep g.board m
    match cb.2.atSq m.src with
    | none => .error (.noPieceOnSource, { g with board := cb.2 })
    | some movingPiece =>
      if ownPieceOn cb.2 m movingPiece then .error (.cannotCaptureOwn, { g with board := cb.2 })
      else .ok (g.applyCheckedRead read m cb.1 cb.2 movingPiece)

/-- The initial position's `e2 → e4` with the PROMOTION flag. -/
def flaggedDoubleStep : Move := Move.mk ⟨4, 1⟩ ⟨4, 3⟩ PROMOTION 0

/-! ## The search on the worker pool

`alphaBetaP` and its loops repeat the search with `depth` an `int`, a bound
`fuel` on the nesting of `alphaBeta` calls, and the wait of the root branch made
explicit.  The root branch (lines 155–187) enqueues one thunk per move on
`m_pool` and blocks in `f.get()`; a thunk is run only by a worker of the pool
that is waiting in `workerThread`, never by the thread that enqueued it.  `idle`
is the number of such workers (`Pool.idle`).  With `idle = 0` the call does not
return (`blocked`); otherwise the thunks are run one after the other in queue
order, and inside a thunk one worker fewer is idle. -/

/-- The number of workers blocked in `condition.wait`, ready to take a thunk. -/
def Pool.idle (p : Pool) : Nat := p.workers.count .waiting

/-- A pool of one worker that is running the thunk it popped: the state in which
`Presenter` has `m_pool.enqueue` run `chooseMove` on `ThreadPool pool(1)`. -/
def busyPool : Pool := ((Pool.create 1).enqueue 0).wake 0

/-- Why a call yields no result: the bound on the nesting was too small, or the
root branch waits for thunks that no worker will run. -/
inductive Halt where
  | outOfFuel
  | blocked
  deriving DecidableEq, Repr

/-- The type of `alphaBetaP` at a fixed remaining depth. -/
abbrev PoolFn := Game → Int → Int → Bool → EngineState → Except Halt SearchResult

/-- One thunk of the root loop (lines 161–179), run by a worker. -/
def rootTaskP (child : PoolFn) (g : Game) (alpha beta : Int) (acc : RootAcc) (mv : Move) :
    Except Halt (Except Fault RootAcc) :=
  match g.makeMove mv with
  | .error _ => .ok (.ok acc)
  | .ok c =>
    match child c (-beta) (-alpha) true acc.state with
    | .error a => .error a
    | .ok r =>
      match r.value with
      | .error (.ruleError _) => .ok (.ok { acc with state := r.state })
      | .error .assertion => .ok (.error .assertion)
      | .ok v =>
        let sc := -v
        if sc > acc.bestScore then
          .ok (.ok { bestScore := sc, bestLocal := mv, state := r.state })
        else .ok (.ok { acc with state := r.state })

/-- The thunks of the root loop, in queue order. -/
def rootLoopP (child : PoolFn) (g : Game) (alpha beta : Int) :
    List Move → RootAcc → Except Halt (Except Fault RootAcc)
  | [], acc => .ok (.ok acc)
  | mv :: rest, acc =>
    match rootTaskP child g alpha beta acc mv with
    | .error a => .error a
    | .ok (.error f) => .ok (.error f)
    | .ok (.ok acc) => rootLoopP child g alpha beta rest acc

/-- The sequential loop of `alphaBeta` (lines 189–208). -/
def seqLoopP (child : PoolFn) (depth : Int) (beta : Int) :
    List Move → SeqAcc → Except Halt (Except (Fault × SeqAcc) SeqAcc)
  | [], acc => .ok (.ok acc)
  | mv :: rest, acc =>
    match acc.game.makeMove mv with
    | .error e => .ok (.error (.ruleError e.1, { acc with game := e.2 }))
    | .ok g1 =>
      match child g1 (-beta) (-acc.alpha) true acc.state with
      | .error a => .error a
      | .ok r =>
        match r.value with
        | .error f => .ok (.error (f, { acc with game := r.game, state := r.state }))
        | .ok v =>
          match r.game.undoMove with
          | none => .ok (.error (.assertion, { acc with game := r.game, state := r.state }))
          | some g2 =>
            let score := -v
            if score > acc.alpha then
              let st := { r.state with
                history := fun i j =>
                  if i = mv.src.index ∧ j = mv.dst.index then
                    (r.state.history i j + (depth * depth).toNat) % 65536
                  else r.state.history i j }
              if score ≥ beta then
                let st := { st with
                  killers := fun d i =>
                    if d = depth then
                      (if i = 1 then st.killers d 0 else if i = 0 then mv else st.killers d i)
                    else st.killers d i }
                .ok (.ok { alpha := score, bestLocal := mv, game := g2, state := st })
              else
                seqLoopP child depth beta rest
                  { alpha := score, bestLocal := mv, game := g2, state := st }
            else seqLoopP child depth beta rest { acc with game := g2, state := r.state }

/-- Lines 131–216 of `alphaBeta`.  `child k` is the search of a child position
while `k` workers are idle: the sequential loop runs on the calling thread, the
thunks of the root branch on a worker. -/
def searchMovesP (z : Zobrist) (idle : Nat) (child : Nat → PoolFn) (g : Game) (depth : Int)
    (alpha beta : Int) (entry : TTEntry) (st : EngineState) : Except Halt SearchResult :=
  match g.legalMoves with
  | .error e => .ok { value := .error (.ruleError e), game := g, state := st }
  | .ok moves =>
    if moves.isEmpty then
      let k := findKing g.board g.side
      let mated := g.board.isSquareAttacked k g.side.flip
      let ply : Int := st.opt.maxDepth - depth
      .ok { value := .ok (if mated then -10000 + ply else 0), game := g, state := st }
    else
      let moves := orderMoves st moves entry.bestMove (st.opt.maxDepth - depth)
      let key := hashPosition z g
      if depth = st.opt.maxDepth then
        match idle with
        | 0 => .error .blocked
        | k + 1 =>
          match rootLoopP (child k) g alpha beta moves { state := st } with
          | .error a => .error a
          | .ok (.error f) => .ok { value := .error f, game := g, state := st }
          | .ok (.ok acc) =>
            let bestLocal :=
              if acc.bestScore = -100000 then moves.headD {} else acc.bestLocal
            let a := acc.bestScore
            .ok { value := .ok a, game := g,
                  state := { acc.state with
                    tt := acc.state.tt.store (nodeEntryG key a alpha beta depth bestLocal) } }
      else
        match seqLoopP (child idle) depth beta moves
            { alpha := alpha, game := g, state := st } with
        | .error a => .error a
        | .ok (.error (f, acc)) => .ok { value := .error f, game := acc.game, state := acc.state }
        | .ok (.ok acc) =>
          .ok { value := .ok acc.alpha, game := acc.game,
                state := { acc.state with
                  tt := acc.state.tt.store
                    (nodeEntryG key acc.alpha alpha beta depth acc.bestLocal) } }

/-- `AIEngine::alphaBeta` with `int depth`, called while `idle` workers of the
pool are waiting; every nested call uses up one unit of `fuel`. -/
def alphaBetaP (z : Zobrist) :
    Nat → Nat → Int → Game → Int → Int → Bool → EngineState → Except Halt SearchResult
  | 0, _, _, _, _, _, _, _ => .error .outOfFuel
  | fuel + 1, idle, depth, g, alpha, beta, nullAllowed, st =>
    if st.stop then .ok (evalResult g st)
    else if depth = 0 then .ok (evalResult g st)
    else
      let key := hashPosition z g
      let pr := st.tt.probe key {}
      let entry := pr.2
      if pr.1 && decide (entry.depth ≥ depth) &&
          (entry.bound == .EXACT || (entry.bound == .LOWER && decide (entry.score ≥ beta)) ||
            (entry.bound == .UPPER && decide (entry.score ≤ alpha))) then
        .ok { value := .ok entry.score, game := g, state := st }
      else
        if nullAllowed = true ∧ 3 ≤ depth then
          match alphaBetaP z fuel idle (depth - 3) g.makeNullMove (-beta) (-beta + 1) false st with
          | .error a => .error a
          | .ok r =>
            match r.value with
            | .error f => .ok { value := .error f, game := g, state := r.state }
            | .ok v =>
              if -v ≥ beta then .ok { value := .ok (-v), game := g, state := r.state }
              else
                searchMovesP z idle (fun k c a b n s => alphaBetaP z fuel k (depth - 1) c a b n s)
                  g depth alpha beta entry r.state
        else
          searchMovesP z idle (fun k c a b n s => alphaBetaP z fuel k (depth - 1) c a b n s)
            g depth alpha beta entry st

/-! # Properties -/

/-! ## Membership in the step and castling generators -/

theorem mem_stepMove {b : Board} {c : Color} {src : Square} {j : Int × Int} {m : Move} :
    m ∈ stepMove b c src j ↔
      (src.offset j.1 j.2).isValid = true ∧ m.src = src ∧ m.dst = src.offset j.1 j.2 ∧
        m.promoPiece = 0 ∧
        ((b.atSq (src.offset j.1 j.2) = none ∧ m.flags = QUIET) ∨
          (∃ t, b.atSq (src.offset j.1 j.2) = some t ∧ t.color ≠ c ∧ m.flags = CAPTURE)) := by
  unfold stepMove
  by_cases hv : (src.offset j.1 j.2).isValid = true
  · cases hat : b.atSq (src.offset j.1 j.2) with
    | none => simp [hv, hat, Move.ext_iff]; tauto
    | some t =>
      by_cases hc : t.color = c
      · simp [hv, hat, hc]
      · simp [hv, hat, hc, Move.ext_iff]; tauto
  · simp [hv]

theorem mem_castlingMoves {b : Board} {c : Color} {src : Square} {m : Move} :
    m ∈ King.castlingMoves c b src ↔
      ((hasFlag b.castlingRights (kingsideBit c) = true ∧
          b.atSq ⟨5, backRankOf c⟩ = none ∧ b.atSq ⟨6, backRankOf c⟩ = none ∧
          b.isSquareAttacked ⟨4, backRankOf c⟩ c.flip = false ∧
          b.isSquareAttacked ⟨5, backRankOf c⟩ c.flip = false ∧
          b.isSquareAttacked ⟨6, backRankOf c⟩ c.flip = false) ∧
        m = { src := src, dst := ⟨6, backRankOf c⟩, flags := CASTLING_K }) ∨
      ((hasFlag b.castlingRights (queensideBit c) = true ∧
          b.atSq ⟨3, backRankOf c⟩ = none ∧ b.atSq ⟨2, backRankOf c⟩ = none ∧
          b.atSq ⟨1, backRankOf c⟩ = none ∧
          b.isSquareAttacked ⟨4, backRankOf c⟩ c.flip = false ∧
          b.isSquareAttacked ⟨3, backRankOf c⟩ c.flip = false ∧
          b.isSquareAttacked ⟨2, backRankOf c⟩ c.flip = false) ∧
        m = { src := src, dst := ⟨2, backRankOf c⟩, flags := CASTLING_Q }) := by
  cases c <;>
    simp [King.castlingMoves, hasFlag, kingsideBit, queensideBit, backRankOf, and_assoc]

/-- C9: run from the home square of colour `c`, the king generator emits a
kingside castling move (flag CASTLING_K, destination file 6 of the back rank)
exactly when the kingside right of `c` is set, files 5 and 6 of the back rank
are empty and files 4, 5, 6 are not attacked by the opponent; and a queenside
castling move (flag CASTLING_Q, destination file 2) exactly when the queenside
right is set, files 3, 2, 1 are empty and files 4, 3, 2 are not attacked. -/
theorem King_legalMoves_castling (b : Board) (c : Color) :
    ((∃ m ∈ King.legalMoves c b ⟨4, backRankOf c⟩,
        hasFlag m.flags CASTLING_K = true ∧ m.dst = ⟨6, backRankOf c⟩) ↔
      (hasFlag b.castlingRights (kingsideBit c) = true ∧
        b.atSq ⟨5, backRankOf c⟩ = none ∧ b.atSq ⟨6, backRankOf c⟩ = none ∧
        b.isSquareAttacked ⟨4, backRankOf c⟩ c.flip = false ∧
        b.isSquareAttacked ⟨5, backRankOf c⟩ c.flip = false ∧
        b.isSquareAttacked ⟨6, backRankOf c⟩ c.flip = false)) ∧
    ((∃ m ∈ King.legalMoves c b ⟨4, backRankOf c⟩,
        hasFlag m.flags CASTLING_Q = true ∧ m.dst = ⟨2, backRankOf c⟩) ↔
      (hasFlag b.castlingRights (queensideBit c) = true ∧
        b.atSq ⟨3, backRankOf c⟩ = none ∧ b.atSq ⟨2, backRankOf c⟩ = none ∧
        b.atSq ⟨1, backRankOf c⟩ = none ∧
        b.isSquareAttacked ⟨4, backRankOf c⟩ c.flip = false ∧
        b.isSquareAttacked ⟨3, backRankOf c⟩ c.flip = false ∧
        b.isSquareAttacked ⟨2, backRankOf c⟩ c.flip = false)) := by
  have hstep : ∀ m k, m ∈ stepMove b c ⟨4, backRankOf c⟩ k →
      hasFlag m.flags CASTLING_K = false ∧ hasFlag m.flags CASTLING_Q = false := by
    intro m k hk
    rw [mem_stepMove] at hk
    rcases hk with ⟨-, -, -, -, ⟨-, h⟩ | ⟨t, -, -, h⟩⟩ <;> rw [h] <;> decide
  constructor
  · constructor
    · rintro ⟨m, hm, hf, -⟩
      simp only [King.legalMoves, List.mem_append, List.mem_flatMap] at hm
      rcases hm with ⟨k, -, hk⟩ | hm
      · rw [(hstep m k hk).1] at hf; exact absurd hf (by decide)
      · rcases mem_castlingMoves.1 hm with ⟨h, -⟩ | ⟨-, h⟩
        · exact h
        · rw [h] at hf; exact absurd hf (by simp +decide [hasFlag, CASTLING_K, CASTLING_Q])
    · intro h
      refine ⟨{ src := ⟨4, backRankOf c⟩, dst := ⟨6, backRankOf c⟩, flags := CASTLING_K }, ?_, by simp +decide [hasFlag, CASTLING_K], rfl⟩
      simp only [King.legalMoves, List.mem_append]
      exact Or.inr (mem_castlingMoves.2 (Or.inl ⟨h, rfl⟩))
  · constructor
    · rintro ⟨m, hm, hf, -⟩
      simp only [King.legalMoves, List.mem_append, List.mem_flatMap] at hm
      rcases hm with ⟨k, -, hk⟩ | hm
      · rw [(hstep m k hk).2] at hf; exact absurd hf (by decide)
      · rcases mem_castlingMoves.1 hm with ⟨-, h⟩ | ⟨h, -⟩
        · rw [h] at hf; exact absurd hf (by simp +decide [hasFlag, CASTLING_K, CASTLING_Q])
        · exact h
    · intro h
      refine ⟨{ src := ⟨4, backRankOf c⟩, dst := ⟨2, backRankOf c⟩, flags := CASTLING_Q }, ?_, by simp +decide [hasFlag, CASTLING_Q], rfl⟩
      simp only [King.legalMoves, List.mem_append]
      exact Or.inr (mem_castlingMoves.2 (Or.inr ⟨h, rfl⟩))

/-! ## The checks of `makeMove` -/

theorem makeMove_out_of_board (g : Game) (m : Move)
    (h : m.src.isValid = false ∨ m.dst.isValid = false) :
    g.makeMove m = .error (.moveOutOfBoard, g) := by
  unfold Game.makeMove
  rcases h with h | h <;> simp [h]

/-- C5 (failing input): in the initial position `a1` holds a white rook and `a2`
a white pawn; the move `a1 → a2` carrying the CAPTURE flag is a friendly capture,
yet `makeMove` raises nothing: it succeeds and leaves the rook on `a2`. -/
theorem makeMove_accepts_flagged_friendly_capture :
    (({} : Game).board.atSq ⟨0, 0⟩ = some ⟨.WHITE, .ROOK⟩ ∧
      ({} : Game).board.atSq ⟨0, 1⟩ = some ⟨.WHITE, .PAWN⟩) ∧
    ∃ g', Game.makeMove {} (Move.mk ⟨0, 0⟩ ⟨0, 1⟩ CAPTURE 0) = .ok g' ∧
      g'.board.atSq ⟨0, 1⟩ = some ⟨.WHITE, .ROOK⟩ ∧ g'.board.atSq ⟨0, 0⟩ = none :=
  ⟨by decide, _, rfl, by decide⟩

/-- C6 (failing input): in the initial position `a3` is empty and `a2` holds a
white pawn; `makeMove` of `a3 → a2` with the CAPTURE flag raises the
missing-source-piece error, and the state it leaves behind has lost the pawn on
`a2`. -/
theorem makeMove_failure_mutates_board :
    (({} : Game).board.atSq ⟨0, 2⟩ = none ∧
      ({} : Game).board.atSq ⟨0, 1⟩ = some ⟨.WHITE, .PAWN⟩) ∧
    ∃ g', Game.makeMove {} (Move.mk ⟨0, 2⟩ ⟨0, 1⟩ CAPTURE 0) = .error (.noPieceOnSource, g') ∧
      g'.board.atSq ⟨0, 1⟩ = none :=
  ⟨by decide, _, rfl, by decide⟩

/-- C7 (counterexample): in the initial position white is to move and `a7` holds
a black pawn; `makeMove` of the quiet move `a7 → a6` raises nothing and moves the
black pawn. -/
theorem makeMove_wrong_side_not_rejected :
    ¬ (∀ (g : Game) (m : Move) (p : Piece),
        g.board.atSq m.src = some p → p.color = g.side.flip →
        ∃ e, g.makeMove m = .error (e, g)) := by
  intro h
  obtain ⟨e, he⟩ := h {} (Move.mk ⟨0, 6⟩ ⟨0, 5⟩ QUIET 0) ⟨.BLACK, .PAWN⟩ (by decide) (by decide)
  have h2 : ∃ g', Game.makeMove {} (Move.mk ⟨0, 6⟩ ⟨0, 5⟩ QUIET 0) = .ok g' := ⟨_, rfl⟩
  obtain ⟨g', hg⟩ := h2
  rw [hg] at he
  cases he

/-! ## Squares and board slots -/

theorem isValid_iff {s : Square} : s.isValid = true ↔ s.file < 8 ∧ s.rank < 8 := by
  simp [Square.isValid]

theorem index_inj {s t : Square} (hs : s.isValid = true) (ht : t.isValid = true) :
    s.index = t.index ↔ s = t := by
  rw [isValid_iff] at hs ht
  rw [Square.ext_iff]
  unfold Square.index
  omega

theorem mem_allSquares {s : Square} : s ∈ allSquares ↔ s.isValid = true := by
  rw [isValid_iff]
  simp only [allSquares, List.mem_flatMap, List.mem_map, List.mem_range]
  constructor
  · rintro ⟨r, hr, f, hf, rfl⟩
    exact ⟨hf, hr⟩
  · rintro ⟨hf, hr⟩
    exact ⟨s.rank, hr, s.file, hf, rfl⟩

theorem mem_generateLegalMoves {b : Board} {side : Color} {m : Move} :
    m ∈ b.generateLegalMoves side ↔
      ∃ sq p, sq.isValid = true ∧ b.atSq sq = some p ∧ p.color = side ∧ m ∈ p.legalMoves b sq := by
  simp only [Board.generateLegalMoves, List.mem_flatMap, mem_allSquares]
  constructor
  · rintro ⟨sq, hv, hm⟩
    cases hat : b.atSq sq with
    | none => simp [hat] at hm
    | some p =>
      by_cases hc : p.color = side
      · simp only [hat, hc, if_true] at hm
        exact ⟨sq, p, hv, hat, hc, hm⟩
      · simp [hat, hc] at hm
  · rintro ⟨sq, p, hv, hat, hc, hm⟩
    exact ⟨sq, hv, by simpa [hat, hc] using hm⟩

/-! ## Rays -/

theorem attackRay_eq_true_iff (b : Board) (sq : Square) (c : Color) (t1 t2 : PieceType)
    (d : Int × Int) : ∀ n s : Nat, attackRay b sq c t1 t2 d s n = true ↔
      ∃ k : Nat, s ≤ k ∧ k < s + n ∧
        (∀ j : Nat, s ≤ j → j < k →
          (sq.offset (d.1 * j) (d.2 * j)).isValid = true ∧
            b.atSq (sq.offset (d.1 * j) (d.2 * j)) = none) ∧
        (sq.offset (d.1 * k) (d.2 * k)).isValid = true ∧
        ∃ p, b.atSq (sq.offset (d.1 * k) (d.2 * k)) = some p ∧ p.color = c ∧
          (p.type = t1 ∨ p.type = t2) := by
  intro n
  induction n with
  | zero =>
    intro s
    simp only [attackRay, Bool.false_eq_true, false_iff]
    rintro ⟨k, h1, h2, -⟩
    omega
  | succ n ih =>
    intro s
    unfold attackRay
    by_cases hv : (sq.offset (d.1 * s) (d.2 * s)).isValid = true
    · cases hat : b.atSq (sq.offset (d.1 * s) (d.2 * s)) with
      | none =>
        simp only [hv, Bool.not_true, Bool.false_eq_true, if_false, hat]
        rw [ih]
        constructor
        · rintro ⟨k, h1, h2, h3, h4⟩
          refine ⟨k, by omega, by omega, ?_, h4⟩
          intro j hj1 hj2
          rcases Nat.eq_or_lt_of_le hj1 with h | h
          · subst h; exact ⟨hv, hat⟩
          · exact h3 j h hj2
        · rintro ⟨k, h1, h2, h3, h4, p, h5, h6⟩
          rcases Nat.eq_or_lt_of_le h1 with h | h
          · subst h; rw [hat] at h5; cases h5
          · exact ⟨k, h, by omega, fun j hj1 hj2 => h3 j (by omega) hj2, h4, p, h5, h6⟩
      | some p =>
        simp only [hv, Bool.not_true, Bool.false_eq_true, if_false, hat]
        constructor
        · intro h
          refine ⟨s, le_refl _, by omega, fun j hj1 hj2 => by omega, hv, p, hat, ?_⟩
          simpa using h
        · rintro ⟨k, h1, h2, h3, h4, q, h5, h6⟩
          rcases Nat.eq_or_lt_of_le h1 with h | h
          · subst h
            rw [hat] at h5
            cases h5
            simpa using h6
          · have := (h3 s (le_refl _) h).2
            rw [hat] at this; cases this
    · simp only [hv, Bool.not_false, if_true, Bool.false_eq_true, false_iff]
      rintro ⟨k, h1, h2, h3, h4, -⟩
      rcases Nat.eq_or_lt_of_le h1 with h | h
      · subst h; exact hv h4
      · exact hv (h3 s (le_refl _) h).1

theorem mem_slideRay (b : Board) (c : Color) (src : Square) (d : Int × Int) (m : Move) :
    ∀ n s : Nat, m ∈ slideRay b c src d s n ↔
      ∃ k : Nat, s ≤ k ∧ k < s + n ∧
        (∀ j : Nat, s ≤ j → j < k →
          (src.offset (d.1 * j) (d.2 * j)).isValid = true ∧
            b.atSq (src.offset (d.1 * j) (d.2 * j)) = none) ∧
        (src.offset (d.1 * k) (d.2 * k)).isValid = true ∧
        m.src = src ∧ m.dst = src.offset (d.1 * k) (d.2 * k) ∧ m.promoPiece = 0 ∧
        ((b.atSq (src.offset (d.1 * k) (d.2 * k)) = none ∧ m.flags = QUIET) ∨
          (∃ t, b.atSq (src.offset (d.1 * k) (d.2 * k)) = some t ∧ t.color ≠ c ∧
            m.flags = CAPTURE)) := by
  intro n
  induction n with
  | zero =>
    intro s
    simp only [slideRay, List.not_mem_nil, false_iff]
    rintro ⟨k, h1, h2, -⟩
    omega
  | succ n ih =>
    intro s
    unfold slideRay
    by_cases hv : (src.offset (d.1 * s) (d.2 * s)).isValid = true
    · cases hat : b.atSq (src.offset (d.1 * s) (d.2 * s)) with
      | none =>
        simp only [hv, Bool.not_true, Bool.false_eq_true, if_false, hat, List.mem_cons]
        rw [ih]
        constructor
        · rintro (h | ⟨k, h1, h2, h3, h4⟩)
          · subst h
            exact ⟨s, le_refl _, by omega, fun j hj1 hj2 => by omega, hv, rfl, rfl, rfl,
              Or.inl ⟨hat, rfl⟩⟩
          · refine ⟨k, by omega, by omega, ?_, h4⟩
            intro j hj1 hj2
            rcases Nat.eq_or_lt_of_le hj1 with h | h
            · subst h; exact ⟨hv, hat⟩
            · exact h3 j h hj2
        · rintro ⟨k, h1, h2, h3, h4, h5, h6, h7, h8⟩
          rcases Nat.eq_or_lt_of_le h1 with h | h
          · subst h
            left
            rcases h8 with ⟨-, h9⟩ | ⟨t, h9, -⟩
            · exact Move.ext h5 h6 h9 h7
            · rw [hat] at h9; cases h9
          · right
            exact ⟨k, h, by omega, fun j hj1 hj2 => h3 j (by omega) hj2, h4, h5, h6, h7, h8⟩
      | some p =>
        simp only [hv, Bool.not_true, Bool.false_eq_true, if_false, hat]
        constructor
        · intro h
          by_cases hc : p.color = c
          · simp [hc] at h
          · simp only [bne_iff_ne, ne_eq, hc, not_false_eq_true, if_true,
              List.mem_singleton] at h
            subst h
            exact ⟨s, le_refl _, by omega, fun j hj1 hj2 => by omega, hv, rfl, rfl, rfl,
              Or.inr ⟨p, hat, hc, rfl⟩⟩
        · rintro ⟨k, h1, h2, h3, h4, h5, h6, h7, h8⟩
          rcases Nat.eq_or_lt_of_le h1 with h | h
          · subst h
            rcases h8 with ⟨h9, -⟩ | ⟨t, h9, h10, h11⟩
            · rw [hat] at h9; cases h9
            · rw [hat] at h9
              cases h9
              simp only [bne_iff_ne, ne_eq, h10, not_false_eq_true, if_true, List.mem_singleton]
              exact Move.ext h5 h6 h11 h7
          · have := (h3 s (le_refl _) h).2
            rw [hat] at this; cases this
    · simp only [hv, Bool.not_false, if_true, List.not_mem_nil, false_iff]
      rintro ⟨k, h1, h2, h3, h4, -⟩
      rcases Nat.eq_or_lt_of_le h1 with h | h
      · subst h; exact hv h4
      · exact hv (h3 s (le_refl _) h).1

/-! ## Membership in the pawn generator -/

theorem mem_Pawn_legalMoves {b : Board} {c : Color} {src : Square} {m : Move} :
    m ∈ Pawn.legalMoves c b src ↔
      (((⟨src.file, u8 (src.rank + pawnDir c)⟩ : Square).isValid = true ∧
          b.atSq ⟨src.file, u8 (src.rank + pawnDir c)⟩ = none) ∧
        (m = (if ((u8 (src.rank + pawnDir c) : Nat) : Int) = pawnPromoRank c then
                Move.mk src ⟨src.file, u8 (src.rank + pawnDir c)⟩ PROMOTION PieceType.QUEEN.code
              else Move.mk src ⟨src.file, u8 (src.rank + pawnDir c)⟩ QUIET 0) ∨
          ((src.rank : Int) = pawnStartRank c ∧
            (⟨src.file, u8 (src.rank + 2 * pawnDir c)⟩ : Square).isValid = true ∧
            b.atSq ⟨src.file, u8 (src.rank + 2 * pawnDir c)⟩ = none ∧
            m = Move.mk src ⟨src.file, u8 (src.rank + 2 * pawnDir c)⟩ QUIET 0))) ∨
      ∃ df : Int, (df = -1 ∨ df = 1) ∧
        (⟨u8 (src.file + df), u8 (src.rank + pawnDir c)⟩ : Square).isValid = true ∧
        ((∃ t, b.atSq ⟨u8 (src.file + df), u8 (src.rank + pawnDir c)⟩ = some t ∧ t.color ≠ c ∧
            m = (if ((u8 (src.rank + pawnDir c) : Nat) : Int) = pawnPromoRank c then
                  Move.mk src ⟨u8 (src.file + df), u8 (src.rank + pawnDir c)⟩
                    (CAPTURE ||| PROMOTION) PieceType.QUEEN.code
                else Move.mk src ⟨u8 (src.file + df), u8 (src.rank + pawnDir c)⟩ CAPTURE 0)) ∨
          (∃ ep, b.enPassantTarget = some ep ∧ (ep.rank : Int) = src.rank + pawnDir c ∧
            ((ep.file : Int) = src.file + 1 ∨ (ep.file : Int) = src.file - 1) ∧
            m = Move.mk src ep EN_PASSANT 0)) := by
  cases c <;>
  · simp only [Pawn.legalMoves, pawnDir, pawnStartRank, pawnPromoRank, List.mem_append,
      List.mem_flatMap, List.mem_cons, List.mem_singleton, List.not_mem_nil, or_false,
      if_true, reduceCtorEq, if_false]
    apply or_congr
    · generalize hfw : (⟨src.file, u8 (src.rank + _)⟩ : Square) = fw
      generalize hdb : (⟨src.file, u8 (src.rank + _)⟩ : Square) = db
      by_cases h1 : fw.isValid = true
      · cases h2 : b.atSq fw with
        | none =>
          simp only [h1, h2, Option.isNone_none, Bool.and_self, if_true, List.mem_cons, true_and]
          apply or_congr Iff.rfl
          split
          · rename_i h3
            rw [and_iff_right h3]
            by_cases h4 : db.isValid = true
            · cases h5 : b.atSq db <;> simp [h4, h5]
            · simp [h4]
          · rename_i h3
            simp [h3]
        | some t => simp [h1, h2]
      · simp [h1]
    · constructor
      · rintro ⟨df, hdf, hm⟩
        refine ⟨df, hdf, ?_⟩
        generalize hcp : (⟨u8 (src.file + df), u8 (src.rank + _)⟩ : Square) = cp at hm ⊢
        by_cases h1 : cp.isValid = true
        · simp only [h1, Bool.not_true, Bool.false_eq_true, if_false, List.mem_append] at hm
          refine ⟨h1, ?_⟩
          rcases hm with hm | hm
          · left
            cases h2 : b.atSq cp with
            | none => simp [h2] at hm
            | some t =>
              simp only [h2] at hm
              split at hm
              · rename_i h3
                simp only [List.mem_singleton] at hm
                exact ⟨t, rfl, by simpa using h3, hm⟩
              · simp at hm
          · right
            cases h2 : b.enPassantTarget with
            | none => simp [h2] at hm
            | some ep =>
              simp only [h2] at hm
              split at hm
              · rename_i h3
                simp only [List.mem_singleton] at hm
                exact ⟨ep, rfl, h3.1, h3.2, hm⟩
              · simp at hm
        · simp [h1] at hm
      · rintro ⟨df, hdf, h1, hm⟩
        refine ⟨df, hdf, ?_⟩
        simp only [h1, Bool.not_true, Bool.false_eq_true, if_false, List.mem_append]
        rcases hm with ⟨t, h2, h3, hm⟩ | ⟨ep, h2, h3, h4, hm⟩
        · left
          simp only [h2, bne_iff_ne, ne_eq, h3, not_false_eq_true, if_true, List.mem_singleton]
          exact hm
        · right
          simp only [h2, h3, h4, and_self, if_true, List.mem_singleton]
          exact hm


/-! ## Geometry of offsets -/

theorem probe_eq_true_iff {b : Board} {s : Square} {c : Color} {t : PieceType} :
    probe b s c t = true ↔ s.isValid = true ∧ b.atSq s = some ⟨c, t⟩ := by
  unfold probe
  by_cases hv : s.isValid = true
  · cases hat : b.atSq s with
    | none => simp [hv]
    | some p =>
      cases p with
      | mk pc pt => simp [hv]
  · simp [hv]

theorem offset_neg_offset (f : Square) (dx dy : Int) (hf : f.isValid = true) :
    (f.offset dx dy).offset (-dx) (-dy) = f := by
  rw [isValid_iff] at hf
  simp only [Square.offset, u8, Square.ext_iff]
  constructor <;> omega

theorem offset_back (f : Square) (dx dy : Int) (k j : Nat) (hf : f.isValid = true)
    (hj : j ≤ k) (hdx : dx = -1 ∨ dx = 0 ∨ dx = 1) (hdy : dy = -1 ∨ dy = 0 ∨ dy = 1) :
    (f.offset (dx * k) (dy * k)).offset (-dx * j) (-dy * j) =
      f.offset (dx * ((k - j : Nat) : Int)) (dy * ((k - j : Nat) : Int)) := by
  rw [isValid_iff] at hf
  simp only [Square.offset, u8, Square.ext_iff]
  rcases hdx with rfl | rfl | rfl <;> rcases hdy with rfl | rfl | rfl <;>
    constructor <;> omega

theorem ray_length (s : Square) (dx dy : Int) (k : Nat) (hs : s.isValid = true)
    (hf : (s.offset (dx * k) (dy * k)).isValid = true) (hk : k < 10)
    (hdx : dx = -1 ∨ dx = 0 ∨ dx = 1) (hdy : dy = -1 ∨ dy = 0 ∨ dy = 1)
    (hd : dx ≠ 0 ∨ dy ≠ 0) : k < 8 := by
  rw [isValid_iff] at hs hf
  simp only [Square.offset, u8] at hf
  rcases hdx with rfl | rfl | rfl <;> rcases hdy with rfl | rfl | rfl <;>
    omega

theorem ray_link (b : Board) (s : Square) (dx dy : Int) (k : Nat) (hs : s.isValid = true)
    (hdx : dx = -1 ∨ dx = 0 ∨ dx = 1) (hdy : dy = -1 ∨ dy = 0 ∨ dy = 1)
    (hclear : ∀ j : Nat, 1 ≤ j → j < k →
      (s.offset (dx * j) (dy * j)).isValid = true ∧ b.atSq (s.offset (dx * j) (dy * j)) = none) :
    (∀ j : Nat, 1 ≤ j → j < k →
      ((s.offset (dx * k) (dy * k)).offset (-dx * j) (-dy * j)).isValid = true ∧
        b.atSq ((s.offset (dx * k) (dy * k)).offset (-dx * j) (-dy * j)) = none) ∧
    (s.offset (dx * k) (dy * k)).offset (-dx * k) (-dy * k) = s := by
  constructor
  · intro j h1 h2
    rw [offset_back s dx dy k j hs (by omega) hdx hdy]
    exact hclear (k - j) (by omega) (by omega)
  · rw [offset_back s dx dy k k hs (le_refl _) hdx hdy]
    rw [isValid_iff] at hs
    simp only [Square.offset, u8, Square.ext_iff, Nat.sub_self, Nat.cast_zero, mul_zero, add_zero]
    constructor <;> omega


/-! ## Attack detection against capture generation -/

theorem dirs_unit {d : Int × Int} (h : d ∈ diagDirs ∨ d ∈ orthoDirs) :
    (d.1 = -1 ∨ d.1 = 0 ∨ d.1 = 1) ∧ (d.2 = -1 ∨ d.2 = 0 ∨ d.2 = 1) ∧ (d.1 ≠ 0 ∨ d.2 ≠ 0) := by
  simp only [diagDirs, orthoDirs, List.mem_cons, List.mem_singleton, List.not_mem_nil,
    or_false] at h
  rcases h with (h | h | h | h) | (h | h | h | h) <;> subst h <;> simp

theorem neg_mem_diagDirs {d : Int × Int} (h : d ∈ diagDirs) : (-d.1, -d.2) ∈ diagDirs := by
  simp only [diagDirs, List.mem_cons, List.mem_singleton, List.not_mem_nil, or_false] at h
  rcases h with h | h | h | h <;> subst h <;> simp [diagDirs]

theorem neg_mem_orthoDirs {d : Int × Int} (h : d ∈ orthoDirs) : (-d.1, -d.2) ∈ orthoDirs := by
  simp only [orthoDirs, List.mem_cons, List.mem_singleton, List.not_mem_nil, or_false] at h
  rcases h with h | h | h | h <;> subst h <;> simp [orthoDirs]

theorem neg_mem_knightJumps {d : Int × Int} (h : d ∈ knightJumps) :
    (-d.1, -d.2) ∈ knightJumps := by
  simp only [knightJumps, List.mem_cons, List.mem_singleton, List.not_mem_nil, or_false] at h
  rcases h with h | h | h | h | h | h | h | h <;> subst h <;> simp [knightJumps]

theorem neg_mem_kingSteps {d : Int × Int} (h : d ∈ kingSteps) : (-d.1, -d.2) ∈ kingSteps := by
  simp only [kingSteps, List.mem_cons, List.mem_singleton, List.not_mem_nil, or_false] at h
  rcases h with h | h | h | h | h | h | h | h <;> subst h <;> simp [kingSteps]

/-- The destination of a slide from `f` along `d` is seen by the attack ray
that leaves the destination along `-d`. -/
theorem attackRay_of_slide_capture {b : Board} {c : Color} {f : Square} {d : Int × Int}
    {m : Move} {p : Piece} {t1 t2 : PieceType}
    (hd : d ∈ diagDirs ∨ d ∈ orthoDirs) (hf : f.isValid = true) (hp : b.atSq f = some p)
    (hpc : p.color = c) (hpt : p.type = t1 ∨ p.type = t2)
    (hm : m ∈ slideRay b c f d 1 7) :
    attackRay b m.dst c t1 t2 (-d.1, -d.2) 1 9 = true := by
  obtain ⟨hdx, hdy, -⟩ := dirs_unit hd
  rw [mem_slideRay] at hm
  obtain ⟨k, hk1, hk2, hclear, hv, -, hdst, -, hfl⟩ := hm
  rw [attackRay_eq_true_iff]
  obtain ⟨hl1, hl2⟩ := ray_link b f d.1 d.2 k hf hdx hdy hclear
  rw [hdst]
  refine ⟨k, hk1, by omega, hl1, ?_, p, ?_, hpc, hpt⟩
  · show ((f.offset (d.1 * k) (d.2 * k)).offset (-d.1 * k) (-d.2 * k)).isValid = true
    rw [hl2]; exact hf
  · show b.atSq ((f.offset (d.1 * k) (d.2 * k)).offset (-d.1 * k) (-d.2 * k)) = some p
    rw [hl2]; exact hp

/-- An attack ray from `s` along `d` that finds a piece finds one whose slide
along `-d` captures on `s`, when `s` holds a piece of the other colour. -/
theorem slide_capture_of_attackRay {b : Board} {c : Color} {s : Square} {d : Int × Int}
    {q : Piece} {t1 t2 : PieceType}
    (hd : d ∈ diagDirs ∨ d ∈ orthoDirs) (hs : s.isValid = true) (hq : b.atSq s = some q)
    (hqc : q.color ≠ c) (h : attackRay b s c t1 t2 d 1 9 = true) :
    ∃ f p, f.isValid = true ∧ b.atSq f = some p ∧ p.color = c ∧ (p.type = t1 ∨ p.type = t2) ∧
      Move.mk f s CAPTURE 0 ∈ slideRay b c f (-d.1, -d.2) 1 7 := by
  obtain ⟨hdx, hdy, hne⟩ := dirs_unit hd
  rw [attackRay_eq_true_iff] at h
  obtain ⟨k, hk1, hk2, hclear, hv, p, hp, hpc, hpt⟩ := h
  have hk8 : k < 8 := ray_length s d.1 d.2 k hs hv (by omega) hdx hdy hne
  obtain ⟨hl1, hl2⟩ := ray_link b s d.1 d.2 k hs hdx hdy hclear
  refine ⟨s.offset (d.1 * k) (d.2 * k), p, hv, hp, hpc, hpt, ?_⟩
  rw [mem_slideRay]
  refine ⟨k, hk1, by omega, hl1, ?_, rfl, ?_, rfl, Or.inr ⟨q, ?_, hqc, rfl⟩⟩
  · show ((s.offset (d.1 * k) (d.2 * k)).offset (-d.1 * k) (-d.2 * k)).isValid = true
    rw [hl2]; exact hs
  · show s = (s.offset (d.1 * k) (d.2 * k)).offset (-d.1 * k) (-d.2 * k)
    rw [hl2]
  · show b.atSq ((s.offset (d.1 * k) (d.2 * k)).offset (-d.1 * k) (-d.2 * k)) = some q
    rw [hl2]; exact hq

/-- A capturing step from `f` by `j` is seen by the probe of the destination
at offset `-j`. -/
theorem probe_of_step_capture {b : Board} {c : Color} {f : Square} {j : Int × Int}
    {m : Move} {p : Piece} (hf : f.isValid = true) (hp : b.atSq f = some p) (hpc : p.color = c)
    (hm : m ∈ stepMove b c f j) :
    probe b (m.dst.offset (-j.1) (-j.2)) c p.type = true := by
  rw [mem_stepMove] at hm
  obtain ⟨-, -, hdst, -, -⟩ := hm
  rw [hdst, offset_neg_offset f j.1 j.2 hf, probe_eq_true_iff]
  refine ⟨hf, ?_⟩
  rw [hp, ← hpc]

theorem step_capture_of_probe {b : Board} {c : Color} {s : Square} {j : Int × Int}
    {q : Piece} {t : PieceType} (hs : s.isValid = true) (hq : b.atSq s = some q)
    (hqc : q.color ≠ c) (h : probe b (s.offset j.1 j.2) c t = true) :
    (s.offset j.1 j.2).isValid = true ∧ b.atSq (s.offset j.1 j.2) = some ⟨c, t⟩ ∧
      Move.mk (s.offset j.1 j.2) s CAPTURE 0 ∈ stepMove b c (s.offset j.1 j.2) (-j.1, -j.2) := by
  rw [probe_eq_true_iff] at h
  refine ⟨h.1, h.2, ?_⟩
  rw [mem_stepMove]
  have hb : (s.offset j.1 j.2).offset (-j.1) (-j.2) = s := offset_neg_offset s j.1 j.2 hs
  refine ⟨?_, rfl, ?_, rfl, Or.inr ⟨q, ?_, hqc, rfl⟩⟩
  · show ((s.offset j.1 j.2).offset (-j.1) (-j.2)).isValid = true
    rw [hb]; exact hs
  · show s = (s.offset j.1 j.2).offset (-j.1) (-j.2)
    rw [hb]
  · show b.atSq ((s.offset j.1 j.2).offset (-j.1) (-j.2)) = some q
    rw [hb]; exact hq


theorem isSquareAttacked_eq_true_iff {b : Board} {sq : Square} {c : Color} :
    b.isSquareAttacked sq c = true ↔
      (∃ df : Int, (df = -1 ∨ df = 1) ∧ probe b (sq.offset df (-pawnDir c)) c .PAWN = true) ∨
      (∃ j ∈ knightJumps, probe b (sq.offset j.1 j.2) c .KNIGHT = true) ∨
      (∃ d ∈ diagDirs, attackRay b sq c .BISHOP .QUEEN d 1 9 = true) ∨
      (∃ d ∈ orthoDirs, attackRay b sq c .ROOK .QUEEN d 1 9 = true) ∨
      (∃ k ∈ kingSteps, probe b (sq.offset k.1 k.2) c .KING = true) := by
  have hdir : (if c = Color.WHITE then (-1 : Int) else 1) = -pawnDir c := by
    cases c <;> simp [pawnDir]
  simp only [Board.isSquareAttacked, Bool.or_eq_true, List.any_eq_true, hdir, List.mem_cons,
    List.mem_singleton, List.not_mem_nil, or_false, or_assoc]

/-- Every generated move that carries the CAPTURE flag lands on a square that
`isSquareAttacked` reports as attacked by the moving colour. -/
theorem isSquareAttacked_of_capture {b : Board} {c : Color} {m : Move}
    (hm : m ∈ b.generateLegalMoves c) (hcap : hasFlag m.flags CAPTURE = true) :
    b.isSquareAttacked m.dst c = true := by
  obtain ⟨f, p, hf, hp, hpc, hmem⟩ := mem_generateLegalMoves.1 hm
  rw [isSquareAttacked_eq_true_iff]
  cases p with
  | mk pc pt =>
    simp only at hpc
    subst hpc
    cases pt with
    | KING =>
      simp only [Piece.legalMoves, King.legalMoves, List.mem_append, List.mem_flatMap] at hmem
      rcases hmem with ⟨j, hj, hmj⟩ | hmem
      · exact Or.inr (Or.inr (Or.inr (Or.inr ⟨(-j.1, -j.2), neg_mem_kingSteps hj,
          probe_of_step_capture hf hp rfl hmj⟩)))
      · rcases mem_castlingMoves.1 hmem with ⟨-, h⟩ | ⟨-, h⟩ <;>
          · rw [h] at hcap
            exact absurd hcap (by simp +decide [hasFlag, CASTLING_K, CASTLING_Q, CAPTURE])
    | QUEEN =>
      simp only [Piece.legalMoves, Queen.legalMoves, Bishop.legalMoves, Rook.legalMoves,
        List.mem_append, List.mem_flatMap] at hmem
      rcases hmem with ⟨d, hd, hmd⟩ | ⟨d, hd, hmd⟩
      · exact Or.inr (Or.inr (Or.inl ⟨(-d.1, -d.2), neg_mem_diagDirs hd,
          attackRay_of_slide_capture (Or.inl hd) hf hp rfl (Or.inr rfl) hmd⟩))
      · exact Or.inr (Or.inr (Or.inr (Or.inl ⟨(-d.1, -d.2), neg_mem_orthoDirs hd,
          attackRay_of_slide_capture (Or.inr hd) hf hp rfl (Or.inr rfl) hmd⟩)))
    | ROOK =>
      simp only [Piece.legalMoves, Rook.legalMoves, List.mem_flatMap] at hmem
      obtain ⟨d, hd, hmd⟩ := hmem
      exact Or.inr (Or.inr (Or.inr (Or.inl ⟨(-d.1, -d.2), neg_mem_orthoDirs hd,
          attackRay_of_slide_capture (Or.inr hd) hf hp rfl (Or.inl rfl) hmd⟩)))
    | BISHOP =>
      simp only [Piece.legalMoves, Bishop.legalMoves, List.mem_flatMap] at hmem
      obtain ⟨d, hd, hmd⟩ := hmem
      exact Or.inr (Or.inr (Or.inl ⟨(-d.1, -d.2), neg_mem_diagDirs hd,
          attackRay_of_slide_capture (Or.inl hd) hf hp rfl (Or.inl rfl) hmd⟩))
    | KNIGHT =>
      simp only [Piece.legalMoves, Knight.legalMoves, List.mem_flatMap] at hmem
      obtain ⟨j, hj, hmj⟩ := hmem
      exact Or.inr (Or.inl ⟨(-j.1, -j.2), neg_mem_knightJumps hj,
          probe_of_step_capture hf hp rfl hmj⟩)
    | PAWN =>
      simp only [Piece.legalMoves] at hmem
      rw [mem_Pawn_legalMoves] at hmem
      rcases hmem with ⟨-, h | ⟨-, -, -, h⟩⟩ | ⟨df, hdf, hv, ⟨t, ht, htc, h⟩ | ⟨ep, -, -, -, h⟩⟩
      · rw [h] at hcap
        split at hcap <;>
          exact absurd hcap (by simp +decide [hasFlag, PROMOTION, QUIET, CAPTURE])
      · rw [h] at hcap
        exact absurd hcap (by simp +decide [hasFlag, PROMOTION, QUIET, CAPTURE])
      · have hdst : m.dst = f.offset df (pawnDir pc) := by
          rw [h]; split <;> rfl
        refine Or.inl ⟨-df, by omega, ?_⟩
        rw [hdst, offset_neg_offset f df (pawnDir pc) hf, probe_eq_true_iff]
        exact ⟨hf, hp⟩
      · rw [h] at hcap
        exact absurd hcap (by simp +decide [hasFlag, EN_PASSANT, CAPTURE])

/-- A square that holds a piece of the other colour and is reported attacked by
`c` is the destination of a generated move of `c` carrying the CAPTURE flag. -/
theorem capture_of_isSquareAttacked {b : Board} {c : Color} {s : Square} {q : Piece}
    (hs : s.isValid = true) (hq : b.atSq s = some q) (hqc : q.color ≠ c)
    (h : b.isSquareAttacked s c = true) :
    ∃ m ∈ b.generateLegalMoves c, hasFlag m.flags CAPTURE = true ∧ m.dst = s := by
  rw [isSquareAttacked_eq_true_iff] at h
  rcases h with ⟨df, hdf, h⟩ | ⟨j, hj, h⟩ | ⟨d, hd, h⟩ | ⟨d, hd, h⟩ | ⟨j, hj, h⟩
  · rw [probe_eq_true_iff] at h
    obtain ⟨hfv, hfp⟩ := h
    have hback : (s.offset df (-pawnDir c)).offset (-df) (pawnDir c) = s := by
      have := offset_neg_offset s df (-pawnDir c) hs
      rwa [neg_neg] at this
    have hrank : (s.offset df (-pawnDir c)).offset (-df) (pawnDir c) =
        ⟨u8 ((s.offset df (-pawnDir c)).file + -df),
          u8 ((s.offset df (-pawnDir c)).rank + pawnDir c)⟩ := rfl
    generalize hfe : s.offset df (-pawnDir c) = f at *
    refine ⟨if ((u8 (f.rank + pawnDir c) : Nat) : Int) = pawnPromoRank c then
                  Move.mk f ⟨u8 (f.file + -df), u8 (f.rank + pawnDir c)⟩
                    (CAPTURE ||| PROMOTION) PieceType.QUEEN.code
                else Move.mk f ⟨u8 (f.file + -df), u8 (f.rank + pawnDir c)⟩ CAPTURE 0, ?_, ?_, ?_⟩
    · refine mem_generateLegalMoves.2 ⟨f, ⟨c, .PAWN⟩, hfv, hfp, rfl, ?_⟩
      simp only [Piece.legalMoves]
      rw [mem_Pawn_legalMoves]
      refine Or.inr ⟨-df, by omega, ?_, Or.inl ⟨q, ?_, hqc, rfl⟩⟩
      · rw [← hrank, hback]; exact hs
      · rw [← hrank, hback]; exact hq
    · split <;> simp +decide [hasFlag, CAPTURE, PROMOTION]
    · rw [← hback, hrank]; split <;> rfl
  · obtain ⟨hfv, hfp, hm⟩ := step_capture_of_probe hs hq hqc h
    refine ⟨Move.mk (s.offset j.1 j.2) s CAPTURE 0,
      mem_generateLegalMoves.2 ⟨_, _, hfv, hfp, rfl, ?_⟩, by simp +decide [hasFlag, CAPTURE], rfl⟩
    simp only [Piece.legalMoves, Knight.legalMoves, List.mem_flatMap]
    exact ⟨_, neg_mem_knightJumps hj, hm⟩
  · obtain ⟨f, p, hfv, hfp, hpc, hpt, hm⟩ := slide_capture_of_attackRay (Or.inl hd) hs hq hqc h
    refine ⟨Move.mk f s CAPTURE 0,
      mem_generateLegalMoves.2 ⟨f, p, hfv, hfp, hpc, ?_⟩, by simp +decide [hasFlag, CAPTURE], rfl⟩
    cases p with
    | mk pc pt =>
      simp only at hpc hpt
      subst hpc
      rcases hpt with rfl | rfl
      · simp only [Piece.legalMoves, Bishop.legalMoves, List.mem_flatMap]
        exact ⟨_, neg_mem_diagDirs hd, hm⟩
      · simp only [Piece.legalMoves, Queen.legalMoves, Bishop.legalMoves, List.mem_append,
          List.mem_flatMap]
        exact Or.inl ⟨_, neg_mem_diagDirs hd, hm⟩
  · obtain ⟨f, p, hfv, hfp, hpc, hpt, hm⟩ := slide_capture_of_attackRay (Or.inr hd) hs hq hqc h
    refine ⟨Move.mk f s CAPTURE 0,
      mem_generateLegalMoves.2 ⟨f, p, hfv, hfp, hpc, ?_⟩, by simp +decide [hasFlag, CAPTURE], rfl⟩
    cases p with
    | mk pc pt =>
      simp only at hpc hpt
      subst hpc
      rcases hpt with rfl | rfl
      · simp only [Piece.legalMoves, Rook.legalMoves, List.mem_flatMap]
        exact ⟨_, neg_mem_orthoDirs hd, hm⟩
      · simp only [Piece.legalMoves, Queen.legalMoves, Rook.legalMoves, List.mem_append,
          List.mem_flatMap]
        exact Or.inr ⟨_, neg_mem_orthoDirs hd, hm⟩
  · obtain ⟨hfv, hfp, hm⟩ := step_capture_of_probe hs hq hqc h
    refine ⟨Move.mk (s.offset j.1 j.2) s CAPTURE 0,
      mem_generateLegalMoves.2 ⟨_, _, hfv, hfp, rfl, ?_⟩, by simp +decide [hasFlag, CAPTURE], rfl⟩
    simp only [Piece.legalMoves, King.legalMoves, List.mem_append, List.mem_flatMap]
    exact Or.inl ⟨_, neg_mem_kingSteps hj, hm⟩

/-- C8: on every board, for every colour `c` and every valid square `s` that
holds a piece of the opposite colour, `isSquareAttacked s c` is true exactly
when `generateLegalMoves c` contains a move with the CAPTURE flag whose
destination is `s`. -/
theorem isSquareAttacked_iff_capture_generated (b : Board) (c : Color) (s : Square) (q : Piece)
    (hs : s.isValid = true) (hq : b.atSq s = some q) (hqc : q.color = c.flip) :
    b.isSquareAttacked s c = true ↔
      ∃ m ∈ b.generateLegalMoves c, hasFlag m.flags CAPTURE = true ∧ m.dst = s := by
  constructor
  · intro h
    refine capture_of_isSquareAttacked hs hq ?_ h
    rw [hqc]; cases c <;> simp [Color.flip]
  · rintro ⟨m, hm, hcap, rfl⟩
    exact isSquareAttacked_of_capture hm hcap

theorem isSquareAttacked_iff_capture_generated_witness :
    (Board.initial.putPiece ⟨0, 2⟩ (some ⟨.BLACK, .PAWN⟩)).isSquareAttacked ⟨0, 2⟩ .WHITE = true ∧
    ((Board.initial.putPiece ⟨0, 2⟩ (some ⟨.BLACK, .PAWN⟩)).isSquareAttacked ⟨0, 2⟩ .WHITE = true ↔
      ∃ m ∈ (Board.initial.putPiece ⟨0, 2⟩ (some ⟨.BLACK, .PAWN⟩)).generateLegalMoves .WHITE,
        hasFlag m.flags CAPTURE = true ∧ m.dst = ⟨0, 2⟩) :=
  ⟨by decide,
    isSquareAttacked_iff_capture_generated _ .WHITE ⟨0, 2⟩ ⟨.BLACK, .PAWN⟩
      (by decide) (by decide) (by decide)⟩

/-- The bound of nine iterations in `isSquareAttacked` is never the reason an
attack ray stops: a ray leaves the board after at most eight steps, so any
larger bound gives the same answer. -/
theorem attackRay_fuel (b : Board) (sq : Square) (c : Color) (t1 t2 : PieceType)
    (d : Int × Int) (hd : d ∈ diagDirs ∨ d ∈ orthoDirs) (n : Nat) (hn : 9 ≤ n) :
    attackRay b sq c t1 t2 d 1 n = attackRay b sq c t1 t2 d 1 9 := by
  obtain ⟨hdx, hdy, hne⟩ := dirs_unit hd
  rw [Bool.eq_iff_iff, attackRay_eq_true_iff, attackRay_eq_true_iff]
  constructor
  · rintro ⟨k, h1, h2, h3, h4, h5⟩
    refine ⟨k, h1, ?_, h3, h4, h5⟩
    by_contra hk
    have hv1 : (sq.offset (d.1 * (1 : Nat)) (d.2 * (1 : Nat))).isValid = true := by
      rcases Nat.eq_or_lt_of_le h1 with h | h
      · rw [h]; exact h4
      · exact (h3 1 (le_refl _) h).1
    have hv9 : (sq.offset (d.1 * (9 : Nat)) (d.2 * (9 : Nat))).isValid = true := by
      rcases Nat.eq_or_lt_of_le (show 9 ≤ k by omega) with h | h
      · rw [h]; exact h4
      · exact (h3 9 (by omega) h).1
    rw [isValid_iff] at hv1 hv9
    simp only [Square.offset, u8] at hv1 hv9
    rcases hdx with h | h | h <;> rcases hdy with h' | h' | h' <;> rw [h, h'] at hv1 hv9 hne <;>
      omega
  · rintro ⟨k, h1, h2, h3⟩
    exact ⟨k, h1, by omega, h3⟩


/-! ## The form of generated moves -/

theorem generated_of_step {b : Board} {p : Piece} {src : Square} {j : Int × Int} {m : Move}
    (hpt : p.type ≠ .PAWN) (hm : m ∈ stepMove b p.color src j) : Generated b p src m := by
  rw [mem_stepMove] at hm
  obtain ⟨hv, h1, h2, h3, ⟨h4, h5⟩ | ⟨t, h4, h5, h6⟩⟩ := hm
  · have : m = Move.mk src (src.offset j.1 j.2) QUIET 0 := Move.ext h1 h2 h5 h3
    rw [this]
    exact Generated.quiet _ hv h4 (fun h => absurd h hpt)
  · have : m = Move.mk src (src.offset j.1 j.2) CAPTURE 0 := Move.ext h1 h2 h6 h3
    rw [this]
    exact Generated.capture _ t hv h4 h5 (fun h => absurd h hpt)

theorem generated_of_slide {b : Board} {p : Piece} {src : Square} {d : Int × Int} {m : Move}
    (hpt : p.type ≠ .PAWN) (hm : m ∈ slideRay b p.color src d 1 7) : Generated b p src m := by
  rw [mem_slideRay] at hm
  obtain ⟨k, -, -, -, hv, h1, h2, h3, ⟨h4, h5⟩ | ⟨t, h4, h5, h6⟩⟩ := hm
  · have : m = Move.mk src (src.offset (d.1 * k) (d.2 * k)) QUIET 0 := Move.ext h1 h2 h5 h3
    rw [this]
    exact Generated.quiet _ hv h4 (fun h => absurd h hpt)
  · have : m = Move.mk src (src.offset (d.1 * k) (d.2 * k)) CAPTURE 0 := Move.ext h1 h2 h6 h3
    rw [this]
    exact Generated.capture _ t hv h4 h5 (fun h => absurd h hpt)

theorem generated_of_pawn {b : Board} {c : Color} {src : Square} {m : Move}
    (hsrc : src.isValid = true) (hm : m ∈ Pawn.legalMoves c b src) :
    Generated b ⟨c, .PAWN⟩ src m := by
  rw [mem_Pawn_legalMoves] at hm
  have hs := isValid_iff.1 hsrc
  have hdir : pawnDir c = 1 ∨ pawnDir c = -1 := by cases c <;> simp [pawnDir]
  rcases hm with ⟨⟨hv, he⟩, h | ⟨-, hv2, he2, h⟩⟩ |
    ⟨df, hdf, hv, ⟨t, ht, htc, h⟩ | ⟨ep, hep, hr, hf, h⟩⟩
  · have hr : (((⟨src.file, u8 (src.rank + pawnDir c)⟩ : Square).rank : Nat) : Int) =
        src.rank + pawnDir c := by
      have := isValid_iff.1 hv
      simp only [u8] at this ⊢
      omega
    rw [h]
    split
    · exact Generated.promotion _ rfl hv he hr
    · exact Generated.quiet _ hv he (fun _ => ⟨rfl, Or.inl hr⟩)
  · rw [h]
    refine Generated.quiet _ hv2 he2 (fun _ => ⟨rfl, Or.inr ⟨?_, he⟩⟩)
    have := isValid_iff.1 hv2
    simp only [u8] at this ⊢
    omega
  · have hr : (((⟨u8 (src.file + df), u8 (src.rank + pawnDir c)⟩ : Square).rank : Nat) : Int) =
        src.rank + pawnDir c := by
      have := isValid_iff.1 hv
      simp only [u8] at this ⊢
      omega
    rw [h]
    split
    · exact Generated.capturePromotion _ t rfl hv ht htc hr
    · exact Generated.capture _ t hv ht htc (fun _ => hr)
  · rw [h]
    exact Generated.enPassant _ rfl hep hr hf

/-- Every move a generator emits has one of the seven forms of `Generated`. -/
theorem generated_shape {b : Board} {p : Piece} {src : Square} {m : Move}
    (hsrc : src.isValid = true) (hm : m ∈ p.legalMoves b src) : Generated b p src m := by
  cases p with
  | mk pc pt =>
    cases pt with
    | KING =>
      simp only [Piece.legalMoves, King.legalMoves, List.mem_append, List.mem_flatMap] at hm
      rcases hm with ⟨j, -, hmj⟩ | hm
      · exact generated_of_step (by simp) hmj
      · rcases mem_castlingMoves.1 hm with ⟨⟨h1, h2, h3, h4⟩, h⟩ | ⟨⟨h1, h2, h3, h4, h5⟩, h⟩
        · rw [h]; exact Generated.castleK rfl h1 h2 h3 h4
        · rw [h]; exact Generated.castleQ rfl h1 h2 h3 h4 h5
    | QUEEN =>
      simp only [Piece.legalMoves, Queen.legalMoves, Bishop.legalMoves, Rook.legalMoves,
        List.mem_append, List.mem_flatMap] at hm
      rcases hm with ⟨d, -, hmd⟩ | ⟨d, -, hmd⟩ <;> exact generated_of_slide (by simp) hmd
    | ROOK =>
      simp only [Piece.legalMoves, Rook.legalMoves, List.mem_flatMap] at hm
      obtain ⟨d, -, hmd⟩ := hm
      exact generated_of_slide (by simp) hmd
    | BISHOP =>
      simp only [Piece.legalMoves, Bishop.legalMoves, List.mem_flatMap] at hm
      obtain ⟨d, -, hmd⟩ := hm
      exact generated_of_slide (by simp) hmd
    | KNIGHT =>
      simp only [Piece.legalMoves, Knight.legalMoves, List.mem_flatMap] at hm
      obtain ⟨j, -, hmj⟩ := hm
      exact generated_of_step (by simp) hmj
    | PAWN =>
      simp only [Piece.legalMoves] at hm
      exact generated_of_pawn hsrc hm


/-! ## Board slots after `putPiece` and `takePiece` -/

@[simp] theorem atSq_putPiece (b : Board) (s t : Square) (p : Option Piece) :
    (b.putPiece s p).atSq t = if t.index = s.index then p else b.atSq t := rfl

@[simp] theorem takePiece_fst (b : Board) (s : Square) : (b.takePiece s).1 = b.atSq s := rfl

@[simp] theorem takePiece_snd (b : Board) (s : Square) :
    (b.takePiece s).2 = b.putPiece s none := rfl

@[simp] theorem atSq_setCastlingRights (b : Board) (r : Nat) (t : Square) :
    (b.setCastlingRights r).atSq t = b.atSq t := rfl

@[simp] theorem atSq_setEnPassantTarget (b : Board) (e : Option Square) (t : Square) :
    (b.setEnPassantTarget e).atSq t = b.atSq t := rfl

theorem allSquares_nodup : allSquares.Nodup := by decide

theorem isKing_le_one (o : Option Piece) (c : Color) : isKing o c ≤ 1 := by
  unfold isKing; split <;> omega

theorem sum_isKing_putPiece (b : Board) (s : Square) (p : Option Piece) (c : Color)
    (hs : s.isValid = true) :
    ∀ l : List Square, l.Nodup → (∀ x ∈ l, x.isValid = true) →
      (l.map fun x => isKing ((b.putPiece s p).atSq x) c).sum +
          (if s ∈ l then isKing (b.atSq s) c else 0) =
        (l.map fun x => isKing (b.atSq x) c).sum + (if s ∈ l then isKing p c else 0) := by
  intro l
  induction l with
  | nil => intro _ _; simp
  | cons x l ih =>
    intro hnd hval
    have hx : x.isValid = true := hval x (List.mem_cons_self _ _)
    have ih2 := ih (List.nodup_cons.1 hnd).2 (fun y hy => hval y (List.mem_cons_of_mem _ hy))
    have hxl : x ∉ l := (List.nodup_cons.1 hnd).1
    simp only [List.map_cons, List.sum_cons, List.mem_cons]
    rw [atSq_putPiece]
    by_cases hsx : s = x
    · subst hsx
      simp only [true_or, if_true, hxl, if_false, add_zero] at ih2 ⊢
      omega
    · have hne : ¬ x.index = s.index := fun h => hsx ((index_inj hx hs).1 h).symm
      simp only [hne, if_false, hsx, false_or]
      omega

/-- Accounting of kings over one `putPiece` on a valid square. -/
theorem kingCount_putPiece (b : Board) (s : Square) (p : Option Piece) (c : Color)
    (hs : s.isValid = true) :
    kingCount (b.putPiece s p) c + isKing (b.atSq s) c = kingCount b c + isKing p c := by
  have h := sum_isKing_putPiece b s p c hs allSquares allSquares_nodup
    (fun x hx => mem_allSquares.1 hx)
  simpa only [mem_allSquares.2 hs, if_true] using h

@[simp] theorem kingCount_setCastlingRights (b : Board) (r : Nat) (c : Color) :
    kingCount (b.setCastlingRights r) c = kingCount b c := rfl

@[simp] theorem kingCount_setEnPassantTarget (b : Board) (e : Option Square) (c : Color) :
    kingCount (b.setEnPassantTarget e) c = kingCount b c := rfl

/-- With one king of colour `c` on the board, a square holding it is the only one. -/
theorem king_unique {b : Board} {c : Color} {s t : Square} (hc : kingCount b c ≤ 1)
    (hs : s.isValid = true) (ht : t.isValid = true)
    (hsk : b.atSq s = some ⟨c, .KING⟩) (htk : b.atSq t = some ⟨c, .KING⟩) : s = t := by
  by_contra hne
  have h1 := kingCount_putPiece b s none c hs
  have h2 := kingCount_putPiece (b.putPiece s none) t none c ht
  have hne2 : ¬ t.index = s.index := fun h => hne ((index_inj ht hs).1 h).symm
  simp only [atSq_putPiece, hne2, if_false, hsk, htk, isKing, if_true, reduceCtorEq] at h1 h2
  omega


/-! ## `makeMove`: success and what it does to the number of kings -/

theorem makeMove_eq_ok_iff {g : Game} {m : Move} {g' : Game} :
    g.makeMove m = .ok g' ↔
      m.src.isValid = true ∧ m.dst.isValid = true ∧
        ∃ mp, (captureStep g.board m).2.atSq m.src = some mp ∧
          ownPieceOn (captureStep g.board m).2 m mp = false ∧
          g' = g.applyChecked m (captureStep g.board m).1 (captureStep g.board m).2 mp := by
  unfold Game.makeMove
  by_cases hs : m.src.isValid = true
  · by_cases hd : m.dst.isValid = true
    · simp only [hs, hd, Bool.not_true, Bool.or_self, Bool.false_eq_true, if_false, true_and]
      cases hat : (captureStep g.board m).2.atSq m.src with
      | none => simp
      | some mp =>
        cases hown : ownPieceOn (captureStep g.board m).2 m mp with
        | true => simp [hown]
        | false =>
          simp only [hown, Bool.false_eq_true, if_false, Except.ok.injEq, Option.some.injEq,
            exists_eq_left', true_and]
          exact eq_comm
    · simp [hs, hd]
  · simp [hs]

theorem captureSquare_valid {m : Move} (hs : m.src.isValid = true) (hd : m.dst.isValid = true) :
    (⟨m.dst.file, m.src.rank⟩ : Square).isValid = true := by
  rw [isValid_iff] at *
  exact ⟨hd.1, hs.2⟩

theorem kingCount_captureStep (b : Board) (m : Move) (c : Color)
    (hs : m.src.isValid = true) (hd : m.dst.isValid = true) :
    kingCount (captureStep b m).2 c + isKing (captureStep b m).1 c = kingCount b c := by
  have h0 : isKing none c = 0 := by simp [isKing]
  unfold captureStep
  split
  · have := kingCount_putPiece b ⟨m.dst.file, m.src.rank⟩ none c (captureSquare_valid hs hd)
    simp only [takePiece_fst, takePiece_snd]
    omega
  · split
    · have := kingCount_putPiece b m.dst none c hd
      simp only [takePiece_fst, takePiece_snd]
      omega
    · simp only []
      omega

theorem backRank_valid (side : Color) (f : Nat) (hf : f < 8) :
    (⟨f, if side = Color.WHITE then 0 else 7⟩ : Square).isValid = true := by
  cases side <;> simp [Square.isValid, hf]

theorem isKing_none (c : Color) : isKing none c = 0 := by simp [isKing]

theorem kingCount_placeStep_le (b : Board) (side : Color) (m : Move) (mover : Option Piece)
    (c : Color) (hd : m.dst.isValid = true) :
    kingCount (placeStep b side m mover) c ≤ kingCount b c + isKing mover c := by
  have h1 := kingCount_putPiece b m.dst mover c hd
  have h0 := isKing_none c
  unfold placeStep
  by_cases hK : hasFlag m.flags CASTLING_K = true
  · have h2 := kingCount_putPiece (b.putPiece m.dst mover) ⟨7, if side = .WHITE then 0 else 7⟩
      none c (backRank_valid side 7 (by omega))
    have h3 := kingCount_putPiece
      ((b.putPiece m.dst mover).putPiece ⟨7, if side = .WHITE then 0 else 7⟩ none)
      ⟨5, if side = .WHITE then 0 else 7⟩
      ((b.putPiece m.dst mover).atSq ⟨7, if side = .WHITE then 0 else 7⟩) c
      (backRank_valid side 5 (by omega))
    simp only [hK, if_true, takePiece_fst, takePiece_snd]
    omega
  · by_cases hQ : hasFlag m.flags CASTLING_Q = true
    · have h2 := kingCount_putPiece (b.putPiece m.dst mover) ⟨0, if side = .WHITE then 0 else 7⟩
        none c (backRank_valid side 0 (by omega))
      have h3 := kingCount_putPiece
        ((b.putPiece m.dst mover).putPiece ⟨0, if side = .WHITE then 0 else 7⟩ none)
        ⟨3, if side = .WHITE then 0 else 7⟩
        ((b.putPiece m.dst mover).atSq ⟨0, if side = .WHITE then 0 else 7⟩) c
        (backRank_valid side 3 (by omega))
      simp only [hK, hQ, if_true, Bool.false_eq_true, if_false, takePiece_fst, takePiece_snd]
      omega
    · simp only [hK, hQ, Bool.false_eq_true, if_false]
      omega

theorem isKing_promoteStep_le (m : Move) (mp : Piece) (c : Color) :
    isKing (promoteStep m mp (some mp)) c ≤ isKing (some mp) c := by
  unfold promoteStep
  split
  · have : isKing (some (promoted mp.color m.promoPiece)) c = 0 := by
      unfold isKing promoted
      split_ifs <;> simp_all
    omega
  · exact le_refl _

theorem enPassantStep_atSq (b : Board) (m : Move) (mp : Piece) (t : Square) :
    (enPassantStep b m mp).atSq t = b.atSq t := by
  unfold enPassantStep
  split <;> rfl

theorem kingCount_enPassantStep (b : Board) (m : Move) (mp : Piece) (c : Color) :
    kingCount (enPassantStep b m mp) c = kingCount b c := by
  unfold enPassantStep
  split <;> rfl

theorem applyChecked_board (g : Game) (m : Move) (cap : Option Piece) (b1 : Board) (mp : Piece) :
    (g.applyChecked m cap b1 mp).board =
      enPassantStep (placeStep
        ((b1.setCastlingRights (rightsAfter g.side b1.castlingRights mp cap m)).putPiece m.src none)
        g.side m (promoteStep m mp (b1.atSq m.src))) m mp := rfl

/-- No successful `makeMove` increases the number of kings of either colour. -/
theorem kingCount_makeMove_le {g : Game} {m : Move} {g' : Game} (h : g.makeMove m = .ok g')
    (c : Color) : kingCount g'.board c ≤ kingCount g.board c := by
  obtain ⟨hs, hd, mp, hmp, -, rfl⟩ := makeMove_eq_ok_iff.1 h
  rw [applyChecked_board, kingCount_enPassantStep, hmp]
  have h1 := kingCount_captureStep g.board m c hs hd
  have h2 := kingCount_putPiece ((captureStep g.board m).2.setCastlingRights
    (rightsAfter g.side (captureStep g.board m).2.castlingRights mp (captureStep g.board m).1 m))
    m.src none c hs
  have h3 := kingCount_placeStep_le (((captureStep g.board m).2.setCastlingRights
    (rightsAfter g.side (captureStep g.board m).2.castlingRights mp
      (captureStep g.board m).1 m)).putPiece m.src none) g.side m
    (promoteStep m mp (some mp)) c hd
  have h4 := isKing_promoteStep_le m mp c
  simp only [atSq_setCastlingRights, kingCount_setCastlingRights, hmp] at h2
  have h5 := isKing_none c
  omega


/-! ## The king search and the legality filter -/

theorem findKing_step (b : Board) (c : Color) (k x : Square) :
    (match b.atSq x with
      | some p => if p.type = .KING ∧ p.color = c then x else k
      | none => k) = if b.atSq x = some ⟨c, .KING⟩ then x else k := by
  cases h : b.atSq x with
  | none => simp
  | some p =>
    cases p with
    | mk pc pt =>
      by_cases h1 : pt = .KING <;> by_cases h2 : pc = c <;> simp [h1, h2]

theorem findKing_fold (b : Board) (c : Color) : ∀ (l : List Square) (k0 : Square),
    (l.foldl (fun k sq =>
        match b.atSq sq with
        | some p => if p.type = .KING ∧ p.color = c then sq else k
        | none => k) k0 = k0 ∧ ∀ s ∈ l, b.atSq s ≠ some ⟨c, .KING⟩) ∨
    (l.foldl (fun k sq =>
        match b.atSq sq with
        | some p => if p.type = .KING ∧ p.color = c then sq else k
        | none => k) k0 ∈ l ∧
      b.atSq (l.foldl (fun k sq =>
        match b.atSq sq with
        | some p => if p.type = .KING ∧ p.color = c then sq else k
        | none => k) k0) = some ⟨c, .KING⟩) := by
  intro l
  induction l with
  | nil => intro k0; left; simp
  | cons x l ih =>
    intro k0
    simp only [List.foldl_cons, findKing_step]
    simp only [findKing_step] at ih
    by_cases hx : b.atSq x = some ⟨c, .KING⟩
    · simp only [hx, if_true]
      rcases ih x with ⟨h1, -⟩ | ⟨h1, h2⟩
      · right
        rw [h1]
        exact ⟨List.mem_cons_self _ _, hx⟩
      · right
        exact ⟨List.mem_cons_of_mem _ h1, h2⟩
    · simp only [hx, if_false]
      rcases ih k0 with ⟨h1, h2⟩ | ⟨h1, h2⟩
      · left
        refine ⟨h1, ?_⟩
        intro s hs
        rcases List.mem_cons.1 hs with rfl | hs
        · exact hx
        · exact h2 s hs
      · right
        exact ⟨List.mem_cons_of_mem _ h1, h2⟩

/-- When some square holds a king of colour `c`, `findKing` returns a valid
square that holds one. -/
theorem findKing_spec {b : Board} {c : Color} {s : Square} (hs : s.isValid = true)
    (hk : b.atSq s = some ⟨c, .KING⟩) :
    (findKing b c).isValid = true ∧ b.atSq (findKing b c) = some ⟨c, .KING⟩ := by
  unfold findKing
  rcases findKing_fold b c allSquares {} with ⟨-, h⟩ | ⟨h1, h2⟩
  · exact absurd hk (h s (mem_allSquares.2 hs))
  · exact ⟨mem_allSquares.1 h1, h2⟩

theorem findKing_eq {b : Board} {c : Color} {s : Square} (hc : kingCount b c ≤ 1)
    (hs : s.isValid = true) (hk : b.atSq s = some ⟨c, .KING⟩) : findKing b c = s :=
  king_unique hc (findKing_spec hs hk).1 hs (findKing_spec hs hk).2 hk

theorem mem_filterLegal {g : Game} {m : Move} : ∀ {l ms : List Move},
    g.filterLegal l = .ok ms →
      (m ∈ ms ↔ m ∈ l ∧ ∃ tmp, g.makeMove m = .ok tmp ∧
        tmp.board.isSquareAttacked (findKing tmp.board g.side) g.side.flip = false) := by
  intro l
  induction l with
  | nil =>
    intro ms h
    simp only [Game.filterLegal, Except.ok.injEq] at h
    subst h
    simp
  | cons x l ih =>
    intro ms h
    unfold Game.filterLegal at h
    cases hx : g.makeMove x with
    | error e => simp [hx] at h
    | ok tmp =>
      simp only [hx] at h
      cases hrest : g.filterLegal l with
      | error e => simp [hrest] at h
      | ok legal =>
        simp only [hrest] at h
        have ih2 := ih hrest
        by_cases hatt : tmp.board.isSquareAttacked (findKing tmp.board g.side) g.side.flip = true
        · simp only [hatt, Bool.not_true, Bool.false_eq_true, if_false, Except.ok.injEq] at h
          subst h
          rw [ih2, List.mem_cons]
          constructor
          · rintro ⟨h1, h2⟩
            exact ⟨Or.inr h1, h2⟩
          · rintro ⟨h1 | h1, tmp2, h2, h3⟩
            · subst h1
              rw [hx] at h2
              cases h2
              rw [hatt] at h3
              cases h3
            · exact ⟨h1, tmp2, h2, h3⟩
        · simp only [Bool.not_eq_true] at hatt
          simp only [hatt, Bool.not_false, if_true, Except.ok.injEq] at h
          subst h
          rw [List.mem_cons, ih2, List.mem_cons]
          constructor
          · rintro (h1 | ⟨h1, h2⟩)
            · subst h1
              exact ⟨Or.inl rfl, tmp, hx, hatt⟩
            · exact ⟨Or.inr h1, h2⟩
          · rintro ⟨h1 | h1, h2⟩
            · exact Or.inl h1
            · exact Or.inr ⟨h1, h2⟩

theorem filterLegal_ok {g : Game} : ∀ {l : List Move},
    (∀ m ∈ l, ∃ tmp, g.makeMove m = .ok tmp) → ∃ ms, g.filterLegal l = .ok ms := by
  intro l
  induction l with
  | nil => intro _; exact ⟨[], rfl⟩
  | cons x l ih =>
    intro h
    obtain ⟨tmp, hx⟩ := h x (List.mem_cons_self _ _)
    obtain ⟨legal, hl⟩ := ih (fun m hm => h m (List.mem_cons_of_mem _ hm))
    unfold Game.filterLegal
    simp only [hx, hl]
    split <;> exact ⟨_, rfl⟩

/-- Membership in `legalMoves`. -/
theorem mem_legalMoves {g : Game} {ms : List Move} {m : Move} (h : g.legalMoves = .ok ms) :
    m ∈ ms ↔ m ∈ g.board.generateLegalMoves g.side ∧ ∃ tmp, g.makeMove m = .ok tmp ∧
      tmp.board.isSquareAttacked (findKing tmp.board g.side) g.side.flip = false :=
  mem_filterLegal h

theorem initial_e2e4_legal :
    ∃ ms, Game.legalMoves {} = .ok ms ∧ Move.mk ⟨4, 1⟩ ⟨4, 3⟩ QUIET 0 ∈ ms :=
  ⟨_, rfl, by decide⟩

/-! ## Castling rights only shrink -/

theorem hasFlag_clearR {r mask f : Nat} (h : hasFlag (clearR r mask) f = true) :
    hasFlag r f = true := by
  simp only [hasFlag, clearR, bne_iff_ne, ne_eq] at h ⊢
  intro h0
  apply h
  rw [Nat.and_assoc, Nat.and_comm (255 ^^^ mask) f, ← Nat.and_assoc, h0, Nat.zero_and]

theorem hasFlag_ite_clearR {r mask f : Nat} {cond : Prop} [Decidable cond]
    (h : hasFlag (if cond then clearR r mask else r) f = true) : hasFlag r f = true := by
  split at h
  · exact hasFlag_clearR h
  · exact h

theorem hasFlag_rightsKing {side : Color} {rights : Nat} {mp : Piece} {f : Nat}
    (h : hasFlag (rightsKing side rights mp) f = true) : hasFlag rights f = true :=
  hasFlag_ite_clearR h

theorem hasFlag_rightsRook {side : Color} {rights : Nat} {mp : Piece} {m : Move} {f : Nat}
    (h : hasFlag (rightsRook side rights mp m) f = true) : hasFlag rights f = true := by
  unfold rightsRook at h
  by_cases hr : mp.type = .ROOK
  · simp only [hr, if_true] at h
    have h1 := hasFlag_ite_clearR h
    exact hasFlag_ite_clearR h1
  · simp only [hr, if_false] at h
    exact h

theorem hasFlag_rightsCaptured {side : Color} {rights : Nat} {cap : Option Piece} {m : Move}
    {f : Nat} (h : hasFlag (rightsCaptured side rights cap m) f = true) :
    hasFlag rights f = true := by
  unfold rightsCaptured at h
  cases cap with
  | none => exact h
  | some cp =>
    by_cases hr : cp.type = .ROOK
    · simp only [hr, if_true] at h
      have h1 := hasFlag_ite_clearR h
      exact hasFlag_ite_clearR h1
    · simp only [hr, if_false] at h
      exact h

theorem hasFlag_rightsAfter {side : Color} {rights : Nat} {mp : Piece} {cap : Option Piece}
    {m : Move} {f : Nat} (h : hasFlag (rightsAfter side rights mp cap m) f = true) :
    hasFlag rights f = true :=
  hasFlag_rightsKing (hasFlag_rightsRook (hasFlag_rightsCaptured h))

/-- After a king move the side to move has no castling right left. -/
theorem rightsAfter_king {side : Color} {rights : Nat} {mp : Piece} {cap : Option Piece}
    {m : Move} (hk : mp.type = .KING) :
    hasFlag (rightsAfter side rights mp cap m) (kingsideBit side) = false ∧
      hasFlag (rightsAfter side rights mp cap m) (queensideBit side) = false := by
  have h0 : ∀ f, hasFlag (rightsKing side rights mp) f = false →
      hasFlag (rightsAfter side rights mp cap m) f = false := by
    intro f hf
    by_contra hne
    rw [Bool.not_eq_false] at hne
    rw [hasFlag_rightsRook (hasFlag_rightsCaptured hne)] at hf
    cases hf
  have h1 : rightsKing side rights mp =
      clearR rights (if side = .WHITE then WK ||| WQ else BK ||| BQ) := by
    simp [rightsKing, hk]
  rw [h1] at h0
  refine ⟨h0 _ ?_, h0 _ ?_⟩
  · cases side <;>
      simp only [hasFlag, clearR, kingsideBit, if_true, reduceCtorEq, if_false, Nat.and_assoc,
        WK, WQ, BK, BQ, show (255 ^^^ (1 ||| 2) : Nat) &&& 1 = 0 from by decide,
        show (255 ^^^ (4 ||| 8) : Nat) &&& 4 = 0 from by decide, Nat.and_zero] <;> rfl
  · cases side <;>
      simp only [hasFlag, clearR, queensideBit, if_true, reduceCtorEq, if_false, Nat.and_assoc,
        WK, WQ, BK, BQ, show (255 ^^^ (1 ||| 2) : Nat) &&& 2 = 0 from by decide,
        show (255 ^^^ (4 ||| 8) : Nat) &&& 8 = 0 from by decide, Nat.and_zero] <;> rfl


/-! ## Flag tests on the flag values the generators use -/

theorem hasFlag_table :
    hasFlag QUIET CAPTURE = false ∧
    hasFlag QUIET PROMOTION = false ∧
    hasFlag QUIET EN_PASSANT = false ∧
    hasFlag QUIET CASTLING_K = false ∧
    hasFlag QUIET CASTLING_Q = false ∧
    hasFlag QUIET NULL_MOVE = false ∧
    hasFlag CAPTURE CAPTURE = true ∧
    hasFlag CAPTURE PROMOTION = false ∧
    hasFlag CAPTURE EN_PASSANT = false ∧
    hasFlag CAPTURE CASTLING_K = false ∧
    hasFlag CAPTURE CASTLING_Q = false ∧
    hasFlag CAPTURE NULL_MOVE = false ∧
    hasFlag PROMOTION CAPTURE = false ∧
    hasFlag PROMOTION PROMOTION = true ∧
    hasFlag PROMOTION EN_PASSANT = false ∧
    hasFlag PROMOTION CASTLING_K = false ∧
    hasFlag PROMOTION CASTLING_Q = false ∧
    hasFlag PROMOTION NULL_MOVE = false ∧
    hasFlag (CAPTURE ||| PROMOTION) CAPTURE = true ∧
    hasFlag (CAPTURE ||| PROMOTION) PROMOTION = true ∧
    hasFlag (CAPTURE ||| PROMOTION) EN_PASSANT = false ∧
    hasFlag (CAPTURE ||| PROMOTION) CASTLING_K = false ∧
    hasFlag (CAPTURE ||| PROMOTION) CASTLING_Q = false ∧
    hasFlag (CAPTURE ||| PROMOTION) NULL_MOVE = false ∧
    hasFlag EN_PASSANT CAPTURE = false ∧
    hasFlag EN_PASSANT PROMOTION = false ∧
    hasFlag EN_PASSANT EN_PASSANT = true ∧
    hasFlag EN_PASSANT CASTLING_K = false ∧
    hasFlag EN_PASSANT CASTLING_Q = false ∧
    hasFlag EN_PASSANT NULL_MOVE = false ∧
    hasFlag CASTLING_K CAPTURE = false ∧
    hasFlag CASTLING_K PROMOTION = false ∧
    hasFlag CASTLING_K EN_PASSANT = false ∧
    hasFlag CASTLING_K CASTLING_K = true ∧
    hasFlag CASTLING_K CASTLING_Q = false ∧
    hasFlag CASTLING_K NULL_MOVE = false ∧
    hasFlag CASTLING_Q CAPTURE = false ∧
    hasFlag CASTLING_Q PROMOTION = false ∧
    hasFlag CASTLING_Q EN_PASSANT = false ∧
    hasFlag CASTLING_Q CASTLING_K = false ∧
    hasFlag CASTLING_Q CASTLING_Q = true ∧
    hasFlag CASTLING_Q NULL_MOVE = false ∧
    hasFlag NULL_MOVE CAPTURE = false ∧
    hasFlag NULL_MOVE PROMOTION = false ∧
    hasFlag NULL_MOVE EN_PASSANT = false ∧
    hasFlag NULL_MOVE CASTLING_K = false ∧
    hasFlag NULL_MOVE CASTLING_Q = false ∧
    hasFlag NULL_MOVE NULL_MOVE = true := by
  decide

theorem placeStep_plain {b : Board} {side : Color} {m : Move} {mover : Option Piece}
    (hK : hasFlag m.flags CASTLING_K = false) (hQ : hasFlag m.flags CASTLING_Q = false) :
    placeStep b side m mover = b.putPiece m.dst mover := by
  simp [placeStep, hK, hQ]

theorem placeStep_K {b : Board} {side : Color} {m : Move} {mover : Option Piece}
    (hK : hasFlag m.flags CASTLING_K = true) :
    placeStep b side m mover =
      (((b.putPiece m.dst mover).putPiece ⟨7, backRankOf side⟩ none).putPiece
        ⟨5, backRankOf side⟩ ((b.putPiece m.dst mover).atSq ⟨7, backRankOf side⟩)) := by
  simp [placeStep, hK, backRankOf]

theorem placeStep_Q {b : Board} {side : Color} {m : Move} {mover : Option Piece}
    (hK : hasFlag m.flags CASTLING_K = false) (hQ : hasFlag m.flags CASTLING_Q = true) :
    placeStep b side m mover =
      (((b.putPiece m.dst mover).putPiece ⟨0, backRankOf side⟩ none).putPiece
        ⟨3, backRankOf side⟩ ((b.putPiece m.dst mover).atSq ⟨0, backRankOf side⟩)) := by
  simp [placeStep, hK, hQ, backRankOf]

theorem flip_flip (c : Color) : c.flip.flip = c := by cases c <;> rfl

theorem flip_ne (c : Color) : c.flip ≠ c := by cases c <;> simp [Color.flip]

theorem kingCount_put_eq (b : Board) (s : Square) (p : Option Piece) (c : Color)
    (hs : s.isValid = true) (h : isKing (b.atSq s) c = isKing p c) :
    kingCount (b.putPiece s p) c = kingCount b c := by
  have := kingCount_putPiece b s p c hs
  omega

/-- Moving the content of `src` to a square that holds no king of colour `c`
keeps the number of kings of colour `c`. -/
theorem kingCount_move (b : Board) (src dst : Square) (x : Option Piece) (c : Color)
    (hs : src.isValid = true) (hd : dst.isValid = true) (hne : src ≠ dst)
    (hx : isKing (b.atSq src) c = isKing x c) (he : isKing (b.atSq dst) c = 0) :
    kingCount ((b.putPiece src none).putPiece dst x) c = kingCount b c := by
  have h1 := kingCount_putPiece b src none c hs
  have h2 := kingCount_putPiece (b.putPiece src none) dst x c hd
  have h3 : (b.putPiece src none).atSq dst = b.atSq dst := by
    rw [atSq_putPiece, if_neg]
    exact fun h => hne ((index_inj hd hs).1 h).symm
  rw [h3] at h2
  have h0 := isKing_none c
  omega

theorem isKing_promoted (col : Color) (n : Nat) (c : Color) :
    isKing (some (promoted col n)) c = 0 := by
  unfold isKing promoted
  split_ifs <;> simp_all

theorem isKing_of_type_ne {q : Piece} (h : q.type ≠ .KING) (c : Color) :
    isKing (some q) c = 0 := by
  unfold isKing
  rw [if_neg]
  intro h2
  cases h2
  exact h rfl


/-! ## A move of the side that is not to move -/

/-- The squares `placeStep` leaves do not depend on the castling rights. -/
theorem placeStep_atSq_setCastlingRights (b : Board) (r : Nat) (side : Color) (m : Move)
    (mover : Option Piece) (s : Square) :
    (placeStep (b.setCastlingRights r) side m mover).atSq s =
      (placeStep b side m mover).atSq s := by
  by_cases hK : hasFlag m.flags CASTLING_K = true
  · rw [placeStep_K hK, placeStep_K hK]
    simp only [atSq_putPiece, atSq_setCastlingRights]
  · rw [Bool.not_eq_true] at hK
    by_cases hQ : hasFlag m.flags CASTLING_Q = true
    · rw [placeStep_Q hK hQ, placeStep_Q hK hQ]
      simp only [atSq_putPiece, atSq_setCastlingRights]
    · rw [Bool.not_eq_true] at hQ
      rw [placeStep_plain hK hQ, placeStep_plain hK hQ]
      simp only [atSq_putPiece, atSq_setCastlingRights]

/-- C7 (amended): `makeMove` does not compare the colour of the piece on the
source square with the side to move.  For every game and every move without the
CAPTURE and EN_PASSANT flags whose squares are valid, whose source square holds a
piece `p` of the colour that is not to move and whose destination holds no piece
of that colour, `makeMove` raises nothing, appends one history entry for the
move and flips the side to move, and it applies the move: the squares afterwards
are those obtained by emptying `m.from` and putting the mover down (with the rook
step of a castling flag); when no castling flag is set, `m.from` is empty, `m.to`
holds `p` (the promotion piece of `p`'s colour when the PROMOTION flag is set)
and every other square is unchanged. -/
theorem makeMove_applies_move_of_other_side (g : Game) (m : Move) (p : Piece)
    (hs : m.src.isValid = true) (hd : m.dst.isValid = true)
    (hc : hasFlag m.flags CAPTURE = false) (he : hasFlag m.flags EN_PASSANT = false)
    (hp : g.board.atSq m.src = some p) (_hside : p.color = g.side.flip)
    (ht : ∀ t, g.board.atSq m.dst = some t → t.color ≠ p.color) :
    ∃ g', g.makeMove m = .ok g' ∧ g'.side = g.side.flip ∧
      g'.history = g.history ++
        [HistoryEntry.mk m none g.board.castlingRights g.board.enPassantTarget] ∧
      (∀ s : Square, g'.board.atSq s =
        (placeStep (g.board.putPiece m.src none) g.side m (promoteStep m p (some p))).atSq s) ∧
      (hasFlag m.flags CASTLING_K = false → hasFlag m.flags CASTLING_Q = false →
        g'.board.atSq m.src = none ∧
        g'.board.atSq m.dst =
          some (if hasFlag m.flags PROMOTION then promoted p.color m.promoPiece else p) ∧
        ∀ s : Square, s.isValid = true → s ≠ m.src → s ≠ m.dst →
          g'.board.atSq s = g.board.atSq s) := by
  have h2 : ownPieceOn g.board m p = false := by
    unfold ownPieceOn
    cases h : g.board.atSq m.dst with
    | none => rfl
    | some t => simpa using ht t h
  have hne : m.src ≠ m.dst := fun h => by
    rw [← h] at ht
    exact ht p hp rfl
  have hidx : ∀ {s t : Square}, s.isValid = true → t.isValid = true → s ≠ t →
      ¬ s.index = t.index := fun h1 h2 h3 h4 => h3 ((index_inj h1 h2).1 h4)
  have hcs : captureStep g.board m = (none, g.board) := by
    simp [captureStep, hc, he]
  have hmk : g.makeMove m = .ok (g.applyChecked m none g.board p) := by
    rw [makeMove_eq_ok_iff, hcs]
    exact ⟨hs, hd, p, hp, h2, rfl⟩
  have hsq : ∀ s : Square, (g.applyChecked m none g.board p).board.atSq s =
      (placeStep (g.board.putPiece m.src none) g.side m (promoteStep m p (some p))).atSq s := by
    intro s
    rw [applyChecked_board, enPassantStep_atSq, hp]
    exact placeStep_atSq_setCastlingRights (g.board.putPiece m.src none) _ _ _ _ _
  refine ⟨_, hmk, rfl, rfl, hsq, ?_⟩
  intro hK hQ
  refine ⟨?_, ?_, ?_⟩
  · rw [hsq, placeStep_plain hK hQ]
    simp [hidx hs hd hne]
  · rw [hsq, placeStep_plain hK hQ]
    simp only [atSq_putPiece, if_true, promoteStep]
    split <;> rfl
  · intro s hsv h1 h2
    rw [hsq, placeStep_plain hK hQ]
    simp [hidx hsv hs h1, hidx hsv hd h2]

theorem makeMove_applies_move_of_other_side_witness :
    ∃ g', Game.makeMove {} (Move.mk ⟨0, 6⟩ ⟨0, 5⟩ QUIET 0) = .ok g' ∧
      g'.side = Color.BLACK ∧
      g'.history = [HistoryEntry.mk (Move.mk ⟨0, 6⟩ ⟨0, 5⟩ QUIET 0) none 15 none] ∧
      g'.board.atSq ⟨0, 6⟩ = none ∧ g'.board.atSq ⟨0, 5⟩ = some ⟨.BLACK, .PAWN⟩ := by
  obtain ⟨g', h1, h2, h3, -, h4⟩ :=
    makeMove_applies_move_of_other_side {} (Move.mk ⟨0, 6⟩ ⟨0, 5⟩ QUIET 0) ⟨.BLACK, .PAWN⟩
      (by decide) (by decide) (by decide) (by decide) (by decide) (by decide) (by decide)
  obtain ⟨h5, h6, -⟩ := h4 (by decide) (by decide)
  exact ⟨g', h1, h2, h3, h5, h6⟩


/-! ## Legal play keeps both kings -/

/-- In a position satisfying the invariant no generated capture takes a king. -/
theorem captured_not_king {g : Game} {m : Move} {t : Piece} (hinv : Inv g)
    (hgenm : m ∈ g.board.generateLegalMoves g.side) (hcap : hasFlag m.flags CAPTURE = true)
    (hv : m.dst.isValid = true) (ht : g.board.atSq m.dst = some t) (htc : t.color ≠ g.side)
    (c : Color) : isKing (some t) c = 0 := by
  unfold isKing
  rw [if_neg]
  intro h
  cases h
  have hc : c = g.side.flip := by
    revert htc
    cases c <;> cases g.side <;> simp [Color.flip]
  subst hc
  have hcount : kingCount g.board g.side.flip ≤ 1 := by
    have h1 := hinv.whiteKing
    have h2 := hinv.blackKing
    cases g.side <;> simp only [Color.flip] <;> omega
  have hk := findKing_eq hcount hv ht
  have hatt := isSquareAttacked_of_capture hgenm hcap
  have hsafe := hinv.safe
  rw [hk, hatt] at hsafe
  cases hsafe

theorem kingCount_step {g : Game} {p : Piece} {src : Square} {m : Move} (hinv : Inv g)
    (hsrc : src.isValid = true) (hp : g.board.atSq src = some p) (hpc : p.color = g.side)
    (hgenm : m ∈ g.board.generateLegalMoves g.side) (hshape : Generated g.board p src m)
    (c : Color) :
    kingCount (g.applyChecked m (captureStep g.board m).1 (captureStep g.board m).2 p).board c =
      kingCount g.board c := by
  cases hshape with
  | quiet dst hv he hpawn =>
    have hne : src ≠ dst := fun h => by rw [h, he] at hp; cases hp
    simp only [applyChecked_board, kingCount_enPassantStep, captureStep, hasFlag_table,
      Bool.false_eq_true, if_false, placeStep_plain, promoteStep, hp]
    exact kingCount_move _ src dst _ c hsrc hv hne (by simp [hp]) (by simp [he, isKing])
  | promotion dst hpt hv he hr =>
    have hne : src ≠ dst := fun h => by rw [h, he] at hp; cases hp
    simp only [applyChecked_board, kingCount_enPassantStep, captureStep, hasFlag_table,
      Bool.false_eq_true, if_false, if_true, placeStep_plain, promoteStep, hp]
    refine kingCount_move _ src dst _ c hsrc hv hne ?_ (by simp [he, isKing])
    rw [isKing_promoted, atSq_setCastlingRights, hp]
    exact isKing_of_type_ne (by rw [hpt]; simp) c
  | capture dst t hv ht htc hpawn =>
    have hne : src ≠ dst := fun h => by
      rw [h, ht] at hp; cases hp; exact htc rfl
    have hnek := captured_not_king hinv hgenm (by simp [hasFlag_table]) hv ht
      (by rw [← hpc]; exact htc) c
    have hne2 : ¬ src.index = dst.index := fun h => hne ((index_inj hsrc hv).1 h)
    simp only [applyChecked_board, kingCount_enPassantStep, captureStep, hasFlag_table,
      Bool.false_eq_true, if_false, if_true, placeStep_plain, promoteStep, takePiece_fst,
      takePiece_snd, atSq_putPiece, hne2, hp]
    rw [kingCount_move _ src dst _ c hsrc hv hne (by simp [hp, hne2]) (by simp [isKing])]
    simp only [kingCount_setCastlingRights]
    exact kingCount_put_eq _ dst none c hv (by rw [ht, hnek, isKing_none])
  | capturePromotion dst t hpt hv ht htc hr =>
    have hne : src ≠ dst := fun h => by
      rw [h, ht] at hp; cases hp; exact htc rfl
    have hnek := captured_not_king hinv hgenm (by simp [hasFlag_table]) hv ht
      (by rw [← hpc]; exact htc) c
    have hne2 : ¬ src.index = dst.index := fun h => hne ((index_inj hsrc hv).1 h)
    simp only [applyChecked_board, kingCount_enPassantStep, captureStep, hasFlag_table,
      Bool.false_eq_true, if_false, if_true, placeStep_plain, promoteStep, takePiece_fst,
      takePiece_snd, atSq_putPiece, hne2, hp]
    rw [kingCount_move _ src dst _ c hsrc hv hne ?_ (by simp [isKing])]
    · simp only [kingCount_setCastlingRights]
      exact kingCount_put_eq _ dst none c hv (by rw [ht, hnek, isKing_none])
    · rw [isKing_promoted]
      simp only [atSq_setCastlingRights, atSq_putPiece, hne2, if_false, hp]
      exact isKing_of_type_ne (by rw [hpt]; simp) c
  | enPassant dst hpt hep hr hf =>
    obtain ⟨hv, he, q, hq, hqt⟩ := hinv.enPassant dst hep
    have hne : src ≠ dst := fun h => by rw [h, he] at hp; cases hp
    have hs := isValid_iff.1 hsrc
    have hdv := isValid_iff.1 hv
    have hcs : (⟨dst.file, src.rank⟩ : Square) = ⟨dst.file, u8 (dst.rank - pawnDir g.side)⟩ := by
      rw [← hpc]
      simp only [Square.mk.injEq, true_and, u8]
      omega
    have hcv : (⟨dst.file, src.rank⟩ : Square).isValid = true :=
      isValid_iff.2 ⟨hdv.1, hs.2⟩
    have hne3 : ¬ src.index = (⟨dst.file, src.rank⟩ : Square).index := by
      rw [index_inj hsrc hcv, Square.ext_iff]
      simp only
      omega
    have hne4 : ¬ dst.index = (⟨dst.file, src.rank⟩ : Square).index := by
      rw [index_inj hv hcv, Square.ext_iff]
      simp only
      have : pawnDir p.color = 1 ∨ pawnDir p.color = -1 := by
        cases p.color <;> simp [pawnDir]
      omega
    simp only [applyChecked_board, kingCount_enPassantStep, captureStep, hasFlag_table,
      Bool.false_eq_true, if_false, if_true, placeStep_plain, promoteStep, takePiece_fst,
      takePiece_snd, atSq_putPiece, hne3, hp]
    rw [kingCount_move _ src dst _ c hsrc hv hne (by simp [hp, hne3])
      (by simp [isKing, he, hne4])]
    simp only [kingCount_setCastlingRights]
    refine kingCount_put_eq _ _ none c hcv ?_
    rw [hcs, hq, isKing_none]
    exact isKing_of_type_ne (by rw [hqt]; simp) c
  | castleK hpt hr hf hg ha =>
    rw [hpc] at hf hg
    have hgv : (⟨6, backRankOf g.side⟩ : Square).isValid = true := backRank_valid g.side 6 (by omega)
    have hfv : (⟨5, backRankOf g.side⟩ : Square).isValid = true := backRank_valid g.side 5 (by omega)
    have hhv : (⟨7, backRankOf g.side⟩ : Square).isValid = true := backRank_valid g.side 7 (by omega)
    have hne : src ≠ ⟨6, backRankOf g.side⟩ := fun h => by rw [h, hg] at hp; cases hp
    have hfg : ¬ (⟨5, backRankOf g.side⟩ : Square).index = (⟨6, backRankOf g.side⟩ : Square).index := by
      simp only [Square.index]; omega
    simp only [applyChecked_board, kingCount_enPassantStep, captureStep, hasFlag_table,
      Bool.false_eq_true, if_false, promoteStep, hp, hpc]
    rw [placeStep_K (by simp [hasFlag_table])]
    simp only []
    rw [kingCount_move _ ⟨7, backRankOf g.side⟩ ⟨5, backRankOf g.side⟩ _ c hhv hfv
      (by simp [Square.ext_iff]) rfl ?_]
    · exact kingCount_move _ src _ _ c hsrc hgv hne (by simp [hp]) (by simp [hg, isKing])
    · simp only [atSq_putPiece, hfg, if_false, atSq_setCastlingRights, hf]
      split <;> exact isKing_none c
  | castleQ hpt hr hd hc hb ha =>
    rw [hpc] at hd hc
    have hcv : (⟨2, backRankOf g.side⟩ : Square).isValid = true := backRank_valid g.side 2 (by omega)
    have hdv : (⟨3, backRankOf g.side⟩ : Square).isValid = true := backRank_valid g.side 3 (by omega)
    have hav : (⟨0, backRankOf g.side⟩ : Square).isValid = true := backRank_valid g.side 0 (by omega)
    have hne : src ≠ ⟨2, backRankOf g.side⟩ := fun h => by rw [h, hc] at hp; cases hp
    have hdc : ¬ (⟨3, backRankOf g.side⟩ : Square).index = (⟨2, backRankOf g.side⟩ : Square).index := by
      simp only [Square.index]; omega
    simp only [applyChecked_board, kingCount_enPassantStep, captureStep, hasFlag_table,
      Bool.false_eq_true, if_false, promoteStep, hp, hpc]
    rw [placeStep_Q (by simp [hasFlag_table]) (by simp [hasFlag_table])]
    simp only []
    rw [kingCount_move _ ⟨0, backRankOf g.side⟩ ⟨3, backRankOf g.side⟩ _ c hav hdv
      (by simp [Square.ext_iff]) rfl ?_]
    · exact kingCount_move _ src _ _ c hsrc hcv hne (by simp [hp]) (by simp [hc, isKing])
    · simp only [atSq_putPiece, hdc, if_false, atSq_setCastlingRights, hd]
      split <;> exact isKing_none c


/-! ## Fields of the board after `applyChecked` -/

@[simp] theorem putPiece_castlingRights (b : Board) (s : Square) (p : Option Piece) :
    (b.putPiece s p).castlingRights = b.castlingRights := rfl

@[simp] theorem putPiece_enPassantTarget (b : Board) (s : Square) (p : Option Piece) :
    (b.putPiece s p).enPassantTarget = b.enPassantTarget := rfl

theorem captureStep_castlingRights (b : Board) (m : Move) :
    (captureStep b m).2.castlingRights = b.castlingRights := by
  unfold captureStep
  split
  · rfl
  · split <;> rfl

theorem placeStep_castlingRights (b : Board) (side : Color) (m : Move) (mover : Option Piece) :
    (placeStep b side m mover).castlingRights = b.castlingRights := by
  unfold placeStep
  by_cases hK : hasFlag m.flags CASTLING_K = true
  · simp only [hK, if_true]; rfl
  · by_cases hQ : hasFlag m.flags CASTLING_Q = true
    · simp only [hK, hQ, if_true, Bool.false_eq_true, if_false]; rfl
    · simp only [hK, hQ, Bool.false_eq_true, if_false]; rfl

theorem enPassantStep_castlingRights (b : Board) (m : Move) (mp : Piece) :
    (enPassantStep b m mp).castlingRights = b.castlingRights := by
  unfold enPassantStep
  split <;> rfl

theorem enPassantStep_target (b : Board) (m : Move) (mp : Piece) :
    (enPassantStep b m mp).enPassantTarget =
      if mp.type = .PAWN ∧ ((m.dst.rank : Int) - (m.src.rank : Int)).natAbs = 2 then
        some ⟨m.src.file, u8 (((m.src.rank + m.dst.rank : Nat) : Int) / 2)⟩
      else none := by
  unfold enPassantStep
  split <;> rfl

theorem applyChecked_castlingRights (g : Game) (m : Move) (cap : Option Piece) (b1 : Board)
    (mp : Piece) :
    (g.applyChecked m cap b1 mp).board.castlingRights =
      rightsAfter g.side b1.castlingRights mp cap m := by
  rw [applyChecked_board, enPassantStep_castlingRights, placeStep_castlingRights]
  rfl

theorem applyChecked_side (g : Game) (m : Move) (cap : Option Piece) (b1 : Board)
    (mp : Piece) : (g.applyChecked m cap b1 mp).side = g.side.flip := rfl

theorem generated_src {b : Board} {p : Piece} {src : Square} {m : Move}
    (h : Generated b p src m) : m.src = src := by
  cases h <;> rfl

theorem pawnDir_cases (c : Color) : pawnDir c = 1 ∨ pawnDir c = -1 := by
  cases c <;> simp [pawnDir]

theorem pawnDir_flip (c : Color) : pawnDir c.flip = -pawnDir c := by
  cases c <;> simp [pawnDir, Color.flip]

/-- The capture step never removes the mover of a generated move. -/
theorem captureStep_atSq_src {b : Board} {p : Piece} {src : Square} {m : Move}
    (hsrc : src.isValid = true) (hp : b.atSq src = some p) (h : Generated b p src m) :
    (captureStep b m).2.atSq src = some p := by
  have hs := isValid_iff.1 hsrc
  cases h with
  | quiet dst hv he hpawn => simpa [captureStep, hasFlag_table] using hp
  | promotion dst hpt hv he hr => simpa [captureStep, hasFlag_table] using hp
  | capture dst t hv ht htc hpawn =>
    have hne : ¬ src.index = dst.index := fun h => by
      rw [(index_inj hsrc hv).1 h, ht] at hp; cases hp; exact htc rfl
    simpa [captureStep, hasFlag_table, hne] using hp
  | capturePromotion dst t hpt hv ht htc hr =>
    have hne : ¬ src.index = dst.index := fun h => by
      rw [(index_inj hsrc hv).1 h, ht] at hp; cases hp; exact htc rfl
    simpa [captureStep, hasFlag_table, hne] using hp
  | enPassant dst hpt hep hr hf =>
    have hne : ¬ src.index = (⟨dst.file, src.rank⟩ : Square).index := by
      simp only [Square.index]
      omega
    simpa [captureStep, hasFlag_table, hne] using hp
  | castleK hpt hr hf hg ha => simpa [captureStep, hasFlag_table] using hp
  | castleQ hpt hr hd hc hb ha => simpa [captureStep, hasFlag_table] using hp

/-! ## The invariant is kept by legal moves -/

theorem enPassant_step {g : Game} {p : Piece} {src : Square} {m : Move}
    (hsrc : src.isValid = true) (hp : g.board.atSq src = some p) (hpc : p.color = g.side)
    (hshape : Generated g.board p src m) (t : Square)
    (ht : (g.applyChecked m (captureStep g.board m).1 (captureStep g.board m).2 p).board.enPassantTarget
      = some t) :
    t.isValid = true ∧
      (g.applyChecked m (captureStep g.board m).1 (captureStep g.board m).2 p).board.atSq t = none ∧
      ∃ q, (g.applyChecked m (captureStep g.board m).1 (captureStep g.board m).2 p).board.atSq
          ⟨t.file, u8 (t.rank - pawnDir g.side.flip)⟩ = some q ∧ q.type = .PAWN := by
  have hs := isValid_iff.1 hsrc
  have hdir := pawnDir_cases p.color
  rw [applyChecked_board, enPassantStep_target] at ht
  cases hshape with
  | quiet dst hv he hpawn =>
    have hdv := isValid_iff.1 hv
    simp only at ht
    split at ht
    · rename_i hcond
      obtain ⟨hfile, hrank⟩ := hpawn hcond.1
      have h2 := hcond.2
      rcases hrank with hrank | ⟨hrank, hmid⟩
      · omega
      · cases ht
        have hmid2 : (⟨src.file, u8 (((src.rank + dst.rank : Nat) : Int) / 2)⟩ : Square) =
            ⟨src.file, u8 (src.rank + pawnDir p.color)⟩ := by
          simp only [Square.mk.injEq, true_and, u8]
          omega
        have hback : (⟨src.file, u8 (((u8 (((src.rank + dst.rank : Nat) : Int) / 2) : Nat) : Int) -
            pawnDir g.side.flip)⟩ : Square) = dst := by
          rw [pawnDir_flip, ← hpc, Square.ext_iff]
          simp only [u8]
          constructor <;> omega
        have htv : (⟨src.file, u8 (((src.rank + dst.rank : Nat) : Int) / 2)⟩ : Square).isValid
            = true := by
          rw [isValid_iff]
          simp only [u8]
          constructor <;> omega
        have hne1 : ¬ (⟨src.file, u8 (((src.rank + dst.rank : Nat) : Int) / 2)⟩ : Square).index
            = dst.index := by
          rw [index_inj htv hv, Square.ext_iff]
          simp only [u8]
          omega
        refine ⟨htv, ?_, p, ?_, hcond.1⟩
        · simp only [applyChecked_board, enPassantStep_atSq, captureStep, hasFlag_table,
            Bool.false_eq_true, if_false, placeStep_plain, atSq_putPiece, hne1,
            atSq_setCastlingRights]
          split
          · rfl
          · rw [hmid2]; exact hmid
        · simp only [hback, applyChecked_board, enPassantStep_atSq, captureStep, hasFlag_table,
            Bool.false_eq_true, if_false, placeStep_plain, atSq_putPiece, if_true, promoteStep,
            atSq_setCastlingRights, hp]
    · cases ht
  | promotion dst hpt hv he hr =>
    simp only at ht
    split at ht
    · rename_i hcond; have := hcond.2; omega
    · cases ht
  | capture dst t' hv ht' htc hpawn =>
    simp only at ht
    split at ht
    · rename_i hcond; have := hcond.2; have := hpawn hcond.1; omega
    · cases ht
  | capturePromotion dst t' hpt hv ht' htc hr =>
    simp only at ht
    split at ht
    · rename_i hcond; have := hcond.2; omega
    · cases ht
  | enPassant dst hpt hep hr hf =>
    simp only at ht
    split at ht
    · rename_i hcond; have := hcond.2; omega
    · cases ht
  | castleK hpt hr hf hg ha =>
    simp only [hpt, reduceCtorEq, false_and, if_false] at ht
  | castleQ hpt hr hd hc hb ha =>
    simp only [hpt, reduceCtorEq, false_and, if_false] at ht


theorem promoted_type_ne_king (col : Color) (n : Nat) : (promoted col n).type ≠ .KING := by
  unfold promoted
  split_ifs <;> simp

/-- A king of colour `c` found on a corner file after a generated move was
there before, or is the mover. -/
theorem corner_step {g : Game} {p : Piece} {src : Square} {m : Move}
    (hp : g.board.atSq src = some p) (hpc : p.color = g.side)
    (hshape : Generated g.board p src m) (c : Color) (s : Square) (hsv : s.isValid = true)
    (hfile : s.file = 7 ∨ s.file = 0)
    (hk : (g.applyChecked m (captureStep g.board m).1 (captureStep g.board m).2 p).board.atSq s
      = some ⟨c, .KING⟩) :
    g.board.atSq s = some ⟨c, .KING⟩ ∨ (p.type = .KING ∧ c = g.side) := by
  have hmover : ∀ {q : Piece}, some p = some q → q = ⟨c, .KING⟩ →
      p.type = .KING ∧ c = g.side := by
    intro q h1 h2
    cases h1
    rw [h2] at hpc
    exact ⟨by rw [h2], hpc⟩
  have hsq := isValid_iff.1 hsv
  rw [applyChecked_board, enPassantStep_atSq] at hk
  cases hshape with
  | quiet dst hv he hpawn =>
    simp only [captureStep, hasFlag_table, Bool.false_eq_true, if_false, placeStep_plain,
      promoteStep, atSq_putPiece, atSq_setCastlingRights, hp] at hk
    split_ifs at hk
    · exact Or.inr (hmover hk rfl)
    · exact Or.inl hk
  | promotion dst hpt hv he hr =>
    simp only [captureStep, hasFlag_table, Bool.false_eq_true, if_false, if_true,
      placeStep_plain, promoteStep, atSq_putPiece, atSq_setCastlingRights, hp] at hk
    split_ifs at hk
    · cases hk
    · exact Or.inl hk
  | capture dst t hv ht htc hpawn =>
    simp only [captureStep, hasFlag_table, Bool.false_eq_true, if_false, if_true,
      placeStep_plain, promoteStep, atSq_putPiece, atSq_setCastlingRights, takePiece_fst,
      takePiece_snd] at hk
    split_ifs at hk <;> first
      | exact Or.inl hk
      | (rw [hp] at hk; exact Or.inr (hmover hk rfl))
  | capturePromotion dst t hpt hv ht htc hr =>
    simp only [captureStep, hasFlag_table, Bool.false_eq_true, if_false, if_true,
      placeStep_plain, promoteStep, atSq_putPiece, atSq_setCastlingRights, takePiece_fst,
      takePiece_snd] at hk
    split_ifs at hk <;> first
      | exact Or.inl hk
      | (exfalso; simp [promoted, PieceType.code] at hk)
  | enPassant dst hpt hep hr hf =>
    simp only [captureStep, hasFlag_table, Bool.false_eq_true, if_false, if_true,
      placeStep_plain, promoteStep, atSq_putPiece, atSq_setCastlingRights, takePiece_fst,
      takePiece_snd] at hk
    split_ifs at hk <;> first
      | exact Or.inl hk
      | (rw [hp] at hk; exact Or.inr (hmover hk rfl))
  | castleK hpt hr hf hg ha =>
    have hb : backRankOf g.side = 0 ∨ backRankOf g.side = 7 := by
      cases g.side <;> simp [backRankOf]
    have hsf : ¬ s.index = (⟨5, backRankOf g.side⟩ : Square).index := by
      simp only [Square.index]; omega
    have hsg : ¬ s.index = (⟨6, backRankOf g.side⟩ : Square).index := by
      simp only [Square.index]; omega
    rw [placeStep_K (by simp [hasFlag_table])] at hk
    simp only [captureStep, hasFlag_table, Bool.false_eq_true, if_false, atSq_putPiece,
      atSq_setCastlingRights, hpc, hsf, hsg] at hk
    split_ifs at hk
    exact Or.inl hk
  | castleQ hpt hr hd hc hb ha =>
    have hb : backRankOf g.side = 0 ∨ backRankOf g.side = 7 := by
      cases g.side <;> simp [backRankOf]
    have hsf : ¬ s.index = (⟨3, backRankOf g.side⟩ : Square).index := by
      simp only [Square.index]; omega
    have hsg : ¬ s.index = (⟨2, backRankOf g.side⟩ : Square).index := by
      simp only [Square.index]; omega
    rw [placeStep_Q (by simp [hasFlag_table]) (by simp [hasFlag_table])] at hk
    simp only [captureStep, hasFlag_table, Bool.false_eq_true, if_false, atSq_putPiece,
      atSq_setCastlingRights, hpc, hsf, hsg] at hk
    split_ifs at hk
    exact Or.inl hk

/-- The invariant is kept by every move of `legalMoves()`. -/
theorem inv_step {g g' : Game} {ms : List Move} {m : Move} (hinv : Inv g)
    (hl : g.legalMoves = .ok ms) (hm : m ∈ ms) (hmk : g.makeMove m = .ok g') : Inv g' := by
  obtain ⟨hgenm, tmp, htmp, hsafe⟩ := (mem_legalMoves hl).1 hm
  rw [hmk] at htmp
  cases htmp
  obtain ⟨src, p, hsrc, hp, hpc, hmem⟩ := mem_generateLegalMoves.1 hgenm
  have hshape := generated_shape hsrc hmem
  obtain ⟨hs, hd, mp, hmp, -, rfl⟩ := makeMove_eq_ok_iff.1 hmk
  have hsrc2 := generated_src hshape
  rw [hsrc2, captureStep_atSq_src hsrc hp hshape] at hmp
  cases hmp
  refine ⟨?_, ?_, ?_, ?_, ?_⟩
  · rw [kingCount_step hinv hsrc hp hpc hgenm hshape]; exact hinv.whiteKing
  · rw [kingCount_step hinv hsrc hp hpc hgenm hshape]; exact hinv.blackKing
  · rw [applyChecked_side, flip_flip]; exact hsafe
  · intro t ht
    exact enPassant_step hsrc hp hpc hshape t ht
  · intro c
    rw [applyChecked_castlingRights, captureStep_castlingRights]
    constructor
    · intro hbit hk
      have hbit0 := hasFlag_rightsAfter hbit
      rcases corner_step hp hpc hshape c ⟨7, backRankOf c⟩ (backRank_valid c 7 (by omega))
        (Or.inl rfl) hk with h | ⟨h1, h2⟩
      · exact (hinv.corners c).1 hbit0 h
      · subst h2
        rw [(rightsAfter_king h1).1] at hbit
        cases hbit
    · intro hbit hk
      have hbit0 := hasFlag_rightsAfter hbit
      rcases corner_step hp hpc hshape c ⟨0, backRankOf c⟩ (backRank_valid c 0 (by omega))
        (Or.inr rfl) hk with h | ⟨h1, h2⟩
      · exact (hinv.corners c).2 hbit0 h
      · subst h2
        rw [(rightsAfter_king h1).2] at hbit
        cases hbit

theorem inv_init : Inv {} := by
  refine ⟨by decide, by decide, by decide, ?_, ?_⟩
  · intro t ht
    cases ht
  · intro c
    cases c <;> constructor <;> intro _ <;> decide

theorem inv_of_reachable {g : Game} (h : Reachable g) : Inv g := by
  induction h with
  | init => exact inv_init
  | step _ hl hm hmk ih => exact inv_step ih hl hm hmk

/-- C3: every position reachable from the initial position by moves taken from
`legalMoves()` holds exactly one white king and exactly one black king. -/
theorem reachable_one_king_each (g : Game) (h : Reachable g) :
    kingCount g.board .WHITE = 1 ∧ kingCount g.board .BLACK = 1 :=
  ⟨(inv_of_reachable h).whiteKing, (inv_of_reachable h).blackKing⟩

theorem reachable_one_king_each_witness :
    ∃ g', Game.makeMove {} (Move.mk ⟨4, 1⟩ ⟨4, 3⟩ QUIET 0) = .ok g' ∧
      kingCount g'.board .WHITE = 1 ∧ kingCount g'.board .BLACK = 1 := by
  obtain ⟨ms, h1, h2⟩ := initial_e2e4_legal
  have h3 : ∃ g', Game.makeMove {} (Move.mk ⟨4, 1⟩ ⟨4, 3⟩ QUIET 0) = .ok g' := ⟨_, rfl⟩
  obtain ⟨g', hg⟩ := h3
  exact ⟨g', hg, reachable_one_king_each g' (Reachable.step Reachable.init h1 h2 hg)⟩


/-! ## `makeMove` followed by `undoMove` -/

@[simp] theorem putPiece_squares (b : Board) (s : Square) (p : Option Piece) (i : Nat) :
    (b.putPiece s p).squares i = if i = s.index then p else b.squares i := rfl

@[simp] theorem setCastlingRights_squares (b : Board) (r : Nat) :
    (b.setCastlingRights r).squares = b.squares := rfl

@[simp] theorem setEnPassantTarget_squares (b : Board) (e : Option Square) :
    (b.setEnPassantTarget e).squares = b.squares := rfl

@[simp] theorem enPassantStep_squares (b : Board) (m : Move) (mp : Piece) :
    (enPassantStep b m mp).squares = b.squares := by
  unfold enPassantStep
  split <;> rfl

@[simp] theorem setCastlingRights_castlingRights (b : Board) (r : Nat) :
    (b.setCastlingRights r).castlingRights = r := rfl

@[simp] theorem setCastlingRights_enPassantTarget (b : Board) (r : Nat) :
    (b.setCastlingRights r).enPassantTarget = b.enPassantTarget := rfl

@[simp] theorem setEnPassantTarget_enPassantTarget (b : Board) (e : Option Square) :
    (b.setEnPassantTarget e).enPassantTarget = e := rfl

@[simp] theorem setEnPassantTarget_castlingRights (b : Board) (e : Option Square) :
    (b.setEnPassantTarget e).castlingRights = b.castlingRights := rfl

theorem makeNullMove_undoMove (g : Game) : g.makeNullMove.undoMove = some g := by
  simp only [Game.undoMove, Game.makeNullMove, List.getLast?_concat, List.dropLast_concat,
    hasFlag_table, if_true, flip_flip]
  rfl

set_option maxHeartbeats 1600000 in
theorem undo_step {g : Game} {p : Piece} {src : Square} {m : Move} (hinv : Inv g)
    (hsrc : src.isValid = true) (hp : g.board.atSq src = some p) (hpc : p.color = g.side)
    (hshape : Generated g.board p src m) :
    (g.applyChecked m (captureStep g.board m).1 (captureStep g.board m).2 p).undoMove
      = some g := by
  have hp2 : g.board.squares src.index = some p := hp
  cases hshape with
  | quiet dst hv he hpawn =>
    have he2 : g.board.squares dst.index = none := he
    simp only [Game.undoMove, Game.applyChecked, List.getLast?_concat, List.dropLast_concat,
      hasFlag_table, Bool.false_eq_true, if_false, flip_flip, captureStep, takePiece_fst,
      takePiece_snd, placeStep_plain, promoteStep]
    refine congrArg some (Game.ext (Board.ext (funext fun i => ?_) ?_ ?_) rfl rfl)
    · simp only [Board.atSq, putPiece_squares, setCastlingRights_squares,
        setEnPassantTarget_squares, enPassantStep_squares, if_true]
      split_ifs <;> simp_all
    · simp
    · simp
  | promotion dst hpt hv he hr =>
    have he2 : g.board.squares dst.index = none := he
    have hpe : p = ⟨g.side, .PAWN⟩ := by
      cases p
      simp only at hpt hpc
      rw [hpt, hpc]
    simp only [Game.undoMove, Game.applyChecked, List.getLast?_concat, List.dropLast_concat,
      hasFlag_table, Bool.false_eq_true, if_false, if_true, flip_flip, captureStep, takePiece_fst,
      takePiece_snd, placeStep_plain, promoteStep]
    refine congrArg some (Game.ext (Board.ext (funext fun i => ?_) ?_ ?_) rfl rfl)
    · simp only [Board.atSq, putPiece_squares, setCastlingRights_squares,
        setEnPassantTarget_squares, enPassantStep_squares, if_true]
      split_ifs <;> simp_all
    · simp
    · simp
  | capture dst t hv ht htc hpawn =>
    have ht2 : g.board.squares dst.index = some t := ht
    simp only [Game.undoMove, Game.applyChecked, List.getLast?_concat, List.dropLast_concat,
      hasFlag_table, Bool.false_eq_true, if_false, if_true, flip_flip, captureStep, takePiece_fst,
      takePiece_snd, placeStep_plain, promoteStep, ht]
    refine congrArg some (Game.ext (Board.ext (funext fun i => ?_) ?_ ?_) rfl rfl)
    · simp only [Board.atSq, putPiece_squares, setCastlingRights_squares,
        setEnPassantTarget_squares, enPassantStep_squares, if_true]
      split_ifs <;> simp_all
    · simp
    · simp
  | capturePromotion dst t hpt hv ht htc hr =>
    have ht2 : g.board.squares dst.index = some t := ht
    have hpe : p = ⟨g.side, .PAWN⟩ := by
      cases p
      simp only at hpt hpc
      rw [hpt, hpc]
    simp only [Game.undoMove, Game.applyChecked, List.getLast?_concat, List.dropLast_concat,
      hasFlag_table, Bool.false_eq_true, if_false, if_true, flip_flip, captureStep, takePiece_fst,
      takePiece_snd, placeStep_plain, promoteStep, ht]
    refine congrArg some (Game.ext (Board.ext (funext fun i => ?_) ?_ ?_) rfl rfl)
    · simp only [Board.atSq, putPiece_squares, setCastlingRights_squares,
        setEnPassantTarget_squares, enPassantStep_squares, if_true]
      split_ifs <;> simp_all
    · simp
    · simp
  | enPassant dst hpt hep hr hf =>
    obtain ⟨hv, he, q, hq, -⟩ := hinv.enPassant dst hep
    have he2 : g.board.squares dst.index = none := he
    have hs := isValid_iff.1 hsrc
    have hdv := isValid_iff.1 hv
    have hdir := pawnDir_cases p.color
    have hcs : (⟨dst.file, src.rank⟩ : Square) = ⟨dst.file, u8 (dst.rank - pawnDir g.side)⟩ := by
      rw [← hpc]
      simp only [Square.mk.injEq, true_and, u8]
      omega
    rw [← hcs] at hq
    have hq2 : g.board.squares (⟨dst.file, src.rank⟩ : Square).index = some q := hq
    have hne1 : ¬ src.index = (⟨dst.file, src.rank⟩ : Square).index := by
      simp only [Square.index]; omega
    have hne2 : ¬ dst.index = (⟨dst.file, src.rank⟩ : Square).index := by
      simp only [Square.index]; omega
    have hne3 : ¬ src.index = dst.index := by
      simp only [Square.index]; omega
    simp only [Game.undoMove, Game.applyChecked, List.getLast?_concat, List.dropLast_concat,
      hasFlag_table, Bool.false_eq_true, if_false, if_true, flip_flip, captureStep, takePiece_fst,
      takePiece_snd, placeStep_plain, promoteStep, hq]
    refine congrArg some (Game.ext (Board.ext (funext fun i => ?_) ?_ ?_) rfl rfl)
    · simp only [Board.atSq, putPiece_squares, setCastlingRights_squares,
        setEnPassantTarget_squares, enPassantStep_squares, if_true]
      clear hcs hr hf hdir hs hdv hinv hq he hp
      split_ifs <;> simp_all
    · simp
    · simp
  | castleK hpt hr hf hg ha =>
    rw [hpc] at hr hf hg
    have hcorner := (hinv.corners g.side).1 hr
    have hf2 : g.board.squares (⟨5, backRankOf g.side⟩ : Square).index = none := hf
    have hg2 : g.board.squares (⟨6, backRankOf g.side⟩ : Square).index = none := hg
    have hpe : p = ⟨g.side, .KING⟩ := by
      cases p
      simp only at hpt hpc
      rw [hpt, hpc]
    rw [hpe] at hp2
    have hb : backRankOf g.side = 0 ∨ backRankOf g.side = 7 := by
      cases g.side <;> simp [backRankOf]
    have hne1 : ¬ src.index = (⟨7, backRankOf g.side⟩ : Square).index := fun h => by
      have : g.board.atSq ⟨7, backRankOf g.side⟩ = some ⟨g.side, .KING⟩ := by
        unfold Board.atSq; rw [← h]; exact hp2
      exact hcorner this
    have hne2 : ¬ (⟨5, backRankOf g.side⟩ : Square).index = (⟨7, backRankOf g.side⟩ : Square).index := by
      simp only [Square.index]; omega
    have hne3 : ¬ (⟨6, backRankOf g.side⟩ : Square).index = (⟨7, backRankOf g.side⟩ : Square).index := by
      simp only [Square.index]; omega
    have hne4 : ¬ (⟨5, backRankOf g.side⟩ : Square).index = (⟨6, backRankOf g.side⟩ : Square).index := by
      simp only [Square.index]; omega
    have hbr : (if g.side = Color.WHITE then 0 else 7) = backRankOf g.side := rfl
    simp only [Game.undoMove, Game.applyChecked, List.getLast?_concat, List.dropLast_concat,
      hasFlag_table, Bool.false_eq_true, if_false, if_true, flip_flip, captureStep, takePiece_fst,
      takePiece_snd, placeStep_K, promoteStep, hpc, hbr]
    refine congrArg some (Game.ext (Board.ext (funext fun i => ?_) ?_ ?_) rfl rfl)
    · simp only [Board.atSq, putPiece_squares, setCastlingRights_squares,
        setEnPassantTarget_squares, enPassantStep_squares, if_true]
      clear ha hr hcorner hinv hp hf hg hb hbr hpt hpc hsrc
      split_ifs <;> simp_all
    · simp
    · simp
  | castleQ hpt hr hd hc hb ha =>
    rw [hpc] at hr hd hc
    have hcorner := (hinv.corners g.side).2 hr
    have hd2 : g.board.squares (⟨3, backRankOf g.side⟩ : Square).index = none := hd
    have hc2 : g.board.squares (⟨2, backRankOf g.side⟩ : Square).index = none := hc
    have hpe : p = ⟨g.side, .KING⟩ := by
      cases p
      simp only at hpt hpc
      rw [hpt, hpc]
    rw [hpe] at hp2
    have hbk : backRankOf g.side = 0 ∨ backRankOf g.side = 7 := by
      cases g.side <;> simp [backRankOf]
    have hne1 : ¬ src.index = (⟨0, backRankOf g.side⟩ : Square).index := fun h => by
      have : g.board.atSq ⟨0, backRankOf g.side⟩ = some ⟨g.side, .KING⟩ := by
        unfold Board.atSq; rw [← h]; exact hp2
      exact hcorner this
    have hne2 : ¬ (⟨3, backRankOf g.side⟩ : Square).index = (⟨0, backRankOf g.side⟩ : Square).index := by
      simp only [Square.index]; omega
    have hne3 : ¬ (⟨2, backRankOf g.side⟩ : Square).index = (⟨0, backRankOf g.side⟩ : Square).index := by
      simp only [Square.index]; omega
    have hne4 : ¬ (⟨3, backRankOf g.side⟩ : Square).index = (⟨2, backRankOf g.side⟩ : Square).index := by
      simp only [Square.index]; omega
    have hbr : (if g.side = Color.WHITE then 0 else 7) = backRankOf g.side := rfl
    simp only [Game.undoMove, Game.applyChecked, List.getLast?_concat, List.dropLast_concat,
      hasFlag_table, Bool.false_eq_true, if_false, if_true, flip_flip, captureStep, takePiece_fst,
      takePiece_snd, placeStep_Q, promoteStep, hpc, hbr]
    refine congrArg some (Game.ext (Board.ext (funext fun i => ?_) ?_ ?_) rfl rfl)
    · simp only [Board.atSq, putPiece_squares, setCastlingRights_squares,
        setEnPassantTarget_squares, enPassantStep_squares, if_true]
      clear ha hr hcorner hinv hp hd hc hb hbk hbr hpt hpc hsrc
      split_ifs <;> simp_all
    · simp
    · simp


/-- C1: in every position reachable from the initial position by legal moves,
every move `m` of `legalMoves()` can be made, and `undoMove` after it gives back
the very same game: all squares, castling rights, en-passant target, side to
move and history, hence the same `hashPosition`; `makeNullMove` followed by
`undoMove` gives back the game as well. -/
theorem makeMove_undoMove_restores (g : Game) (ms : List Move) (m : Move)
    (hr : Reachable g) (hl : g.legalMoves = .ok ms) (hm : m ∈ ms) :
    (∃ g', g.makeMove m = .ok g' ∧ g'.undoMove = some g ∧
      ∀ z : Zobrist, g'.undoMove.map (hashPosition z) = some (hashPosition z g)) ∧
    g.makeNullMove.undoMove = some g ∧
      ∀ z : Zobrist, g.makeNullMove.undoMove.map (hashPosition z) = some (hashPosition z g) := by
  have hinv := inv_of_reachable hr
  obtain ⟨hgenm, g', hmk, -⟩ := (mem_legalMoves hl).1 hm
  obtain ⟨src, p, hsrc, hp, hpc, hmem⟩ := mem_generateLegalMoves.1 hgenm
  have hshape := generated_shape hsrc hmem
  obtain ⟨-, -, mp, hmp, -, hg'⟩ := makeMove_eq_ok_iff.1 hmk
  rw [generated_src hshape, captureStep_atSq_src hsrc hp hshape] at hmp
  cases hmp
  have hundo : g'.undoMove = some g := by
    rw [hg']
    exact undo_step hinv hsrc hp hpc hshape
  refine ⟨⟨g', hmk, hundo, fun z => by rw [hundo]; rfl⟩, makeNullMove_undoMove g,
    fun z => by rw [makeNullMove_undoMove]; rfl⟩

theorem makeMove_undoMove_restores_witness :
    (∃ g', Game.makeMove {} (Move.mk ⟨4, 1⟩ ⟨4, 3⟩ QUIET 0) = .ok g' ∧
      g'.undoMove = some {} ∧
      ∀ z : Zobrist, g'.undoMove.map (hashPosition z) = some (hashPosition z {})) ∧
    (({} : Game).makeNullMove.undoMove = some {} ∧
      ∀ z : Zobrist,
        ({} : Game).makeNullMove.undoMove.map (hashPosition z) = some (hashPosition z {})) := by
  obtain ⟨ms, h1, h2⟩ := initial_e2e4_legal
  exact makeMove_undoMove_restores {} ms _ Reachable.init h1 h2


/-! ## When `legalMoves` returns -/

theorem ownPieceOn_eq_false_iff {b : Board} {m : Move} {mp : Piece} :
    ownPieceOn b m mp = false ↔ ∀ t, b.atSq m.dst = some t → t.color ≠ mp.color := by
  unfold ownPieceOn
  cases h : b.atSq m.dst with
  | none => simp
  | some t => simp

/-- A generated move is accepted by `makeMove` when the en-passant target, if
any, is a square of the board that holds no piece of the side to move. -/
theorem makeMove_ok_of_generated {g : Game} {p : Piece} {src : Square} {m : Move}
    (hsrc : src.isValid = true) (hp : g.board.atSq src = some p) (hpc : p.color = g.side)
    (hep : ∀ t, g.board.enPassantTarget = some t →
      t.isValid = true ∧ ∀ q, g.board.atSq t = some q → q.color ≠ g.side)
    (hshape : Generated g.board p src m) :
    g.makeMove m =
      .ok (g.applyChecked m (captureStep g.board m).1 (captureStep g.board m).2 p) := by
  have hsrc2 := generated_src hshape
  have hmp := captureStep_atSq_src hsrc hp hshape
  rw [makeMove_eq_ok_iff, hsrc2]
  have hs := isValid_iff.1 hsrc
  refine ⟨hsrc, ?_, p, hmp, ?_, rfl⟩
  · cases hshape with
    | quiet dst hv he hpawn => exact hv
    | promotion dst hpt hv he hr => exact hv
    | capture dst t hv ht htc hpawn => exact hv
    | capturePromotion dst t hpt hv ht htc hr => exact hv
    | enPassant dst hpt hep2 hr hf => exact (hep dst hep2).1
    | castleK hpt hr hf hg ha => exact backRank_valid p.color 6 (by omega)
    | castleQ hpt hr hd hc hb ha => exact backRank_valid p.color 2 (by omega)
  · rw [ownPieceOn_eq_false_iff]
    intro t ht
    cases hshape with
    | quiet dst hv he hpawn =>
      simp only [captureStep, hasFlag_table, Bool.false_eq_true, if_false] at ht
      rw [he] at ht; cases ht
    | promotion dst hpt hv he hr =>
      simp only [captureStep, hasFlag_table, Bool.false_eq_true, if_false] at ht
      rw [he] at ht; cases ht
    | capture dst t' hv ht' htc hpawn =>
      simp [captureStep, hasFlag_table] at ht
    | capturePromotion dst t' hpt hv ht' htc hr =>
      simp [captureStep, hasFlag_table] at ht
    | enPassant dst hpt hep2 hr hf =>
      simp only [captureStep, hasFlag_table, Bool.false_eq_true, if_false, if_true,
        takePiece_snd, atSq_putPiece] at ht
      split at ht
      · cases ht
      · rw [hpc]; exact (hep dst hep2).2 t ht
    | castleK hpt hr hf hg ha =>
      simp only [captureStep, hasFlag_table, Bool.false_eq_true, if_false] at ht
      rw [hg] at ht; cases ht
    | castleQ hpt hr hd hc hb ha =>
      simp only [captureStep, hasFlag_table, Bool.false_eq_true, if_false] at ht
      rw [hc] at ht; cases ht

/-- `legalMoves` raises nothing when the en-passant target, if any, is a square of
the board that holds no piece of the side to move. -/
theorem legalMoves_ok {g : Game}
    (hep : ∀ t, g.board.enPassantTarget = some t →
      t.isValid = true ∧ ∀ q, g.board.atSq t = some q → q.color ≠ g.side) :
    ∃ ms, g.legalMoves = .ok ms := by
  apply filterLegal_ok
  intro m hm
  obtain ⟨src, p, hsrc, hp, hpc, hmem⟩ := mem_generateLegalMoves.1 hm
  exact ⟨_, makeMove_ok_of_generated hsrc hp hpc hep (generated_shape hsrc hmem)⟩

/-- In reachable positions `legalMoves` raises nothing. -/
theorem legalMoves_ok_of_reachable {g : Game} (h : Reachable g) : ∃ ms, g.legalMoves = .ok ms := by
  have hinv := inv_of_reachable h
  apply legalMoves_ok
  intro t ht
  obtain ⟨h1, h2, -⟩ := hinv.enPassant t ht
  refine ⟨h1, ?_⟩
  intro q hq
  rw [h2] at hq
  cases hq


/-! ## The king of the mover after a move of `legalMoves()` -/

/-- A generated move that `makeMove` accepts keeps the number of kings of the
side to move, unless it is an en-passant capture whose capture square holds
that side's own king. -/
theorem kingCount_mover_step {g : Game} {p : Piece} {src : Square} {m : Move}
    (hsrc : src.isValid = true) (hp : g.board.atSq src = some p) (hpc : p.color = g.side)
    (hshape : Generated g.board p src m) (hd : m.dst.isValid = true)
    (hown : ownPieceOn (captureStep g.board m).2 m p = false)
    (hep : ∀ t, g.board.enPassantTarget = some t →
      g.board.atSq ⟨t.file, u8 (t.rank - pawnDir g.side)⟩ ≠ some ⟨g.side, .KING⟩) :
    kingCount (g.applyChecked m (captureStep g.board m).1 (captureStep g.board m).2 p).board
        g.side = kingCount g.board g.side := by
  have hother : ∀ t : Piece, t.color ≠ p.color → isKing (some t) g.side = 0 := by
    intro t htc
    unfold isKing
    rw [if_neg]
    intro h
    cases h
    exact htc hpc.symm
  cases hshape with
  | quiet dst hv he hpawn =>
    have hne : src ≠ dst := fun h => by rw [h, he] at hp; cases hp
    simp only [applyChecked_board, kingCount_enPassantStep, captureStep, hasFlag_table,
      Bool.false_eq_true, if_false, placeStep_plain, promoteStep, hp]
    exact kingCount_move _ src dst _ _ hsrc hv hne (by simp [hp]) (by simp [he, isKing])
  | promotion dst hpt hv he hr =>
    have hne : src ≠ dst := fun h => by rw [h, he] at hp; cases hp
    simp only [applyChecked_board, kingCount_enPassantStep, captureStep, hasFlag_table,
      Bool.false_eq_true, if_false, if_true, placeStep_plain, promoteStep, hp]
    refine kingCount_move _ src dst _ _ hsrc hv hne ?_ (by simp [he, isKing])
    rw [isKing_promoted, atSq_setCastlingRights, hp]
    exact isKing_of_type_ne (by rw [hpt]; simp) _
  | capture dst t hv ht htc hpawn =>
    have hne : src ≠ dst := fun h => by
      rw [h, ht] at hp; cases hp; exact htc rfl
    have hnek := hother t htc
    have hne2 : ¬ src.index = dst.index := fun h => hne ((index_inj hsrc hv).1 h)
    simp only [applyChecked_board, kingCount_enPassantStep, captureStep, hasFlag_table,
      Bool.false_eq_true, if_false, if_true, placeStep_plain, promoteStep, takePiece_fst,
      takePiece_snd, atSq_putPiece, hne2, hp]
    rw [kingCount_move _ src dst _ _ hsrc hv hne (by simp [hp, hne2]) (by simp [isKing])]
    simp only [kingCount_setCastlingRights]
    exact kingCount_put_eq _ dst none _ hv (by rw [ht, hnek, isKing_none])
  | capturePromotion dst t hpt hv ht htc hr =>
    have hne : src ≠ dst := fun h => by
      rw [h, ht] at hp; cases hp; exact htc rfl
    have hnek := hother t htc
    have hne2 : ¬ src.index = dst.index := fun h => hne ((index_inj hsrc hv).1 h)
    simp only [applyChecked_board, kingCount_enPassantStep, captureStep, hasFlag_table,
      Bool.false_eq_true, if_false, if_true, placeStep_plain, promoteStep, takePiece_fst,
      takePiece_snd, atSq_putPiece, hne2, hp]
    rw [kingCount_move _ src dst _ _ hsrc hv hne ?_ (by simp [isKing])]
    · simp only [kingCount_setCastlingRights]
      exact kingCount_put_eq _ dst none _ hv (by rw [ht, hnek, isKing_none])
    · rw [isKing_promoted]
      simp only [atSq_setCastlingRights, atSq_putPiece, hne2, if_false, hp]
      exact isKing_of_type_ne (by rw [hpt]; simp) _
  | enPassant dst hpt hep0 hr hf =>
    have hv : dst.isValid = true := hd
    have hs := isValid_iff.1 hsrc
    have hdv := isValid_iff.1 hv
    have hdir : pawnDir p.color = 1 ∨ pawnDir p.color = -1 := by
      cases p.color <;> simp [pawnDir]
    have hne : src ≠ dst := fun h => by
      rw [h] at hr
      omega
    have hcs : (⟨dst.file, src.rank⟩ : Square) = ⟨dst.file, u8 (dst.rank - pawnDir g.side)⟩ := by
      rw [← hpc]
      simp only [Square.mk.injEq, true_and, u8]
      omega
    have hcv : (⟨dst.file, src.rank⟩ : Square).isValid = true :=
      isValid_iff.2 ⟨hdv.1, hs.2⟩
    have hne3 : ¬ src.index = (⟨dst.file, src.rank⟩ : Square).index := by
      rw [index_inj hsrc hcv, Square.ext_iff]
      simp only
      omega
    have hne4 : ¬ dst.index = (⟨dst.file, src.rank⟩ : Square).index := by
      rw [index_inj hv hcv, Square.ext_iff]
      simp only
      omega
    have hking : isKing (g.board.atSq ⟨dst.file, src.rank⟩) g.side = 0 := by
      rw [hcs]
      unfold isKing
      rw [if_neg (hep dst hep0)]
    have hdst : isKing (g.board.atSq dst) g.side = 0 := by
      cases hdt : g.board.atSq dst with
      | none => exact isKing_none _
      | some t =>
        exact hother t ((ownPieceOn_eq_false_iff.1 hown) t
          (by simp [captureStep, hasFlag_table, hne4, hdt]))
    simp only [applyChecked_board, kingCount_enPassantStep, captureStep, hasFlag_table,
      Bool.false_eq_true, if_false, if_true, placeStep_plain, promoteStep, takePiece_fst,
      takePiece_snd, atSq_putPiece, hne3, hp]
    rw [kingCount_move _ src dst _ _ hsrc hv hne (by simp [hp, hne3])
      (by simpa [hne4] using hdst)]
    simp only [kingCount_setCastlingRights]
    refine kingCount_put_eq _ _ none _ hcv ?_
    rw [hking, isKing_none]
  | castleK hpt hr hf hg ha =>
    rw [hpc] at hf hg
    have hgv : (⟨6, backRankOf g.side⟩ : Square).isValid = true := backRank_valid g.side 6 (by omega)
    have hfv : (⟨5, backRankOf g.side⟩ : Square).isValid = true := backRank_valid g.side 5 (by omega)
    have hhv : (⟨7, backRankOf g.side⟩ : Square).isValid = true := backRank_valid g.side 7 (by omega)
    have hne : src ≠ ⟨6, backRankOf g.side⟩ := fun h => by rw [h, hg] at hp; cases hp
    have hfg : ¬ (⟨5, backRankOf g.side⟩ : Square).index = (⟨6, backRankOf g.side⟩ : Square).index := by
      simp only [Square.index]; omega
    simp only [applyChecked_board, kingCount_enPassantStep, captureStep, hasFlag_table,
      Bool.false_eq_true, if_false, promoteStep, hp, hpc]
    rw [placeStep_K (by simp [hasFlag_table])]
    simp only []
    rw [kingCount_move _ ⟨7, backRankOf g.side⟩ ⟨5, backRankOf g.side⟩ _ _ hhv hfv
      (by simp [Square.ext_iff]) rfl ?_]
    · exact kingCount_move _ src _ _ _ hsrc hgv hne (by simp [hp]) (by simp [hg, isKing])
    · simp only [atSq_putPiece, hfg, if_false, atSq_setCastlingRights, hf]
      split <;> exact isKing_none _
  | castleQ hpt hr hd0 hc hb ha =>
    rw [hpc] at hd0 hc
    have hcv : (⟨2, backRankOf g.side⟩ : Square).isValid = true := backRank_valid g.side 2 (by omega)
    have hdv : (⟨3, backRankOf g.side⟩ : Square).isValid = true := backRank_valid g.side 3 (by omega)
    have hav : (⟨0, backRankOf g.side⟩ : Square).isValid = true := backRank_valid g.side 0 (by omega)
    have hne : src ≠ ⟨2, backRankOf g.side⟩ := fun h => by rw [h, hc] at hp; cases hp
    have hdc : ¬ (⟨3, backRankOf g.side⟩ : Square).index = (⟨2, backRankOf g.side⟩ : Square).index := by
      simp only [Square.index]; omega
    simp only [applyChecked_board, kingCount_enPassantStep, captureStep, hasFlag_table,
      Bool.false_eq_true, if_false, promoteStep, hp, hpc]
    rw [placeStep_Q (by simp [hasFlag_table]) (by simp [hasFlag_table])]
    simp only []
    rw [kingCount_move _ ⟨0, backRankOf g.side⟩ ⟨3, backRankOf g.side⟩ _ _ hav hdv
      (by simp [Square.ext_iff]) rfl ?_]
    · exact kingCount_move _ src _ _ _ hsrc hcv hne (by simp [hp]) (by simp [hc, isKing])
    · simp only [atSq_putPiece, hdc, if_false, atSq_setCastlingRights, hd0]
      split <;> exact isKing_none _

/-- A board with a king of colour `c` has a square of the board that holds it. -/
theorem exists_king_of_count {b : Board} {c : Color} (h : 0 < kingCount b c) :
    ∃ k : Square, k.isValid = true ∧ b.atSq k = some ⟨c, .KING⟩ := by
  by_contra hno
  have hall : ∀ s ∈ allSquares, isKing (b.atSq s) c = 0 := by
    intro s hs
    unfold isKing
    rw [if_neg]
    intro hk
    exact hno ⟨s, mem_allSquares.1 hs, hk⟩
  have hz : kingCount b c = 0 := by
    unfold kingCount
    rw [List.sum_eq_zero]
    intro x hx
    obtain ⟨s, hs, rfl⟩ := List.mem_map.1 hx
    exact hall s hs
  omega

/-- In a position reached by legal play the square behind the en-passant target
holds a pawn, so it does not hold the king of the side to move. -/
theorem reachable_behind_target {g : Game} (h : Reachable g) :
    ∀ t, g.board.enPassantTarget = some t →
      g.board.atSq ⟨t.file, u8 (t.rank - pawnDir g.side)⟩ ≠ some ⟨g.side, .KING⟩ := by
  intro t ht hk
  obtain ⟨-, -, q, hq, hqt⟩ := (inv_of_reachable h).enPassant t ht
  rw [hk] at hq
  cases hq
  cases hqt

/-- C2 (counterexample): in the game the four `makeMove` calls of
`kingBesidePawnMoves` build from the initial position, white is to move and has
exactly one king, on `d5`, beside the white pawn on `e5`, and the en-passant
target is `d6`.  `legalMoves()` contains `e5 → d6` with the EN_PASSANT flag;
`makeMove` of it takes the piece on `(d, rank of e5) = d5`, the white king, so
afterwards no square holds a white king (the legality filter then tests
`Square{} = a1`). -/
theorem legalMoves_enPassant_takes_own_king :
    ∃ g, playMoves {} kingBesidePawnMoves = some g ∧ g.side = .WHITE ∧
      kingCount g.board .WHITE = 1 ∧ g.board.atSq ⟨3, 4⟩ = some ⟨.WHITE, .KING⟩ ∧
      g.board.atSq ⟨4, 4⟩ = some ⟨.WHITE, .PAWN⟩ ∧
      g.board.enPassantTarget = some ⟨3, 5⟩ ∧
      ∃ ms g', g.legalMoves = .ok ms ∧ Move.mk ⟨4, 4⟩ ⟨3, 5⟩ EN_PASSANT 0 ∈ ms ∧
        g.makeMove (Move.mk ⟨4, 4⟩ ⟨3, 5⟩ EN_PASSANT 0) = .ok g' ∧
        kingCount g'.board .WHITE = 0 ∧ findKing g'.board .WHITE = ⟨0, 0⟩ ∧
        g'.board.atSq ⟨3, 4⟩ = none :=
  ⟨_, rfl, rfl, by decide, by decide, by decide, by decide, _, _, rfl, by decide, rfl,
    by decide, by decide, by decide⟩

/-- C2 (amended): in every game in which the side to move has exactly one king
and in which, when an en-passant target `t` is set, the square behind it for the
side to move, `(t.file, t.rank − direction)`, does not hold that king: every
move of `legalMoves()` can be made, and afterwards exactly one square of the
board holds the king of the side that just moved, and that square is not
attacked by the other side. -/
theorem legalMoves_leave_king_safe (g : Game) (ms : List Move) (m : Move)
    (hone : kingCount g.board g.side = 1)
    (hep : ∀ t, g.board.enPassantTarget = some t →
      g.board.atSq ⟨t.file, u8 (t.rank - pawnDir g.side)⟩ ≠ some ⟨g.side, .KING⟩)
    (hl : g.legalMoves = .ok ms) (hm : m ∈ ms) :
    ∃ g' k, g.makeMove m = .ok g' ∧ k.isValid = true ∧
      g'.board.atSq k = some ⟨g.side, .KING⟩ ∧
      (∀ s : Square, s.isValid = true → g'.board.atSq s = some ⟨g.side, .KING⟩ → s = k) ∧
      g'.board.isSquareAttacked k g.side.flip = false := by
  obtain ⟨hgenm, g', hg', hsafe⟩ := (mem_legalMoves hl).1 hm
  obtain ⟨src, p, hsrc, hp, hpc, hmem⟩ := mem_generateLegalMoves.1 hgenm
  have hshape := generated_shape hsrc hmem
  obtain ⟨hs, hd, mp, hmp, hown, hg2⟩ := makeMove_eq_ok_iff.1 hg'
  have hsrc2 := generated_src hshape
  rw [hsrc2, captureStep_atSq_src hsrc hp hshape] at hmp
  cases hmp
  have hcount : kingCount g'.board g.side = 1 := by
    rw [hg2, kingCount_mover_step hsrc hp hpc hshape hd hown hep, hone]
  obtain ⟨k, hkv, hk⟩ := exists_king_of_count (show 0 < kingCount g'.board g.side by omega)
  refine ⟨g', k, hg', hkv, hk, ?_, ?_⟩
  · intro s hsv hsk
    exact king_unique (le_of_eq hcount) hsv hkv hsk hk
  · rw [← findKing_eq (le_of_eq hcount) hkv hk]
    exact hsafe

theorem legalMoves_leave_king_safe_witness :
    ∃ g' k, Game.makeMove {} (Move.mk ⟨4, 1⟩ ⟨4, 3⟩ QUIET 0) = .ok g' ∧ k.isValid = true ∧
      g'.board.atSq k = some ⟨.WHITE, .KING⟩ ∧
      (∀ s : Square, s.isValid = true → g'.board.atSq s = some ⟨.WHITE, .KING⟩ → s = k) ∧
      g'.board.isSquareAttacked k Color.BLACK = false := by
  obtain ⟨ms, h1, h2⟩ := initial_e2e4_legal
  exact legalMoves_leave_king_safe {} ms _ (by decide) (fun t h => by cases h) h1 h2

/-! ## White kingside castling -/

theorem geom_e1 (dx dy : Int) (j : Nat) (hdx : dx = -1 ∨ dx = 0 ∨ dx = 1)
    (hdy : dy = -1 ∨ dy = 0 ∨ dy = 1) (hj1 : 1 ≤ j) (hj : j < 10)
    (h : (⟨6, 0⟩ : Square).offset (dx * j) (dy * j) = ⟨4, 0⟩) :
    (⟨6, 0⟩ : Square).offset (dx * (1 : Nat)) (dy * (1 : Nat)) = ⟨5, 0⟩ ∧ 1 < j := by
  simp only [Square.offset, u8, Square.ext_iff] at h ⊢
  rcases hdx with rfl | rfl | rfl <;> rcases hdy with rfl | rfl | rfl <;> omega

theorem geom_h1 (dx dy : Int) (j : Nat) (hdx : dx = -1 ∨ dx = 0 ∨ dx = 1)
    (hdy : dy = -1 ∨ dy = 0 ∨ dy = 1) (hj1 : 1 ≤ j) (hj : j < 10)
    (h : (⟨6, 0⟩ : Square).offset (dx * j) (dy * j) = ⟨7, 0⟩) :
    j = 1 ∧ ((⟨6, 0⟩ : Square).offset (dx * (2 : Nat)) (dy * (2 : Nat))).isValid = false := by
  simp only [Square.offset, u8, Square.ext_iff, Square.isValid, Bool.and_eq_false_imp,
    decide_eq_true_eq, decide_eq_false_iff_not] at h ⊢
  rcases hdx with rfl | rfl | rfl <;> rcases hdy with rfl | rfl | rfl <;> omega

/-- After white has castled kingside the square `g1` is attacked by black only
if it was before: the four squares that changed hold no black piece, `f1` is now
blocked and nothing lies beyond `h1`. -/
theorem attack_frame_g1 (b b' : Board)
    (hsame : ∀ x : Square, x.isValid = true → x ≠ ⟨4, 0⟩ → x ≠ ⟨5, 0⟩ → x ≠ ⟨6, 0⟩ →
      x ≠ ⟨7, 0⟩ → b'.atSq x = b.atSq x)
    (he : b'.atSq ⟨4, 0⟩ = none) (hf : b'.atSq ⟨5, 0⟩ = some ⟨.WHITE, .ROOK⟩)
    (hg : b'.atSq ⟨6, 0⟩ = some ⟨.WHITE, .KING⟩) (hh : b'.atSq ⟨7, 0⟩ = none)
    (hatt : b.isSquareAttacked ⟨6, 0⟩ .BLACK = false) :
    b'.isSquareAttacked ⟨6, 0⟩ .BLACK = false := by
  have hblack : ∀ x : Square, x.isValid = true → ∀ q : Piece, b'.atSq x = some q →
      q.color = .BLACK → b.atSq x = some q := by
    intro x hx q hq hqc
    by_cases h4 : x = ⟨4, 0⟩
    · rw [h4, he] at hq; cases hq
    by_cases h5 : x = ⟨5, 0⟩
    · rw [h5, hf] at hq; cases hq; cases hqc
    by_cases h6 : x = ⟨6, 0⟩
    · rw [h6, hg] at hq; cases hq; cases hqc
    by_cases h7 : x = ⟨7, 0⟩
    · rw [h7, hh] at hq; cases hq
    rw [← hsame x hx h4 h5 h6 h7]; exact hq
  have hprobe : ∀ (x : Square) (t : PieceType), probe b' x .BLACK t = true →
      probe b x .BLACK t = true := by
    intro x t h
    rw [probe_eq_true_iff] at h ⊢
    exact ⟨h.1, hblack x h.1 _ h.2 rfl⟩
  have hray : ∀ (d : Int × Int) (t1 t2 : PieceType), d ∈ diagDirs ∨ d ∈ orthoDirs →
      attackRay b' ⟨6, 0⟩ .BLACK t1 t2 d 1 9 = true →
      attackRay b ⟨6, 0⟩ .BLACK t1 t2 d 1 9 = true := by
    intro d t1 t2 hd h
    obtain ⟨hdx, hdy, -⟩ := dirs_unit hd
    rw [attackRay_eq_true_iff] at h ⊢
    obtain ⟨k, hk1, hk2, hpath, hvk, p, hpk, hpc, hpt⟩ := h
    refine ⟨k, hk1, hk2, ?_, hvk, p, hblack _ hvk p hpk hpc, hpc, hpt⟩
    intro j hj1 hjk
    obtain ⟨hv, hnone⟩ := hpath j hj1 hjk
    refine ⟨hv, ?_⟩
    by_cases h4 : (⟨6, 0⟩ : Square).offset (d.1 * j) (d.2 * j) = ⟨4, 0⟩
    · obtain ⟨h1, h2⟩ := geom_e1 d.1 d.2 j hdx hdy hj1 (by omega) h4
      have := (hpath 1 (le_refl _) (by omega)).2
      rw [h1, hf] at this
      cases this
    by_cases h5 : (⟨6, 0⟩ : Square).offset (d.1 * j) (d.2 * j) = ⟨5, 0⟩
    · rw [h5, hf] at hnone; cases hnone
    by_cases h6 : (⟨6, 0⟩ : Square).offset (d.1 * j) (d.2 * j) = ⟨6, 0⟩
    · rw [h6, hg] at hnone; cases hnone
    by_cases h7 : (⟨6, 0⟩ : Square).offset (d.1 * j) (d.2 * j) = ⟨7, 0⟩
    · obtain ⟨h1, h2⟩ := geom_h1 d.1 d.2 j hdx hdy hj1 (by omega) h7
      have hv2 : ((⟨6, 0⟩ : Square).offset (d.1 * (2 : Nat)) (d.2 * (2 : Nat))).isValid = true := by
        rcases Nat.eq_or_lt_of_le (show 2 ≤ k by omega) with h | h
        · rw [h]; exact hvk
        · exact (hpath 2 (by omega) h).1
      rw [h2] at hv2
      cases hv2
    rw [← hsame _ hv h4 h5 h6 h7]; exact hnone
  by_contra hne
  rw [Bool.not_eq_false, isSquareAttacked_eq_true_iff] at hne
  have : b.isSquareAttacked ⟨6, 0⟩ .BLACK = true := by
    rw [isSquareAttacked_eq_true_iff]
    rcases hne with ⟨df, hdf, h⟩ | ⟨j, hj, h⟩ | ⟨d, hd, h⟩ | ⟨d, hd, h⟩ | ⟨j, hj, h⟩
    · exact Or.inl ⟨df, hdf, hprobe _ _ h⟩
    · exact Or.inr (Or.inl ⟨j, hj, hprobe _ _ h⟩)
    · exact Or.inr (Or.inr (Or.inl ⟨d, hd, hray d _ _ (Or.inl hd) h⟩))
    · exact Or.inr (Or.inr (Or.inr (Or.inl ⟨d, hd, hray d _ _ (Or.inr hd) h⟩)))
    · exact Or.inr (Or.inr (Or.inr (Or.inr ⟨j, hj, hprobe _ _ h⟩)))
  rw [hatt] at this
  cases this


/-- C10 (counterexample): the position `makeMove` builds from the initial one
by the sixteen moves of `castleTrapMoves` has white to move, exactly one white
king, on `e1`, a white rook on `h1`, `f1` and `g1` empty, the WK right set and
none of `e1`, `f1`, `g1` attacked by black; its en-passant target `b6` holds a
white knight.  `legalMoves()` returns no list there: the generated en-passant
move `a5 → b6` lands on the knight and `makeMove` on the copy raises. -/
theorem legalMoves_raises_in_castleTrap :
    ∃ g, playMoves {} castleTrapMoves = some g ∧
      (g.side = .WHITE ∧ kingCount g.board .WHITE = 1 ∧
        g.board.atSq ⟨4, 0⟩ = some ⟨.WHITE, .KING⟩ ∧
        g.board.atSq ⟨7, 0⟩ = some ⟨.WHITE, .ROOK⟩ ∧
        g.board.atSq ⟨5, 0⟩ = none ∧ g.board.atSq ⟨6, 0⟩ = none ∧
        hasFlag g.board.castlingRights WK = true ∧
        g.board.isSquareAttacked ⟨4, 0⟩ .BLACK = false ∧
        g.board.isSquareAttacked ⟨5, 0⟩ .BLACK = false ∧
        g.board.isSquareAttacked ⟨6, 0⟩ .BLACK = false ∧
        g.board.enPassantTarget = some ⟨1, 5⟩ ∧
        g.board.atSq ⟨1, 5⟩ = some ⟨.WHITE, .KNIGHT⟩) ∧
      g.legalMoves = .error .cannotCaptureOwn :=
  ⟨_, rfl, by decide, rfl⟩

/-- C10 (amended): for every position with white to move, exactly one white
king, on `e1`, a white rook on `h1`, `f1` and `g1` empty, the WK right set, none
of `e1`, `f1`, `g1` attacked by black, and whose en-passant target, if any, is a
square of the board holding no white piece: `legalMoves()` returns a list that
contains the move (`e1 → g1`, CASTLING_K), and after `makeMove` of it the white
king is on `g1`, the white rook on `f1`, `e1` and `h1` are empty, and WK and WQ
are both cleared. -/
theorem white_kingside_castling (g : Game) (hside : g.side = .WHITE)
    (hone : kingCount g.board .WHITE = 1)
    (hk : g.board.atSq ⟨4, 0⟩ = some ⟨.WHITE, .KING⟩)
    (hrook : g.board.atSq ⟨7, 0⟩ = some ⟨.WHITE, .ROOK⟩)
    (hf : g.board.atSq ⟨5, 0⟩ = none) (hg : g.board.atSq ⟨6, 0⟩ = none)
    (hright : hasFlag g.board.castlingRights WK = true)
    (ha : g.board.isSquareAttacked ⟨4, 0⟩ .BLACK = false ∧
      g.board.isSquareAttacked ⟨5, 0⟩ .BLACK = false ∧
      g.board.isSquareAttacked ⟨6, 0⟩ .BLACK = false)
    (hep : ∀ t, g.board.enPassantTarget = some t →
      t.isValid = true ∧ ∀ q, g.board.atSq t = some q → q.color ≠ .WHITE) :
    ∃ ms g', g.legalMoves = .ok ms ∧ Move.mk ⟨4, 0⟩ ⟨6, 0⟩ CASTLING_K 0 ∈ ms ∧
      g.makeMove (Move.mk ⟨4, 0⟩ ⟨6, 0⟩ CASTLING_K 0) = .ok g' ∧
      g'.board.atSq ⟨6, 0⟩ = some ⟨.WHITE, .KING⟩ ∧
      g'.board.atSq ⟨5, 0⟩ = some ⟨.WHITE, .ROOK⟩ ∧
      g'.board.atSq ⟨4, 0⟩ = none ∧ g'.board.atSq ⟨7, 0⟩ = none ∧
      hasFlag g'.board.castlingRights WK = false ∧
      hasFlag g'.board.castlingRights WQ = false := by
  have hep2 : ∀ t, g.board.enPassantTarget = some t →
      t.isValid = true ∧ ∀ q, g.board.atSq t = some q → q.color ≠ g.side := by
    rw [hside]; exact hep
  have he1 : (⟨4, 0⟩ : Square).isValid = true := by decide
  have hshape : Generated g.board ⟨.WHITE, .KING⟩ ⟨4, 0⟩ (Move.mk ⟨4, 0⟩ ⟨6, 0⟩ CASTLING_K 0) :=
    Generated.castleK rfl hright hf hg ha
  have hmk := makeMove_ok_of_generated he1 hk hside.symm hep2 hshape
  have hgen : Move.mk ⟨4, 0⟩ ⟨6, 0⟩ CASTLING_K 0 ∈ g.board.generateLegalMoves g.side := by
    refine mem_generateLegalMoves.2 ⟨⟨4, 0⟩, ⟨.WHITE, .KING⟩, he1, hk, hside.symm, ?_⟩
    simp only [Piece.legalMoves, King.legalMoves, List.mem_append]
    exact Or.inr (mem_castlingMoves.2 (Or.inl ⟨⟨hright, hf, hg, ha⟩, rfl⟩))
  obtain ⟨ms, hl⟩ := legalMoves_ok hep2
  -- the board after the move
  have hboard : ∀ x : Square,
      (g.applyChecked (Move.mk ⟨4, 0⟩ ⟨6, 0⟩ CASTLING_K 0)
        (captureStep g.board (Move.mk ⟨4, 0⟩ ⟨6, 0⟩ CASTLING_K 0)).1
        (captureStep g.board (Move.mk ⟨4, 0⟩ ⟨6, 0⟩ CASTLING_K 0)).2 ⟨.WHITE, .KING⟩).board.atSq x =
      if x.index = 5 then some ⟨.WHITE, .ROOK⟩
      else if x.index = 7 then none
      else if x.index = 6 then some ⟨.WHITE, .KING⟩
      else if x.index = 4 then none
      else g.board.atSq x := by
    intro x
    rw [applyChecked_board, enPassantStep_atSq, placeStep_K (by simp [hasFlag_table])]
    simp only [captureStep, hasFlag_table, Bool.false_eq_true, if_false, atSq_putPiece,
      atSq_setCastlingRights, hside, promoteStep, hk, hrook,
      show backRankOf Color.WHITE = 0 from rfl,
      show (⟨5, 0⟩ : Square).index = 5 from rfl, show (⟨6, 0⟩ : Square).index = 6 from rfl,
      show (⟨7, 0⟩ : Square).index = 7 from rfl, show (⟨4, 0⟩ : Square).index = 4 from rfl,
      show ¬ (7 : Nat) = 6 from by decide, show ¬ (7 : Nat) = 4 from by decide]
  generalize hg' : g.applyChecked (Move.mk ⟨4, 0⟩ ⟨6, 0⟩ CASTLING_K 0)
        (captureStep g.board (Move.mk ⟨4, 0⟩ ⟨6, 0⟩ CASTLING_K 0)).1
        (captureStep g.board (Move.mk ⟨4, 0⟩ ⟨6, 0⟩ CASTLING_K 0)).2 ⟨.WHITE, .KING⟩ = g' at hmk hboard
  have h6 : g'.board.atSq ⟨6, 0⟩ = some ⟨.WHITE, .KING⟩ := by rw [hboard]; rfl
  have h5 : g'.board.atSq ⟨5, 0⟩ = some ⟨.WHITE, .ROOK⟩ := by rw [hboard]; rfl
  have h4 : g'.board.atSq ⟨4, 0⟩ = none := by rw [hboard]; rfl
  have h7 : g'.board.atSq ⟨7, 0⟩ = none := by rw [hboard]; rfl
  have hsame : ∀ x : Square, x.isValid = true → x ≠ ⟨4, 0⟩ → x ≠ ⟨5, 0⟩ → x ≠ ⟨6, 0⟩ →
      x ≠ ⟨7, 0⟩ → g'.board.atSq x = g.board.atSq x := by
    intro x hx n4 n5 n6 n7
    rw [hboard]
    have hxv := isValid_iff.1 hx
    have key : ∀ f : Nat, f < 8 → x.index = f → x = ⟨f, 0⟩ := by
      intro f hf h
      rw [Square.ext_iff]
      simp only [Square.index] at h
      show x.file = f ∧ x.rank = 0
      constructor <;> omega
    have e4 : ¬ x.index = 4 := fun h => n4 (key 4 (by omega) h)
    have e5 : ¬ x.index = 5 := fun h => n5 (key 5 (by omega) h)
    have e6 : ¬ x.index = 6 := fun h => n6 (key 6 (by omega) h)
    have e7 : ¬ x.index = 7 := fun h => n7 (key 7 (by omega) h)
    simp only [e4, e5, e6, e7, if_false]
  have hcount : kingCount g'.board .WHITE ≤ 1 := by
    have := kingCount_makeMove_le hmk .WHITE
    omega
  have hfind : findKing g'.board .WHITE = ⟨6, 0⟩ := findKing_eq hcount (by decide) h6
  have hsafe : g'.board.isSquareAttacked (findKing g'.board g.side) g.side.flip = false := by
    rw [hside, hfind]
    exact attack_frame_g1 g.board g'.board hsame h4 h5 h6 h7 ha.2.2
  have hrights : g'.board.castlingRights =
      rightsAfter g.side g.board.castlingRights ⟨.WHITE, .KING⟩ none
        (Move.mk ⟨4, 0⟩ ⟨6, 0⟩ CASTLING_K 0) := by
    rw [← hg', applyChecked_castlingRights]
    simp [captureStep, hasFlag_table]
  have hcleared := @rightsAfter_king g.side g.board.castlingRights ⟨.WHITE, .KING⟩ none
    (Move.mk ⟨4, 0⟩ ⟨6, 0⟩ CASTLING_K 0) rfl
  rw [← hrights, hside] at hcleared
  exact ⟨ms, g', hl, (mem_legalMoves hl).2 ⟨hgen, g', hmk, hsafe⟩, hmk, h6, h5, h4, h7,
    hcleared.1, hcleared.2⟩

theorem white_kingside_castling_witness :
    ∃ ms g', castleReady.legalMoves = .ok ms ∧ Move.mk ⟨4, 0⟩ ⟨6, 0⟩ CASTLING_K 0 ∈ ms ∧
      castleReady.makeMove (Move.mk ⟨4, 0⟩ ⟨6, 0⟩ CASTLING_K 0) = .ok g' ∧
      g'.board.atSq ⟨6, 0⟩ = some ⟨.WHITE, .KING⟩ ∧
      g'.board.atSq ⟨5, 0⟩ = some ⟨.WHITE, .ROOK⟩ ∧
      g'.board.atSq ⟨4, 0⟩ = none ∧ g'.board.atSq ⟨7, 0⟩ = none ∧
      hasFlag g'.board.castlingRights WK = false ∧
      hasFlag g'.board.castlingRights WQ = false :=
  white_kingside_castling castleReady rfl (by decide) (by decide) (by decide) (by decide)
    (by decide) (by decide) (by decide) (fun t h => by cases h)


/-! ## `chooseMove` and a stale table entry -/

theorem alphaBeta_zero (z : Zobrist) (g : Game) (alpha beta : Int) (n : Bool)
    (st : EngineState) : alphaBeta z 0 g alpha beta n st = evalResult g st := by
  rw [alphaBeta]
  simp

theorem evalResult_not_assertion (g : Game) (st : EngineState) :
    (evalResult g st).value ≠ .error .assertion := by
  unfold evalResult
  cases evaluate g <;> simp

/-- With children that only evaluate, the root loop ends normally and leaves
the engine state as it was. -/
theorem rootLoop_eval (z : Zobrist) (g : Game) (alpha beta : Int) :
    ∀ (moves : List Move) (acc : RootAcc),
      ∃ acc', rootLoop (fun c a b n s => alphaBeta z 0 c a b n s) g alpha beta moves acc
          = .ok acc' ∧ acc'.state = acc.state := by
  intro moves
  induction moves with
  | nil => intro acc; exact ⟨acc, rfl, rfl⟩
  | cons mv rest ih =>
    intro acc
    have htask : ∃ acc1, rootTask (fun c a b n s => alphaBeta z 0 c a b n s) g alpha beta acc mv
        = .ok acc1 ∧ acc1.state = acc.state := by
      unfold rootTask
      cases hmk : g.makeMove mv with
      | error e => exact ⟨acc, rfl, rfl⟩
      | ok c =>
        simp only [alphaBeta_zero]
        have hna := evalResult_not_assertion c acc.state
        have hst : (evalResult c acc.state).state = acc.state := rfl
        cases hv : (evalResult c acc.state).value with
        | error f =>
          cases f with
          | ruleError e => exact ⟨_, rfl, hst⟩
          | assertion => exact absurd hv hna
        | ok v =>
          simp only []
          split
          · exact ⟨_, rfl, hst⟩
          · exact ⟨_, rfl, hst⟩
    obtain ⟨acc1, h1, h2⟩ := htask
    obtain ⟨acc2, h3, h4⟩ := ih acc1
    refine ⟨acc2, ?_, by rw [h4, h2]⟩
    rw [rootLoop, h1]
    exact h3

theorem stale_probe (z : Zobrist) (g : Game) (out : TTEntry) :
    (staleEngine z g).tt.probe (hashPosition z g) out = (true, staleEntry z g) := by
  simp [TranspositionTable.probe, staleEngine, staleEntry]

theorem stale_store (z : Zobrist) (g : Game) (a origAlpha beta : Int) (bl : Move) :
    (staleEngine z g).tt.store (nodeEntry (hashPosition z g) a origAlpha beta 1 bl)
      = (staleEngine z g).tt := by
  simp [TranspositionTable.store, staleEngine, staleEntry, nodeEntry, toInt8]

/-- A search of depth 1 from `g`, run with `maxDepth = 1` on a table that holds
the stale entry for `g`, returns normally and leaves that table as it was. -/
theorem alphaBeta_one_stale (z : Zobrist) (g : Game) (ms : List Move)
    (hms : g.legalMoves = .ok ms) (hne : ms ≠ []) (st : EngineState)
    (hstop : st.stop = false) (htt : st.tt = (staleEngine z g).tt)
    (hopt : st.opt.maxDepth = 1) :
    ∃ a st', alphaBeta z 1 g (-100000) 100000 true st = ⟨.ok a, g, st'⟩ ∧
      st'.tt = st.tt ∧ st'.opt = st.opt ∧ st'.stop = st.stop := by
  rw [alphaBeta]
  have hcut : ((staleEntry z g).bound == Bound.EXACT ||
      ((staleEntry z g).bound == Bound.LOWER && decide ((staleEntry z g).score ≥ 100000)) ||
      ((staleEntry z g).bound == Bound.UPPER && decide ((staleEntry z g).score ≤ -100000)))
      = false := by
    simp [staleEntry]
  simp only [hstop, Bool.false_eq_true, if_false, htt, stale_probe, hcut, Bool.and_false,
    Nat.one_ne_zero, dite_false, show ¬ (true = true ∧ 3 ≤ 1) from by omega]
  unfold searchMoves
  have hemp : ms.isEmpty = false := by
    cases ms with
    | nil => exact absurd rfl hne
    | cons _ _ => rfl
  simp only [hms, hemp, Bool.false_eq_true, if_false, hopt, Nat.cast_one, if_true]
  obtain ⟨acc, hacc, hst⟩ := rootLoop_eval z g (-100000) 100000
    (orderMoves st ms (staleEntry z g).bestMove (1 - 1)) { state := st }
  simp only [Nat.sub_self] at hacc ⊢
  rw [hacc]
  refine ⟨acc.bestScore, _, rfl, ?_, ?_, ?_⟩
  · simp only [hst, htt, stale_store]
  · simp only [hst]
  · simp only [hst, hstop]

theorem initial_moves_without_default :
    ∃ ms, Game.legalMoves {} = .ok ms ∧ ms ≠ [] ∧ ({} : Move) ∉ ms :=
  ⟨_, rfl, by decide, by decide⟩

/-- C4 (failing input): an engine with `maxDepth = 1` whose transposition table
holds, for the hash of the initial position, an entry of depth 2 with bound UPPER
and the default move (what an earlier, deeper search stores for an interior node
that fails low).  Whatever the Zobrist tables and the clock, `chooseMove` on the
initial position returns the default move `a1 → a1`, which is not a member of
the non-empty `legalMoves()`. -/
theorem chooseMove_returns_stale_move (z : Zobrist) (clock : Nat → Bool) :
    (chooseMove z clock (staleEngine z {}) {}).1 = .ok (some {}) ∧
      ∃ ms, Game.legalMoves {} = .ok ms ∧ ms ≠ [] ∧ ({} : Move) ∉ ms := by
  refine ⟨?_, initial_moves_without_default⟩
  obtain ⟨ms, hms, hne, -⟩ := initial_moves_without_default
  have key : ∀ st : EngineState, st.stop = false → st.tt = (staleEngine z {}).tt →
      st.opt.maxDepth = 1 →
      ∃ a st', alphaBeta z 1 {} (-100000) 100000 true st = ⟨.ok a, {}, st'⟩ ∧
        st'.tt = st.tt ∧ st'.opt = st.opt ∧ st'.stop = st.stop :=
    fun st h1 h2 h3 => alphaBeta_one_stale z {} ms hms hne st h1 h2 h3
  obtain ⟨a, st1, h1, h1tt, h1opt, h1stop⟩ := key
    { staleEngine z {} with stop := false, history := fun _ _ => 0, killers := fun _ _ => {} }
    rfl rfl rfl
  obtain ⟨a2, st2, h2, h2tt, -, -⟩ := key st1 (by rw [h1stop]) (by rw [h1tt])
    (by rw [h1opt]; rfl)
  have hp1 : st1.tt.probe (hashPosition z {}) {} = (true, staleEntry z {}) := by
    rw [h1tt]; exact stale_probe z {} {}
  have hp2 : st2.tt.probe (hashPosition z {}) {} = (true, staleEntry z {}) := by
    rw [h2tt, h1tt]; exact stale_probe z {} {}
  simp only [chooseMove, iterativeDeepening, show (staleEngine z {}).opt.maxDepth.toNat = 1 from rfl,
    deepenLoop, h1]
  by_cases hw : a ≤ -100000 ∨ a ≥ 100000
  · simp only [hw, if_true, h2]
    cases clock 1 <;> simp [hp2, staleEntry]
  · simp only [hw, if_false]
    cases clock 1 <;> simp [hp1, staleEntry]


/-! ## Fool's mate and the position with the queen on `e2` -/

/-- C13: from a default-constructed `Game`, `makeMove` accepts the quiet moves
`f2-f3`, `e7-e5`, `g2-g4`, `d8-h4` in that order; in the position they lead to
white is to move, `legalMoves()` returns the empty list and
`isSquareAttacked(e1, BLACK)` is true. -/
theorem fools_mate_is_mate :
    ∃ g, playMoves {} foolsMateMoves = some g ∧ g.side = .WHITE ∧ g.legalMoves = .ok [] ∧
      g.board.isSquareAttacked ⟨4, 0⟩ .BLACK = true :=
  ⟨_, rfl, rfl, rfl, rfl⟩

/-- C14 (counterexample): with the white king on `e1`, the black king on `e3`
and the black queen on `e2`, white to move, `isSquareAttacked(e1, BLACK)` is
true, not false (the queen stands next to the king on its file), and `evaluate`
does not return 0. -/
theorem queenOnE2_not_stalemate :
    queenOnE2.board.isSquareAttacked ⟨4, 0⟩ .BLACK ≠ false ∧ evaluate queenOnE2 ≠ .ok 0 :=
  ⟨by decide, fun h => by
    have h2 : evaluate queenOnE2 = .ok (-1010) := rfl
    rw [h2] at h
    exact absurd (Except.ok.inj h) (by decide)⟩

/-- C14 (amended): in the position whose only pieces are a white king on `e1`, a
black king on `e3` and a black queen on `e2`, with white to move, no castling
right and no en-passant target, `legalMoves()` is empty,
`isSquareAttacked(e1, BLACK)` is true (the position is checkmate), black has 22
legal moves after a null move, and `evaluate` returns
`-900 + 5 * 0 - 5 * 22 = -1010`. -/
theorem queenOnE2_is_mate :
    queenOnE2.side = .WHITE ∧ queenOnE2.board.castlingRights = 0 ∧
      queenOnE2.board.enPassantTarget = none ∧
      (∀ s : Square, s.isValid = true →
        queenOnE2.board.atSq s =
          if s = ⟨4, 0⟩ then some ⟨.WHITE, .KING⟩
          else if s = ⟨4, 2⟩ then some ⟨.BLACK, .KING⟩
          else if s = ⟨4, 1⟩ then some ⟨.BLACK, .QUEEN⟩ else none) ∧
      queenOnE2.legalMoves = .ok [] ∧
      queenOnE2.board.isSquareAttacked ⟨4, 0⟩ .BLACK = true ∧
      (∃ ms, queenOnE2.makeNullMove.legalMoves = .ok ms ∧ ms.length = 22) ∧
      evaluate queenOnE2 = .ok (-1010) := by
  refine ⟨rfl, rfl, rfl, ?_, rfl, rfl, ⟨_, rfl, rfl⟩, rfl⟩
  intro s hs
  rw [← mem_allSquares] at hs
  revert s
  decide

/-! ## The en-passant target after a ply -/

theorem captureStep_atSq_some {b : Board} {m : Move} {s : Square} {p : Piece}
    (h : (captureStep b m).2.atSq s = some p) : b.atSq s = some p := by
  unfold captureStep at h
  split at h
  · simp only [Board.takePiece, Board.atSq] at h ⊢
    split at h
    · cases h
    · exact h
  · split at h
    · simp only [Board.takePiece, Board.atSq] at h ⊢
      split at h
      · cases h
      · exact h
    · exact h

theorem makeMoveRead_eq_ok_iff {read : PieceType} {g : Game} {m : Move} {g' : Game} :
    g.makeMoveRead read m = .ok g' ↔
      m.src.isValid = true ∧ m.dst.isValid = true ∧
        ∃ mp, (captureStep g.board m).2.atSq m.src = some mp ∧
          ownPieceOn (captureStep g.board m).2 m mp = false ∧
          g' = g.applyCheckedRead read m (captureStep g.board m).1 (captureStep g.board m).2
            mp := by
  unfold Game.makeMoveRead
  by_cases hs : m.src.isValid = true
  · by_cases hd : m.dst.isValid = true
    · simp only [hs, hd, Bool.not_true, Bool.or_self, Bool.false_eq_true, if_false, true_and]
      cases hat : (captureStep g.board m).2.atSq m.src with
      | none => simp
      | some mp =>
        cases hown : ownPieceOn (captureStep g.board m).2 m mp with
        | true => simp [hown]
        | false =>
          simp only [hown, Bool.false_eq_true, if_false, Except.ok.injEq, Option.some.injEq,
            exists_eq_left', true_and]
          exact eq_comm
    · simp [hs, hd]
  · simp [hs]

/-- While the object is alive the read yields the type of the piece, and
`makeMoveRead` is `makeMove`; so it is when the read yields that type anyway. -/
theorem applyCheckedRead_eq (read : PieceType) (g : Game) (m : Move) (cap : Option Piece)
    (b1 : Board) (mp : Piece) (h : moverDestroyed g.side m = false ∨ read = mp.type) :
    g.applyCheckedRead read m cap b1 mp = g.applyChecked m cap b1 mp := by
  unfold Game.applyCheckedRead Game.applyChecked
  rcases h with h | h
  · simp only [h, Bool.false_eq_true, if_false]
  · subst h
    simp only [ite_self]

theorem makeMoveRead_eq_makeMove (read : PieceType) (g : Game) (m : Move)
    (h : moverDestroyed g.side m = false) : g.makeMoveRead read m = g.makeMove m := by
  unfold Game.makeMoveRead Game.makeMove
  by_cases hv : (!m.src.isValid || !m.dst.isValid) = true
  · simp only [hv, if_true]
  · simp only [hv, if_false]
    cases hat : (captureStep g.board m).2.atSq m.src with
    | none => rfl
    | some mp =>
      simp only []
      rw [applyCheckedRead_eq read g m _ _ _ (Or.inl h)]

theorem applyCheckedRead_target (read : PieceType) (g : Game) (m : Move) (cap : Option Piece)
    (b1 : Board) (mp : Piece) :
    (g.applyCheckedRead read m cap b1 mp).board.enPassantTarget =
      if (if moverDestroyed g.side m = true then read else mp.type) = .PAWN ∧
          ((m.dst.rank : Int) - (m.src.rank : Int)).natAbs = 2 then
        some ⟨m.src.file, u8 (((m.src.rank + m.dst.rank : Nat) : Int) / 2)⟩
      else none := by
  unfold Game.applyCheckedRead
  simp only [enPassantStep_target]
  by_cases h : moverDestroyed g.side m = true
  · simp only [h, if_true]
  · simp only [h, Bool.false_eq_true, if_false]

/-- C17: after every successful `makeMove(m)` the en-passant target is the square
`(m.from.file, (m.from.rank + m.to.rank) / 2)` if the value line 413 reads as the
type of the moved piece is PAWN and `|m.to.rank − m.from.rank| = 2`, and is
absent otherwise, whatever the target was before.  The value read is the type of
the piece that stood on `m.from` as long as that object is alive; for a move
with the PROMOTION flag, or a castling flag and `m.to` on the rook's landing
square, the object has been destroyed and the value is `read`, whatever the
freed memory holds.  After `makeNullMove()` the target is absent. -/
theorem enPassantTarget_after_ply (g : Game) (m : Move) (read : PieceType) :
    (∀ g', g.makeMoveRead read m = .ok g' →
      ∃ p, g.board.atSq m.src = some p ∧
        g'.board.enPassantTarget =
          if (if moverDestroyed g.side m = true then read else p.type) = .PAWN ∧
              ((m.dst.rank : Int) - (m.src.rank : Int)).natAbs = 2 then
            some ⟨m.src.file, (m.src.rank + m.dst.rank) / 2⟩
          else none) ∧
      g.makeNullMove.board.enPassantTarget = none := by
  refine ⟨?_, rfl⟩
  intro g' h
  obtain ⟨hs, hd, mp, hmp, -, rfl⟩ := makeMoveRead_eq_ok_iff.1 h
  refine ⟨mp, captureStep_atSq_some hmp, ?_⟩
  rw [applyCheckedRead_target]
  have h1 := isValid_iff.1 hs
  have h2 := isValid_iff.1 hd
  have h3 : u8 (((m.src.rank + m.dst.rank : Nat) : Int) / 2) = (m.src.rank + m.dst.rank) / 2 := by
    simp only [u8]
    omega
  rw [h3]

theorem enPassantTarget_after_ply_witness :
    ∃ g', Game.makeMoveRead .KING {} (Move.mk ⟨4, 1⟩ ⟨4, 3⟩ QUIET 0) = .ok g' ∧
      g'.board.enPassantTarget = some ⟨4, 2⟩ ∧
      g'.makeNullMove.board.enPassantTarget = none := by
  obtain ⟨p, h1, h2⟩ :=
    (enPassantTarget_after_ply {} (Move.mk ⟨4, 1⟩ ⟨4, 3⟩ QUIET 0) .KING).1 _ rfl
  have h0 : ({} : Game).board.atSq ⟨4, 1⟩ = some ⟨.WHITE, .PAWN⟩ := by decide
  have hp : p = ⟨.WHITE, .PAWN⟩ := (Option.some.inj (h0.symm.trans h1)).symm
  subst hp
  exact ⟨_, rfl, h2.trans (by decide), rfl⟩

/-- C17 (failing input): in the initial position `makeMove` accepts `e2 → e4`
with the PROMOTION flag: the pawn found on `e2` is replaced by a queen, which is
put on `e4`, so the object `movingPiece` points to is destroyed before line 413
reads its type.  If the freed memory still reads PAWN the en-passant target
becomes `e3`; if it reads anything else the target is absent. -/
theorem enPassantTarget_read_after_free :
    ({} : Game).board.atSq ⟨4, 1⟩ = some ⟨.WHITE, .PAWN⟩ ∧
      moverDestroyed .WHITE flaggedDoubleStep = true ∧
      (∃ g', Game.makeMoveRead .PAWN {} flaggedDoubleStep = .ok g' ∧
        g'.board.atSq ⟨4, 3⟩ = some ⟨.WHITE, .QUEEN⟩ ∧
        g'.board.enPassantTarget = some ⟨4, 2⟩) ∧
      (∃ g', Game.makeMoveRead .QUEEN {} flaggedDoubleStep = .ok g' ∧
        g'.board.atSq ⟨4, 3⟩ = some ⟨.WHITE, .QUEEN⟩ ∧
        g'.board.enPassantTarget = none) :=
  ⟨by decide, by decide, ⟨_, rfl, by decide, by decide⟩, ⟨_, rfl, by decide, by decide⟩⟩
theorem enPassantStep_congr (b : Board) (m : Move) (p q : Piece)
    (h : p.type = q.type ∨ ((m.dst.rank : Int) - (m.src.rank : Int)).natAbs ≠ 2) :
    enPassantStep b m p = enPassantStep b m q := by
  unfold enPassantStep
  rcases h with h | h
  · rw [h]
  · simp only [h, and_false, if_false]

/-- When the rank distance of the move is not 2 the value read at line 413 does
not matter. -/
theorem makeMoveRead_eq_of_rank (read : PieceType) (g : Game) (m : Move)
    (h : ((m.dst.rank : Int) - (m.src.rank : Int)).natAbs ≠ 2) :
    g.makeMoveRead read m = g.makeMove m := by
  unfold Game.makeMoveRead Game.makeMove
  by_cases hv : (!m.src.isValid || !m.dst.isValid) = true
  · simp only [hv, if_true]
  · simp only [hv, if_false]
    cases hat : (captureStep g.board m).2.atSq m.src with
    | none => rfl
    | some mp =>
      simp only []
      unfold Game.applyCheckedRead Game.applyChecked
      simp only [enPassantStep_congr _ m _ mp (Or.inr h)]

/-- For every move a generator emits the value read at line 413 does not matter:
`makeMoveRead` is `makeMove`. -/
theorem makeMoveRead_generated (read : PieceType) {g : Game} {p : Piece} {src : Square}
    {m : Move} (hpc : p.color = g.side) (hshape : Generated g.board p src m) :
    g.makeMoveRead read m = g.makeMove m := by
  have hdir : pawnDir p.color = 1 ∨ pawnDir p.color = -1 := by
    cases p.color <;> simp [pawnDir]
  cases hshape with
  | quiet dst hv he hpawn =>
    exact makeMoveRead_eq_makeMove read g _ (by simp [moverDestroyed, hasFlag_table])
  | promotion dst hpt hv he hr =>
    exact makeMoveRead_eq_of_rank read g _ (by simp only; omega)
  | capture dst t hv ht htc hpawn =>
    exact makeMoveRead_eq_makeMove read g _ (by simp [moverDestroyed, hasFlag_table])
  | capturePromotion dst t hpt hv ht htc hr =>
    exact makeMoveRead_eq_of_rank read g _ (by simp only; omega)
  | enPassant dst hpt hep hr hf =>
    exact makeMoveRead_eq_makeMove read g _ (by simp [moverDestroyed, hasFlag_table])
  | castleK hpt hr hf hg ha =>
    refine makeMoveRead_eq_makeMove read g _ ?_
    rw [hpc]
    cases g.side <;> simp [moverDestroyed, hasFlag_table, backRankOf, Square.index]
  | castleQ hpt hr hd hc hb ha =>
    refine makeMoveRead_eq_makeMove read g _ ?_
    rw [hpc]
    cases g.side <;> simp [moverDestroyed, hasFlag_table, backRankOf, Square.index]

/-! ## The Zobrist hash -/

theorem hash_fold (z : Zobrist) (b : Board) : ∀ (l : List Square) (h : Nat),
    l.foldl
      (fun h s =>
        match b.atSq s with
        | some p => h ^^^ z.table s.index p.type.code p.color.code
        | none => h) h =
      h ^^^ xorAll (l.filterMap fun s =>
        (b.atSq s).map fun p => z.table s.index p.type.code p.color.code) := by
  intro l
  induction l with
  | nil => intro h; simp [xorAll]
  | cons x xs ih =>
    intro h
    rw [List.foldl_cons, ih]
    cases hx : b.atSq x with
    | none => simp [List.filterMap_cons, hx]
    | some p => simp [List.filterMap_cons, hx, xorAll, Nat.xor_assoc]

theorem pieceEntries_congr (z : Zobrist) {b1 b2 : Board}
    (h : ∀ s : Square, s.isValid = true → b1.atSq s = b2.atSq s) :
    pieceEntries z b1 = pieceEntries z b2 := by
  unfold pieceEntries
  apply List.filterMap_congr
  intro s hs
  rw [h s (mem_allSquares.1 hs)]

/-- C18: `hashPosition(g)` is the XOR of the piece-table entries (square index,
piece type, colour) of the occupied squares, of the castling entry of the rights
mask, of the en-passant entry of the target's file when a target exists, and of
the side constant exactly when white is to move; two games that agree on the 64
squares, the side to move, the castling rights and the en-passant target have
the same hash, whatever their histories. -/
theorem hashPosition_eq_specHash (z : Zobrist) (g : Game) :
    hashPosition z g = specHash z g ∧
      ∀ g2 : Game, (∀ s : Square, s.isValid = true → g2.board.atSq s = g.board.atSq s) →
        g2.side = g.side → g2.board.castlingRights = g.board.castlingRights →
        g2.board.enPassantTarget = g.board.enPassantTarget →
        hashPosition z g2 = hashPosition z g := by
  have key : ∀ g : Game, hashPosition z g = specHash z g := by
    intro g
    have h := hash_fold z g.board allSquares 0
    rw [Nat.zero_xor] at h
    unfold hashPosition specHash pieceEntries
    cases g.board.enPassantTarget <;> cases g.side <;> simp <;> exact h
  refine ⟨key g, ?_⟩
  intro g2 hsq hside hr hep
  rw [key, key]
  unfold specHash
  rw [pieceEntries_congr z hsq, hside, hr, hep]

theorem hashPosition_eq_specHash_witness :
    hashPosition ⟨fun i t c => i + t + c, 1, fun r => r, fun f => f⟩
        (Game.mk Board.initial .WHITE [HistoryEntry.mk {} none 0 none]) =
      hashPosition ⟨fun i t c => i + t + c, 1, fun r => r, fun f => f⟩ {} :=
  (hashPosition_eq_specHash ⟨fun i t c => i + t + c, 1, fun r => r, fun f => f⟩ {}).2
    (Game.mk Board.initial .WHITE [HistoryEntry.mk {} none 0 none])
    (fun _ _ => rfl) rfl rfl rfl

/-! ## The transposition table -/

/-- C19: for every table and every key `k`: if `probe(k, out)` returns true then
`out.zobrist = k` and `out` is the entry stored in the slot `k mod capacity`; if
it returns false, `out` is what it was before the call. -/
theorem probe_hit_or_untouched (t : TranspositionTable) (k : Nat) (out : TTEntry) :
    ((t.probe k out).1 = true →
      (t.probe k out).2.zobrist = k ∧ (t.probe k out).2 = t.entries (k % t.size)) ∧
    ((t.probe k out).1 = false → (t.probe k out).2 = out) := by
  unfold TranspositionTable.probe
  by_cases h : (t.entries (k % t.size)).zobrist = k
  · simp [h]
  · simp [h]

theorem probe_hit_or_untouched_witness :
    (({} : TranspositionTable).probe 0 (TTEntry.mk 7 0 3 .EXACT {})).2.zobrist = 0 ∧
      (({} : TranspositionTable).probe 0 (TTEntry.mk 7 0 3 .EXACT {})).2 =
        ({} : TranspositionTable).entries (0 % ({} : TranspositionTable).size) :=
  (probe_hit_or_untouched {} 0 (TTEntry.mk 7 0 3 .EXACT {})).1 (by decide)

/-- C20: for every table and entry `e`: `store(e)` writes `e` into the slot
`e.zobrist mod capacity` if `e.depth` is at least the depth held there and
leaves the slot as it was otherwise (so the slot is replaced by `e` exactly when
`e.depth >= slot.depth`); every other slot and the capacity are unchanged in
both cases; after a store that replaces, `probe(e.zobrist, out)` returns true
with `out = e`. -/
theorem store_replaces_iff_deeper (t : TranspositionTable) (e : TTEntry) :
    ((t.entries (e.zobrist % t.size)).depth ≤ e.depth →
      (t.store e).entries (e.zobrist % t.size) = e) ∧
    (e.depth < (t.entries (e.zobrist % t.size)).depth →
      (t.store e).entries (e.zobrist % t.size) = t.entries (e.zobrist % t.size) ∧
        (t.store e).entries (e.zobrist % t.size) ≠ e) ∧
    (∀ i, i ≠ e.zobrist % t.size → (t.store e).entries i = t.entries i) ∧
    (t.store e).size = t.size ∧
    ((t.entries (e.zobrist % t.size)).depth ≤ e.depth →
      ∀ out, (t.store e).probe e.zobrist out = (true, e)) := by
  unfold TranspositionTable.store
  by_cases h : e.depth ≥ (t.entries (e.zobrist % t.size)).depth
  · simp only [h, if_true, ge_iff_le, forall_true_left, not_lt.2 h, false_imp_iff, true_and,
      and_true]
    refine ⟨?_, ?_⟩
    · intro i hi
      simp [hi]
    · intro out
      simp [TranspositionTable.probe]
  · simp only [h, if_false, ge_iff_le, false_imp_iff, true_and, implies_true, and_true]
    intro hlt heq
    rw [heq] at hlt
    exact lt_irrefl _ hlt

theorem store_replaces_iff_deeper_witness :
    (({} : TranspositionTable).store (TTEntry.mk 5 0 3 .EXACT {})).entries (5 % 1048576) =
      TTEntry.mk 5 0 3 .EXACT {} :=
  (store_replaces_iff_deeper {} (TTEntry.mk 5 0 3 .EXACT {})).1 (by decide)


/-! ## The castling rights after `makeMove` -/

theorem testBit_255 (i : Nat) : Nat.testBit 255 i = decide (i < 8) :=
  Nat.testBit_two_pow_sub_one 8 i

theorem testBit_of_lt_256 {a i : Nat} (ha : a < 256) (hi : ¬ i < 8) : a.testBit i = false := by
  apply Nat.testBit_lt_two_pow
  calc a < 2 ^ 8 := ha
    _ ≤ 2 ^ i := Nat.pow_le_pow_right (by decide) (not_lt.1 hi)

theorem clearR_zero {r : Nat} (hr : r < 256) : clearR r 0 = r := by
  unfold clearR
  apply Nat.eq_of_testBit_eq
  intro i
  simp only [Nat.testBit_and, Nat.xor_zero, testBit_255]
  by_cases hi : i < 8
  · simp [hi]
  · simp [hi, testBit_of_lt_256 hr hi]

theorem clearR_clearR (r : Nat) {a b : Nat} (ha : a < 256) (hb : b < 256) :
    clearR (clearR r a) b = clearR r (a ||| b) := by
  unfold clearR
  apply Nat.eq_of_testBit_eq
  intro i
  simp only [Nat.testBit_and, Nat.testBit_xor, Nat.testBit_or, testBit_255]
  by_cases hi : i < 8
  · simp only [hi, decide_True]
    cases r.testBit i <;> cases a.testBit i <;> cases b.testBit i <;> rfl
  · simp [hi, testBit_of_lt_256 ha hi, testBit_of_lt_256 hb hi]

theorem bits_lt (c : Color) : kingsideBit c < 2 ^ 8 ∧ queensideBit c < 2 ^ 8 := by
  cases c <;> decide

theorem ite_bit_lt {cond : Prop} [Decidable cond] {x : Nat} (hx : x < 2 ^ 8) :
    (if cond then x else 0) < 2 ^ 8 := by
  split
  · exact hx
  · decide

theorem rightsKing_eq (side : Color) {r : Nat} (hr : r < 256) (mp : Piece) :
    rightsKing side r mp =
      clearR r (if mp.type = .KING then kingsideBit side ||| queensideBit side else 0) := by
  unfold rightsKing
  split
  · cases side <;> rfl
  · exact (clearR_zero hr).symm

theorem two_clears {r a b : Nat} (c1 c2 : Prop) [Decidable c1] [Decidable c2] (hr : r < 256)
    (ha : a < 256) (hb : b < 256) :
    (if c2 then clearR (if c1 then clearR r a else r) b else (if c1 then clearR r a else r)) =
      clearR r ((if c1 then a else 0) ||| (if c2 then b else 0)) := by
  by_cases h1 : c1
  · by_cases h2 : c2
    · simp only [h1, h2, if_true]
      exact clearR_clearR r ha hb
    · simp only [h1, h2, if_true, if_false, Nat.or_zero]
  · by_cases h2 : c2
    · simp only [h1, h2, if_true, if_false, Nat.zero_or]
    · simp only [h1, h2, if_false, Nat.or_zero]
      exact (clearR_zero hr).symm

theorem rightsRook_eq (side : Color) {r : Nat} (hr : r < 256) (mp : Piece) (m : Move) :
    rightsRook side r mp m =
      clearR r ((if mp.type = .ROOK ∧ m.src = ⟨0, backRankOf side⟩ then queensideBit side else 0)
        ||| (if mp.type = .ROOK ∧ m.src = ⟨7, backRankOf side⟩ then kingsideBit side else 0)) := by
  have hq : (if side = .WHITE then WQ else BQ) = queensideBit side := rfl
  have hk : (if side = .WHITE then WK else BK) = kingsideBit side := rfl
  have hb : (if side = .WHITE then 0 else 7) = backRankOf side := rfl
  unfold rightsRook
  simp only [hq, hk, hb]
  by_cases ht : mp.type = .ROOK
  · simp only [ht, if_true, true_and]
    exact two_clears _ _ hr (bits_lt side).2 (bits_lt side).1
  · simp only [ht, if_false, false_and, Nat.or_zero]
    exact (clearR_zero hr).symm

theorem rightsCaptured_eq (side : Color) {r : Nat} (hr : r < 256) (cap : Option Piece)
    (m : Move) :
    rightsCaptured side r cap m =
      clearR r
        ((if cap.map (fun cp => cp.type) = some .ROOK ∧ m.dst = ⟨0, backRankOf side.flip⟩ then
            queensideBit side.flip else 0)
          ||| (if cap.map (fun cp => cp.type) = some .ROOK ∧ m.dst = ⟨7, backRankOf side.flip⟩ then
            kingsideBit side.flip else 0)) := by
  have hq : (if side = .WHITE then BQ else WQ) = queensideBit side.flip := by cases side <;> rfl
  have hk : (if side = .WHITE then BK else WK) = kingsideBit side.flip := by cases side <;> rfl
  have hb : (if (if side = .WHITE then 0 else 7) ≠ 0 then 0 else 7) = backRankOf side.flip := by
    cases side <;> rfl
  unfold rightsCaptured
  cases cap with
  | none =>
    simp only [Option.map_none', reduceCtorEq, false_and, if_false, Nat.or_zero]
    exact (clearR_zero hr).symm
  | some cp =>
    simp only [hq, hk, hb, Option.map_some', Option.some.injEq]
    by_cases ht : cp.type = .ROOK
    · simp only [ht, if_true, true_and]
      exact two_clears _ _ hr (bits_lt side.flip).2 (bits_lt side.flip).1
    · simp only [ht, if_false, false_and, Nat.or_zero]
      exact (clearR_zero hr).symm

theorem clearR_lt_of_lt {r : Nat} (hr : r < 256) (mask : Nat) : clearR r mask < 256 :=
  lt_of_le_of_lt Nat.and_le_left hr

theorem rightsAfter_eq_clearR (side : Color) {r : Nat} (hr : r < 256) (mp : Piece)
    (cap : Option Piece) (m : Move) :
    rightsAfter side r mp cap m = clearR r (clearedBits side mp cap m) := by
  unfold rightsAfter clearedBits
  have h1 := rightsKing_eq side hr mp
  have hr1 : rightsKing side r mp < 256 := by rw [h1]; exact clearR_lt_of_lt hr _
  have h2 := rightsRook_eq side hr1 mp m
  have hr2 : rightsRook side (rightsKing side r mp) mp m < 256 := by
    rw [h2]; exact clearR_lt_of_lt hr1 _
  rw [rightsCaptured_eq side hr2 cap m, h2, h1]
  have bk := bits_lt side
  have bo := bits_lt side.flip
  have hmk : (if mp.type = .KING then kingsideBit side ||| queensideBit side else 0) < 256 :=
    ite_bit_lt (Nat.or_lt_two_pow bk.1 bk.2)
  have hmr : ((if mp.type = .ROOK ∧ m.src = ⟨0, backRankOf side⟩ then queensideBit side else 0)
      ||| (if mp.type = .ROOK ∧ m.src = ⟨7, backRankOf side⟩ then kingsideBit side else 0)) < 256 :=
    Nat.or_lt_two_pow (ite_bit_lt bk.2) (ite_bit_lt bk.1)
  have hmc : ((if cap.map (fun cp => cp.type) = some .ROOK ∧ m.dst = ⟨0, backRankOf side.flip⟩
        then queensideBit side.flip else 0)
      ||| (if cap.map (fun cp => cp.type) = some .ROOK ∧ m.dst = ⟨7, backRankOf side.flip⟩
        then kingsideBit side.flip else 0)) < 256 :=
    Nat.or_lt_two_pow (ite_bit_lt bo.2) (ite_bit_lt bo.1)
  rw [clearR_clearR r hmk hmr, clearR_clearR r (@Nat.or_lt_two_pow _ _ 8 hmk hmr) hmc]
  simp only [Nat.or_assoc]

theorem hasFlag_bit_eq_testBit (x k : Nat) : hasFlag x (2 ^ k) = x.testBit k := by
  unfold hasFlag
  rw [Nat.and_two_pow]
  cases x.testBit k <;> simp

theorem hasFlag_clearR_bit (r mask k : Nat) (hk : k < 8) :
    hasFlag (clearR r mask) (2 ^ k) = (hasFlag r (2 ^ k) && !hasFlag mask (2 ^ k)) := by
  simp only [hasFlag_bit_eq_testBit, clearR, Nat.testBit_and, Nat.testBit_xor, testBit_255, hk,
    decide_True, Bool.true_xor]

theorem captureStep_fst (b : Board) (m : Move) :
    (captureStep b m).1 =
      if hasFlag m.flags EN_PASSANT then b.atSq ⟨m.dst.file, m.src.rank⟩
      else if hasFlag m.flags CAPTURE then b.atSq m.dst else none := by
  unfold captureStep
  split
  · rfl
  · split <;> rfl

/-- C16 (counterexample): with a white pawn on `b7`, a black rook on `a7` and
`a8` empty, white to move and the BQ right set, `makeMove` accepts the
EN_PASSANT-flagged move `b7 → a8`.  The moved piece is a pawn and the captured
piece is the rook that stood on `a7`, which is not a square of black's back
rank, yet the BQ right is cleared. -/
theorem makeMove_clears_right_for_rook_off_corner :
    ∃ g', rookBesidePawn.makeMove (Move.mk ⟨1, 6⟩ ⟨0, 7⟩ EN_PASSANT 0) = .ok g' ∧
      rookBesidePawn.side = .WHITE ∧
      rookBesidePawn.board.atSq ⟨1, 6⟩ = some ⟨.WHITE, .PAWN⟩ ∧
      rookBesidePawn.board.atSq ⟨0, 6⟩ = some ⟨.BLACK, .ROOK⟩ ∧
      rookBesidePawn.board.atSq ⟨0, 7⟩ = none ∧
      g'.history.map (fun e => e.captured) = [some ⟨.BLACK, .ROOK⟩] ∧
      g'.board.atSq ⟨0, 6⟩ = none ∧
      hasFlag rookBesidePawn.board.castlingRights BQ = true ∧
      hasFlag g'.board.castlingRights BQ = false :=
  ⟨_, rfl, by decide⟩

/-- C16 (amended): for every move accepted by `makeMove` (the rights being a
`uint8_t` value), the castling rights afterwards are the rights before with
exactly the bits of `clearedBits` cleared: both bits of the side to move if the
piece that stood on `m.from` is a king; the side to move's Q (resp. K) bit if it
is a rook and `m.from` is file 0 (resp. 7) of the back rank of the side to move;
the opponent's Q (resp. K) bit if the captured piece of the history entry is a
rook and `m.to` is file 0 (resp. 7) of the opponent's back rank.  The captured
piece is the piece that stood on `m.to` for a CAPTURE-flagged move without the
EN_PASSANT flag, and the piece that stood on `(m.to.file, m.from.rank)` for an
EN_PASSANT-flagged move.  Each of the eight bits afterwards is the bit before
and not in the mask: no other bit changes and no bit is set. -/
theorem makeMove_castlingRights (g g' : Game) (m : Move) (hr : g.board.castlingRights < 256)
    (h : g.makeMove m = .ok g') :
    ∃ moved e, g.board.atSq m.src = some moved ∧ g'.history = g.history ++ [e] ∧
      e.captured =
        (if hasFlag m.flags EN_PASSANT then g.board.atSq ⟨m.dst.file, m.src.rank⟩
         else if hasFlag m.flags CAPTURE then g.board.atSq m.dst else none) ∧
      g'.board.castlingRights =
        clearR g.board.castlingRights (clearedBits g.side moved e.captured m) ∧
      ∀ k, k < 8 →
        hasFlag g'.board.castlingRights (2 ^ k) =
          (hasFlag g.board.castlingRights (2 ^ k) &&
            !hasFlag (clearedBits g.side moved e.captured m) (2 ^ k)) := by
  obtain ⟨-, -, mp, hmp, -, rfl⟩ := makeMove_eq_ok_iff.1 h
  have hrights : (g.applyChecked m (captureStep g.board m).1 (captureStep g.board m).2
      mp).board.castlingRights =
      clearR g.board.castlingRights (clearedBits g.side mp (captureStep g.board m).1 m) := by
    rw [applyChecked_castlingRights, captureStep_castlingRights, rightsAfter_eq_clearR g.side hr]
  refine ⟨mp, ⟨m, (captureStep g.board m).1, g.board.castlingRights, g.board.enPassantTarget⟩,
    captureStep_atSq_some hmp, rfl, captureStep_fst g.board m, hrights, ?_⟩
  intro k hk
  rw [hrights, hasFlag_clearR_bit _ _ _ hk]

theorem makeMove_castlingRights_witness :
    ∃ g', castleReady.makeMove (Move.mk ⟨7, 0⟩ ⟨7, 1⟩ QUIET 0) = .ok g' ∧
      ∃ moved e, castleReady.board.atSq ⟨7, 0⟩ = some moved ∧
        g'.history = castleReady.history ++ [e] ∧
        e.captured =
          (if hasFlag QUIET EN_PASSANT then castleReady.board.atSq ⟨7, 0⟩
           else if hasFlag QUIET CAPTURE then castleReady.board.atSq ⟨7, 1⟩ else none) ∧
        g'.board.castlingRights =
          clearR castleReady.board.castlingRights
            (clearedBits castleReady.side moved e.captured (Move.mk ⟨7, 0⟩ ⟨7, 1⟩ QUIET 0)) ∧
        ∀ k, k < 8 →
          hasFlag g'.board.castlingRights (2 ^ k) =
            (hasFlag castleReady.board.castlingRights (2 ^ k) &&
              !hasFlag (clearedBits castleReady.side moved e.captured
                (Move.mk ⟨7, 0⟩ ⟨7, 1⟩ QUIET 0)) (2 ^ k)) :=
  ⟨_, rfl, makeMove_castlingRights castleReady _ (Move.mk ⟨7, 0⟩ ⟨7, 1⟩ QUIET 0) (by decide) rfl⟩


/-! ## En-passant capture and its undo -/

/-- C11 (counterexample): in the position `makeMove` builds from the initial one
by the moves of `castleTrapMoves`, a white pawn stands on `a5`, the en-passant
target is `b6` and the pawn generator emits `a5 → b6` with the EN_PASSANT flag;
`b6` holds a white knight, and `makeMove` of that move raises: the pawn stays on
`a5`, no history entry is stored, and the black pawn on `b5` is gone. -/
theorem enPassant_onto_own_piece_raises :
    ∃ g, playMoves {} castleTrapMoves = some g ∧
      g.board.atSq ⟨0, 4⟩ = some ⟨.WHITE, .PAWN⟩ ∧
      g.board.enPassantTarget = some ⟨1, 5⟩ ∧
      g.board.atSq ⟨1, 4⟩ = some ⟨.BLACK, .PAWN⟩ ∧
      Move.mk ⟨0, 4⟩ ⟨1, 5⟩ EN_PASSANT 0 ∈ Pawn.legalMoves .WHITE g.board ⟨0, 4⟩ ∧
      ∃ g', g.makeMove (Move.mk ⟨0, 4⟩ ⟨1, 5⟩ EN_PASSANT 0) = .error (.cannotCaptureOwn, g') ∧
        g'.board.atSq ⟨0, 4⟩ = some ⟨.WHITE, .PAWN⟩ ∧
        g'.board.atSq ⟨1, 5⟩ = some ⟨.WHITE, .KNIGHT⟩ ∧
        g'.board.atSq ⟨1, 4⟩ = none ∧ g'.history = g.history :=
  ⟨_, rfl, by decide, by decide, by decide, by decide, _, rfl, by decide, by decide, by decide, rfl⟩

set_option maxHeartbeats 1600000 in
/-- C11 (amended): for every position and every move `m` with the flag
EN_PASSANT and without the flags PROMOTION, CASTLING_K, CASTLING_Q and NULL_MOVE
(the CAPTURE bit may be set or not), from a valid square holding a piece `p` to a
valid square on another file and another rank (as the en-passant moves of the
pawn generator are) that holds no piece of the colour of `p`: `makeMove(m)` is
accepted, empties `m.from` and the square `(m.to.file, m.from.rank)`, puts `p` on
`m.to`, changes no other square and stores what stood on
`(m.to.file, m.from.rank)` as the captured piece of the new history entry, with
the previous rights and en-passant target; a following `undoMove()` puts the
removed piece back on `(m.to.file, m.from.rank)` and `p` back on `m.from`,
empties `m.to`, changes no other square and restores the previous en-passant
target, castling rights, side to move and history; when `m.to` was empty the game
is exactly what it was. -/
theorem enPassant_make_undo (g : Game) (m : Move) (p : Piece)
    (hE : hasFlag m.flags EN_PASSANT = true)
    (hP : hasFlag m.flags PROMOTION = false) (hK : hasFlag m.flags CASTLING_K = false)
    (hQ : hasFlag m.flags CASTLING_Q = false) (hN : hasFlag m.flags NULL_MOVE = false)
    (hs : m.src.isValid = true) (hd : m.dst.isValid = true)
    (hp : g.board.atSq m.src = some p)
    (hfile : m.dst.file ≠ m.src.file) (hrank : m.dst.rank ≠ m.src.rank)
    (hfree : ∀ t, g.board.atSq m.dst = some t → t.color ≠ p.color) :
    ∃ g1, g.makeMove m = .ok g1 ∧
      g1.board.atSq m.src = none ∧ g1.board.atSq ⟨m.dst.file, m.src.rank⟩ = none ∧
      g1.board.atSq m.dst = some p ∧
      (∀ s : Square, s.isValid = true → s ≠ m.src → s ≠ m.dst → s ≠ ⟨m.dst.file, m.src.rank⟩ →
        g1.board.atSq s = g.board.atSq s) ∧
      g1.history = g.history ++ [HistoryEntry.mk m (g.board.atSq ⟨m.dst.file, m.src.rank⟩)
        g.board.castlingRights g.board.enPassantTarget] ∧
      ∃ g2, g1.undoMove = some g2 ∧
        g2.board.atSq ⟨m.dst.file, m.src.rank⟩ = g.board.atSq ⟨m.dst.file, m.src.rank⟩ ∧
        g2.board.atSq m.src = some p ∧ g2.board.atSq m.dst = none ∧
        (∀ s : Square, s.isValid = true → s ≠ m.dst → g2.board.atSq s = g.board.atSq s) ∧
        g2.board.enPassantTarget = g.board.enPassantTarget ∧
        g2.board.castlingRights = g.board.castlingRights ∧
        g2.side = g.side ∧ g2.history = g.history ∧
        (g.board.atSq m.dst = none → g2 = g) := by
  obtain ⟨src, dst, fl, pp⟩ := m
  simp only at hE hP hK hQ hN hs hd hp hfile hrank hfree
  have hK2 : hasFlag (Move.mk src dst fl pp).flags CASTLING_K = false := hK
  have hQ2 : hasFlag (Move.mk src dst fl pp).flags CASTLING_Q = false := hQ
  have hsv := isValid_iff.1 hs
  have hdv := isValid_iff.1 hd
  have hcv : (⟨dst.file, src.rank⟩ : Square).isValid = true := isValid_iff.2 ⟨hdv.1, hsv.2⟩
  have hne1 : ¬ src.index = (⟨dst.file, src.rank⟩ : Square).index := by
    simp only [Square.index]; omega
  have hne2 : ¬ dst.index = (⟨dst.file, src.rank⟩ : Square).index := by
    simp only [Square.index]; omega
  have hne3 : ¬ src.index = dst.index := by
    simp only [Square.index]; omega
  have hne4 : ¬ dst.index = src.index := fun h => hne3 h.symm
  have hne5 : ¬ (⟨dst.file, src.rank⟩ : Square).index = dst.index := fun h => hne2 h.symm
  have hne6 : ¬ (⟨dst.file, src.rank⟩ : Square).index = src.index := fun h => hne1 h.symm
  have hcb1 : (captureStep g.board (Move.mk src dst fl pp)).1 =
      g.board.atSq ⟨dst.file, src.rank⟩ := by
    simp [captureStep, hE]
  have hcb2 : (captureStep g.board (Move.mk src dst fl pp)).2 =
      g.board.putPiece ⟨dst.file, src.rank⟩ none := by
    simp [captureStep, hE]
  have hmk : g.makeMove (Move.mk src dst fl pp) =
      .ok (g.applyChecked (Move.mk src dst fl pp) (g.board.atSq ⟨dst.file, src.rank⟩)
        (g.board.putPiece ⟨dst.file, src.rank⟩ none) p) := by
    rw [makeMove_eq_ok_iff, hcb1, hcb2]
    refine ⟨hs, hd, p, ?_, ?_, rfl⟩
    · simp [hne1, hp]
    · rw [ownPieceOn_eq_false_iff]
      intro t ht
      simp only [atSq_putPiece, hne2, if_false] at ht
      exact hfree t ht
  have hidx : ∀ {s t : Square}, s.isValid = true → t.isValid = true → s ≠ t →
      ¬ s.index = t.index := fun h1 h2 h3 h4 => h3 ((index_inj h1 h2).1 h4)
  refine ⟨_, hmk, ?_, ?_, ?_, ?_, rfl, ?_⟩
  · rw [applyChecked_board, enPassantStep_atSq, placeStep_plain hK2 hQ2]
    simp [hne3]
  · rw [applyChecked_board, enPassantStep_atSq, placeStep_plain hK2 hQ2]
    simp [hne5, hne6]
  · rw [applyChecked_board, enPassantStep_atSq, placeStep_plain hK2 hQ2]
    simp [promoteStep, hP, hne1, hp]
  · intro s hsv2 h1 h2 h3
    rw [applyChecked_board, enPassantStep_atSq, placeStep_plain hK2 hQ2]
    simp [hidx hsv2 hs h1, hidx hsv2 hd h2, hidx hsv2 hcv h3]
  · have hp2 : g.board.squares src.index = some p := hp
    have hfree2 : ∀ t, g.board.squares dst.index = some t → t.color ≠ p.color := hfree
    clear hmk hcb1 hcb2
    cases hc : g.board.atSq ⟨dst.file, src.rank⟩ with
    | none =>
      have hc2 : g.board.squares (⟨dst.file, src.rank⟩ : Square).index = none := hc
      simp only [Game.undoMove, Game.applyChecked, List.getLast?_concat, List.dropLast_concat,
        hE, hP, hK, hQ, hN, Bool.false_eq_true, if_false, if_true, flip_flip, takePiece_fst,
        takePiece_snd, placeStep_plain hK2 hQ2, promoteStep, Option.some.injEq, exists_eq_left']
      refine ⟨?_, ?_, ?_, ?_, by simp, by simp, trivial, trivial, ?_⟩
      · simp [hne5, hne6, hc, enPassantStep_atSq]
      · simp [hne3, hne1, hp, enPassantStep_atSq]
      · simp [hne4, enPassantStep_atSq]
      · intro s hsv2 h2
        have h2i := hidx hsv2 hd h2
        simp only [Board.atSq, putPiece_squares, setCastlingRights_squares,
          setEnPassantTarget_squares, enPassantStep_squares, if_true]
        clear hfree hfree2 hp hc hfile hrank hsv hdv hs hd hcv hidx h2 hsv2
        split_ifs <;> simp_all
      · intro hde
        have hde2 : g.board.squares dst.index = none := hde
        refine Game.ext (Board.ext (funext fun i => ?_) ?_ ?_) rfl rfl
        · simp only [Board.atSq, putPiece_squares, setCastlingRights_squares,
            setEnPassantTarget_squares, enPassantStep_squares, if_true]
          clear hfree hfree2 hp hc hde hfile hrank hsv hdv hs hd hcv hidx
          split_ifs <;> simp_all
        · simp
        · simp
    | some cp =>
      have hc2 : g.board.squares (⟨dst.file, src.rank⟩ : Square).index = some cp := hc
      simp only [Game.undoMove, Game.applyChecked, List.getLast?_concat, List.dropLast_concat,
        hE, hP, hK, hQ, hN, Bool.false_eq_true, if_false, if_true, flip_flip, takePiece_fst,
        takePiece_snd, placeStep_plain hK2 hQ2, promoteStep, Option.some.injEq, exists_eq_left']
      refine ⟨?_, ?_, ?_, ?_, by simp, by simp, trivial, trivial, ?_⟩
      · simp
      · simp [hne3, hne1, hne6, hp, enPassantStep_atSq]
      · simp [hne4, hne2, enPassantStep_atSq]
      · intro s hsv2 h2
        have h2i := hidx hsv2 hd h2
        simp only [Board.atSq, putPiece_squares, setCastlingRights_squares,
          setEnPassantTarget_squares, enPassantStep_squares, if_true]
        clear hfree hfree2 hp hc hfile hrank hsv hdv hs hd hcv hidx h2 hsv2
        split_ifs <;> simp_all
      · intro hde
        have hde2 : g.board.squares dst.index = none := hde
        refine Game.ext (Board.ext (funext fun i => ?_) ?_ ?_) rfl rfl
        · simp only [Board.atSq, putPiece_squares, setCastlingRights_squares,
            setEnPassantTarget_squares, enPassantStep_squares, if_true]
          clear hfree hfree2 hp hc hde hfile hrank hsv hdv hs hd hcv hidx
          split_ifs <;> simp_all
        · simp
        · simp

theorem enPassant_make_undo_witness :
    ∃ g, pawnsE5D7.makeMove (Move.mk ⟨3, 6⟩ ⟨3, 4⟩ QUIET 0) = .ok g ∧
      g.board.enPassantTarget = some ⟨3, 5⟩ ∧
      ∃ g1, g.makeMove (Move.mk ⟨4, 4⟩ ⟨3, 5⟩ EN_PASSANT 0) = .ok g1 ∧
        g1.board.atSq ⟨4, 4⟩ = none ∧ g1.board.atSq ⟨3, 4⟩ = none ∧
        g1.board.atSq ⟨3, 5⟩ = some ⟨.WHITE, .PAWN⟩ ∧
        g1.history.map (fun e => e.captured) = [none, some ⟨.BLACK, .PAWN⟩] ∧
        g1.undoMove = some g := by
  refine ⟨_, rfl, rfl, ?_⟩
  obtain ⟨g1, h1, h2, h3, h4, -, h5, g2, h6, -, -, -, -, -, -, -, -, h7⟩ :=
    enPassant_make_undo
      (pawnsE5D7.applyChecked (Move.mk ⟨3, 6⟩ ⟨3, 4⟩ QUIET 0) none pawnsE5D7.board
        ⟨.BLACK, .PAWN⟩)
      (Move.mk ⟨4, 4⟩ ⟨3, 5⟩ EN_PASSANT 0) ⟨.WHITE, .PAWN⟩ (by decide) (by decide) (by decide)
      (by decide) (by decide) (by decide) (by decide) (by decide) (by decide) (by decide)
      (fun t h => by
        have h0 : (pawnsE5D7.applyChecked (Move.mk ⟨3, 6⟩ ⟨3, 4⟩ QUIET 0) none pawnsE5D7.board
            ⟨.BLACK, .PAWN⟩).board.atSq ⟨3, 5⟩ = none := by decide
        exact absurd (h0.symm.trans h) (by simp))
  refine ⟨g1, h1, h2, h3, h4, ?_, ?_⟩
  · rw [h5]; decide
  · rw [h6, h7 (by decide)]
    rfl

/-! ## Promotion -/

theorem makeMove_promotion_board {g : Game} {c : Color} {src dst : Square} {fl : Nat}
    (hsrc : src.isValid = true) (hdst : dst.isValid = true) (hne : dst.rank ≠ src.rank)
    (hp : g.board.atSq src = some ⟨c, .PAWN⟩)
    (hfl : (fl = PROMOTION ∧ g.board.atSq dst = none) ∨ fl = CAPTURE ||| PROMOTION) :
    ∃ g', g.makeMove (Move.mk src dst fl PieceType.QUEEN.code) = .ok g' ∧
      g'.board.atSq dst = some ⟨c, .QUEEN⟩ ∧ g'.board.atSq src = none := by
  have hidx : ¬ src.index = dst.index := fun h => hne (by rw [(index_inj hsrc hdst).1 h])
  have hidx2 : ¬ dst.index = src.index := fun h => hidx h.symm
  have hcb : (captureStep g.board (Move.mk src dst fl PieceType.QUEEN.code)).2.atSq src =
      some ⟨c, .PAWN⟩ ∧
      (captureStep g.board (Move.mk src dst fl PieceType.QUEEN.code)).2.atSq dst = none := by
    rcases hfl with ⟨rfl, he⟩ | rfl
    · simp [captureStep, hasFlag_table, hp, he]
    · simp [captureStep, hasFlag_table, hp, hidx]
  have hK : hasFlag fl CASTLING_K = false ∧ hasFlag fl CASTLING_Q = false ∧
      hasFlag fl PROMOTION = true := by
    rcases hfl with ⟨rfl, -⟩ | rfl <;> simp [hasFlag_table]
  refine ⟨_, makeMove_eq_ok_iff.2 ⟨hsrc, hdst, ⟨c, .PAWN⟩, hcb.1, ?_, rfl⟩, ?_, ?_⟩
  · rw [ownPieceOn_eq_false_iff]
    intro t ht
    rw [hcb.2] at ht
    cases ht
  · rw [applyChecked_board, enPassantStep_atSq, placeStep_plain hK.1 hK.2.1]
    simp [promoteStep, hK.2.2, promoted, PieceType.code]
  · rw [applyChecked_board, enPassantStep_atSq, placeStep_plain hK.1 hK.2.1]
    simp [hidx]

/-- C12 (counterexample): with a white pawn on `e7` and the en-passant target on
`d8`, the pawn generator emits the move `e7 → d8` with the flag EN_PASSANT
alone; it lands on the promotion rank without the PROMOTION flag, and after
`makeMove` the destination holds a white pawn, not a queen. -/
theorem enPassant_to_last_rank_not_promoted :
    Move.mk ⟨4, 6⟩ ⟨3, 7⟩ EN_PASSANT 0 ∈ Pawn.legalMoves .WHITE pawnBelowTarget.board ⟨4, 6⟩ ∧
      pawnBelowTarget.board.atSq ⟨4, 6⟩ = some ⟨.WHITE, .PAWN⟩ ∧
      hasFlag EN_PASSANT PROMOTION = false ∧
      ∃ g', pawnBelowTarget.makeMove (Move.mk ⟨4, 6⟩ ⟨3, 7⟩ EN_PASSANT 0) = .ok g' ∧
        g'.board.atSq ⟨3, 7⟩ = some ⟨.WHITE, .PAWN⟩ :=
  ⟨by decide, by decide, by decide, _, rfl, by decide⟩

/-- C12 (amended): for every game and every pawn of colour `c` on a valid square
one step from its promotion rank (rank 6 for white, rank 1 for black), provided
the en-passant target, if any, is not on that promotion rank: every move the
pawn generator emits for it that lands on the promotion rank carries the
PROMOTION flag with `promoPiece = QUEEN`, `makeMove` accepts it, and afterwards
the destination square holds a queen of colour `c` and the source square is
empty. -/
theorem pawn_promotes_to_queen (g : Game) (c : Color) (src : Square) (m : Move)
    (hsrc : src.isValid = true) (hp : g.board.atSq src = some ⟨c, .PAWN⟩)
    (hrank : src.rank = if c = .WHITE then 6 else 1)
    (hep : ∀ t, g.board.enPassantTarget = some t → (t.rank : Int) ≠ pawnPromoRank c)
    (hm : m ∈ Pawn.legalMoves c g.board src) (hland : (m.dst.rank : Int) = pawnPromoRank c) :
    m.src = src ∧ hasFlag m.flags PROMOTION = true ∧ m.promoPiece = PieceType.QUEEN.code ∧
      ∃ g', g.makeMove m = .ok g' ∧ g'.board.atSq m.dst = some ⟨c, .QUEEN⟩ ∧
        g'.board.atSq m.src = none := by
  have hfwd : ((u8 (src.rank + pawnDir c) : Nat) : Int) = pawnPromoRank c ∧
      (src.rank : Int) + pawnDir c = pawnPromoRank c ∧ u8 (src.rank + pawnDir c) ≠ src.rank ∧
      (src.rank : Int) ≠ pawnStartRank c := by
    cases c <;> simp only [if_true, reduceCtorEq, if_false] at hrank <;>
      simp only [hrank, pawnDir, pawnPromoRank, pawnStartRank, u8] <;> simp +decide
  obtain ⟨hf1, hf2, hf3, hf4⟩ := hfwd
  rcases mem_Pawn_legalMoves.1 hm with ⟨⟨hv, he⟩, rfl | ⟨hstart, -⟩⟩ | ⟨df, -, hv, h⟩
  · rw [if_pos hf1]
    refine ⟨rfl, by simp [hasFlag_table], rfl, ?_⟩
    exact makeMove_promotion_board hsrc hv hf3 hp (Or.inl ⟨rfl, he⟩)
  · exact absurd hstart hf4
  · rcases h with ⟨t, ht, htc, rfl⟩ | ⟨ep, hept, her, -, rfl⟩
    · rw [if_pos hf1]
      refine ⟨rfl, by simp [hasFlag_table], rfl, ?_⟩
      exact makeMove_promotion_board hsrc hv hf3 hp (Or.inr rfl)
    · exact absurd (her.trans hf2) (hep ep hept)

theorem pawn_promotes_to_queen_witness :
    (Move.mk ⟨4, 6⟩ ⟨4, 7⟩ PROMOTION PieceType.QUEEN.code).src = ⟨4, 6⟩ ∧
      hasFlag PROMOTION PROMOTION = true ∧
      PieceType.QUEEN.code = PieceType.QUEEN.code ∧
      ∃ g', pawnOnE7.makeMove (Move.mk ⟨4, 6⟩ ⟨4, 7⟩ PROMOTION PieceType.QUEEN.code) = .ok g' ∧
        g'.board.atSq ⟨4, 7⟩ = some ⟨.WHITE, .QUEEN⟩ ∧ g'.board.atSq ⟨4, 6⟩ = none :=
  pawn_promotes_to_queen pawnOnE7 .WHITE ⟨4, 6⟩ (Move.mk ⟨4, 6⟩ ⟨4, 7⟩ PROMOTION PieceType.QUEEN.code)
    (by decide) (by decide) (by decide) (fun t h => by cases h) (by decide) (by decide)


/-! ## A set castling right has its king and rook at home -/

theorem color_ne_flip {a b : Color} (h : a ≠ b) : a = b.flip := by
  revert h
  cases a <;> cases b <;> simp [Color.flip]

theorem backRankOf_inj {a b : Color} (h : backRankOf a = backRankOf b) : a = b := by
  revert h
  cases a <;> cases b <;> simp [backRankOf]

/-- What a generated move of the side to move does to a king or rook standing on
its own back rank: it stays, or it is the mover, or it is an enemy rook captured
on the destination, or the mover is the king of its colour. -/
theorem home_frame {g : Game} {p : Piece} {src : Square} {m : Move} (hinv : Inv g)
    (hsrc : src.isValid = true) (hp : g.board.atSq src = some p) (hpc : p.color = g.side)
    (hgenm : m ∈ g.board.generateLegalMoves g.side)
    (hshape : Generated g.board p src m) (s : Square) (hsv : s.isValid = true) (q : Piece)
    (hq : g.board.atSq s = some q) (hqt : q.type = .KING ∨ q.type = .ROOK)
    (hback : s.rank = backRankOf q.color) :
    (g.applyChecked m (captureStep g.board m).1 (captureStep g.board m).2 p).board.atSq s
        = some q ∨
      (m.src = s ∧ p = q) ∨
      (m.dst = s ∧ (captureStep g.board m).1 = some q ∧ q.type = .ROOK ∧
        q.color = g.side.flip) ∨
      (p.type = .KING ∧ q.color = g.side) := by
  have hsq := isValid_iff.1 hsv
  have hss := isValid_iff.1 hsrc
  have hsrc_case : s.index = src.index → src = s ∧ p = q := by
    intro h
    have h2 := (index_inj hsv hsrc).1 h
    subst h2
    rw [hp] at hq
    exact ⟨rfl, Option.some.inj hq⟩
  rw [applyChecked_board, enPassantStep_atSq]
  cases hshape with
  | quiet dst hv he hpawn =>
    simp only [captureStep, hasFlag_table, Bool.false_eq_true, if_false, placeStep_plain,
      promoteStep, atSq_putPiece, atSq_setCastlingRights, hp]
    by_cases h1 : s.index = dst.index
    · rw [(index_inj hsv hv).1 h1, he] at hq
      cases hq
    · by_cases h2 : s.index = src.index
      · exact Or.inr (Or.inl (hsrc_case h2))
      · simp only [h1, h2, if_false]
        exact Or.inl hq
  | promotion dst hpt hv he hr =>
    simp only [captureStep, hasFlag_table, Bool.false_eq_true, if_false, if_true,
      placeStep_plain, promoteStep, atSq_putPiece, atSq_setCastlingRights, hp]
    by_cases h1 : s.index = dst.index
    · rw [(index_inj hsv hv).1 h1, he] at hq
      cases hq
    · by_cases h2 : s.index = src.index
      · exact Or.inr (Or.inl (hsrc_case h2))
      · simp only [h1, h2, if_false]
        exact Or.inl hq
  | capture dst t hv ht htc hpawn =>
    simp only [captureStep, hasFlag_table, Bool.false_eq_true, if_false, if_true,
      placeStep_plain, promoteStep, atSq_putPiece, atSq_setCastlingRights, takePiece_fst,
      takePiece_snd]
    by_cases h1 : s.index = dst.index
    · have h2 := (index_inj hsv hv).1 h1
      subst h2
      rw [ht] at hq
      cases hq
      have hcol : q.color = g.side.flip := color_ne_flip (by rw [← hpc]; exact htc)
      have hnk := captured_not_king hinv hgenm (by simp [hasFlag_table]) hv ht
        (by rw [← hpc]; exact htc) q.color
      refine Or.inr (Or.inr (Or.inl ⟨rfl, ht, ?_, hcol⟩))
      rcases hqt with hk | hr
      · exfalso
        have : q = ⟨q.color, .KING⟩ := by
          rw [← hk]
        simp [isKing, ← this] at hnk
      · exact hr
    · by_cases h2 : s.index = src.index
      · exact Or.inr (Or.inl (hsrc_case h2))
      · simp only [h1, h2, if_false]
        exact Or.inl hq
  | capturePromotion dst t hpt hv ht htc hr =>
    simp only [captureStep, hasFlag_table, Bool.false_eq_true, if_false, if_true,
      placeStep_plain, promoteStep, atSq_putPiece, atSq_setCastlingRights, takePiece_fst,
      takePiece_snd]
    by_cases h1 : s.index = dst.index
    · have h2 := (index_inj hsv hv).1 h1
      subst h2
      rw [ht] at hq
      cases hq
      have hcol : q.color = g.side.flip := color_ne_flip (by rw [← hpc]; exact htc)
      have hnk := captured_not_king hinv hgenm (by simp [hasFlag_table]) hv ht
        (by rw [← hpc]; exact htc) q.color
      refine Or.inr (Or.inr (Or.inl ⟨rfl, ht, ?_, hcol⟩))
      rcases hqt with hk | hr
      · exfalso
        have : q = ⟨q.color, .KING⟩ := by
          rw [← hk]
        simp [isKing, ← this] at hnk
      · exact hr
    · by_cases h2 : s.index = src.index
      · exact Or.inr (Or.inl (hsrc_case h2))
      · simp only [h1, h2, if_false]
        exact Or.inl hq
  | enPassant dst hpt hep hr hf =>
    obtain ⟨hv, he, q2, hq2, hq2t⟩ := hinv.enPassant dst hep
    have hdv := isValid_iff.1 hv
    have hdir := pawnDir_cases p.color
    have hcs : (⟨dst.file, src.rank⟩ : Square) = ⟨dst.file, u8 (dst.rank - pawnDir g.side)⟩ := by
      rw [← hpc]
      simp only [Square.mk.injEq, true_and, u8]
      omega
    rw [← hcs] at hq2
    have hcv : (⟨dst.file, src.rank⟩ : Square).isValid = true := isValid_iff.2 ⟨hdv.1, hss.2⟩
    simp only [captureStep, hasFlag_table, Bool.false_eq_true, if_false, if_true,
      placeStep_plain, promoteStep, atSq_putPiece, atSq_setCastlingRights, takePiece_fst,
      takePiece_snd]
    by_cases h1 : s.index = dst.index
    · rw [(index_inj hsv hv).1 h1, he] at hq
      cases hq
    · by_cases h2 : s.index = src.index
      · exact Or.inr (Or.inl (hsrc_case h2))
      · by_cases h3 : s.index = (⟨dst.file, src.rank⟩ : Square).index
        · rw [(index_inj hsv hcv).1 h3, hq2] at hq
          cases hq
          rw [hq2t] at hqt
          rcases hqt with h | h <;> cases h
        · simp only [h1, h2, h3, if_false]
          exact Or.inl hq
  | castleK hpt hr hf hg ha =>
    rw [hpc] at hf hg
    have hb : backRankOf g.side = 0 ∨ backRankOf g.side = 7 := by
      cases g.side <;> simp [backRankOf]
    rw [placeStep_K (by simp [hasFlag_table])]
    simp only [captureStep, hasFlag_table, Bool.false_eq_true, if_false, atSq_putPiece,
      atSq_setCastlingRights, hpc]
    by_cases h5 : s.index = (⟨5, backRankOf g.side⟩ : Square).index
    · have hsn : g.board.atSq s = none := by
        rw [(index_inj hsv (backRank_valid g.side 5 (by omega))).1 h5]
        exact hf
      rw [hsn] at hq
      cases hq
    · by_cases h7 : s.index = (⟨7, backRankOf g.side⟩ : Square).index
      · have h := (index_inj hsv (backRank_valid g.side 7 (by omega))).1 h7
        refine Or.inr (Or.inr (Or.inr ⟨hpt, ?_⟩))
        rw [h] at hback
        exact (backRankOf_inj hback).symm
      · by_cases h6 : s.index = (⟨6, backRankOf g.side⟩ : Square).index
        · have hsn : g.board.atSq s = none := by
            rw [(index_inj hsv (backRank_valid g.side 6 (by omega))).1 h6]
            exact hg
          rw [hsn] at hq
          cases hq
        · by_cases h2 : s.index = src.index
          · exact Or.inr (Or.inl (hsrc_case h2))
          · simp only [h5, h6, h7, h2, if_false]
            exact Or.inl hq
  | castleQ hpt hr hd hc hb2 ha =>
    rw [hpc] at hd hc
    have hb : backRankOf g.side = 0 ∨ backRankOf g.side = 7 := by
      cases g.side <;> simp [backRankOf]
    rw [placeStep_Q (by simp [hasFlag_table]) (by simp [hasFlag_table])]
    simp only [captureStep, hasFlag_table, Bool.false_eq_true, if_false, atSq_putPiece,
      atSq_setCastlingRights, hpc]
    by_cases h3 : s.index = (⟨3, backRankOf g.side⟩ : Square).index
    · have hsn : g.board.atSq s = none := by
        rw [(index_inj hsv (backRank_valid g.side 3 (by omega))).1 h3]
        exact hd
      rw [hsn] at hq
      cases hq
    · by_cases h0 : s.index = (⟨0, backRankOf g.side⟩ : Square).index
      · have h := (index_inj hsv (backRank_valid g.side 0 (by omega))).1 h0
        refine Or.inr (Or.inr (Or.inr ⟨hpt, ?_⟩))
        rw [h] at hback
        exact (backRankOf_inj hback).symm
      · by_cases h2c : s.index = (⟨2, backRankOf g.side⟩ : Square).index
        · have hsn : g.board.atSq s = none := by
            rw [(index_inj hsv (backRank_valid g.side 2 (by omega))).1 h2c]
            exact hc
          rw [hsn] at hq
          cases hq
        · by_cases h2 : s.index = src.index
          · exact Or.inr (Or.inl (hsrc_case h2))
          · simp only [h3, h0, h2c, h2, if_false]
            exact Or.inl hq

theorem hasFlag_clearR_self {b : Nat} (hb : (255 ^^^ b) &&& b = 0) (x : Nat) :
    hasFlag (clearR x b) b = false := by
  simp only [hasFlag, clearR, Nat.and_assoc, hb, Nat.and_zero]
  rfl

theorem rightsAfter_of_rightsRook {side : Color} {r : Nat} {mp : Piece} {cap : Option Piece}
    {m : Move} {f : Nat} (h : hasFlag (rightsRook side (rightsKing side r mp) mp m) f = false) :
    hasFlag (rightsAfter side r mp cap m) f = false := by
  by_contra hne
  rw [Bool.not_eq_false] at hne
  rw [hasFlag_rightsCaptured hne] at h
  cases h

/-- A rook leaving `h1` (`h8`) clears the kingside right of the side to move. -/
theorem rightsAfter_rook_K {side : Color} {r : Nat} {mp : Piece} {cap : Option Piece} {m : Move}
    (ht : mp.type = .ROOK) (hsrc : m.src = ⟨7, backRankOf side⟩) :
    hasFlag (rightsAfter side r mp cap m) (kingsideBit side) = false := by
  apply rightsAfter_of_rightsRook
  have hb : (if side = .WHITE then 0 else 7) = backRankOf side := rfl
  have hk : (if side = .WHITE then WK else BK) = kingsideBit side := rfl
  simp only [rightsRook, ht, hsrc, hb, hk, if_true]
  exact hasFlag_clearR_self (by cases side <;> decide) _

/-- A rook leaving `a1` (`a8`) clears the queenside right of the side to move. -/
theorem rightsAfter_rook_Q {side : Color} {r : Nat} {mp : Piece} {cap : Option Piece} {m : Move}
    (ht : mp.type = .ROOK) (hsrc : m.src = ⟨0, backRankOf side⟩) :
    hasFlag (rightsAfter side r mp cap m) (queensideBit side) = false := by
  apply rightsAfter_of_rightsRook
  have hb : (if side = .WHITE then 0 else 7) = backRankOf side := rfl
  have hq : (if side = .WHITE then WQ else BQ) = queensideBit side := rfl
  have hne : ¬ ((⟨0, backRankOf side⟩ : Square) = ⟨7, backRankOf side⟩) := by
    simp
  simp only [rightsRook, ht, hsrc, hb, hq, hne, if_true, if_false]
  exact hasFlag_clearR_self (by cases side <;> decide) _

/-- A rook captured on `h8` (`h1`) clears the opponent's kingside right. -/
theorem rightsAfter_captured_K {side : Color} {r : Nat} {mp cp : Piece} {m : Move}
    (ht : cp.type = .ROOK) (hdst : m.dst = ⟨7, backRankOf side.flip⟩) :
    hasFlag (rightsAfter side r mp (some cp) m) (kingsideBit side.flip) = false := by
  have hb : (if (if side = .WHITE then 0 else 7) ≠ 0 then 0 else 7) = backRankOf side.flip := by
    cases side <;> rfl
  have hk : (if side = .WHITE then BK else WK) = kingsideBit side.flip := by cases side <;> rfl
  have hne : ¬ ((⟨7, backRankOf side.flip⟩ : Square) = ⟨0, backRankOf side.flip⟩) := by
    simp
  simp only [rightsAfter, rightsCaptured, ht, hdst, hb, hk, hne, if_true, if_false]
  exact hasFlag_clearR_self (by cases side <;> decide) _

/-- A rook captured on `a8` (`a1`) clears the opponent's queenside right. -/
theorem rightsAfter_captured_Q {side : Color} {r : Nat} {mp cp : Piece} {m : Move}
    (ht : cp.type = .ROOK) (hdst : m.dst = ⟨0, backRankOf side.flip⟩) :
    hasFlag (rightsAfter side r mp (some cp) m) (queensideBit side.flip) = false := by
  have hb : (if (if side = .WHITE then 0 else 7) ≠ 0 then 0 else 7) = backRankOf side.flip := by
    cases side <;> rfl
  have hq : (if side = .WHITE then BQ else WQ) = queensideBit side.flip := by cases side <;> rfl
  have hne : ¬ ((⟨0, backRankOf side.flip⟩ : Square) = ⟨7, backRankOf side.flip⟩) := by
    simp
  simp only [rightsAfter, rightsCaptured, ht, hdst, hb, hq, hne, if_true, if_false]
  exact hasFlag_clearR_self (by cases side <;> decide) _

/-- One right of one colour across a generated move of the side to move: if the
right is still set afterwards, the king and the rook it speaks of have not
moved. -/
theorem home_step_aux {g : Game} {p : Piece} {src : Square} {m : Move} (hinv : Inv g)
    (hsrc : src.isValid = true) (hp : g.board.atSq src = some p) (hpc : p.color = g.side)
    (hgenm : m ∈ g.board.generateLegalMoves g.side) (hshape : Generated g.board p src m)
    (c : Color) (bit : Color → Nat) (f : Nat) (hf8 : f < 8)
    (hkingclr : ∀ (cap : Option Piece), p.type = .KING →
      hasFlag (rightsAfter g.side g.board.castlingRights p cap m) (bit g.side) = false)
    (hrookclr : ∀ (cap : Option Piece), p.type = .ROOK → m.src = ⟨f, backRankOf g.side⟩ →
      hasFlag (rightsAfter g.side g.board.castlingRights p cap m) (bit g.side) = false)
    (hcapclr : ∀ (cp : Piece), cp.type = .ROOK → m.dst = ⟨f, backRankOf g.side.flip⟩ →
      hasFlag (rightsAfter g.side g.board.castlingRights p (some cp) m) (bit g.side.flip) = false)
    (hbit : hasFlag (rightsAfter g.side g.board.castlingRights p (captureStep g.board m).1 m)
      (bit c) = true)
    (hk : g.board.atSq ⟨4, backRankOf c⟩ = some ⟨c, .KING⟩)
    (hr : g.board.atSq ⟨f, backRankOf c⟩ = some ⟨c, .ROOK⟩) :
    (g.applyChecked m (captureStep g.board m).1 (captureStep g.board m).2 p).board.atSq
        ⟨4, backRankOf c⟩ = some ⟨c, .KING⟩ ∧
      (g.applyChecked m (captureStep g.board m).1 (captureStep g.board m).2 p).board.atSq
        ⟨f, backRankOf c⟩ = some ⟨c, .ROOK⟩ := by
  have hkingmove : p.type = .KING → c = g.side → False := by
    intro h1 h2
    subst h2
    rw [hkingclr _ h1] at hbit
    cases hbit
  constructor
  · rcases home_frame hinv hsrc hp hpc hgenm hshape ⟨4, backRankOf c⟩
      (backRank_valid c 4 (by omega)) ⟨c, .KING⟩ hk (Or.inl rfl) rfl with
      h | ⟨-, h2⟩ | ⟨-, -, h3, -⟩ | ⟨h4, h5⟩
    · exact h
    · exfalso
      subst h2
      exact hkingmove rfl hpc
    · cases h3
    · exact absurd h5 (fun h => hkingmove h4 h)
  · rcases home_frame hinv hsrc hp hpc hgenm hshape ⟨f, backRankOf c⟩
      (backRank_valid c f hf8) ⟨c, .ROOK⟩ hr (Or.inr rfl) rfl with
      h | ⟨h1, h2⟩ | ⟨h1, h2, -, h4⟩ | ⟨h4, h5⟩
    · exact h
    · exfalso
      subst h2
      have hc : c = g.side := hpc
      subst hc
      rw [hrookclr _ rfl h1] at hbit
      cases hbit
    · exfalso
      have hc : c = g.side.flip := h4
      subst hc
      rw [h2, hcapclr _ rfl h1] at hbit
      cases hbit
    · exact absurd h5 (fun h => hkingmove h4 h)

/-- The property is kept by every move of `legalMoves()`. -/
theorem rightsAtHome_step {g g' : Game} {ms : List Move} {m : Move} (hinv : Inv g)
    (hh : RightsAtHome g) (hl : g.legalMoves = .ok ms) (hm : m ∈ ms)
    (hmk : g.makeMove m = .ok g') : RightsAtHome g' := by
  obtain ⟨hgenm, -⟩ := (mem_legalMoves hl).1 hm
  obtain ⟨src, p, hsrc, hp, hpc, hmem⟩ := mem_generateLegalMoves.1 hgenm
  have hshape := generated_shape hsrc hmem
  obtain ⟨hs, hd, mp, hmp, -, rfl⟩ := makeMove_eq_ok_iff.1 hmk
  have hsrc2 := generated_src hshape
  rw [hsrc2, captureStep_atSq_src hsrc hp hshape] at hmp
  cases hmp
  intro c
  rw [applyChecked_castlingRights, captureStep_castlingRights]
  constructor
  · intro hbit
    obtain ⟨hk, hr⟩ := (hh c).1 (hasFlag_rightsAfter hbit)
    exact home_step_aux hinv hsrc hp hpc hgenm hshape c kingsideBit 7 (by omega)
      (fun cap h => (rightsAfter_king h).1) (fun cap h1 h2 => rightsAfter_rook_K h1 h2)
      (fun cp h1 h2 => rightsAfter_captured_K h1 h2) hbit hk hr
  · intro hbit
    obtain ⟨hk, hr⟩ := (hh c).2 (hasFlag_rightsAfter hbit)
    exact home_step_aux hinv hsrc hp hpc hgenm hshape c queensideBit 0 (by omega)
      (fun cap h => (rightsAfter_king h).2) (fun cap h1 h2 => rightsAfter_rook_Q h1 h2)
      (fun cp h1 h2 => rightsAfter_captured_Q h1 h2) hbit hk hr

theorem rightsAtHome_init : RightsAtHome {} := by
  intro c
  cases c <;> constructor <;> intro _ <;> decide

/-- C15: in every position reachable from the initial position by moves each
taken from `legalMoves()`, every castling-right bit that is set has the king of
that colour on its home square (`e1` or `e8`) and a rook of that colour on the
matching corner of that colour's back rank (file 7 for the K bit, file 0 for the
Q bit). -/
theorem reachable_rights_at_home (g : Game) (h : Reachable g) (c : Color) :
    (hasFlag g.board.castlingRights (kingsideBit c) = true →
      g.board.atSq ⟨4, backRankOf c⟩ = some ⟨c, .KING⟩ ∧
        g.board.atSq ⟨7, backRankOf c⟩ = some ⟨c, .ROOK⟩) ∧
    (hasFlag g.board.castlingRights (queensideBit c) = true →
      g.board.atSq ⟨4, backRankOf c⟩ = some ⟨c, .KING⟩ ∧
        g.board.atSq ⟨0, backRankOf c⟩ = some ⟨c, .ROOK⟩) := by
  have key : RightsAtHome g := by
    induction h with
    | init => exact rightsAtHome_init
    | step hg hl hm hmk ih => exact rightsAtHome_step (inv_of_reachable hg) ih hl hm hmk
  exact key c

theorem reachable_rights_at_home_witness :
    ∃ g', Game.makeMove {} (Move.mk ⟨4, 1⟩ ⟨4, 3⟩ QUIET 0) = .ok g' ∧
      hasFlag g'.board.castlingRights (kingsideBit .BLACK) = true ∧
      g'.board.atSq ⟨4, backRankOf .BLACK⟩ = some ⟨.BLACK, .KING⟩ ∧
      g'.board.atSq ⟨7, backRankOf .BLACK⟩ = some ⟨.BLACK, .ROOK⟩ := by
  obtain ⟨ms, h1, h2⟩ := initial_e2e4_legal
  have hr : Reachable (Game.applyChecked {} (Move.mk ⟨4, 1⟩ ⟨4, 3⟩ QUIET 0) none Board.initial
      ⟨.WHITE, .PAWN⟩) := Reachable.step Reachable.init h1 h2 rfl
  exact ⟨_, rfl, by decide,
    (reachable_rights_at_home _ hr .BLACK).1 (by decide)⟩


/-! ## The option setters -/

/-- C24: `setTimeLimit(ms)` raises `EngineError` if and only if `ms < 100`, and
`setMaxDepth(d)` raises it if and only if `d < 1` or `d >= 64`; when a setter
raises, the engine is left as it was; when it succeeds, the named option has the
argument's value and the other options and the other members of the engine are
unchanged. -/
theorem setters_raise_iff_out_of_range (st : EngineState) (x : Int) :
    (((∃ e, setTimeLimit st x = .error e) ↔ x < 100) ∧
      (∀ e, setTimeLimit st x = .error e → e.2 = st) ∧
      (∀ st', setTimeLimit st x = .ok st' →
        st'.opt.timeMs = x ∧ st'.opt.maxDepth = st.opt.maxDepth ∧
          st'.opt.useNNUE = st.opt.useNNUE ∧ st'.history = st.history ∧
          st'.killers = st.killers ∧ st'.tt = st.tt ∧ st'.stop = st.stop)) ∧
    (((∃ e, setMaxDepth st x = .error e) ↔ (x < 1 ∨ x ≥ 64)) ∧
      (∀ e, setMaxDepth st x = .error e → e.2 = st) ∧
      (∀ st', setMaxDepth st x = .ok st' →
        st'.opt.maxDepth = x ∧ st'.opt.timeMs = st.opt.timeMs ∧
          st'.opt.useNNUE = st.opt.useNNUE ∧ st'.history = st.history ∧
          st'.killers = st.killers ∧ st'.tt = st.tt ∧ st'.stop = st.stop)) := by
  constructor
  · unfold setTimeLimit
    by_cases h : x < 100
    · simp only [h, if_true, iff_true, reduceCtorEq, false_imp_iff, implies_true, and_true]
      refine ⟨⟨_, rfl⟩, ?_⟩
      intro e he
      cases he
      rfl
    · simp only [h, if_false, iff_false, reduceCtorEq, false_imp_iff, implies_true, true_and,
        exists_false, not_false_eq_true]
      intro st' he
      cases he
      exact ⟨rfl, rfl, rfl, rfl, rfl, rfl, rfl⟩
  · unfold setMaxDepth MAX_PLY
    by_cases h : x < 1 ∨ x ≥ 64
    · simp only [h, if_true, iff_true, reduceCtorEq, false_imp_iff, implies_true, and_true]
      refine ⟨⟨_, rfl⟩, ?_⟩
      intro e he
      cases he
      rfl
    · simp only [h, if_false, iff_false, reduceCtorEq, false_imp_iff, implies_true, true_and,
        exists_false, not_false_eq_true]
      intro st' he
      cases he
      exact ⟨rfl, rfl, rfl, rfl, rfl, rfl, rfl⟩

theorem setters_raise_iff_out_of_range_witness :
    ∃ st', setMaxDepth {} 63 = .ok st' ∧ st'.opt.maxDepth = 63 ∧ st'.opt.timeMs = 5000 := by
  have h : ∃ st', setMaxDepth {} 63 = .ok st' := ⟨_, rfl⟩
  obtain ⟨st', hst⟩ := h
  obtain ⟨h1, h2, -⟩ := (setters_raise_iff_out_of_range {} 63).2.2.2 st' hst
  exact ⟨st', hst, h1, h2⟩

/-! ## Pawn pushes -/

/-- C28: for every board and every pawn of colour `c` on a valid square `src`: the
pawn generator emits a move to the square one rank ahead on the same file if and
only if that square is on the board and empty; it emits a move to the square two
ranks ahead if and only if the pawn is on its starting rank and the squares one
and two ranks ahead are both empty; every move it emits that stays on the
pawn's file goes to one of these two squares. -/
theorem pawn_pushes (b : Board) (c : Color) (src : Square) (hsrc : src.isValid = true) :
    ((∃ m ∈ Pawn.legalMoves c b src, m.dst = ⟨src.file, u8 (src.rank + pawnDir c)⟩) ↔
      ((⟨src.file, u8 (src.rank + pawnDir c)⟩ : Square).isValid = true ∧
        b.atSq ⟨src.file, u8 (src.rank + pawnDir c)⟩ = none)) ∧
    ((∃ m ∈ Pawn.legalMoves c b src, m.dst = ⟨src.file, u8 (src.rank + 2 * pawnDir c)⟩) ↔
      ((src.rank : Int) = pawnStartRank c ∧
        b.atSq ⟨src.file, u8 (src.rank + pawnDir c)⟩ = none ∧
        b.atSq ⟨src.file, u8 (src.rank + 2 * pawnDir c)⟩ = none)) ∧
    (∀ m ∈ Pawn.legalMoves c b src, m.src = src ∧
      (m.dst.file = src.file →
        m.dst = ⟨src.file, u8 (src.rank + pawnDir c)⟩ ∨
          m.dst = ⟨src.file, u8 (src.rank + 2 * pawnDir c)⟩)) := by
  have hs := isValid_iff.1 hsrc
  have hdir := pawnDir_cases c
  have hdiag : ∀ df : Int, (df = -1 ∨ df = 1) →
      (⟨u8 (src.file + df), u8 (src.rank + pawnDir c)⟩ : Square).isValid = true →
      u8 (src.file + df) ≠ src.file := by
    intro df hdf hv
    have h8 := (isValid_iff.1 hv).1
    simp only [u8] at h8 ⊢
    omega
  have hne12 : (⟨src.file, u8 (src.rank + pawnDir c)⟩ : Square).isValid = true →
      u8 (src.rank + pawnDir c) ≠ u8 (src.rank + 2 * pawnDir c) := by
    intro hv
    have h8 := (isValid_iff.1 hv).2
    simp only [u8] at h8 ⊢
    omega
  have hpush : ∀ m, m = (if ((u8 (src.rank + pawnDir c) : Nat) : Int) = pawnPromoRank c then
        Move.mk src ⟨src.file, u8 (src.rank + pawnDir c)⟩ PROMOTION PieceType.QUEEN.code
      else Move.mk src ⟨src.file, u8 (src.rank + pawnDir c)⟩ QUIET 0) →
      m.src = src ∧ m.dst = ⟨src.file, u8 (src.rank + pawnDir c)⟩ := by
    intro m hm
    rw [hm]
    split <;> exact ⟨rfl, rfl⟩
  refine ⟨⟨?_, ?_⟩, ⟨?_, ?_⟩, ?_⟩
  · rintro ⟨m, hm, hd⟩
    rcases mem_Pawn_legalMoves.1 hm with ⟨hve, -⟩ | ⟨df, hdf, hv, h⟩
    · exact hve
    · exfalso
      rcases h with ⟨t, -, -, rfl⟩ | ⟨ep, -, -, hf, rfl⟩
      · have hd2 : u8 (src.file + df) = src.file := by
          split at hd <;> exact congrArg Square.file hd
        exact hdiag df hdf hv hd2
      · have hd2 : ep.file = src.file := by
          simp only at hd
          rw [hd]
        omega
  · rintro ⟨hv, he⟩
    refine ⟨_, mem_Pawn_legalMoves.2 (Or.inl ⟨⟨hv, he⟩, Or.inl rfl⟩), ?_⟩
    exact (hpush _ rfl).2
  · rintro ⟨m, hm, hd⟩
    rcases mem_Pawn_legalMoves.1 hm with ⟨⟨hv, he⟩, h | ⟨hstart, -, he2, -⟩⟩ | ⟨df, hdf, hv, h⟩
    · exfalso
      rw [(hpush m h).2] at hd
      exact hne12 hv (congrArg Square.rank hd)
    · exact ⟨hstart, he, he2⟩
    · exfalso
      rcases h with ⟨t, -, -, rfl⟩ | ⟨ep, -, -, hf, rfl⟩
      · have hd2 : u8 (src.file + df) = src.file := by
          split at hd <;> exact congrArg Square.file hd
        exact hdiag df hdf hv hd2
      · have hd2 : ep.file = src.file := by
          simp only at hd
          rw [hd]
        omega
  · rintro ⟨hstart, he, he2⟩
    have hv1 : (⟨src.file, u8 (src.rank + pawnDir c)⟩ : Square).isValid = true := by
      rw [isValid_iff]
      refine ⟨hs.1, ?_⟩
      show u8 (src.rank + pawnDir c) < 8
      cases c <;> simp only [pawnStartRank, pawnDir, u8, if_true, reduceCtorEq, if_false]
        at hstart ⊢ <;> omega
    have hv2 : (⟨src.file, u8 (src.rank + 2 * pawnDir c)⟩ : Square).isValid = true := by
      rw [isValid_iff]
      refine ⟨hs.1, ?_⟩
      show u8 (src.rank + 2 * pawnDir c) < 8
      cases c <;> simp only [pawnStartRank, pawnDir, u8, if_true, reduceCtorEq, if_false]
        at hstart ⊢ <;> omega
    exact ⟨_, mem_Pawn_legalMoves.2 (Or.inl ⟨⟨hv1, he⟩, Or.inr ⟨hstart, hv2, he2, rfl⟩⟩), rfl⟩
  · intro m hm
    rcases mem_Pawn_legalMoves.1 hm with ⟨-, h | ⟨-, -, -, rfl⟩⟩ | ⟨df, hdf, hv, h⟩
    · exact ⟨(hpush m h).1, fun _ => Or.inl (hpush m h).2⟩
    · exact ⟨rfl, fun _ => Or.inr rfl⟩
    · rcases h with ⟨t, -, -, rfl⟩ | ⟨ep, -, -, hf, rfl⟩
      · constructor
        · split <;> rfl
        · intro hd
          exfalso
          have hd2 : u8 (src.file + df) = src.file := by
            split at hd <;> exact hd
          exact hdiag df hdf hv hd2
      · refine ⟨rfl, ?_⟩
        intro hd
        exfalso
        have hd2 : ep.file = src.file := hd
        omega

theorem pawn_pushes_witness :
    ∃ m ∈ Pawn.legalMoves .WHITE Board.initial ⟨4, 1⟩,
      m.dst = ⟨4, u8 (((1 : Nat) : Int) + 2 * pawnDir .WHITE)⟩ :=
  (pawn_pushes Board.initial .WHITE ⟨4, 1⟩ (by decide)).2.1.2 ⟨by decide, by decide, by decide⟩

/-! ## Legal play written as a list of moves -/

theorem reachable_playLegal : ∀ (l : List Move) {g g' : Game}, Reachable g →
    playLegal g l = some g' → Reachable g' := by
  intro l
  induction l with
  | nil =>
    intro g g' hg h
    simp only [playLegal, Option.some.injEq] at h
    rw [← h]
    exact hg
  | cons m rest ih =>
    intro g g' hg h
    unfold playLegal at h
    cases hl : g.legalMoves with
    | error e => simp [hl] at h
    | ok ms =>
      simp only [hl] at h
      by_cases hm : m ∈ ms
      · simp only [hm, if_true] at h
        cases hmk : g.makeMove m with
        | error e => simp [hmk] at h
        | ok g1 =>
          simp only [hmk] at h
          exact ih (Reachable.step hg hl hm hmk) h
      · simp [hm] at h

/-! ## The en-passant move is generated twice -/

/-- C27 (failing input): after the legal moves `e2-e4`, `a7-a6`, `e4-e5`, `d7-d5`
from the initial position the en-passant target is `d6`, and for the white pawn
on `e5` the pawn generator emits the en-passant capture `e5 → d6` twice, once
for each of the two diagonal squares `d6` and `f6`; `legalMoves()` of the game
contains the move twice as well. -/
theorem pawn_generator_emits_en_passant_twice :
    ∃ g, playLegal {} advanceE5D5 = some g ∧ Reachable g ∧
      g.board.atSq ⟨4, 4⟩ = some ⟨.WHITE, .PAWN⟩ ∧ g.board.enPassantTarget = some ⟨3, 5⟩ ∧
      Pawn.legalMoves .WHITE g.board ⟨4, 4⟩ =
        [Move.mk ⟨4, 4⟩ ⟨4, 5⟩ QUIET 0, Move.mk ⟨4, 4⟩ ⟨3, 5⟩ EN_PASSANT 0,
          Move.mk ⟨4, 4⟩ ⟨3, 5⟩ EN_PASSANT 0] ∧
      ¬ (Pawn.legalMoves .WHITE g.board ⟨4, 4⟩).Nodup ∧
      ∃ ms, g.legalMoves = .ok ms ∧ ms.count (Move.mk ⟨4, 4⟩ ⟨3, 5⟩ EN_PASSANT 0) = 2 :=
  ⟨_, rfl, reachable_playLegal advanceE5D5 Reachable.init rfl, by decide, by decide, by decide,
    by decide, _, rfl, by decide⟩

/-! ## `evaluate` -/

theorem material_fold (b : Board) : ∀ (l : List Square) (s : Int),
    l.foldl
      (fun score s =>
        match b.atSq s with
        | some p => score + (if p.color = .WHITE then pieceValue p.type else -pieceValue p.type)
        | none => score) s =
      s + ((l.map fun s =>
          match b.atSq s with
          | some p => if p.color = .WHITE then pieceValue p.type else 0
          | none => 0).sum -
        (l.map fun s =>
          match b.atSq s with
          | some p => if p.color = .BLACK then pieceValue p.type else 0
          | none => 0).sum) := by
  intro l
  induction l with
  | nil => intro s; simp
  | cons x xs ih =>
    intro s
    rw [List.foldl_cons, ih]
    cases hx : b.atSq x with
    | none => simp [hx]
    | some p =>
      simp only [List.map_cons, List.sum_cons, hx]
      cases hc : p.color <;> simp <;> ring

theorem materialScore_eq (b : Board) :
    materialScore b = materialOf b .WHITE - materialOf b .BLACK := by
  have h := material_fold b allSquares 0
  rw [zero_add] at h
  exact h

/-- What `evaluate` computes when both `legalMoves()` calls return: 0 if neither
side has a move; otherwise, with white to move, white's material minus black's
plus five times (own moves − opponent's moves), and with black to move, black's
material minus white's **minus** five times (own moves − opponent's moves). -/
theorem evaluate_eq (g : Game) (self opp : List Move) (hs : g.legalMoves = .ok self)
    (ho : g.makeNullMove.legalMoves = .ok opp) :
    evaluate g = .ok
      (if self = [] ∧ opp = [] then 0
       else if g.side = .WHITE then
         materialOf g.board .WHITE - materialOf g.board .BLACK +
           5 * ((self.length : Int) - opp.length)
       else
         materialOf g.board .BLACK - materialOf g.board .WHITE -
           5 * ((self.length : Int) - opp.length)) := by
  unfold evaluate
  simp only [hs, ho, materialScore_eq]
  by_cases h1 : self = []
  · by_cases h2 : opp = []
    · simp [h1, h2]
    · cases hside : g.side <;> simp [h1, h2]
      ring
  · cases hside : g.side <;> simp [h1] <;> ring

/-- C23 (failing input): after `e2-e4` from the initial position black is to
move, the material is level, black has 20 legal moves and white has 30 after the
null move.  The side-to-move-relative value is `0 + 5 * (20 - 30) = -50`;
`evaluate` returns `+50`. -/
theorem evaluate_black_mobility_sign :
    ∃ g, Game.makeMove {} (Move.mk ⟨4, 1⟩ ⟨4, 3⟩ QUIET 0) = .ok g ∧ g.side = .BLACK ∧
      materialOf g.board .BLACK - materialOf g.board .WHITE = 0 ∧
      (∃ self opp, g.legalMoves = .ok self ∧ g.makeNullMove.legalMoves = .ok opp ∧
        self.length = 20 ∧ opp.length = 30) ∧
      evaluate g = .ok 50 :=
  ⟨_, rfl, rfl, by decide, ⟨_, _, rfl, rfl, rfl, rfl⟩, rfl⟩


/-! ## The form of the generated moves in reachable positions -/

/-- C29: in every position reachable from the initial position by legal moves,
every move `generateLegalMoves` returns for the side to move has valid source
and destination squares, never has the NULL_MOVE flag, has `promoPiece = QUEEN`
whenever it has the PROMOTION flag, never combines a castling flag with CAPTURE,
and has the CAPTURE flag if and only if its destination square holds a piece of
the colour that is not to move. -/
theorem generated_moves_well_formed (g : Game) (h : Reachable g) (m : Move)
    (hm : m ∈ g.board.generateLegalMoves g.side) :
    m.src.isValid = true ∧ m.dst.isValid = true ∧ hasFlag m.flags NULL_MOVE = false ∧
      (hasFlag m.flags PROMOTION = true → m.promoPiece = PieceType.QUEEN.code) ∧
      ((hasFlag m.flags CASTLING_K = true ∨ hasFlag m.flags CASTLING_Q = true) →
        hasFlag m.flags CAPTURE = false) ∧
      (hasFlag m.flags CAPTURE = true ↔
        ∃ t, g.board.atSq m.dst = some t ∧ t.color = g.side.flip) := by
  have hinv := inv_of_reachable h
  obtain ⟨src, p, hsrc, hp, hpc, hmem⟩ := mem_generateLegalMoves.1 hm
  have hshape := generated_shape hsrc hmem
  cases hshape with
  | quiet dst hv he hpawn =>
    exact ⟨hsrc, hv, by simp [hasFlag_table], by simp [hasFlag_table], by simp [hasFlag_table],
      by simp [hasFlag_table, he]⟩
  | promotion dst hpt hv he hr =>
    exact ⟨hsrc, hv, by simp [hasFlag_table], fun _ => rfl, by simp [hasFlag_table],
      by simp [hasFlag_table, he]⟩
  | capture dst t hv ht htc hpawn =>
    refine ⟨hsrc, hv, by simp [hasFlag_table], by simp [hasFlag_table], by simp [hasFlag_table],
      ?_⟩
    simp only [hasFlag_table, true_iff]
    exact ⟨t, ht, color_ne_flip (by rw [← hpc]; exact htc)⟩
  | capturePromotion dst t hpt hv ht htc hr =>
    refine ⟨hsrc, hv, by simp [hasFlag_table], fun _ => rfl, by simp [hasFlag_table], ?_⟩
    simp only [hasFlag_table, true_iff]
    exact ⟨t, ht, color_ne_flip (by rw [← hpc]; exact htc)⟩
  | enPassant dst hpt hep hr hf =>
    obtain ⟨hv, he, -⟩ := hinv.enPassant dst hep
    exact ⟨hsrc, hv, by simp [hasFlag_table], by simp [hasFlag_table], by simp [hasFlag_table],
      by simp [hasFlag_table, he]⟩
  | castleK hpt hr hf hg ha =>
    exact ⟨hsrc, backRank_valid p.color 6 (by omega), by simp [hasFlag_table],
      by simp [hasFlag_table], by simp [hasFlag_table], by simp [hasFlag_table, hg]⟩
  | castleQ hpt hr hd hc hb ha =>
    exact ⟨hsrc, backRank_valid p.color 2 (by omega), by simp [hasFlag_table],
      by simp [hasFlag_table], by simp [hasFlag_table], by simp [hasFlag_table, hc]⟩

theorem generated_moves_well_formed_witness :
    (Move.mk ⟨4, 1⟩ ⟨4, 3⟩ QUIET 0).src.isValid = true ∧
      (Move.mk ⟨4, 1⟩ ⟨4, 3⟩ QUIET 0).dst.isValid = true ∧
      hasFlag QUIET NULL_MOVE = false ∧
      (hasFlag QUIET PROMOTION = true → (0 : Nat) = PieceType.QUEEN.code) ∧
      ((hasFlag QUIET CASTLING_K = true ∨ hasFlag QUIET CASTLING_Q = true) →
        hasFlag QUIET CAPTURE = false) ∧
      (hasFlag QUIET CAPTURE = true ↔
        ∃ t, ({} : Game).board.atSq ⟨4, 3⟩ = some t ∧ t.color = Color.WHITE.flip) :=
  generated_moves_well_formed {} Reachable.init (Move.mk ⟨4, 1⟩ ⟨4, 3⟩ QUIET 0) (by decide)

/-! ## Move ordering -/

theorem orderedInsert_filter (f : Move → Int) (v : Int) (a : Move) : ∀ l : List Move,
    (l.orderedInsert (fun x y => f x ≥ f y) a).filter (fun m => decide (f m = v)) =
      (a :: l).filter (fun m => decide (f m = v)) := by
  intro l
  induction l with
  | nil => rfl
  | cons b l ih =>
    by_cases hr : f a ≥ f b
    · simp only [List.orderedInsert, hr, if_true]
    · simp only [List.orderedInsert, hr, if_false]
      rw [List.filter_cons, ih]
      by_cases ha : f a = v
      · have hb : ¬ f b = v := fun hb => hr (by rw [ha, hb])
        simp [List.filter_cons, ha, hb]
      · simp [List.filter_cons, ha]

theorem insertionSort_filter (f : Move → Int) (v : Int) : ∀ l : List Move,
    (l.insertionSort (fun x y => f x ≥ f y)).filter (fun m => decide (f m = v)) =
      l.filter (fun m => decide (f m = v)) := by
  intro l
  induction l with
  | nil => rfl
  | cons a l ih =>
    show ((l.insertionSort (fun x y => f x ≥ f y)).orderedInsert (fun x y => f x ≥ f y) a).filter
      (fun m => decide (f m = v)) = (a :: l).filter (fun m => decide (f m = v))
    rw [orderedInsert_filter, List.filter_cons, List.filter_cons, ih]

/-- C30: for every move list, PV move, ply index and engine state, `orderMoves`
leaves a permutation of the input list in which the scores (10000 for the PV
move, else 8000 with the CAPTURE flag, else 5000 for killer 0 of that index,
else 4000 for killer 1, else `history[from.index][to.index]`) are
non-increasing, and the moves of each score stand in their input order. -/
theorem orderMoves_sorted_stable (st : EngineState) (moves : List Move) (pv : Move)
    (depth : Int) :
    (orderMoves st moves pv depth).Perm moves ∧
      (orderMoves st moves pv depth).Pairwise
        (fun a b => orderScore st pv depth a ≥ orderScore st pv depth b) ∧
      (∀ v : Int,
        (orderMoves st moves pv depth).filter (fun m => decide (orderScore st pv depth m = v)) =
          moves.filter (fun m => decide (orderScore st pv depth m = v))) ∧
      ∀ m : Move, orderScore st pv depth m =
        if m = pv then 10000
        else if hasFlag m.flags CAPTURE = true then 8000
        else if m = st.killers depth 0 then 5000
        else if m = st.killers depth 1 then 4000
        else (st.history m.src.index m.dst.index : Int) := by
  refine ⟨List.perm_insertionSort _ _, ?_, fun v => insertionSort_filter _ v moves, ?_⟩
  · have htot : IsTotal Move (fun a b => orderScore st pv depth a ≥ orderScore st pv depth b) :=
      ⟨fun a b => le_total _ _⟩
    have htrans : IsTrans Move
        (fun a b => orderScore st pv depth a ≥ orderScore st pv depth b) :=
      ⟨fun a b c hab hbc => le_trans hbc hab⟩
    exact List.sorted_insertionSort _ moves
  · intro m
    unfold orderScore isCapture
    rfl

/-! ## `undoMove` after an arbitrary accepted move -/

/-- C26 (counterexample): from the initial position `makeMove` accepts the move
`a1 → a7` without the CAPTURE flag (the destination holds a black pawn, not an
own piece); the pawn is overwritten and not recorded, and the following
`undoMove()` returns the rook to `a1` but leaves `a7` empty. -/
theorem undoMove_loses_unflagged_capture :
    ∃ g1 g2, Game.makeMove {} (Move.mk ⟨0, 0⟩ ⟨0, 6⟩ QUIET 0) = .ok g1 ∧
      g1.undoMove = some g2 ∧
      ({} : Game).board.atSq ⟨0, 6⟩ = some ⟨.BLACK, .PAWN⟩ ∧
      g2.board.atSq ⟨0, 6⟩ = none ∧ g2.board.atSq ⟨0, 0⟩ = some ⟨.WHITE, .ROOK⟩ :=
  ⟨_, _, rfl, rfl, by decide, by decide, by decide⟩

theorem game_eq_iff_squares {x g : Game} (hside : x.side = g.side) (hh : x.history = g.history)
    (hr : x.board.castlingRights = g.board.castlingRights)
    (he : x.board.enPassantTarget = g.board.enPassantTarget) :
    x = g ↔ ∀ i, x.board.squares i = g.board.squares i := by
  constructor
  · intro h i
    rw [h]
  · intro h
    exact Game.ext (Board.ext (funext h) he hr) hside hh

set_option maxHeartbeats 1600000 in
/-- C26 (amended): for every game state and every move `m` without the flags
CASTLING_K, CASTLING_Q and NULL_MOVE that `makeMove` accepts, `makeMove(m)`
followed by `undoMove()` gives back the game (all squares, castling rights,
en-passant target, side to move, history) if and only if the destination square
is empty once the captured piece has been taken off, and, when `m` has the
PROMOTION flag, the piece on `m.from` is a pawn of the side to move.  In every
case the castling rights, the en-passant target, the side to move and the
history are restored. -/
theorem makeMove_undoMove_iff (g g1 : Game) (m : Move) (hmk : g.makeMove m = .ok g1)
    (hK : hasFlag m.flags CASTLING_K = false) (hQ : hasFlag m.flags CASTLING_Q = false)
    (hN : hasFlag m.flags NULL_MOVE = false) :
    ∃ mover, g.board.atSq m.src = some mover ∧
      ∃ g2, g1.undoMove = some g2 ∧
        g2.board.castlingRights = g.board.castlingRights ∧
        g2.board.enPassantTarget = g.board.enPassantTarget ∧
        g2.side = g.side ∧ g2.history = g.history ∧
        (g2 = g ↔
          ((captureStep g.board m).2.atSq m.dst = none ∧
            (hasFlag m.flags PROMOTION = true → mover = ⟨g.side, .PAWN⟩))) := by
  obtain ⟨hs, hd, mp, hmp, hown, rfl⟩ := makeMove_eq_ok_iff.1 hmk
  have hmp0 := captureStep_atSq_some hmp
  have hne : ¬ m.src.index = m.dst.index := by
    intro h
    have h2 := (index_inj hs hd).1 h
    rw [ownPieceOn_eq_false_iff] at hown
    rw [h2] at hmp
    exact hown mp hmp rfl
  have hne2 : ¬ m.dst.index = m.src.index := fun h => hne h.symm
  have hcs : (captureStep g.board m = (none, g.board)) ∨
      ∃ c : Square, captureStep g.board m = (g.board.atSq c, g.board.putPiece c none) ∧
        (if hasFlag m.flags EN_PASSANT = true then
            (⟨m.dst.file, m.src.rank⟩ : Square) else m.dst) = c := by
    unfold captureStep
    by_cases hE : hasFlag m.flags EN_PASSANT = true
    · exact Or.inr ⟨⟨m.dst.file, m.src.rank⟩, by simp [hE, Board.takePiece, Board.atSq,
        Board.putPiece], by simp [hE]⟩
    · by_cases hC : hasFlag m.flags CAPTURE = true
      · exact Or.inr ⟨m.dst, by simp [hE, hC, Board.takePiece, Board.atSq, Board.putPiece],
          by simp [hE]⟩
      · exact Or.inl (by simp [hE, hC])
  refine ⟨mp, hmp0, ?_⟩
  have hmp1 : g.board.squares m.src.index = some mp := hmp0
  clear hmk
  rcases hcs with hcap | ⟨c, hcap, hrest⟩
  · simp only [Game.undoMove, Game.applyChecked, List.getLast?_concat, List.dropLast_concat,
      hK, hQ, hN, Bool.false_eq_true, if_false, flip_flip, takePiece_fst,
      takePiece_snd, placeStep_plain hK hQ, promoteStep, hcap, Option.some.injEq,
      exists_eq_left']
    refine ⟨by simp, by simp, trivial, trivial, ?_⟩
    have hd0 : (g.board.atSq m.dst = none) = (g.board.squares m.dst.index = none) := rfl
    refine Iff.trans (game_eq_iff_squares ?_ ?_ ?_ ?_) ?_
    · rfl
    · rfl
    · simp
    · simp
    simp only [Board.atSq, putPiece_squares, setCastlingRights_squares,
      setEnPassantTarget_squares, enPassantStep_squares, if_true, hne, if_false, hmp1]
    constructor
    · intro h
      have h1 := h m.src.index
      have h2 := h m.dst.index
      simp only [if_true, hne2, if_false, hmp1] at h1 h2
      refine ⟨h2.symm, ?_⟩
      intro hP
      simp only [hP, if_true, Option.some.injEq] at h1
      exact h1.symm
    · rintro ⟨h2, h1⟩ i
      by_cases hi : i = m.src.index
      · subst hi
        by_cases hP : hasFlag m.flags PROMOTION = true
        · simp [hP, hmp1, h1 hP]
        · simp [hP, hmp1]
      · by_cases hi2 : i = m.dst.index
        · subst hi2
          simp [hi, h2]
        · simp [hi, hi2]
  · have hsc : ¬ m.src.index = c.index := by
      intro h
      rw [hcap] at hmp
      simp [h] at hmp
    have hsc2 : ¬ c.index = m.src.index := fun h => hsc h.symm
    have hcd : (g.board.putPiece c none).atSq m.dst = none ↔
        (m.dst.index = c.index ∨ g.board.squares m.dst.index = none) := by
      simp only [atSq_putPiece, Board.atSq]
      by_cases h : m.dst.index = c.index
      · simp [h]
      · simp [h]
    cases hoc : g.board.atSq c with
    | none =>
      have hoc1 : g.board.squares c.index = none := hoc
      simp only [Game.undoMove, Game.applyChecked, List.getLast?_concat, List.dropLast_concat,
        hK, hQ, hN, Bool.false_eq_true, if_false, flip_flip, takePiece_fst,
        takePiece_snd, placeStep_plain hK hQ, promoteStep, hcap, hoc, Option.some.injEq,
        exists_eq_left']
      refine ⟨by simp, by simp, trivial, trivial, ?_⟩
      refine Iff.trans (game_eq_iff_squares ?_ ?_ ?_ ?_) ?_
      · rfl
      · rfl
      · simp
      · simp
      rw [hcd]
      simp only [Board.atSq, putPiece_squares, setCastlingRights_squares,
        setEnPassantTarget_squares, enPassantStep_squares, if_true, hne, hsc, if_false, hmp1]
      constructor
      · intro h
        have h1 := h m.src.index
        have h2 := h m.dst.index
        simp only [if_true, hne2, if_false, hmp1] at h1 h2
        refine ⟨Or.inr h2.symm, ?_⟩
        intro hP
        simp only [hP, if_true, Option.some.injEq] at h1
        exact h1.symm
      · rintro ⟨h2, h1⟩ i
        by_cases hi : i = m.src.index
        · subst hi
          by_cases hP : hasFlag m.flags PROMOTION = true
          · simp [hP, hmp1, h1 hP]
          · simp [hP, hmp1]
        · by_cases hi2 : i = m.dst.index
          · subst hi2
            rcases h2 with h2 | h2
            · simp [hi, h2, hoc1, hsc2]
            · simp [hi, h2]
          · by_cases hi3 : i = c.index
            · subst hi3
              simp [hoc1, hsc2]
              intro h1 h2
              exact absurd h2 h1
            · simp [hi, hi2, hi3]
    | some cp =>
      have hoc1 : g.board.squares c.index = some cp := hoc
      have hput : ∀ x : Board,
          (if hasFlag m.flags EN_PASSANT = true then
            x.putPiece ⟨m.dst.file, m.src.rank⟩ (some cp) else x.putPiece m.dst (some cp)) =
            x.putPiece c (some cp) := by
        intro x
        rw [← hrest]
        split <;> rfl
      simp only [Game.undoMove, Game.applyChecked, List.getLast?_concat, List.dropLast_concat,
        hK, hQ, hN, Bool.false_eq_true, if_false, flip_flip, takePiece_fst,
        takePiece_snd, placeStep_plain hK hQ, promoteStep, hcap, hoc, Option.some.injEq,
        exists_eq_left', hput]
      refine ⟨by simp, by simp, trivial, trivial, ?_⟩
      refine Iff.trans (game_eq_iff_squares ?_ ?_ ?_ ?_) ?_
      · rfl
      · rfl
      · simp
      · simp
      rw [hcd]
      simp only [Board.atSq, putPiece_squares, setCastlingRights_squares,
        setEnPassantTarget_squares, enPassantStep_squares, if_true, hne, hsc, if_false, hmp1]
      constructor
      · intro h
        have h1 := h m.src.index
        have h2 := h m.dst.index
        simp only [if_true, hne2, hsc, if_false, hmp1] at h1 h2
        refine ⟨?_, ?_⟩
        · by_cases hdc : m.dst.index = c.index
          · exact Or.inl hdc
          · simp only [hdc, if_false] at h2
            exact Or.inr h2.symm
        · intro hP
          simp only [hP, if_true, Option.some.injEq] at h1
          exact h1.symm
      · rintro ⟨h2, h1⟩ i
        by_cases hi3 : i = c.index
        · simp [hi3, hoc1]
        · by_cases hi : i = m.src.index
          · subst hi
            by_cases hP : hasFlag m.flags PROMOTION = true
            · simp [hP, hmp1, h1 hP, hi3]
            · simp [hP, hmp1, hi3]
          · by_cases hi2 : i = m.dst.index
            · subst hi2
              rcases h2 with h2 | h2
              · exact absurd h2 hi3
              · simp [hi, hi3, h2]
            · simp [hi, hi2, hi3]

theorem makeMove_undoMove_iff_witness :
    ∃ g1, Game.makeMove {} (Move.mk ⟨4, 1⟩ ⟨4, 3⟩ QUIET 0) = .ok g1 ∧ g1.undoMove = some {} := by
  obtain ⟨mover, -, g2, h2, -, -, -, -, hiff⟩ :=
    makeMove_undoMove_iff {} _ (Move.mk ⟨4, 1⟩ ⟨4, 3⟩ QUIET 0) rfl (by decide) (by decide)
      (by decide)
  refine ⟨_, rfl, ?_⟩
  rw [h2, hiff.2 ⟨by decide, fun h => absurd h (by decide)⟩]

/-! ## `alphaBeta`: the probe, and a node without legal moves -/

theorem alphaBeta_pos (z : Zobrist) (depth : Nat) (g : Game) (alpha beta : Int) (n : Bool)
    (st : EngineState) (hstop : st.stop = false) (hd : depth ≠ 0) :
    alphaBeta z depth g alpha beta n st =
      if ((st.tt.probe (hashPosition z g) {}).1 &&
          probeCutoff (st.tt.probe (hashPosition z g) {}).2 depth alpha beta) = true then
        ⟨.ok (st.tt.probe (hashPosition z g) {}).2.score, g, st⟩
      else afterProbe z depth g alpha beta n (st.tt.probe (hashPosition z g) {}).2 st := by
  rw [alphaBeta]
  simp only [hstop, Bool.false_eq_true, if_false, hd, dite_false, probeCutoff, Bool.and_assoc]
  split
  · rfl
  · unfold afterProbe
    by_cases h3 : n = true ∧ 3 ≤ depth
    · simp only [h3, and_self, dite_true, if_true]
    · simp only [h3, dite_false, if_false]

theorem probeCutoff_iff (e : TTEntry) (depth : Nat) (alpha beta : Int) :
    probeCutoff e depth alpha beta = true ↔
      e.depth ≥ depth ∧
        (e.bound = .EXACT ∨ (e.bound = .LOWER ∧ e.score ≥ beta) ∨
          (e.bound = .UPPER ∧ e.score ≤ alpha)) := by
  simp only [probeCutoff, Bool.and_eq_true, decide_eq_true_eq, Bool.or_eq_true, beq_iff_eq,
    or_assoc]

/-! ## What a search leaves untouched: options, stop flag, table capacity -/

theorem SameSettings.rfl_ (s : EngineState) : SameSettings s s := ⟨rfl, rfl, rfl⟩

theorem SameSettings.trans_ {a b c : EngineState} (h1 : SameSettings a b)
    (h2 : SameSettings b c) : SameSettings a c :=
  ⟨h1.1.trans h2.1, h1.2.1.trans h2.2.1, h1.2.2.trans h2.2.2⟩

theorem store_size (t : TranspositionTable) (e : TTEntry) : (t.store e).size = t.size := by
  unfold TranspositionTable.store
  simp only []
  split <;> rfl

theorem rootTask_frame {child : SearchFn}
    (hchild : ∀ c a b n s, SameSettings (child c a b n s).state s) (g : Game)
    (alpha beta : Int) (acc acc' : RootAcc) (mv : Move)
    (h : rootTask child g alpha beta acc mv = .ok acc') : SameSettings acc'.state acc.state := by
  unfold rootTask at h
  cases hmk : g.makeMove mv with
  | error e =>
    simp only [hmk, Except.ok.injEq] at h
    rw [← h]
    exact SameSettings.rfl_ _
  | ok c =>
    simp only [hmk] at h
    have hc := hchild c (-beta) (-alpha) true acc.state
    cases hv : (child c (-beta) (-alpha) true acc.state).value with
    | error f =>
      cases f with
      | ruleError e =>
        simp only [hv, Except.ok.injEq] at h
        rw [← h]
        exact hc
      | assertion => simp [hv] at h
    | ok v =>
      simp only [hv] at h
      split at h <;>
        · simp only [Except.ok.injEq] at h
          rw [← h]
          exact hc

theorem rootLoop_frame {child : SearchFn}
    (hchild : ∀ c a b n s, SameSettings (child c a b n s).state s) (g : Game)
    (alpha beta : Int) : ∀ (moves : List Move) (acc acc' : RootAcc),
    rootLoop child g alpha beta moves acc = .ok acc' → SameSettings acc'.state acc.state := by
  intro moves
  induction moves with
  | nil =>
    intro acc acc' h
    simp only [rootLoop, Except.ok.injEq] at h
    rw [← h]
    exact SameSettings.rfl_ _
  | cons mv rest ih =>
    intro acc acc' h
    rw [rootLoop] at h
    cases ht : rootTask child g alpha beta acc mv with
    | error f => simp [ht] at h
    | ok acc1 =>
      simp only [ht] at h
      exact (ih acc1 acc' h).trans_ (rootTask_frame hchild g alpha beta acc acc1 mv ht)

theorem seqLoop_frame {child : SearchFn}
    (hchild : ∀ c a b n s, SameSettings (child c a b n s).state s) (depth : Nat) (beta : Int) :
    ∀ (moves : List Move) (acc : SeqAcc),
      (∀ acc', seqLoop child depth beta moves acc = .ok acc' →
        SameSettings acc'.state acc.state) ∧
      (∀ f acc', seqLoop child depth beta moves acc = .error (f, acc') →
        SameSettings acc'.state acc.state) := by
  intro moves
  induction moves with
  | nil =>
    intro acc
    constructor
    · intro acc' h
      simp only [seqLoop, Except.ok.injEq] at h
      rw [← h]
      exact SameSettings.rfl_ _
    · intro f acc' h
      simp [seqLoop] at h
  | cons mv rest ih =>
    intro acc
    rw [seqLoop]
    cases hmk : acc.game.makeMove mv with
    | error e =>
      constructor
      · intro acc' h
        simp at h
      · intro f acc' h
        simp only [Except.error.injEq, Prod.mk.injEq] at h
        rw [← h.2]
        exact SameSettings.rfl_ _
    | ok g1 =>
      simp only []
      have hc := hchild g1 (-beta) (-acc.alpha) true acc.state
      cases hv : (child g1 (-beta) (-acc.alpha) true acc.state).value with
      | error f0 =>
        constructor
        · intro acc' h
          simp at h
        · intro f acc' h
          simp only [Except.error.injEq, Prod.mk.injEq] at h
          rw [← h.2]
          exact hc
      | ok v =>
        simp only []
        cases hu : (child g1 (-beta) (-acc.alpha) true acc.state).game.undoMove with
        | none =>
          constructor
          · intro acc' h
            simp at h
          · intro f acc' h
            simp only [Except.error.injEq, Prod.mk.injEq] at h
            rw [← h.2]
            exact hc
        | some g2 =>
          simp only []
          by_cases h1 : -v > acc.alpha
          · by_cases h2 : -v ≥ beta
            · simp only [h1, h2, if_true]
              constructor
              · intro acc' h
                simp only [Except.ok.injEq] at h
                rw [← h]
                exact hc
              · intro f acc' h
                simp at h
            · simp only [h1, h2, if_true, if_false]
              constructor
              · intro acc' h
                exact ((ih _).1 acc' h).trans_ hc
              · intro f acc' h
                exact ((ih _).2 f acc' h).trans_ hc
          · simp only [h1, if_false]
            constructor
            · intro acc' h
              exact ((ih _).1 acc' h).trans_ hc
            · intro f acc' h
              exact ((ih _).2 f acc' h).trans_ hc

theorem searchMoves_frame (z : Zobrist) {child : SearchFn}
    (hchild : ∀ c a b n s, SameSettings (child c a b n s).state s) (g : Game) (depth : Nat)
    (alpha beta : Int) (entry : TTEntry) (st : EngineState) :
    SameSettings (searchMoves z child g depth alpha beta entry st).state st := by
  unfold searchMoves
  cases hl : g.legalMoves with
  | error e => exact SameSettings.rfl_ _
  | ok moves =>
    simp only []
    by_cases he : moves.isEmpty = true
    · rw [if_pos he]
      exact SameSettings.rfl_ _
    · rw [if_neg he]
      by_cases hroot : (depth : Int) = st.opt.maxDepth
      · rw [if_pos hroot]
        cases hr : rootLoop child g alpha beta
            (orderMoves st moves entry.bestMove (st.opt.maxDepth - ↑depth)) { state := st } with
        | error f => exact SameSettings.rfl_ _
        | ok acc =>
          have h := rootLoop_frame hchild g alpha beta _ _ _ hr
          exact ⟨h.1, h.2.1, (store_size _ _).trans h.2.2⟩
      · rw [if_neg hroot]
        cases hr : seqLoop child depth beta
            (orderMoves st moves entry.bestMove (st.opt.maxDepth - ↑depth))
            { alpha := alpha, game := g, state := st } with
        | error e =>
          obtain ⟨f, acc⟩ := e
          exact (seqLoop_frame hchild depth beta _ _).2 f acc hr
        | ok acc =>
          have h := (seqLoop_frame hchild depth beta _ _).1 acc hr
          exact ⟨h.1, h.2.1, (store_size _ _).trans h.2.2⟩

/-- No search call changes the options, the stop flag or the capacity of the
table. -/
theorem alphaBeta_frame (z : Zobrist) : ∀ (depth : Nat) (g : Game) (alpha beta : Int) (n : Bool)
    (st : EngineState), SameSettings (alphaBeta z depth g alpha beta n st).state st := by
  intro depth
  induction depth using Nat.strong_induction_on with
  | _ depth ih =>
    intro g alpha beta n st
    by_cases hstop : st.stop = true
    · rw [alphaBeta]
      simp only [hstop, if_true]
      exact SameSettings.rfl_ _
    · rw [Bool.not_eq_true] at hstop
      by_cases hd : depth = 0
      · subst hd
        rw [alphaBeta_zero]
        exact SameSettings.rfl_ _
      · rw [alphaBeta_pos z depth g alpha beta n st hstop hd]
        split
        · exact SameSettings.rfl_ _
        · have hchild : ∀ c a b n s,
              SameSettings ((fun c a b n s => alphaBeta z (depth - 1) c a b n s) c a b n s).state
                s := fun c a b n s => ih (depth - 1) (by omega) c a b n s
          unfold afterProbe
          by_cases h3 : n = true ∧ 3 ≤ depth
          · simp only [h3, and_self, if_true]
            have hnull := ih (depth - 3) (by omega) g.makeNullMove (-beta) (-beta + 1) false st
            cases hv : (alphaBeta z (depth - 3) g.makeNullMove (-beta) (-beta + 1) false
                st).value with
            | error f => exact hnull
            | ok v =>
              simp only []
              split
              · exact hnull
              · exact (searchMoves_frame z hchild g depth alpha beta _ _).trans_ hnull
          · simp only [h3, if_false]
            exact searchMoves_frame z hchild g depth alpha beta _ _

/-! ## The cutoff by a table entry -/

theorem lower_probe (z : Zobrist) (g : Game) (out : TTEntry) :
    (lowerEngine z g).tt.probe (hashPosition z g) out =
      (true, TTEntry.mk (hashPosition z g) 120 4 .LOWER {}) := by
  simp [TranspositionTable.probe, lowerEngine]

/-- C21: for every `alphaBeta` call with the stop flag unset and `depth >= 1` for
which the probe finds an entry `e` for the node's hash with `e.depth >= depth`:
when the bound is EXACT, or LOWER with `e.score >= beta`, or UPPER with
`e.score <= alpha`, the call returns `e.score` at once, leaving the game and
the engine (table included) as they were; in every other case the call goes on
with the null-move search and the move loop (`afterProbe`), the entry serving
only as the local `entry` whose `bestMove` orders the moves. -/
theorem alphaBeta_probe_cutoff (z : Zobrist) (depth : Nat) (g : Game) (alpha beta : Int)
    (n : Bool) (st : EngineState) (e : TTEntry) (hstop : st.stop = false) (hd : 1 ≤ depth)
    (hprobe : st.tt.probe (hashPosition z g) {} = (true, e)) (hdepth : e.depth ≥ depth) :
    ((e.bound = .EXACT ∨ (e.bound = .LOWER ∧ e.score ≥ beta) ∨
        (e.bound = .UPPER ∧ e.score ≤ alpha)) →
      alphaBeta z depth g alpha beta n st = ⟨.ok e.score, g, st⟩) ∧
    (¬ (e.bound = .EXACT ∨ (e.bound = .LOWER ∧ e.score ≥ beta) ∨
        (e.bound = .UPPER ∧ e.score ≤ alpha)) →
      alphaBeta z depth g alpha beta n st = afterProbe z depth g alpha beta n e st) := by
  rw [alphaBeta_pos z depth g alpha beta n st hstop (by omega), hprobe]
  simp only [Bool.true_and]
  constructor
  · intro h
    rw [if_pos ((probeCutoff_iff e depth alpha beta).2 ⟨hdepth, h⟩)]
  · intro h
    rw [if_neg (fun hc => h ((probeCutoff_iff e depth alpha beta).1 hc).2)]

theorem alphaBeta_probe_cutoff_witness :
    alphaBeta flatZobrist 3 {} 0 100 true (lowerEngine flatZobrist {}) =
      ⟨.ok 120, {}, lowerEngine flatZobrist {}⟩ :=
  (alphaBeta_probe_cutoff flatZobrist 3 {} 0 100 true (lowerEngine flatZobrist {})
    (TTEntry.mk (hashPosition flatZobrist {}) 120 4 .LOWER {}) rfl (by decide)
    (lower_probe flatZobrist {} {}) (by decide)).1 (Or.inr (Or.inl ⟨rfl, by decide⟩))

/-! ## A node without legal moves -/

theorem searchMoves_no_moves (z : Zobrist) (child : SearchFn) (g : Game) (depth : Nat)
    (alpha beta : Int) (entry : TTEntry) (st : EngineState) (hnone : g.legalMoves = .ok []) :
    searchMoves z child g depth alpha beta entry st =
      ⟨.ok (if g.board.isSquareAttacked (findKing g.board g.side) g.side.flip = true then
          -(10000 - (st.opt.maxDepth - depth)) else 0), g, st⟩ := by
  unfold searchMoves
  simp only [hnone, List.isEmpty_nil, if_true]
  congr 2
  split <;> ring

/-- C25 (counterexample): with the stop flag set, one thunk in the queue and one
waiting worker, the worker's next turn pops the thunk and runs it. -/
theorem worker_pops_after_stop :
    ((Pool.enqueue (Pool.create 1) 7).setStop.stop = true ∧
      (Pool.enqueue (Pool.create 1) 7).setStop.tasks = [7]) ∧
      ((Pool.enqueue (Pool.create 1) 7).setStop.wake 0).tasks = [] ∧
      ((Pool.enqueue (Pool.create 1) 7).setStop.wake 0).workers = [.running 7] ∧
      (((Pool.enqueue (Pool.create 1) 7).setStop.wake 0).finish 0).executed = [7] := by
  decide

theorem wake_stop_cons (p : Pool) (i : Nat) (task : Nat) (rest : List Nat)
    (hw : p.workers[i]? = some .waiting) (hstop : p.stop = true)
    (hq : p.tasks = task :: rest) :
    p.wake i = Pool.mk rest true (p.workers.set i (.running task)) p.executed := by
  unfold Pool.wake
  simp [hw, hstop, hq]

theorem wake_stop_nil (p : Pool) (i : Nat) (hw : p.workers[i]? = some .waiting)
    (hstop : p.stop = true) (hq : p.tasks = []) :
    p.wake i = Pool.mk [] true (p.workers.set i .exited) p.executed := by
  unfold Pool.wake
  simp [hw, hstop, hq]

theorem worker_index_lt {l : List Worker} {i : Nat} {w : Worker} (h : l[i]? = some w) :
    i < l.length := by
  rcases Nat.lt_or_ge i l.length with h1 | h1
  · exact h1
  · rw [List.getElem?_eq_none h1] at h
    cases h

theorem drain_spec : ∀ (k : Nat) (p : Pool) (i : Nat), p.stop = true →
    p.workers[i]? = some .waiting → p.tasks.length = k →
    p.drain i k = Pool.mk [] true (p.workers.set i .exited) (p.executed ++ p.tasks) := by
  intro k
  induction k with
  | zero =>
    intro p i hstop hw hk
    have hq : p.tasks = [] := List.length_eq_zero.1 hk
    simp only [Pool.drain]
    rw [wake_stop_nil p i hw hstop hq, hq, List.append_nil]
  | succ k ih =>
    intro p i hstop hw hk
    obtain ⟨task, rest, hq⟩ : ∃ task rest, p.tasks = task :: rest := by
      cases hp : p.tasks with
      | nil => rw [hp] at hk; cases hk
      | cons a l => exact ⟨a, l, rfl⟩
    have hi := worker_index_lt hw
    simp only [Pool.drain]
    rw [wake_stop_cons p i task rest hw hstop hq]
    have hfin : Pool.finish (Pool.mk rest true (p.workers.set i (.running task)) p.executed) i =
        Pool.mk rest true (p.workers.set i .waiting) (p.executed ++ [task]) := by
      unfold Pool.finish
      simp [List.getElem?_set, hi]
    have hlen : rest.length = k := by
      rw [hq] at hk
      simpa using hk
    rw [hfin, ih _ i rfl (by simp [List.getElem?_set, hi]) hlen]
    simp [hq]

/-- C25 (amended): once the stop flag is set, a waiting worker that takes its
turn with a thunk in the queue pops the front thunk and runs it, and it leaves
its loop only on a turn on which the queue is empty; nothing else changes on a
turn.  Hence a lone worker that finds the stop flag set runs every thunk left in
the queue, in queue order, before it exits: queued thunks are drained, not
discarded. -/
theorem workers_drain_queue_after_stop (p : Pool) (i : Nat) (hstop : p.stop = true)
    (hw : p.workers[i]? = some .waiting) :
    (∀ task rest, p.tasks = task :: rest →
      p.wake i = Pool.mk rest true (p.workers.set i (.running task)) p.executed) ∧
    (p.tasks = [] → p.wake i = Pool.mk [] true (p.workers.set i .exited) p.executed) ∧
    ((p.wake i).workers[i]? = some .exited → p.tasks = []) ∧
    p.drain i p.tasks.length =
      Pool.mk [] true (p.workers.set i .exited) (p.executed ++ p.tasks) := by
  refine ⟨fun task rest hq => wake_stop_cons p i task rest hw hstop hq,
    fun hq => wake_stop_nil p i hw hstop hq, ?_, drain_spec _ p i hstop hw rfl⟩
  intro hex
  cases hq : p.tasks with
  | nil => rfl
  | cons task rest =>
    exfalso
    have hi := worker_index_lt hw
    rw [wake_stop_cons p i task rest hw hstop hq] at hex
    simp [List.getElem?_set, hi] at hex

theorem workers_drain_queue_after_stop_witness :
    Pool.drain (((Pool.create 1).enqueue 7).enqueue 8).setStop 0 2 =
      Pool.mk [] true [.exited] [7, 8] :=
  (workers_drain_queue_after_stop (((Pool.create 1).enqueue 7).enqueue 8).setStop 0
    (by decide) (by decide)).2.2.2

/-! ## A newly constructed transposition table -/

/-- C38 (counterexample): on a newly constructed table of the default capacity
`probe(0, out)` returns true and copies the value-initialised slot (key 0,
depth -1, default move) into `out`. -/
theorem fresh_table_hits_key_zero :
    (TranspositionTable.create 1048576).probe 0 { zobrist := 7, depth := 3 } = (true, {}) := by
  decide

/-- C38 (amended): on a newly constructed table of non-zero capacity the slot
`probe(k, out)` reads, `k % size`, is a slot of the table, and the call reports a
miss and leaves `out` alone for every key `k` other than 0, and reports a hit
for `k = 0`, with `out` set to the default entry (depth -1). -/
theorem fresh_table_probe (size : Nat) (hsize : 0 < size) (k : Nat) (out : TTEntry) :
    k % size < size ∧
      (TranspositionTable.create size).probe k out =
        if k = 0 then (true, {}) else (false, out) := by
  refine ⟨Nat.mod_lt k hsize, ?_⟩
  unfold TranspositionTable.probe TranspositionTable.create
  by_cases hk : k = 0
  · subst hk; simp
  · have : ¬ (0 = k) := fun h => hk h.symm
    simp [hk, this]

theorem fresh_table_probe_witness :
    7 % 1048576 < 1048576 ∧
      (TranspositionTable.create 1048576).probe 7 { zobrist := 9, depth := 3 } =
        (false, { zobrist := 9, depth := 3 }) :=
  fresh_table_probe 1048576 (by decide) 7 { zobrist := 9, depth := 3 }

/-! ## The default-constructed game -/

/-- C40: a default-constructed `Game` has white to move, all four castling
rights, no en-passant target and an empty history; its board is the standard
starting position; `legalMoves()` returns 20 pairwise distinct moves, 16 of them
from a square that holds a pawn and 4 from a square that holds a knight, none
with the CAPTURE flag. -/
theorem default_game_is_standard_start :
    ({} : Game).side = .WHITE ∧
      hasFlag ({} : Game).board.castlingRights WK = true ∧
      hasFlag ({} : Game).board.castlingRights WQ = true ∧
      hasFlag ({} : Game).board.castlingRights BK = true ∧
      hasFlag ({} : Game).board.castlingRights BQ = true ∧
      ({} : Game).board.castlingRights = 15 ∧
      ({} : Game).board.enPassantTarget = none ∧
      ({} : Game).history = [] ∧
      (∀ s ∈ allSquares, ({} : Game).board.atSq s = standardStart s.file s.rank) ∧
      ∃ ms, Game.legalMoves {} = .ok ms ∧ ms.length = 20 ∧ ms.Nodup ∧
        (ms.filter fun m => ({} : Game).board.atSq m.src == some ⟨.WHITE, .PAWN⟩).length = 16 ∧
        (ms.filter fun m => ({} : Game).board.atSq m.src == some ⟨.WHITE, .KNIGHT⟩).length = 4 ∧
        ∀ m ∈ ms, hasFlag m.flags CAPTURE = false :=
  ⟨rfl, by decide, by decide, by decide, by decide, rfl, rfl, rfl, by decide,
    _, rfl, by decide, by decide, by decide, by decide, by decide⟩
/-! ## `makeMove` on generated moves -/

/-- C39: in every position reachable from the initial position by legal moves,
every move of `generateLegalMoves(sideToMove)` has valid squares, a piece of the
side to move on its source square and no piece of that side on its destination
square, and `makeMove` accepts it; `legalMoves()` returns a list. -/
theorem makeMove_accepts_generated_moves (g : Game) (h : Reachable g) :
    (∀ m ∈ g.board.generateLegalMoves g.side,
      m.src.isValid = true ∧ m.dst.isValid = true ∧
        (∃ p, g.board.atSq m.src = some p ∧ p.color = g.side) ∧
        (∀ q, g.board.atSq m.dst = some q → q.color ≠ g.side) ∧
        ∃ g1, g.makeMove m = .ok g1) ∧
      ∃ ms, g.legalMoves = .ok ms := by
  have hinv := inv_of_reachable h
  have hep : ∀ t, g.board.enPassantTarget = some t →
      t.isValid = true ∧ ∀ q, g.board.atSq t = some q → q.color ≠ g.side := by
    intro t ht
    obtain ⟨h1, h2, -⟩ := hinv.enPassant t ht
    refine ⟨h1, ?_⟩
    intro q hq
    rw [h2] at hq
    cases hq
  refine ⟨?_, legalMoves_ok hep⟩
  intro m hm
  obtain ⟨src, p, hsrc, hp, hpc, hmem⟩ := mem_generateLegalMoves.1 hm
  have hshape := generated_shape hsrc hmem
  have hmk := makeMove_ok_of_generated hsrc hp hpc hep hshape
  have hs := generated_src hshape
  refine ⟨by rw [hs]; exact hsrc, ?_, ⟨p, by rw [hs]; exact hp, hpc⟩, ?_, _, hmk⟩
  · cases hshape with
    | quiet dst hv he hpawn => exact hv
    | promotion dst hpt hv he hr => exact hv
    | capture dst t hv ht htc hpawn => exact hv
    | capturePromotion dst t hpt hv ht htc hr => exact hv
    | enPassant dst hpt hep2 hr hf => exact (hep dst hep2).1
    | castleK hpt hr hf hg ha => exact backRank_valid p.color 6 (by omega)
    | castleQ hpt hr hd hc hb ha => exact backRank_valid p.color 2 (by omega)
  · intro q hq
    cases hshape with
    | quiet dst hv he hpawn => simp only [he] at hq; cases hq
    | promotion dst hpt hv he hr => simp only [he] at hq; cases hq
    | capture dst t hv ht htc hpawn =>
      simp only [ht, Option.some.injEq] at hq; subst hq; rw [← hpc]; exact htc
    | capturePromotion dst t hpt hv ht htc hr =>
      simp only [ht, Option.some.injEq] at hq; subst hq; rw [← hpc]; exact htc
    | enPassant dst hpt hep2 hr hf => exact (hep dst hep2).2 q hq
    | castleK hpt hr hf hg ha => simp only [hg] at hq; cases hq
    | castleQ hpt hr hd hc hb ha => simp only [hc] at hq; cases hq

theorem makeMove_accepts_generated_moves_witness :
    (∀ m ∈ ({} : Game).board.generateLegalMoves ({} : Game).side,
      m.src.isValid = true ∧ m.dst.isValid = true ∧
        (∃ p, ({} : Game).board.atSq m.src = some p ∧ p.color = ({} : Game).side) ∧
        (∀ q, ({} : Game).board.atSq m.dst = some q → q.color ≠ ({} : Game).side) ∧
        ∃ g1, ({} : Game).makeMove m = .ok g1) ∧
      ∃ ms, ({} : Game).legalMoves = .ok ms :=
  makeMove_accepts_generated_moves {} Reachable.init
/-! ## Killer slots: what a cutoff writes and what the ordering reads -/

theorem probe_default (k : Nat) : (({} : TranspositionTable).probe k {}).2 = {} := by
  unfold TranspositionTable.probe
  simp only []
  split <;> rfl

/-- One pass of the sequential loop in which the move raises alpha to at least
beta: the loop ends there, and the killer slots of index `depth` are shifted
and receive the move, whatever its flags. -/
theorem seqLoop_cutoff (child : SearchFn) (depth : Nat) (beta : Int) (mv : Move)
    (rest : List Move) (acc : SeqAcc) (g1 g2 : Game) (v : Int)
    (hmk : acc.game.makeMove mv = .ok g1)
    (hv : (child g1 (-beta) (-acc.alpha) true acc.state).value = .ok v)
    (hun : (child g1 (-beta) (-acc.alpha) true acc.state).game.undoMove = some g2)
    (ha : -v > acc.alpha) (hb : -v ≥ beta) :
    ∃ acc', seqLoop child depth beta (mv :: rest) acc = .ok acc' ∧
      acc'.alpha = -v ∧ acc'.bestLocal = mv ∧ acc'.game = g2 ∧
      acc'.state.opt = (child g1 (-beta) (-acc.alpha) true acc.state).state.opt ∧
      acc'.state.killers depth 0 = mv ∧
      acc'.state.killers depth 1 =
        (child g1 (-beta) (-acc.alpha) true acc.state).state.killers depth 0 ∧
      (∀ d : Int, d ≠ depth → ∀ i,
        acc'.state.killers d i =
          (child g1 (-beta) (-acc.alpha) true acc.state).state.killers d i) ∧
      acc'.state.history mv.src.index mv.dst.index =
        ((child g1 (-beta) (-acc.alpha) true acc.state).state.history mv.src.index mv.dst.index
          + depth * depth) % 65536 := by
  rw [seqLoop]
  simp only [hmk, hv, hun, ha, hb, if_true]
  refine ⟨_, rfl, rfl, rfl, rfl, rfl, ?_, ?_, ?_, ?_⟩
  · simp
  · simp
  · intro d hd i
    simp [hd]
  · simp

theorem evalResult_ok {g : Game} {v : Int} (h : evaluate g = .ok v) (st : EngineState) :
    evalResult g st = ⟨.ok v, g, st⟩ := by
  unfold evalResult
  rw [h]

/-- The sequential branch of `searchMoves` when the loop ends normally. -/
theorem searchMoves_seq_ok (z : Zobrist) (child : SearchFn) (g : Game) (depth : Nat)
    (alpha beta : Int) (entry : TTEntry) (st : EngineState) (moves : List Move) (acc : SeqAcc)
    (hm : g.legalMoves = .ok moves) (hne : moves.isEmpty = false)
    (hd : ¬ ((depth : Int) = st.opt.maxDepth))
    (hloop : seqLoop child depth beta
      (orderMoves st moves entry.bestMove (st.opt.maxDepth - depth)) ⟨alpha, {}, g, st⟩
        = .ok acc) :
    searchMoves z child g depth alpha beta entry st =
      ⟨.ok acc.alpha, acc.game, ⟨acc.state.history, acc.state.killers,
        acc.state.tt.store (nodeEntry (hashPosition z g) acc.alpha alpha beta depth acc.bestLocal),
        acc.state.opt, acc.state.stop⟩⟩ := by
  unfold searchMoves
  simp only [hm, hne, Bool.false_eq_true, if_false]
  rw [if_neg hd, hloop]

theorem pawnTakes_moves :
    pawnTakes.legalMoves = .ok [Move.mk ⟨0, 0⟩ ⟨0, 1⟩ QUIET 0, Move.mk ⟨0, 0⟩ ⟨1, 0⟩ QUIET 0,
      Move.mk ⟨0, 0⟩ ⟨1, 1⟩ QUIET 0, Move.mk ⟨1, 3⟩ ⟨1, 4⟩ QUIET 0,
      Move.mk ⟨1, 3⟩ ⟨2, 4⟩ CAPTURE 0] := rfl

theorem pawnTakes_make : pawnTakes.makeMove (Move.mk ⟨1, 3⟩ ⟨2, 4⟩ CAPTURE 0) = .ok pawnTaken := rfl

theorem pawnTaken_eval : evaluate pawnTaken = .ok (-95) := rfl

theorem pawnTaken_undo : ∃ g2, pawnTaken.undoMove = some g2 := ⟨_, rfl⟩

/-- The search of remaining depth 1 on `pawnTakes` with the window `(-50, 50)`
in a new engine (`maxDepth = 6`): the capture `b4xc5` is tried first and cuts
off with the score 95. -/
theorem pawnTakes_run (z : Zobrist) :
    ∃ g2 st', alphaBeta z 1 pawnTakes (-50) 50 true {} = ⟨.ok 95, g2, st'⟩ ∧
      st'.opt = {} ∧
      st'.killers 1 0 = Move.mk ⟨1, 3⟩ ⟨2, 4⟩ CAPTURE 0 ∧
      st'.killers 1 1 = {} ∧
      (∀ d : Int, d ≠ 1 → ∀ i, st'.killers d i = {}) := by
  have hcut : (({} : EngineState).tt.probe (hashPosition z pawnTakes) {}).2 = {} :=
    probe_default _
  have hchild : ∀ a b : Int, alphaBeta z (1 - 1) pawnTaken a b true {} =
      ⟨.ok (-95), pawnTaken, {}⟩ := by
    intro a b
    simp only [Nat.sub_self, alphaBeta_zero, evalResult_ok pawnTaken_eval]
  obtain ⟨g2, hg2⟩ := pawnTaken_undo
  obtain ⟨acc, hacc, h1, h2, h3, h4, h5, h6, h7, h8⟩ :=
    seqLoop_cutoff (fun c a b n s => alphaBeta z (1 - 1) c a b n s) 1 50
      (Move.mk ⟨1, 3⟩ ⟨2, 4⟩ CAPTURE 0)
      [Move.mk ⟨0, 0⟩ ⟨0, 1⟩ QUIET 0, Move.mk ⟨0, 0⟩ ⟨1, 0⟩ QUIET 0,
      Move.mk ⟨0, 0⟩ ⟨1, 1⟩ QUIET 0, Move.mk ⟨1, 3⟩ ⟨1, 4⟩ QUIET 0]
      { alpha := -50, game := pawnTakes, state := {} } pawnTaken g2 (-95) pawnTakes_make
      (by simp only [hchild]) (by simp only [hchild]; exact hg2) (by decide) (by decide)
  simp only [hchild] at h4 h5 h6 h7 h8
  have hord : orderMoves {} [Move.mk ⟨0, 0⟩ ⟨0, 1⟩ QUIET 0, Move.mk ⟨0, 0⟩ ⟨1, 0⟩ QUIET 0,
      Move.mk ⟨0, 0⟩ ⟨1, 1⟩ QUIET 0, Move.mk ⟨1, 3⟩ ⟨1, 4⟩ QUIET 0,
      Move.mk ⟨1, 3⟩ ⟨2, 4⟩ CAPTURE 0] ({} : TTEntry).bestMove
      (({} : EngineState).opt.maxDepth - ((1 : Nat) : Int)) =
      [Move.mk ⟨1, 3⟩ ⟨2, 4⟩ CAPTURE 0,
      Move.mk ⟨0, 0⟩ ⟨0, 1⟩ QUIET 0, Move.mk ⟨0, 0⟩ ⟨1, 0⟩ QUIET 0,
      Move.mk ⟨0, 0⟩ ⟨1, 1⟩ QUIET 0, Move.mk ⟨1, 3⟩ ⟨1, 4⟩ QUIET 0] := rfl
  have hsm := searchMoves_seq_ok z (fun c a b n s => alphaBeta z (1 - 1) c a b n s) pawnTakes 1
    (-50) 50 {} {} _ acc pawnTakes_moves rfl (by decide) (by rw [hord]; exact hacc)
  have heq : alphaBeta z 1 pawnTakes (-50) 50 true {} =
      ⟨.ok 95, g2, ⟨acc.state.history, acc.state.killers,
        acc.state.tt.store (nodeEntry (hashPosition z pawnTakes) 95 (-50) 50 1 acc.bestLocal),
        acc.state.opt, acc.state.stop⟩⟩ := by
    rw [alphaBeta_pos z 1 pawnTakes (-50) 50 true {} rfl (by decide), hcut,
      show probeCutoff {} 1 (-50) 50 = false from by decide]
    simp only [Bool.and_false, Bool.false_eq_true, if_false]
    unfold afterProbe
    rw [if_neg (by omega), hsm, h1, h3]
    rfl
  exact ⟨g2, _, heq, h4, h5, h6, h7⟩

theorem kingAndPawn_moves :
    kingAndPawn.legalMoves = .ok [Move.mk ⟨0, 0⟩ ⟨0, 1⟩ QUIET 0, Move.mk ⟨0, 0⟩ ⟨1, 0⟩ QUIET 0,
      Move.mk ⟨0, 0⟩ ⟨1, 1⟩ QUIET 0, Move.mk ⟨1, 3⟩ ⟨1, 4⟩ QUIET 0] := rfl

theorem kingAndPawn_make : kingAndPawn.makeMove (Move.mk ⟨0, 0⟩ ⟨0, 1⟩ QUIET 0) = .ok kingStepped := rfl

theorem kingStepped_eval : evaluate kingStepped = .ok (-85) := rfl

theorem kingStepped_undo : ∃ g2, kingStepped.undoMove = some g2 := ⟨_, rfl⟩

/-- The search of remaining depth 1 on `kingAndPawn` with the window `(-50, 50)`
in a new engine (`maxDepth = 6`): the quiet move `a1-a2` is tried first and cuts
off with the score 85. -/
theorem kingAndPawn_run (z : Zobrist) :
    ∃ g2 st', alphaBeta z 1 kingAndPawn (-50) 50 true {} = ⟨.ok 85, g2, st'⟩ ∧
      st'.opt = {} ∧
      st'.killers 1 0 = Move.mk ⟨0, 0⟩ ⟨0, 1⟩ QUIET 0 ∧
      st'.killers 1 1 = {} ∧
      (∀ d : Int, d ≠ 1 → ∀ i, st'.killers d i = {}) ∧
      st'.history 0 8 = 1 := by
  have hcut : (({} : EngineState).tt.probe (hashPosition z kingAndPawn) {}).2 = {} :=
    probe_default _
  have hchild : ∀ a b : Int, alphaBeta z (1 - 1) kingStepped a b true {} =
      ⟨.ok (-85), kingStepped, {}⟩ := by
    intro a b
    simp only [Nat.sub_self, alphaBeta_zero, evalResult_ok kingStepped_eval]
  obtain ⟨g2, hg2⟩ := kingStepped_undo
  obtain ⟨acc, hacc, h1, h2, h3, h4, h5, h6, h7, h8⟩ :=
    seqLoop_cutoff (fun c a b n s => alphaBeta z (1 - 1) c a b n s) 1 50
      (Move.mk ⟨0, 0⟩ ⟨0, 1⟩ QUIET 0)
      [Move.mk ⟨0, 0⟩ ⟨1, 0⟩ QUIET 0, Move.mk ⟨0, 0⟩ ⟨1, 1⟩ QUIET 0,
      Move.mk ⟨1, 3⟩ ⟨1, 4⟩ QUIET 0]
      { alpha := -50, game := kingAndPawn, state := {} } kingStepped g2 (-85) kingAndPawn_make
      (by simp only [hchild]) (by simp only [hchild]; exact hg2) (by decide) (by decide)
  simp only [hchild] at h4 h5 h6 h7 h8
  have hord : orderMoves {} [Move.mk ⟨0, 0⟩ ⟨0, 1⟩ QUIET 0, Move.mk ⟨0, 0⟩ ⟨1, 0⟩ QUIET 0,
      Move.mk ⟨0, 0⟩ ⟨1, 1⟩ QUIET 0, Move.mk ⟨1, 3⟩ ⟨1, 4⟩ QUIET 0] ({} : TTEntry).bestMove
      (({} : EngineState).opt.maxDepth - ((1 : Nat) : Int)) =
      [Move.mk ⟨0, 0⟩ ⟨0, 1⟩ QUIET 0, Move.mk ⟨0, 0⟩ ⟨1, 0⟩ QUIET 0,
      Move.mk ⟨0, 0⟩ ⟨1, 1⟩ QUIET 0, Move.mk ⟨1, 3⟩ ⟨1, 4⟩ QUIET 0] := rfl
  have hsm := searchMoves_seq_ok z (fun c a b n s => alphaBeta z (1 - 1) c a b n s) kingAndPawn 1
    (-50) 50 {} {} _ acc kingAndPawn_moves rfl (by decide) (by rw [hord]; exact hacc)
  have heq : alphaBeta z 1 kingAndPawn (-50) 50 true {} =
      ⟨.ok 85, g2, ⟨acc.state.history, acc.state.killers,
        acc.state.tt.store (nodeEntry (hashPosition z kingAndPawn) 85 (-50) 50 1 acc.bestLocal),
        acc.state.opt, acc.state.stop⟩⟩ := by
    rw [alphaBeta_pos z 1 kingAndPawn (-50) 50 true {} rfl (by decide), hcut,
      show probeCutoff {} 1 (-50) 50 = false from by decide]
    simp only [Bool.and_false, Bool.false_eq_true, if_false]
    unfold afterProbe
    rw [if_neg (by omega), hsm, h1, h3]
    rfl
  exact ⟨g2, _, heq, h4, h5, h6, h7, h8⟩

/-- C33 (failing input): the node of remaining depth 1 on the position with
white `Ka1`, `b4` and black `Kh8`, `c5`, white to move, searched with the window
`(-50, 50)` by a new engine (`maxDepth = 6`, so the node is not the root).  The
move `b4xc5` has the CAPTURE flag, is tried first and returns 95, which is at
least beta; the call returns 95 and afterwards killer slot 0 of index 1 holds
that capture and slot 1 holds the former content of slot 0, where both slots
held the default move before. -/
theorem killers_recorded_for_capture (z : Zobrist) :
    isCapture (Move.mk ⟨1, 3⟩ ⟨2, 4⟩ CAPTURE 0) = true ∧
      ({} : EngineState).killers 1 0 = {} ∧
      ∃ g2 st', alphaBeta z 1 pawnTakes (-50) 50 true {} = ⟨.ok 95, g2, st'⟩ ∧
        st'.killers 1 0 = Move.mk ⟨1, 3⟩ ⟨2, 4⟩ CAPTURE 0 ∧ st'.killers 1 1 = {} := by
  obtain ⟨g2, st', h1, -, h3, h4, -⟩ := pawnTakes_run z
  exact ⟨by decide, rfl, g2, st', h1, h3, h4⟩

/-- C34 (failing input): the node of remaining depth 1 on the position with
white `Ka1`, `b4` and black `Kh8`, white to move, searched with the window
`(-50, 50)` by a new engine with `maxDepth = 6`, so the node is at ply 5.  The
quiet move `a1-a2` cuts off.  Afterwards the move is in killer slot 0 of index 1
(the remaining depth), the slots of index 5 (the ply, `maxDepth - depth`, which
is the index `orderMoves` is given at this node) still hold the default move,
and the score lambda of `orderMoves` gives the move its history value 1 at
index 5 and the killer score 5000 at index 1, the index of the nodes of
remaining depth 5. -/
theorem killers_written_by_depth_read_by_ply (z : Zobrist) :
    ∃ g2 st', alphaBeta z 1 kingAndPawn (-50) 50 true {} = ⟨.ok 85, g2, st'⟩ ∧
      st'.opt.maxDepth = 6 ∧
      st'.killers 1 0 = Move.mk ⟨0, 0⟩ ⟨0, 1⟩ QUIET 0 ∧
      st'.killers (st'.opt.maxDepth - 1) 0 = {} ∧
      st'.killers (st'.opt.maxDepth - 1) 1 = {} ∧
      orderScore st' {} (st'.opt.maxDepth - 1) (Move.mk ⟨0, 0⟩ ⟨0, 1⟩ QUIET 0) = 1 ∧
      orderScore st' {} (st'.opt.maxDepth - 5) (Move.mk ⟨0, 0⟩ ⟨0, 1⟩ QUIET 0) = 5000 := by
  obtain ⟨g2, st', h1, h2, h3, -, h4, h5⟩ := kingAndPawn_run z
  have hm : st'.opt.maxDepth = 6 := by rw [h2]
  have h50 := h4 (6 - 1) (by decide) 0
  have h51 := h4 (6 - 1) (by decide) 1
  refine ⟨g2, st', h1, hm, h3, by rw [hm]; exact h50, by rw [hm]; exact h51, ?_, ?_⟩
  · unfold orderScore
    rw [hm, h50, h51]
    simp only [show ¬ (Move.mk ⟨0, 0⟩ ⟨0, 1⟩ QUIET 0 = {}) from by decide, if_false,
      show isCapture (Move.mk ⟨0, 0⟩ ⟨0, 1⟩ QUIET 0) = false from by decide,
      Bool.false_eq_true]
    have h5' : st'.history (Square.index ⟨0, 0⟩) (Square.index ⟨0, 1⟩) = 1 := h5
    simp only [h5', Nat.cast_one]
  · unfold orderScore
    rw [hm, show ((6 : Int) - 5) = 1 from rfl, h3]
    simp only [show ¬ (Move.mk ⟨0, 0⟩ ⟨0, 1⟩ QUIET 0 = {}) from by decide, if_false,
      show isCapture (Move.mk ⟨0, 0⟩ ⟨0, 1⟩ QUIET 0) = false from by decide,
      Bool.false_eq_true, if_true]

/-! ## The search on the locked position -/

theorem deadlock_moves : deadlock.legalMoves = .ok [pushD4] := rfl

theorem deadlock_null_moves : deadlock.makeNullMove.legalMoves = .ok [] := rfl

theorem deadlockPushed_moves : deadlockPushed.legalMoves = .ok [] := rfl

theorem deadlockPushed_null_moves : deadlockPushed.makeNullMove.legalMoves = .ok [] := rfl

theorem deadlock_make : deadlock.makeMove pushD4 = .ok deadlockPushed := rfl

theorem deadlock_null_eval : evaluate deadlock.makeNullMove = .ok 5 := rfl

theorem deadlockPushed_eval : evaluate deadlockPushed = .ok 0 := rfl

theorem deadlockPushed_null_eval : evaluate deadlockPushed.makeNullMove = .ok 0 := rfl

theorem deadlock_inv : Inv deadlock :=
  ⟨by decide, by decide, by decide, (fun t h => by cases h), (fun c => by cases c <;> decide)⟩

theorem deadlock_undo : deadlockPushed.undoMove = some deadlock := by
  have hgen : Generated deadlock.board ⟨.WHITE, .PAWN⟩ ⟨3, 3⟩ pushD4 :=
    Generated.quiet ⟨3, 4⟩ (by decide) (by decide) (fun _ => ⟨rfl, Or.inl (by decide)⟩)
  have hmk := @makeMove_ok_of_generated deadlock ⟨.WHITE, .PAWN⟩ ⟨3, 3⟩ pushD4 (by decide)
    (by decide) rfl (fun t h => by cases h) hgen
  have hun := @undo_step deadlock ⟨.WHITE, .PAWN⟩ ⟨3, 3⟩ pushD4 deadlock_inv (by decide)
    (by decide) rfl hgen
  rw [deadlock_make] at hmk
  rw [Except.ok.inj hmk]
  exact hun

theorem probe_of_default (t : TranspositionTable) (k : Nat)
    (h : t.entries (k % t.size) = {}) : (t.probe k {}).2 = {} := by
  unfold TranspositionTable.probe
  simp only [h]
  split <;> rfl

theorem probeCutoff_of_depth_lt (e : TTEntry) (d : Nat) (a b : Int) (h : e.depth < d) :
    probeCutoff e d a b = false := by
  unfold probeCutoff
  simp only [Bool.and_eq_false_imp, decide_eq_true_eq]
  intro h2
  omega

theorem probeCutoff_default (d : Nat) (a b : Int) : probeCutoff {} d a b = false :=
  probeCutoff_of_depth_lt {} d a b (by show (-1 : Int) < d; omega)

/-- A node without the null-move search on a position in which the side to
move has no legal move and its king is not attacked, while the table slot of the
position holds the default entry: the value is the static evaluation at
remaining depth 0 and 0 otherwise, and nothing changes. -/
theorem dead_node (z : Zobrist) (g : Game) (v0 : Int) (hmoves : g.legalMoves = .ok [])
    (hatt : g.board.isSquareAttacked (findKing g.board g.side) g.side.flip = false)
    (heval : evaluate g = .ok v0) (d : Nat) (a b : Int) (st : EngineState)
    (hstop : st.stop = false) (hslot : st.tt.entries (hashPosition z g % st.tt.size) = {}) :
    alphaBeta z d g a b false st = ⟨.ok (if d = 0 then v0 else 0), g, st⟩ := by
  by_cases hd : d = 0
  · subst hd
    rw [alphaBeta_zero, evalResult_ok heval]
    rfl
  · rw [alphaBeta_pos z d g a b false st hstop hd, probe_of_default _ _ hslot,
      probeCutoff_default]
    simp only [Bool.and_false, Bool.false_eq_true, if_false, hd]
    unfold afterProbe
    simp only [Bool.false_eq_true, false_and, if_false]
    rw [searchMoves_no_moves z _ g d a b _ _ hmoves, hatt]
    simp

/-- Every node on `deadlockPushed` returns 0 and changes nothing, as long as the
table slots of that position and of its null-move successor hold default
entries. -/
theorem pushed_node (z : Zobrist) (d : Nat) (a b : Int) (n : Bool) (st : EngineState)
    (hstop : st.stop = false)
    (hslot : st.tt.entries (hashPosition z deadlockPushed % st.tt.size) = {})
    (hslot2 : st.tt.entries (hashPosition z deadlockPushed.makeNullMove % st.tt.size) = {}) :
    alphaBeta z d deadlockPushed a b n st = ⟨.ok 0, deadlockPushed, st⟩ := by
  by_cases hd : d = 0
  · subst hd
    rw [alphaBeta_zero, evalResult_ok deadlockPushed_eval]
  · rw [alphaBeta_pos z d deadlockPushed a b n st hstop hd, probe_of_default _ _ hslot,
      probeCutoff_default]
    simp only [Bool.and_false, Bool.false_eq_true, if_false]
    unfold afterProbe
    have hsm : ∀ s : EngineState,
        searchMoves z (fun c a b n s => alphaBeta z (d - 1) c a b n s) deadlockPushed d a b {} s
          = ⟨.ok 0, deadlockPushed, s⟩ := by
      intro s
      rw [searchMoves_no_moves z _ deadlockPushed d a b _ _ deadlockPushed_moves]
      simp only [show deadlockPushed.board.isSquareAttacked
        (findKing deadlockPushed.board deadlockPushed.side) deadlockPushed.side.flip = false
        from by decide, Bool.false_eq_true, if_false]
    by_cases h3 : n = true ∧ 3 ≤ d
    · simp only [h3, and_self, if_true]
      rw [dead_node z deadlockPushed.makeNullMove 0 deadlockPushed_null_moves (by decide)
        deadlockPushed_null_eval (d - 3) (-b) (-b + 1) st hstop hslot2]
      simp only [ite_self, neg_zero, hsm]
    · simp only [h3, if_false, hsm]

/-- One pass of the sequential loop over a single move that raises alpha but
stays below beta. -/
theorem seqLoop_single (child : SearchFn) (depth : Nat) (beta : Int) (mv : Move)
    (acc : SeqAcc) (g1 g2 : Game) (v : Int)
    (hmk : acc.game.makeMove mv = .ok g1)
    (hv : (child g1 (-beta) (-acc.alpha) true acc.state).value = .ok v)
    (hun : (child g1 (-beta) (-acc.alpha) true acc.state).game.undoMove = some g2)
    (ha : -v > acc.alpha) (hb : ¬ (-v ≥ beta)) :
    ∃ acc', seqLoop child depth beta [mv] acc = .ok acc' ∧
      acc'.alpha = -v ∧ acc'.bestLocal = mv ∧ acc'.game = g2 ∧
      acc'.state.opt = (child g1 (-beta) (-acc.alpha) true acc.state).state.opt ∧
      acc'.state.stop = (child g1 (-beta) (-acc.alpha) true acc.state).state.stop ∧
      acc'.state.tt = (child g1 (-beta) (-acc.alpha) true acc.state).state.tt ∧
      acc'.state.killers = (child g1 (-beta) (-acc.alpha) true acc.state).state.killers ∧
      acc'.state.history mv.src.index mv.dst.index =
        ((child g1 (-beta) (-acc.alpha) true acc.state).state.history mv.src.index mv.dst.index
          + depth * depth) % 65536 := by
  rw [seqLoop]
  simp only [hmk, hv, hun, ha, hb, if_true, if_false, seqLoop]
  exact ⟨_, rfl, rfl, rfl, rfl, rfl, rfl, rfl, rfl, by simp⟩

theorem orderMoves_singleton (st : EngineState) (m pv : Move) (d : Int) :
    orderMoves st [m] pv d = [m] := rfl

theorem store_entries (t : TranspositionTable) (e : TTEntry)
    (h : e.depth ≥ (t.entries (e.zobrist % t.size)).depth) (i : Nat) :
    (t.store e).entries i = if i = e.zobrist % t.size then e else t.entries i := by
  unfold TranspositionTable.store
  simp only [h, if_true]

/-- The node on `deadlock` at a remaining depth `d` from 1 to 62 in an engine
with `maxDepth = 63`, with a window around 0 and no table entry of depth `d` or
more for `deadlock`: the only move, `d4-d5`, raises alpha to 0, its counter
grows by `d * d` modulo `2^16`, and the node stores its entry. -/
theorem deadlock_node (z : Zobrist) (hz : SeparateSlots z) (d : Nat) (hd1 : 1 ≤ d)
    (hd2 : d ≤ 62) (alpha beta : Int) (ha : alpha < 0) (hb : 0 < beta) (st : EngineState)
    (hstop : st.stop = false) (hmax : st.opt.maxDepth = 63) (hsize : st.tt.size = 1048576)
    (hothers : ∀ i, i ≠ hashPosition z deadlock % 1048576 → st.tt.entries i = {})
    (hdepth : (st.tt.entries (hashPosition z deadlock % 1048576)).depth < d) :
    ∃ st', alphaBeta z d deadlock alpha beta true st = ⟨.ok 0, deadlock, st'⟩ ∧
      st'.stop = false ∧ st'.opt = st.opt ∧
      st'.tt = st.tt.store (nodeEntry (hashPosition z deadlock) 0 alpha beta d pushD4) ∧
      st'.killers = st.killers ∧
      st'.history 27 35 = (st.history 27 35 + d * d) % 65536 := by
  obtain ⟨hzB, hzG, hzW⟩ := hz
  have hcut : ((st.tt.probe (hashPosition z deadlock) {}).1 &&
      probeCutoff (st.tt.probe (hashPosition z deadlock) {}).2 d alpha beta) = false := by
    have : probeCutoff (st.tt.probe (hashPosition z deadlock) {}).2 d alpha beta = false := by
      unfold TranspositionTable.probe
      simp only [hsize]
      split
      · exact probeCutoff_of_depth_lt _ d alpha beta hdepth
      · exact probeCutoff_default d alpha beta
    rw [this, Bool.and_false]
  rw [alphaBeta_pos z d deadlock alpha beta true st hstop (by omega), hcut]
  simp only [Bool.false_eq_true, if_false]
  unfold afterProbe
  have hchild : alphaBeta z (d - 1) deadlockPushed (-beta) (-alpha) true st =
      ⟨.ok 0, deadlockPushed, st⟩ :=
    pushed_node z (d - 1) (-beta) (-alpha) true st hstop
      (by rw [hsize]; exact hothers _ hzG) (by rw [hsize]; exact hothers _ hzW)
  have hsm : searchMoves z (fun c a b n s => alphaBeta z (d - 1) c a b n s) deadlock d alpha
      beta (st.tt.probe (hashPosition z deadlock) {}).2 st =
      ⟨.ok 0, deadlock, { st with
        history := fun i j => if i = pushD4.src.index ∧ j = pushD4.dst.index then
          (st.history i j + d * d) % 65536 else st.history i j,
        tt := st.tt.store (nodeEntry (hashPosition z deadlock) 0 alpha beta d pushD4) }⟩ := by
    unfold searchMoves
    simp only [deadlock_moves, List.isEmpty_cons, Bool.false_eq_true, if_false,
      orderMoves_singleton, hmax]
    rw [if_neg (by omega)]
    rw [seqLoop]
    simp only [deadlock_make, hchild, deadlock_undo, neg_zero, gt_iff_lt, ha, if_true, ge_iff_le,
      not_le.2 hb, if_false, seqLoop]
  by_cases h3 : 3 ≤ d
  · simp only [h3, and_self, if_true]
    rw [dead_node z deadlock.makeNullMove 5 deadlock_null_moves (by decide) deadlock_null_eval
      (d - 3) (-beta) (-beta + 1) st hstop (by rw [hsize]; exact hothers _ hzB)]
    have hnc : ¬ (-(if d - 3 = 0 then (5 : Int) else 0) ≥ beta) := by
      split <;> omega
    simp only [hnc, if_false, hsm]
    exact ⟨_, rfl, hstop, rfl, rfl, rfl, by simp [pushD4, Square.index]⟩
  · simp only [h3, and_false, if_false, hsm]
    exact ⟨_, rfl, hstop, rfl, rfl, rfl, by simp [pushD4, Square.index]⟩

theorem toInt8_small (d : Nat) (h : d ≤ 62) : toInt8 d = d := by
  unfold toInt8
  omega

/-- The invariant of the deepening loop on `deadlock` is carried from depth
`d - 1` to depth `d` by the node of depth `d`. -/
theorem deadlock_step (z : Zobrist) (hz : SeparateSlots z) (d : Nat) (hd1 : 1 ≤ d)
    (hd2 : d ≤ 62) (alpha beta : Int) (ha : alpha < 0) (hb : 0 < beta) (st : EngineState)
    (hinv : DeadlockInv z (d - 1) st) :
    ∃ st', alphaBeta z d deadlock alpha beta true st = ⟨.ok 0, deadlock, st'⟩ ∧
      DeadlockInv z d st' := by
  obtain ⟨st', h1, h2, h3, h4, h5, h6⟩ := deadlock_node z hz d hd1 hd2 alpha beta ha hb st
    hinv.stop hinv.maxDepth hinv.size hinv.others (by have := hinv.depth; omega)
  refine ⟨st', h1, ?_⟩
  have hge : (nodeEntry (hashPosition z deadlock) 0 alpha beta d pushD4).depth ≥
      (st.tt.entries ((nodeEntry (hashPosition z deadlock) 0 alpha beta d pushD4).zobrist
        % st.tt.size)).depth := by
    have := hinv.depth
    simp only [nodeEntry, toInt8_small d hd2, hinv.size]
    omega
  have hent : ∀ i, st'.tt.entries i =
      if i = hashPosition z deadlock % 1048576 then
        nodeEntry (hashPosition z deadlock) 0 alpha beta d pushD4
      else st.tt.entries i := by
    intro i
    rw [h4, store_entries _ _ hge, hinv.size]
    rfl
  refine ⟨h2, by rw [h3]; exact hinv.maxDepth, by rw [h4, store_size]; exact hinv.size, ?_, ?_,
    ?_, ?_, by rw [h5]; exact hinv.killers⟩
  · intro i hi
    rw [hent, if_neg hi]
    exact hinv.others i hi
  · rw [hent, if_pos rfl]
    simp only [nodeEntry, toInt8_small d hd2]
    exact le_refl _
  · intro _
    rw [hent, if_pos rfl]
    exact ⟨rfl, rfl⟩
  · rw [h6, hinv.history]
    obtain ⟨e, rfl⟩ : ∃ e, d = e + 1 := ⟨d - 1, by omega⟩
    rfl

/-- The deepening loop on `deadlock` with a clock that fires after the iteration
of depth `k`: it ends normally after that iteration. -/
theorem deadlock_deepen (z : Zobrist) (hz : SeparateSlots z) (k : Nat) (hk : k ≤ 62) :
    ∀ (n j : Nat) (acc : DeepenAcc), j < k → k ≤ n + j → acc.game = deadlock →
      acc.alpha < 0 → 0 < acc.beta → DeadlockInv z j acc.state →
      ∃ acc', deepenLoop z (fun d => decide (d = k)) n (j + 1) acc = .ok acc' ∧
        acc'.game = deadlock ∧ acc'.state.tt.size = 1048576 ∧
        (acc'.state.tt.entries (hashPosition z deadlock % 1048576)).zobrist
          = hashPosition z deadlock ∧
        (acc'.state.tt.entries (hashPosition z deadlock % 1048576)).bestMove = pushD4 ∧
        acc'.state.history 27 35 = historyAfter k ∧
        acc'.state.killers = fun _ _ => {} := by
  intro n
  induction n with
  | zero => intro j acc hj hn; omega
  | succ n ih =>
    intro j acc hj hn hg ha hb hinv
    obtain ⟨st', h1, h2⟩ := deadlock_step z hz (j + 1) (by omega) (by omega) acc.alpha acc.beta
      ha hb acc.state hinv
    rw [deepenLoop, hg, h1]
    simp only [show ¬ ((0 : Int) ≤ acc.alpha ∨ (0 : Int) ≥ acc.beta) from by omega, if_false]
    by_cases hjk : j + 1 = k
    · simp only [hjk, decide_True, if_true]
      subst hjk
      exact ⟨_, rfl, rfl, h2.size, (h2.best (by omega)).1, (h2.best (by omega)).2, h2.history,
        h2.killers⟩
    · simp only [hjk, decide_False, Bool.false_eq_true, if_false]
      exact ih (j + 1) _ (by omega) (by omega) rfl (by norm_num) (by norm_num) h2

/-- On `deadlock`, a new engine with `maxDepth = 63` whose clock fires after the
iteration of depth `k` (from 1 to 62) returns `d4-d5`, and afterwards the
counter `m_history[d4][d5]` holds `historyAfter k` and the killer slots hold the
default move. -/
theorem deadlock_chooseMove (z : Zobrist) (hz : SeparateSlots z) (k : Nat) (hk1 : 1 ≤ k)
    (hk : k ≤ 62) :
    (chooseMove z (fun d => decide (d = k)) deepEngine deadlock).1 = .ok (some pushD4) ∧
      (chooseMove z (fun d => decide (d = k)) deepEngine deadlock).2.history 27 35
        = historyAfter k ∧
      (chooseMove z (fun d => decide (d = k)) deepEngine deadlock).2.killers
        = fun _ _ => {} := by
  obtain ⟨acc, h1, h2, h3, h4, h5, h6, h7⟩ := deadlock_deepen z hz k hk 63 0
    { game := deadlock,
      state := { deepEngine with stop := false, history := fun _ _ => 0,
                                 killers := fun _ _ => {} } }
    (by omega) (by omega) rfl (by decide) (by decide)
    ⟨rfl, rfl, rfl, fun _ _ => rfl, (by show (-1 : Int) ≤ ((0 : Nat) : Int); decide),
      fun h => absurd h (by decide), rfl, rfl⟩
  have hp : acc.state.tt.probe (hashPosition z acc.game) {} =
      (true, acc.state.tt.entries (hashPosition z deadlock % 1048576)) := by
    unfold TranspositionTable.probe
    simp only [h2, h3, h4, if_true]
  simp only [chooseMove, iterativeDeepening, show deepEngine.opt.maxDepth.toNat = 63 from rfl]
  rw [show (0 : Nat) + 1 = 1 from rfl] at h1
  simp only [h1, hp, if_true, h5]
  exact ⟨trivial, h6, h7⟩

theorem countingZobrist_separate : SeparateSlots countingZobrist := by
  refine ⟨?_, ?_, ?_⟩ <;> decide

/-- C32 (failing input): a new engine with `maxDepth = 63` searching the locked
position `deadlock`, in which at every depth from 1 to 62 the node of `deadlock`
is searched by the sequential branch and its only move `d4-d5` raises alpha.
When the clock stops the loop after depth 57 the counter `m_history[d4][d5]`
holds 63365; when it stops the loop after depth 58, the one further improvement
at remaining depth 58 leaves 1193 in the counter, which is
`(63365 + 58 * 58) mod 65536` and not `min(63365 + 58 * 58, 65535) = 65535`. -/
theorem history_counter_wraps :
    (chooseMove countingZobrist (fun d => decide (d = 57)) deepEngine deadlock).2.history 27 35
        = 63365 ∧
      (chooseMove countingZobrist (fun d => decide (d = 58)) deepEngine deadlock).2.history 27 35
        = 1193 ∧
      (63365 + 58 * 58) % 65536 = 1193 ∧ min (63365 + 58 * 58) 65535 = 65535 ∧
      pushD4.src.index = 27 ∧ pushD4.dst.index = 35 := by
  have h57 := (deadlock_chooseMove countingZobrist countingZobrist_separate 57 (by decide)
    (by decide)).2.1
  have h58 := (deadlock_chooseMove countingZobrist countingZobrist_separate 58 (by decide)
    (by decide)).2.1
  exact ⟨h57.trans (by decide), h58.trans (by decide), by decide, by decide, rfl, rfl⟩

/-! ## Ordering priority -/

theorem orderMoves_pairwise (st : EngineState) (moves : List Move) (pv : Move) (depth : Int) :
    (orderMoves st moves pv depth).Pairwise
      (fun a b => orderScore st pv depth a ≥ orderScore st pv depth b) := by
  have htot : IsTotal Move (fun a b => orderScore st pv depth a ≥ orderScore st pv depth b) :=
    ⟨fun a b => le_total _ _⟩
  have htrans : IsTrans Move
      (fun a b => orderScore st pv depth a ≥ orderScore st pv depth b) :=
    ⟨fun a b c hab hbc => le_trans hbc hab⟩
  exact List.sorted_insertionSort _ moves

theorem mem_orderMoves {st : EngineState} {moves : List Move} {pv : Move} {depth : Int}
    {m : Move} : m ∈ orderMoves st moves pv depth ↔ m ∈ moves :=
  (List.perm_insertionSort _ _).mem_iff

/-- The five cases of the score lambda, for a move whose counter is below 4000
when it is ranked by the counter. -/
theorem orderScore_cases (st : EngineState) (pv : Move) (depth : Int) (m : Move)
    (hH : m ≠ pv → isCapture m = false → m ≠ st.killers depth 0 → m ≠ st.killers depth 1 →
      st.history m.src.index m.dst.index < 4000) :
    (m = pv ∧ orderScore st pv depth m = 10000) ∨
      (m ≠ pv ∧ isCapture m = true ∧ orderScore st pv depth m = 8000) ∨
      (m ≠ pv ∧ isCapture m = false ∧ (m = st.killers depth 0 ∨ m = st.killers depth 1) ∧
        4000 ≤ orderScore st pv depth m ∧ orderScore st pv depth m ≤ 5000) ∨
      (m ≠ pv ∧ isCapture m = false ∧ m ≠ st.killers depth 0 ∧ m ≠ st.killers depth 1 ∧
        orderScore st pv depth m < 4000) := by
  unfold orderScore
  by_cases h1 : m = pv
  · exact Or.inl ⟨h1, by rw [if_pos h1]⟩
  · rw [if_neg h1]
    cases h2 : isCapture m with
    | true => exact Or.inr (Or.inl ⟨h1, rfl, by simp⟩)
    | false =>
      simp only [Bool.false_eq_true, if_false]
      by_cases h3 : m = st.killers depth 0
      · exact Or.inr (Or.inr (Or.inl ⟨h1, trivial, Or.inl h3, by rw [if_pos h3]; decide,
          by rw [if_pos h3]⟩))
      · rw [if_neg h3]
        by_cases h4 : m = st.killers depth 1
        · exact Or.inr (Or.inr (Or.inl ⟨h1, trivial, Or.inr h4, by rw [if_pos h4],
            by rw [if_pos h4]; decide⟩))
        · rw [if_neg h4]
          have := hH h1 h2 h3 h4
          exact Or.inr (Or.inr (Or.inr ⟨h1, trivial, h3, h4, by omega⟩))

/-- C31 (amended): for every engine state, move list, PV move and index such
that every listed move that is ranked by its history counter (it is not the PV
move, has no CAPTURE flag and is in neither killer slot of the index) has a
counter below 4000: if the PV move occurs in the list, `orderMoves` places it
first; and whenever a move `a` stands before a move `b` in the result, `b` with
the CAPTURE flag makes `a` a capture or the PV move, and `b` in a killer slot
makes `a` the PV move, a capture or a move in a killer slot. -/
theorem orderMoves_priority (st : EngineState) (moves : List Move) (pv : Move) (depth : Int)
    (hH : ∀ m ∈ moves, m ≠ pv → isCapture m = false → m ≠ st.killers depth 0 →
      m ≠ st.killers depth 1 → st.history m.src.index m.dst.index < 4000) :
    (pv ∈ moves → (orderMoves st moves pv depth).head? = some pv) ∧
      (orderMoves st moves pv depth).Pairwise (fun a b =>
        (isCapture b = true → isCapture a = true ∨ a = pv) ∧
        (b = st.killers depth 0 ∨ b = st.killers depth 1 →
          a = pv ∨ isCapture a = true ∨ a = st.killers depth 0 ∨ a = st.killers depth 1)) := by
  have hs := orderMoves_pairwise st moves pv depth
  constructor
  · intro hpv
    have hpv2 : pv ∈ orderMoves st moves pv depth := mem_orderMoves.2 hpv
    cases hL : orderMoves st moves pv depth with
    | nil => rw [hL] at hpv2; cases hpv2
    | cons x rest =>
      rw [hL] at hpv2 hs
      have hx : x ∈ moves := mem_orderMoves.1 (by rw [hL]; exact List.mem_cons_self _ _)
      have hge : orderScore st pv depth x ≥ orderScore st pv depth pv := by
        rcases List.mem_cons.1 hpv2 with h | h
        · rw [h]
        · exact (List.pairwise_cons.1 hs).1 pv h
      have hpvs : orderScore st pv depth pv = 10000 := by
        unfold orderScore; rw [if_pos rfl]
      rw [hpvs] at hge
      rcases orderScore_cases st pv depth x (hH x hx) with h | h | h | h
      · simp only [List.head?_cons, h.1]
      · omega
      · omega
      · omega
  · refine List.Pairwise.imp_of_mem ?_ hs
    intro a b ha hb hab
    have ha2 := orderScore_cases st pv depth a (hH a (mem_orderMoves.1 ha))
    have hb2 := orderScore_cases st pv depth b (hH b (mem_orderMoves.1 hb))
    constructor
    · intro hcap
      rcases ha2 with h | h | h | h
      · exact Or.inr h.1
      · exact Or.inl h.2.1
      · rcases hb2 with k | k | k | k
        · omega
        · omega
        · rw [k.2.1] at hcap; cases hcap
        · rw [k.2.1] at hcap; cases hcap
      · rcases hb2 with k | k | k | k
        · omega
        · omega
        · rw [k.2.1] at hcap; cases hcap
        · rw [k.2.1] at hcap; cases hcap
    · intro hk
      rcases ha2 with h | h | h | h
      · exact Or.inl h.1
      · exact Or.inr (Or.inl h.2.1)
      · exact Or.inr (Or.inr h.2.2.1)
      · rcases hb2 with k | k | k | k
        · omega
        · omega
        · omega
        · rcases hk with hk | hk
          · exact absurd hk k.2.2.1
          · exact absurd hk k.2.2.2.1

theorem orderMoves_priority_witness :
    (Move.mk ⟨1, 3⟩ ⟨2, 4⟩ CAPTURE 0 ∈
        [Move.mk ⟨0, 0⟩ ⟨0, 1⟩ QUIET 0, Move.mk ⟨1, 3⟩ ⟨1, 4⟩ QUIET 0,
          Move.mk ⟨1, 3⟩ ⟨2, 4⟩ CAPTURE 0] →
      (orderMoves {} [Move.mk ⟨0, 0⟩ ⟨0, 1⟩ QUIET 0, Move.mk ⟨1, 3⟩ ⟨1, 4⟩ QUIET 0,
        Move.mk ⟨1, 3⟩ ⟨2, 4⟩ CAPTURE 0] (Move.mk ⟨1, 3⟩ ⟨2, 4⟩ CAPTURE 0) 5).head?
        = some (Move.mk ⟨1, 3⟩ ⟨2, 4⟩ CAPTURE 0)) ∧
      (orderMoves {} [Move.mk ⟨0, 0⟩ ⟨0, 1⟩ QUIET 0, Move.mk ⟨1, 3⟩ ⟨1, 4⟩ QUIET 0,
        Move.mk ⟨1, 3⟩ ⟨2, 4⟩ CAPTURE 0] (Move.mk ⟨1, 3⟩ ⟨2, 4⟩ CAPTURE 0) 5).Pairwise
        (fun a b =>
          (isCapture b = true → isCapture a = true ∨ a = Move.mk ⟨1, 3⟩ ⟨2, 4⟩ CAPTURE 0) ∧
          (b = ({} : EngineState).killers 5 0 ∨ b = ({} : EngineState).killers 5 1 →
            a = Move.mk ⟨1, 3⟩ ⟨2, 4⟩ CAPTURE 0 ∨ isCapture a = true ∨
              a = ({} : EngineState).killers 5 0 ∨ a = ({} : EngineState).killers 5 1)) :=
  orderMoves_priority {} _ _ 5 (fun _ _ _ _ _ _ => by show (0 : Nat) < 4000; decide)

/-- C31 (counterexample): the engine left by `chooseMove` on the locked position
`deadlock` (new engine, `maxDepth = 63`, clock firing after depth 31) has the
counter 10416 for `d4-d5`.  With that engine `orderMoves` puts the quiet move
`d4-d5` before the PV move `a1xa2`, which has the CAPTURE flag, and before the
default move, which is in killer slot 0. -/
theorem history_outranks_pv_capture_killer :
    (chooseMove countingZobrist (fun d => decide (d = 31)) deepEngine deadlock).2.history 27 35
        = 10416 ∧
      pushD4.src.index = 27 ∧ pushD4.dst.index = 35 ∧
      isCapture pushD4 = false ∧ isCapture (Move.mk ⟨0, 0⟩ ⟨0, 1⟩ CAPTURE 0) = true ∧
      orderMoves (chooseMove countingZobrist (fun d => decide (d = 31)) deepEngine deadlock).2
        [Move.mk ⟨0, 0⟩ ⟨0, 1⟩ CAPTURE 0, pushD4] (Move.mk ⟨0, 0⟩ ⟨0, 1⟩ CAPTURE 0) 0
        = [pushD4, Move.mk ⟨0, 0⟩ ⟨0, 1⟩ CAPTURE 0] ∧
      (chooseMove countingZobrist (fun d => decide (d = 31)) deepEngine deadlock).2.killers 0 0
        = {} ∧
      orderMoves (chooseMove countingZobrist (fun d => decide (d = 31)) deepEngine deadlock).2
        [{}, pushD4] (Move.mk ⟨0, 0⟩ ⟨0, 1⟩ CAPTURE 0) 0 = [pushD4, {}] := by
  obtain ⟨-, h2, h3⟩ := deadlock_chooseMove countingZobrist countingZobrist_separate 31
    (by decide) (by decide)
  generalize (chooseMove countingZobrist (fun d => decide (d = 31)) deepEngine deadlock).2 = st
    at h2 h3 ⊢
  have h2' : st.history 27 35 = 10416 := h2.trans (by decide)
  have hs1 : orderScore st (Move.mk ⟨0, 0⟩ ⟨0, 1⟩ CAPTURE 0) 0 pushD4 = 10416 := by
    unfold orderScore
    rw [h3, show pushD4.src.index = 27 from rfl, show pushD4.dst.index = 35 from rfl, h2']
    rfl
  have hs2 : orderScore st (Move.mk ⟨0, 0⟩ ⟨0, 1⟩ CAPTURE 0) 0
      (Move.mk ⟨0, 0⟩ ⟨0, 1⟩ CAPTURE 0) = 10000 := by
    unfold orderScore
    rw [if_pos rfl]
  have hs3 : orderScore st (Move.mk ⟨0, 0⟩ ⟨0, 1⟩ CAPTURE 0) 0 {} = 5000 := by
    unfold orderScore
    rw [h3]
    rfl
  refine ⟨h2', rfl, rfl, by decide, by decide, ?_, by rw [h3], ?_⟩
  · simp [orderMoves, List.insertionSort, List.orderedInsert, hs1, hs2]
  · simp [orderMoves, List.insertionSort, List.orderedInsert, hs1, hs3]

/-! ## Games whose numbers fit the hash tables -/

theorem smallGame_init : SmallGame {} :=
  ⟨by decide, (fun ep h => by cases h), (fun h hh => by cases hh)⟩

theorem makeMove_small {g g' : Game} {m : Move} (hg : SmallGame g)
    (h : g.makeMove m = .ok g') : SmallGame g' := by
  obtain ⟨hs, -, mp, -, -, rfl⟩ := makeMove_eq_ok_iff.1 h
  obtain ⟨h1, h2, h3⟩ := hg
  refine ⟨?_, ?_, ?_⟩
  · rw [applyChecked_castlingRights, captureStep_castlingRights,
      rightsAfter_eq_clearR g.side (by omega)]
    exact lt_of_le_of_lt Nat.and_le_left h1
  · intro ep hep
    rw [applyChecked_board, enPassantStep_target] at hep
    split at hep
    · simp only [Option.some.injEq] at hep
      rw [← hep]
      exact (isValid_iff.1 hs).1
    · cases hep
  · intro e he
    simp only [Game.applyChecked, List.mem_append, List.mem_singleton] at he
    rcases he with he | he
    · exact h3 e he
    · subst he
      exact ⟨h1, h2⟩

theorem makeNullMove_small {g : Game} (hg : SmallGame g) : SmallGame g.makeNullMove := by
  obtain ⟨h1, h2, h3⟩ := hg
  refine ⟨h1, (fun ep hep => by cases hep), ?_⟩
  intro e he
  simp only [Game.makeNullMove, List.mem_append, List.mem_singleton] at he
  rcases he with he | he
  · exact h3 e he
  · subst he
    exact ⟨h1, h2⟩

theorem undoMove_frame {g g' : Game} (h : g.undoMove = some g') :
    ∃ e, g.history.getLast? = some e ∧ g'.board.castlingRights = e.prevCastlingRights ∧
      g'.board.enPassantTarget = e.prevEnPassantTarget ∧ g'.history = g.history.dropLast := by
  unfold Game.undoMove at h
  cases hl : g.history.getLast? with
  | none => simp [hl] at h
  | some e =>
    refine ⟨e, rfl, ?_⟩
    simp only [hl] at h
    split at h
    · simp only [Option.some.injEq] at h
      subst h
      exact ⟨rfl, rfl, rfl⟩
    · simp only [Option.some.injEq] at h
      subst h
      refine ⟨?_, ?_, rfl⟩
      · cases e.captured <;> simp only [] <;> split_ifs <;> rfl
      · cases e.captured <;> simp only [] <;> split_ifs <;> rfl

theorem undoMove_small {g g' : Game} (hg : SmallGame g) (h : g.undoMove = some g') :
    SmallGame g' := by
  obtain ⟨e, he, h1, h2, h3⟩ := undoMove_frame h
  have hmem := hg.2.2 e (List.mem_of_getLast?_eq_some he)
  refine ⟨by rw [h1]; exact hmem.1, by rw [h2]; exact hmem.2, ?_⟩
  intro x hx
  rw [h3] at hx
  exact hg.2.2 x (List.mem_of_mem_dropLast hx)

theorem smallGame_of_reachable {g : Game} (h : Reachable g) : SmallGame g := by
  induction h with
  | init => exact smallGame_init
  | step _ _ _ hmk ih => exact makeMove_small ih hmk

theorem hashInRange_of_small {g : Game} (hg : SmallGame g) : hashInRange g = true := by
  unfold hashInRange
  simp only [Bool.and_eq_true, decide_eq_true_eq, List.all_eq_true]
  refine ⟨⟨hg.1, ?_⟩, ?_⟩
  · cases hep : g.board.enPassantTarget with
    | none => rfl
    | some ep => simpa using hg.2.1 ep hep
  · intro s hs
    have hv := isValid_iff.1 (mem_allSquares.1 hs)
    refine ⟨by unfold Square.index; omega, ?_⟩
    cases g.board.atSq s with
    | none => rfl
    | some p =>
      cases p with
      | mk c t => cases c <;> cases t <;> decide

theorem moveInRange_of_valid {m : Move} (hs : m.src.isValid = true) (hd : m.dst.isValid = true) :
    moveInRange m = true := by
  rw [isValid_iff] at hs hd
  unfold moveInRange Square.index
  simp only [Bool.and_eq_true, decide_eq_true_eq]
  omega

theorem legalMoves_inRange {g : Game} {ms : List Move} (h : g.legalMoves = .ok ms) :
    ms.all moveInRange = true := by
  rw [List.all_eq_true]
  intro m hm
  obtain ⟨-, tmp, hmk, -⟩ := (mem_filterLegal h).1 hm
  obtain ⟨hs, hd, -⟩ := makeMove_eq_ok_iff.1 hmk
  exact moveInRange_of_valid hs hd

theorem seqLoop_small {child : SearchFn}
    (hchild : ∀ c a b n s v, SmallGame c → (child c a b n s).value = .ok v →
      SmallGame (child c a b n s).game) (depth : Nat) (beta : Int) :
    ∀ (moves : List Move) (acc acc' : SeqAcc), SmallGame acc.game →
      seqLoop child depth beta moves acc = .ok acc' → SmallGame acc'.game := by
  intro moves
  induction moves with
  | nil =>
    intro acc acc' hg h
    simp only [seqLoop, Except.ok.injEq] at h
    rw [← h]
    exact hg
  | cons mv rest ih =>
    intro acc acc' hg h
    rw [seqLoop] at h
    cases hmk : acc.game.makeMove mv with
    | error e => simp [hmk] at h
    | ok g1 =>
      simp only [hmk] at h
      cases hv : (child g1 (-beta) (-acc.alpha) true acc.state).value with
      | error f0 => simp [hv] at h
      | ok v =>
        simp only [hv] at h
        have hs1 := hchild g1 (-beta) (-acc.alpha) true acc.state v (makeMove_small hg hmk) hv
        cases hu : (child g1 (-beta) (-acc.alpha) true acc.state).game.undoMove with
        | none => simp [hu] at h
        | some g2 =>
          simp only [hu] at h
          have hs2 := undoMove_small hs1 hu
          by_cases h1 : -v > acc.alpha
          · by_cases h2 : -v ≥ beta
            · simp only [h1, h2, if_true, Except.ok.injEq] at h
              rw [← h]
              exact hs2
            · simp only [h1, h2, if_true, if_false] at h
              exact ih _ acc' hs2 h
          · simp only [h1, if_false] at h
            exact ih _ acc' hs2 h

theorem searchMoves_small (z : Zobrist) {child : SearchFn}
    (hchild : ∀ c a b n s v, SmallGame c → (child c a b n s).value = .ok v →
      SmallGame (child c a b n s).game) (g : Game) (depth : Nat)
    (alpha beta : Int) (entry : TTEntry) (st : EngineState) (v : Int) (hg : SmallGame g)
    (h : (searchMoves z child g depth alpha beta entry st).value = .ok v) :
    SmallGame (searchMoves z child g depth alpha beta entry st).game := by
  unfold searchMoves at h ⊢
  cases hl : g.legalMoves with
  | error e => exact hg
  | ok moves =>
    simp only [hl] at h ⊢
    by_cases he : moves.isEmpty = true
    · rw [if_pos he]
      exact hg
    · rw [if_neg he] at h ⊢
      by_cases hroot : (depth : Int) = st.opt.maxDepth
      · rw [if_pos hroot]
        cases hr : rootLoop child g alpha beta
            (orderMoves st moves entry.bestMove (st.opt.maxDepth - ↑depth)) { state := st } with
        | error f => exact hg
        | ok acc => exact hg
      · rw [if_neg hroot] at h ⊢
        cases hr : seqLoop child depth beta
            (orderMoves st moves entry.bestMove (st.opt.maxDepth - ↑depth))
            { alpha := alpha, game := g, state := st } with
        | error e =>
          obtain ⟨f, acc⟩ := e
          simp [hr] at h
        | ok acc => exact seqLoop_small hchild depth beta _ _ acc hg hr

/-- A search call that returns a score leaves a game whose numbers fit the hash
tables, when it was given one. -/
theorem alphaBeta_small (z : Zobrist) : ∀ (depth : Nat) (g : Game) (alpha beta : Int) (n : Bool)
    (st : EngineState) (v : Int), SmallGame g →
      (alphaBeta z depth g alpha beta n st).value = .ok v →
      SmallGame (alphaBeta z depth g alpha beta n st).game := by
  intro depth
  induction depth using Nat.strong_induction_on with
  | _ depth ih =>
    intro g alpha beta n st v hg h
    by_cases hstop : st.stop = true
    · rw [alphaBeta]
      simp only [hstop, if_true]
      exact hg
    · rw [Bool.not_eq_true] at hstop
      by_cases hd : depth = 0
      · subst hd
        rw [alphaBeta_zero]
        exact hg
      · rw [alphaBeta_pos z depth g alpha beta n st hstop hd] at h ⊢
        split at h
        · rename_i hc
          rw [if_pos hc]
          exact hg
        · rename_i hc
          rw [if_neg hc]
          have hchild : ∀ c a b n s v, SmallGame c →
              ((fun c a b n s => alphaBeta z (depth - 1) c a b n s) c a b n s).value = .ok v →
              SmallGame ((fun c a b n s => alphaBeta z (depth - 1) c a b n s) c a b n s).game :=
            fun c a b n s v hc hv => ih (depth - 1) (by omega) c a b n s v hc hv
          unfold afterProbe at h ⊢
          by_cases h3 : n = true ∧ 3 ≤ depth
          · simp only [h3, and_self, if_true] at h ⊢
            cases hv : (alphaBeta z (depth - 3) g.makeNullMove (-beta) (-beta + 1) false
                st).value with
            | error f => exact hg
            | ok w =>
              simp only [hv] at h ⊢
              split
              · exact hg
              · rename_i hnc
                rw [if_neg hnc] at h
                exact searchMoves_small z hchild g depth alpha beta _ _ v hg h
          · simp only [h3, if_false] at h ⊢
            exact searchMoves_small z hchild g depth alpha beta _ _ v hg h

/-! ## The guarded search agrees with the search -/

theorem guardsHold_state {ck : Guards} {M : Int} {g : Game} {s s' : EngineState}
    (h : GuardsHold ck M g s) (hs : SameSettings s' s) : GuardsHold ck M g s' :=
  ⟨fun hc => by rw [hs.2.1]; exact h.1 hc, fun hc => ⟨(h.2 hc).1, by rw [hs.1]; exact (h.2 hc).2⟩⟩

theorem guardsHold_game {ck : Guards} {M : Int} {g g' : Game} {s : EngineState}
    (h : GuardsHold ck M g s) (hg : SmallGame g → SmallGame g') : GuardsHold ck M g' s :=
  ⟨h.1, fun hc => ⟨hg (h.2 hc).1, (h.2 hc).2⟩⟩

theorem rootTaskG_eq {ck : Guards} {M : Int} {child : SearchFn} {childG : GuardedFn}
    (hchild : ∀ c a b n s, GuardsHold ck M c s → childG c a b n s = .ok (child c a b n s))
    (g : Game) (alpha beta : Int) (acc : RootAcc) (mv : Move)
    (hg : GuardsHold ck M g acc.state) :
    rootTaskG childG g alpha beta acc mv = .ok (rootTask child g alpha beta acc mv) := by
  unfold rootTaskG rootTask
  cases hmk : g.makeMove mv with
  | error e => rfl
  | ok c =>
    simp only []
    rw [hchild c (-beta) (-alpha) true acc.state (guardsHold_game hg fun h => makeMove_small h hmk)]
    simp only []
    cases hv : (child c (-beta) (-alpha) true acc.state).value with
    | error f => cases f <;> rfl
    | ok v =>
      simp only []
      split <;> rfl

theorem rootLoopG_eq {ck : Guards} {M : Int} {child : SearchFn} {childG : GuardedFn}
    (hchild : ∀ c a b n s, GuardsHold ck M c s → childG c a b n s = .ok (child c a b n s))
    (hframe : ∀ c a b n s, SameSettings (child c a b n s).state s)
    (g : Game) (alpha beta : Int) :
    ∀ (moves : List Move) (acc : RootAcc), GuardsHold ck M g acc.state →
      rootLoopG childG g alpha beta moves acc = .ok (rootLoop child g alpha beta moves acc) := by
  intro moves
  induction moves with
  | nil => intro acc _; rfl
  | cons mv rest ih =>
    intro acc hg
    rw [rootLoopG, rootLoop, rootTaskG_eq hchild g alpha beta acc mv hg]
    cases ht : rootTask child g alpha beta acc mv with
    | error f => rfl
    | ok acc1 =>
      simp only []
      exact ih acc1 (guardsHold_state hg (rootTask_frame hframe g alpha beta acc acc1 mv ht))

theorem sq_toNat (n : Nat) : ((n : Int) * (n : Int)).toNat = n * n := by
  rw [← Nat.cast_mul, Int.toNat_natCast]

theorem seqLoopG_eq {ck : Guards} {M : Int} {child : SearchFn} {childG : GuardedFn}
    (hchild : ∀ c a b n s, GuardsHold ck M c s → childG c a b n s = .ok (child c a b n s))
    (hframe : ∀ c a b n s, SameSettings (child c a b n s).state s)
    (hsmall : ∀ c a b n s v, SmallGame c → (child c a b n s).value = .ok v →
      SmallGame (child c a b n s).game)
    (n : Nat) (beta : Int) (hply : ck.index = true → plyInRange n = true) :
    ∀ (moves : List Move) (acc : SeqAcc), GuardsHold ck M acc.game acc.state →
      (ck.index = true → moves.all moveInRange = true) →
      seqLoopG ck childG n beta moves acc = .ok (seqLoop child n beta moves acc) := by
  intro moves
  induction moves with
  | nil => intro acc _ _; rfl
  | cons mv rest ih =>
    intro acc hg hin
    have hin1 : ck.index = true → moveInRange mv = true := fun h => by
      have := hin h
      simp only [List.all_cons, Bool.and_eq_true] at this
      exact this.1
    have hin2 : ck.index = true → rest.all moveInRange = true := fun h => by
      have := hin h
      simp only [List.all_cons, Bool.and_eq_true] at this
      exact this.2
    have hk1 : (ck.index && !moveInRange mv) = false := by
      cases hi : ck.index with
      | false => rfl
      | true => simp [hin1 hi]
    have hk2 : (ck.index && !plyInRange (n : Int)) = false := by
      cases hi : ck.index with
      | false => rfl
      | true => simp [hply hi]
    rw [seqLoopG, seqLoop]
    cases hmk : acc.game.makeMove mv with
    | error e => rfl
    | ok g1 =>
      simp only []
      have hg1 : GuardsHold ck M g1 acc.state := guardsHold_game hg fun h => makeMove_small h hmk
      rw [hchild g1 (-beta) (-acc.alpha) true acc.state hg1]
      simp only []
      have hfr := hframe g1 (-beta) (-acc.alpha) true acc.state
      cases hv : (child g1 (-beta) (-acc.alpha) true acc.state).value with
      | error f => rfl
      | ok v =>
        simp only []
        cases hu : (child g1 (-beta) (-acc.alpha) true acc.state).game.undoMove with
        | none => rfl
        | some g2 =>
          simp only []
          have hg2 : GuardsHold ck M g2 (child g1 (-beta) (-acc.alpha) true acc.state).state :=
            guardsHold_state
              (guardsHold_game hg1 fun h => undoMove_small (hsmall _ _ _ _ _ v h hv) hu) hfr
          by_cases h1 : -v > acc.alpha
          · simp only [h1, if_true, hk1, Bool.false_eq_true, if_false, sq_toNat]
            by_cases h2 : -v ≥ beta
            · simp only [h2, if_true, hk2, Bool.false_eq_true, if_false]
            · simp only [h2, if_false]
              exact ih _ ⟨hg2.1, hg2.2⟩ hin2
          · simp only [h1, if_false]
            exact ih _ ⟨hg2.1, hg2.2⟩ hin2

theorem searchMovesG_eq {ck : Guards} {M : Int} (z : Zobrist) {child : SearchFn}
    {childG : GuardedFn}
    (hchild : ∀ c a b n s, GuardsHold ck M c s → childG c a b n s = .ok (child c a b n s))
    (hframe : ∀ c a b n s, SameSettings (child c a b n s).state s)
    (hsmall : ∀ c a b n s v, SmallGame c → (child c a b n s).value = .ok v →
      SmallGame (child c a b n s).game)
    (g : Game) (n : Nat) (alpha beta : Int) (entry : TTEntry) (st : EngineState)
    (hg : GuardsHold ck M g st) (hM : ck.index = true → (n : Int) ≤ M ∧ M ≤ 63) :
    searchMovesG ck z childG g n alpha beta entry st =
      .ok (searchMoves z child g n alpha beta entry st) := by
  unfold searchMovesG searchMoves
  cases hl : g.legalMoves with
  | error e => rfl
  | ok moves =>
    simp only []
    by_cases he : moves.isEmpty = true
    · rw [if_pos he, if_pos he]
    · rw [if_neg he, if_neg he]
      have hply : ck.index = true → plyInRange (n : Int) = true := fun h => by
        have := hM h
        unfold plyInRange
        simp only [Bool.and_eq_true, decide_eq_true_eq]
        omega
      have hk : (ck.index && !(plyInRange (st.opt.maxDepth - (n : Int)) &&
          moves.all moveInRange)) = false := by
        cases hi : ck.index with
        | false => rfl
        | true =>
          have h1 := hM hi
          have h2 := (hg.2 hi).2
          have h3 : plyInRange (st.opt.maxDepth - (n : Int)) = true := by
            unfold plyInRange
            simp only [Bool.and_eq_true, decide_eq_true_eq]
            omega
          simp [h3, legalMoves_inRange hl]
      rw [if_neg (by rw [hk]; exact Bool.false_ne_true)]
      by_cases hroot : (n : Int) = st.opt.maxDepth
      · rw [if_pos hroot, if_pos hroot,
          rootLoopG_eq hchild hframe g alpha beta _ _ (show GuardsHold ck M g st from hg)]
        cases hr : rootLoop child g alpha beta
            (orderMoves st moves entry.bestMove (st.opt.maxDepth - ↑n)) { state := st } with
        | error f => rfl
        | ok acc => rfl
      · rw [if_neg hroot, if_neg hroot,
          seqLoopG_eq hchild hframe hsmall n beta hply _ _
            (show GuardsHold ck M g st from hg) (fun hi => by
              have := legalMoves_inRange hl
              rw [List.all_eq_true] at this ⊢
              intro m hm
              exact this m (mem_orderMoves.1 hm))]
        cases hr : seqLoop child n beta
            (orderMoves st moves entry.bestMove (st.opt.maxDepth - ↑n))
            { alpha := alpha, game := g, state := st } with
        | error e =>
          obtain ⟨f, acc⟩ := e
          rfl
        | ok acc => rfl

theorem alphaBeta_stop (z : Zobrist) (n : Nat) (g : Game) (alpha beta : Int) (nn : Bool)
    (s : EngineState) (h : s.stop = true) : alphaBeta z n g alpha beta nn s = evalResult g s := by
  rw [alphaBeta]
  simp only [h, if_true]

/-- With enough fuel, a depth that is not negative and the switched-on tests
provided for, the guarded search returns what the search returns. -/
theorem alphaBetaG_eq (ck : Guards) (M : Int) (z : Zobrist) :
    ∀ (fuel n : Nat), n < fuel → ∀ (g : Game) (alpha beta : Int) (nn : Bool) (s : EngineState),
      GuardsHold ck M g s → (ck.index = true → (n : Int) ≤ M ∧ M ≤ 63) →
      alphaBetaG ck z fuel n g alpha beta nn s = .ok (alphaBeta z n g alpha beta nn s) := by
  intro fuel
  induction fuel with
  | zero => intro n hn; omega
  | succ fuel ih =>
    intro n hn g alpha beta nn s hg hM
    rw [alphaBetaG]
    by_cases hstop : s.stop = true
    · have hck : ck.stop = false := by
        cases hc : ck.stop with
        | false => rfl
        | true => rw [hg.1 hc] at hstop; cases hstop
      simp only [hstop, if_true, hck, Bool.false_eq_true, if_false, alphaBeta_stop z n g alpha
        beta nn s hstop]
    · rw [Bool.not_eq_true] at hstop
      simp only [hstop, Bool.false_eq_true, if_false]
      by_cases hd : n = 0
      · subst hd
        simp only [Nat.cast_zero, if_true, alphaBeta_zero]
      · have hd' : ¬ ((n : Int) = 0) := by omega
        have hk : (ck.index && !hashInRange g) = false := by
          cases hi : ck.index with
          | false => rfl
          | true => simp [hashInRange_of_small (hg.2 hi).1]
        rw [if_neg hd', if_neg (by rw [hk]; exact Bool.false_ne_true),
          alphaBeta_pos z n g alpha beta nn s hstop hd]
        simp only [Bool.and_assoc]
        have hcond : ((s.tt.probe (hashPosition z g) {}).1 &&
            (decide ((s.tt.probe (hashPosition z g) {}).2.depth ≥ (n : Int)) &&
              ((s.tt.probe (hashPosition z g) {}).2.bound == Bound.EXACT ||
                ((s.tt.probe (hashPosition z g) {}).2.bound == Bound.LOWER &&
                  decide ((s.tt.probe (hashPosition z g) {}).2.score ≥ beta)) ||
                ((s.tt.probe (hashPosition z g) {}).2.bound == Bound.UPPER &&
                  decide ((s.tt.probe (hashPosition z g) {}).2.score ≤ alpha))))) =
            ((s.tt.probe (hashPosition z g) {}).1 &&
              probeCutoff (s.tt.probe (hashPosition z g) {}).2 n alpha beta) := rfl
        rw [hcond]
        by_cases hc : ((s.tt.probe (hashPosition z g) {}).1 &&
            probeCutoff (s.tt.probe (hashPosition z g) {}).2 n alpha beta) = true
        · rw [if_pos hc, if_pos hc]
        · rw [if_neg hc, if_neg hc]
          unfold afterProbe
          have hchild : ∀ c a b m t, GuardsHold ck M c t →
              (fun c a b m t => alphaBetaG ck z fuel ((n : Int) - 1) c a b m t) c a b m t =
                .ok ((fun c a b m t => alphaBeta z (n - 1) c a b m t) c a b m t) := by
            intro c a b m t ht
            have hcast : (n : Int) - 1 = ((n - 1 : Nat) : Int) := by omega
            simp only [hcast]
            exact ih (n - 1) (by omega) c a b m t ht (fun hi => by have := hM hi; omega)
          have hframe : ∀ c a b m t,
              SameSettings ((fun c a b m t => alphaBeta z (n - 1) c a b m t) c a b m t).state t :=
            fun c a b m t => alphaBeta_frame z (n - 1) c a b m t
          have hsmall : ∀ c a b m t v, SmallGame c →
              ((fun c a b m t => alphaBeta z (n - 1) c a b m t) c a b m t).value = .ok v →
              SmallGame ((fun c a b m t => alphaBeta z (n - 1) c a b m t) c a b m t).game :=
            fun c a b m t v hc hv => alphaBeta_small z (n - 1) c a b m t v hc hv
          by_cases h3 : nn = true ∧ 3 ≤ n
          · have h3' : nn = true ∧ (3 : Int) ≤ (n : Int) := ⟨h3.1, by omega⟩
            have hcast : (n : Int) - 3 = ((n - 3 : Nat) : Int) := by omega
            rw [if_pos h3', if_pos h3, hcast,
              ih (n - 3) (by omega) g.makeNullMove (-beta) (-beta + 1) false s
                (guardsHold_game hg makeNullMove_small) (fun hi => by have := hM hi; omega)]
            simp only []
            have hfr := alphaBeta_frame z (n - 3) g.makeNullMove (-beta) (-beta + 1) false s
            cases hv : (alphaBeta z (n - 3) g.makeNullMove (-beta) (-beta + 1) false s).value with
            | error f => rfl
            | ok v =>
              simp only []
              by_cases hb : -v ≥ beta
              · rw [if_pos hb, if_pos hb]
              · rw [if_neg hb, if_neg hb]
                exact searchMovesG_eq z hchild hframe hsmall g n alpha beta _ _
                  (guardsHold_state hg hfr) hM
          · have h3' : ¬ (nn = true ∧ (3 : Int) ≤ (n : Int)) := fun h => h3 ⟨h.1, by omega⟩
            rw [if_neg h3', if_neg h3]
            exact searchMovesG_eq z hchild hframe hsmall g n alpha beta _ _ hg hM

theorem deepenLoopG_eq (ck : Guards) (M : Int) (z : Zobrist) (clock : Nat → Bool) (fuel : Nat) :
    ∀ (n d : Nat) (acc : DeepenAcc), GuardsHold ck M acc.game acc.state → d + n ≤ fuel →
      (ck.index = true → (d : Int) + n ≤ M + 1 ∧ M ≤ 63) →
      deepenLoopG ck z clock fuel n d acc = .ok (deepenLoop z clock n d acc) ∧
        ∀ acc', deepenLoop z clock n d acc = .ok acc' → ck.index = true →
          SmallGame acc'.game := by
  intro n
  induction n with
  | zero =>
    intro d acc hg _ _
    refine ⟨rfl, ?_⟩
    intro acc' h hi
    simp only [deepenLoop, Except.ok.injEq] at h
    rw [← h]
    exact (hg.2 hi).1
  | succ n ih =>
    intro d acc hg hf hM
    have hM1 : ck.index = true → (d : Int) ≤ M ∧ M ≤ 63 := fun hi => by
      have := hM hi
      push_cast at this
      omega
    rw [deepenLoopG, deepenLoop,
      alphaBetaG_eq ck M z fuel d (by omega) acc.game acc.alpha acc.beta true acc.state hg hM1]
    simp only []
    have hfr := alphaBeta_frame z d acc.game acc.alpha acc.beta true acc.state
    cases hv : (alphaBeta z d acc.game acc.alpha acc.beta true acc.state).value with
    | error f =>
      refine ⟨rfl, ?_⟩
      intro acc' h
      simp at h
    | ok score =>
      simp only []
      have hg1 : GuardsHold ck M (alphaBeta z d acc.game acc.alpha acc.beta true acc.state).game
          (alphaBeta z d acc.game acc.alpha acc.beta true acc.state).state :=
        guardsHold_state
          (guardsHold_game hg fun h => alphaBeta_small z d _ _ _ _ _ score h hv) hfr
      have hnext : ∀ (a b : DeepenAcc), GuardsHold ck M a.game a.state → b.game = a.game →
          (if clock d = true then (Except.ok (Except.ok b) :
              Except Anomaly (Except (Fault × DeepenAcc) DeepenAcc))
            else deepenLoopG ck z clock fuel n (d + 1) a) =
            .ok (if clock d = true then .ok b else deepenLoop z clock n (d + 1) a) ∧
          ∀ acc', (if clock d = true then (Except.ok b : Except (Fault × DeepenAcc) DeepenAcc)
            else deepenLoop z clock n (d + 1) a) = .ok acc' → ck.index = true →
              SmallGame acc'.game := by
        intro a b hgs hb
        by_cases hcl : clock d = true
        · simp only [hcl, if_true]
          refine ⟨trivial, ?_⟩
          intro acc' h hi
          simp only [Except.ok.injEq] at h
          rw [← h, hb]
          exact (hgs.2 hi).1
        · simp only [hcl, if_false]
          exact ih (d + 1) _ hgs (by omega) (fun hi => by
            have := hM hi
            push_cast at this ⊢
            omega)
      by_cases hw : score ≤ acc.alpha ∨ score ≥ acc.beta
      · simp only [hw, if_true]
        rw [alphaBetaG_eq ck M z fuel d (by omega) _ (-100000) 100000 true _ hg1 hM1]
        simp only []
        have hfr2 := alphaBeta_frame z d
          (alphaBeta z d acc.game acc.alpha acc.beta true acc.state).game (-100000) 100000 true
          (alphaBeta z d acc.game acc.alpha acc.beta true acc.state).state
        cases hv2 : (alphaBeta z d
            (alphaBeta z d acc.game acc.alpha acc.beta true acc.state).game (-100000) 100000 true
            (alphaBeta z d acc.game acc.alpha acc.beta true acc.state).state).value with
        | error f =>
          refine ⟨rfl, ?_⟩
          intro acc' h
          simp at h
        | ok s =>
          simp only []
          exact hnext _ _ (guardsHold_state
            (guardsHold_game hg1 fun h => alphaBeta_small z d _ _ _ _ _ s h hv2) hfr2) rfl
      · simp only [hw, if_false]
        exact hnext _ _ hg1 rfl

theorem iterativeDeepeningG_eq (ck : Guards) (z : Zobrist) (clock : Nat → Bool) (fuel : Nat)
    (root : Game) (st : EngineState) (hg : GuardsHold ck st.opt.maxDepth root st)
    (hf : st.opt.maxDepth.toNat + 1 ≤ fuel)
    (hM : ck.index = true → 0 ≤ st.opt.maxDepth ∧ st.opt.maxDepth ≤ 63) :
    iterativeDeepeningG ck z clock fuel root st = .ok (iterativeDeepening z clock root st) := by
  unfold iterativeDeepeningG iterativeDeepening
  obtain ⟨h1, h2⟩ := deepenLoopG_eq ck st.opt.maxDepth z clock fuel st.opt.maxDepth.toNat 1
    { game := root, state := st } hg (by omega) (fun hi => by
      have := hM hi
      refine ⟨?_, this.2⟩
      have h3 : ((st.opt.maxDepth.toNat : Nat) : Int) = st.opt.maxDepth := Int.toNat_of_nonneg this.1
      rw [h3]
      push_cast
      omega)
  rw [h1]
  cases hl : deepenLoop z clock st.opt.maxDepth.toNat 1 { game := root, state := st } with
  | error e =>
    obtain ⟨f, acc⟩ := e
    rfl
  | ok acc =>
    simp only []
    have hk : (ck.index && !hashInRange acc.game) = false := by
      cases hi : ck.index with
      | false => rfl
      | true => simp [hashInRange_of_small (h2 acc hl hi)]
    rw [if_neg (by rw [hk]; exact Bool.false_ne_true)]
    split
    · rfl
    · cases acc.game.legalMoves <;> rfl

theorem chooseMoveG_eq (ck : Guards) (z : Zobrist) (clock : Nat → Bool) (fuel : Nat)
    (st : EngineState) (root : Game) (hf : st.opt.maxDepth.toNat + 1 ≤ fuel)
    (hM : ck.index = true → SmallGame root ∧ 0 ≤ st.opt.maxDepth ∧ st.opt.maxDepth ≤ 63) :
    chooseMoveG ck z clock fuel st root = .ok (chooseMove z clock st root) := by
  unfold chooseMoveG chooseMove
  simp only []
  have h := iterativeDeepeningG_eq ck z clock fuel root
    { st with stop := false, history := fun _ _ => 0, killers := fun _ _ => {} }
    ⟨fun _ => rfl, fun hi => ⟨(hM hi).1, rfl⟩⟩ hf (fun hi => (hM hi).2)
  rw [h]

/-! ## The search on the worker pool returns when a worker is idle -/

theorem rootTaskP_eq {M : Int} {child : SearchFn} {childP : PoolFn}
    (hchild : ∀ c a b n s, s.opt.maxDepth = M → childP c a b n s = .ok (child c a b n s))
    (g : Game) (alpha beta : Int) (acc : RootAcc) (mv : Move)
    (hM : acc.state.opt.maxDepth = M) :
    rootTaskP childP g alpha beta acc mv = .ok (rootTask child g alpha beta acc mv) := by
  unfold rootTaskP rootTask
  cases hmk : g.makeMove mv with
  | error e => rfl
  | ok c =>
    simp only []
    rw [hchild c (-beta) (-alpha) true acc.state hM]
    simp only []
    cases hv : (child c (-beta) (-alpha) true acc.state).value with
    | error f => cases f <;> rfl
    | ok v =>
      simp only []
      split <;> rfl

theorem rootLoopP_eq {M : Int} {child : SearchFn} {childP : PoolFn}
    (hchild : ∀ c a b n s, s.opt.maxDepth = M → childP c a b n s = .ok (child c a b n s))
    (hframe : ∀ c a b n s, SameSettings (child c a b n s).state s)
    (g : Game) (alpha beta : Int) :
    ∀ (moves : List Move) (acc : RootAcc), acc.state.opt.maxDepth = M →
      rootLoopP childP g alpha beta moves acc = .ok (rootLoop child g alpha beta moves acc) := by
  intro moves
  induction moves with
  | nil => intro acc _; rfl
  | cons mv rest ih =>
    intro acc hM
    rw [rootLoopP, rootLoop, rootTaskP_eq hchild g alpha beta acc mv hM]
    cases ht : rootTask child g alpha beta acc mv with
    | error f => rfl
    | ok acc1 =>
      simp only []
      refine ih acc1 ?_
      rw [(rootTask_frame hframe g alpha beta acc acc1 mv ht).1]
      exact hM

theorem seqLoopP_eq {M : Int} {child : SearchFn} {childP : PoolFn}
    (hchild : ∀ c a b n s, s.opt.maxDepth = M → childP c a b n s = .ok (child c a b n s))
    (hframe : ∀ c a b n s, SameSettings (child c a b n s).state s)
    (n : Nat) (beta : Int) :
    ∀ (moves : List Move) (acc : SeqAcc), acc.state.opt.maxDepth = M →
      seqLoopP childP n beta moves acc = .ok (seqLoop child n beta moves acc) := by
  intro moves
  induction moves with
  | nil => intro acc _; rfl
  | cons mv rest ih =>
    intro acc hM
    rw [seqLoopP, seqLoop]
    cases hmk : acc.game.makeMove mv with
    | error e => rfl
    | ok g1 =>
      simp only []
      rw [hchild g1 (-beta) (-acc.alpha) true acc.state hM]
      simp only []
      have hfr := hframe g1 (-beta) (-acc.alpha) true acc.state
      have hM2 : (child g1 (-beta) (-acc.alpha) true acc.state).state.opt.maxDepth = M := by
        rw [hfr.1]
        exact hM
      cases hv : (child g1 (-beta) (-acc.alpha) true acc.state).value with
      | error f => rfl
      | ok v =>
        simp only []
        cases hu : (child g1 (-beta) (-acc.alpha) true acc.state).game.undoMove with
        | none => rfl
        | some g2 =>
          simp only []
          by_cases h1 : -v > acc.alpha
          · simp only [h1, if_true, sq_toNat]
            by_cases h2 : -v ≥ beta
            · simp only [h2, if_true]
            · simp only [h2, if_false]
              exact ih _ hM2
          · simp only [h1, if_false]
            exact ih _ hM2

theorem searchMovesP_eq (z : Zobrist) {child : SearchFn} {childP : Nat → PoolFn} (idle : Nat)
    (g : Game) (n : Nat) (alpha beta : Int) (entry : TTEntry) (st : EngineState)
    (hseq : ∀ c a b nn s, s.opt.maxDepth = st.opt.maxDepth →
      childP idle c a b nn s = .ok (child c a b nn s))
    (hroot : (n : Int) = st.opt.maxDepth → ∃ k, idle = k + 1 ∧
      ∀ c a b nn s, s.opt.maxDepth = st.opt.maxDepth →
        childP k c a b nn s = .ok (child c a b nn s))
    (hframe : ∀ c a b nn s, SameSettings (child c a b nn s).state s) :
    searchMovesP z idle childP g n alpha beta entry st =
      .ok (searchMoves z child g n alpha beta entry st) := by
  unfold searchMovesP searchMoves
  cases hl : g.legalMoves with
  | error e => rfl
  | ok moves =>
    simp only []
    by_cases he : moves.isEmpty = true
    · rw [if_pos he, if_pos he]
    · rw [if_neg he, if_neg he]
      by_cases hr : (n : Int) = st.opt.maxDepth
      · obtain ⟨k, hk, hck⟩ := hroot hr
        subst hk
        rw [if_pos hr, if_pos hr]
        simp only []
        rw [rootLoopP_eq hck hframe g alpha beta _ _ rfl]
        cases hrl : rootLoop child g alpha beta
            (orderMoves st moves entry.bestMove (st.opt.maxDepth - ↑n)) { state := st } with
        | error f => rfl
        | ok acc => rfl
      · rw [if_neg hr, if_neg hr, seqLoopP_eq hseq hframe n beta _ _ rfl]
        cases hsl : seqLoop child n beta
            (orderMoves st moves entry.bestMove (st.opt.maxDepth - ↑n))
            { alpha := alpha, game := g, state := st } with
        | error e =>
          obtain ⟨f, acc⟩ := e
          rfl
        | ok acc => rfl

/-- With enough fuel and a depth that is not negative, the search on the pool
returns what the search returns, provided a worker is idle or the depth is below
`maxDepth`. -/
theorem alphaBetaP_eq (z : Zobrist) :
    ∀ (fuel n : Nat), n < fuel → ∀ (idle : Nat) (g : Game) (alpha beta : Int) (nn : Bool)
      (s : EngineState), (1 ≤ idle ∨ (n : Int) < s.opt.maxDepth) →
      alphaBetaP z fuel idle n g alpha beta nn s = .ok (alphaBeta z n g alpha beta nn s) := by
  intro fuel
  induction fuel with
  | zero => intro n hn; omega
  | succ fuel ih =>
    intro n hn idle g alpha beta nn s hw
    rw [alphaBetaP]
    by_cases hstop : s.stop = true
    · simp only [hstop, if_true, alphaBeta_stop z n g alpha beta nn s hstop]
    · rw [Bool.not_eq_true] at hstop
      simp only [hstop, Bool.false_eq_true, if_false]
      by_cases hd : n = 0
      · subst hd
        simp only [Nat.cast_zero, if_true, alphaBeta_zero]
      · have hd' : ¬ ((n : Int) = 0) := by omega
        rw [if_neg hd', alphaBeta_pos z n g alpha beta nn s hstop hd]
        simp only [Bool.and_assoc]
        have hcond : ((s.tt.probe (hashPosition z g) {}).1 &&
            (decide ((s.tt.probe (hashPosition z g) {}).2.depth ≥ (n : Int)) &&
              ((s.tt.probe (hashPosition z g) {}).2.bound == Bound.EXACT ||
                ((s.tt.probe (hashPosition z g) {}).2.bound == Bound.LOWER &&
                  decide ((s.tt.probe (hashPosition z g) {}).2.score ≥ beta)) ||
                ((s.tt.probe (hashPosition z g) {}).2.bound == Bound.UPPER &&
                  decide ((s.tt.probe (hashPosition z g) {}).2.score ≤ alpha))))) =
            ((s.tt.probe (hashPosition z g) {}).1 &&
              probeCutoff (s.tt.probe (hashPosition z g) {}).2 n alpha beta) := rfl
        rw [hcond]
        by_cases hc : ((s.tt.probe (hashPosition z g) {}).1 &&
            probeCutoff (s.tt.probe (hashPosition z g) {}).2 n alpha beta) = true
        · rw [if_pos hc, if_pos hc]
        · rw [if_neg hc, if_neg hc]
          unfold afterProbe
          have hcast : (n : Int) - 1 = ((n - 1 : Nat) : Int) := by omega
          have hframe : ∀ c a b m t,
              SameSettings ((fun c a b m t => alphaBeta z (n - 1) c a b m t) c a b m t).state t :=
            fun c a b m t => alphaBeta_frame z (n - 1) c a b m t
          have hmoves : ∀ (entry : TTEntry) (s' : EngineState),
              s'.opt.maxDepth = s.opt.maxDepth →
              searchMovesP z idle (fun k c a b m t => alphaBetaP z fuel k ((n : Int) - 1) c a b m t)
                  g n alpha beta entry s' =
                .ok (searchMoves z (fun c a b m t => alphaBeta z (n - 1) c a b m t) g n alpha beta
                  entry s') := by
            intro entry s' hs'
            refine searchMovesP_eq z idle g n alpha beta entry s' ?_ ?_ hframe
            · intro c a b m t ht
              simp only [hcast]
              refine ih (n - 1) (by omega) idle c a b m t ?_
              rcases hw with hw | hw
              · exact Or.inl hw
              · right
                rw [ht, hs']
                omega
            · intro hr
              have hidle : 1 ≤ idle := by
                rcases hw with hw | hw
                · exact hw
                · rw [hs'] at hr
                  omega
              refine ⟨idle - 1, by omega, ?_⟩
              intro c a b m t ht
              simp only [hcast]
              refine ih (n - 1) (by omega) (idle - 1) c a b m t (Or.inr ?_)
              rw [ht, ← hr]
              omega
          by_cases h3 : nn = true ∧ 3 ≤ n
          · have h3' : nn = true ∧ (3 : Int) ≤ (n : Int) := ⟨h3.1, by omega⟩
            have hcast3 : (n : Int) - 3 = ((n - 3 : Nat) : Int) := by omega
            rw [if_pos h3', if_pos h3, hcast3,
              ih (n - 3) (by omega) idle g.makeNullMove (-beta) (-beta + 1) false s
                (by rcases hw with hw | hw
                    · exact Or.inl hw
                    · right; omega)]
            simp only []
            have hfr := alphaBeta_frame z (n - 3) g.makeNullMove (-beta) (-beta + 1) false s
            cases hv : (alphaBeta z (n - 3) g.makeNullMove (-beta) (-beta + 1) false s).value with
            | error f => rfl
            | ok v =>
              simp only []
              by_cases hb : -v ≥ beta
              · rw [if_pos hb, if_pos hb]
              · rw [if_neg hb, if_neg hb]
                exact hmoves _ _ (by rw [hfr.1])
          · have h3' : ¬ (nn = true ∧ (3 : Int) ≤ (n : Int)) := fun h => h3 ⟨h.1, by omega⟩
            rw [if_neg h3', if_neg h3]
            exact hmoves _ _ rfl

/-- With no idle worker the root branch of a position that has a legal move
waits for its thunks without end. -/
theorem searchMovesP_blocked (z : Zobrist) (child : Nat → PoolFn) (g : Game) (depth : Int)
    (alpha beta : Int) (entry : TTEntry) (st : EngineState) (ms : List Move)
    (hl : g.legalMoves = .ok ms) (hne : ms.isEmpty = false) (hd : depth = st.opt.maxDepth) :
    searchMovesP z 0 child g depth alpha beta entry st = .error .blocked := by
  unfold searchMovesP
  simp only [hl, hne, Bool.false_eq_true, if_false, hd, if_true]

/-- No turn of a worker changes a pool in which no worker is waiting: the queue
keeps its thunks. -/
theorem wake_of_no_idle (p : Pool) (i : Nat) (h : p.idle = 0) : p.wake i = p := by
  unfold Pool.wake
  cases hw : p.workers[i]? with
  | none => rfl
  | some w =>
    cases w with
    | waiting =>
      exfalso
      have hmem : Worker.waiting ∈ p.workers := List.mem_iff_getElem?.2 ⟨i, hw⟩
      have hpos : 0 < p.workers.count Worker.waiting := List.count_pos_iff.2 hmem
      unfold Pool.idle at h
      omega
    | running t => rfl
    | exited => rfl

/-- C35 (counterexample): `busyPool` is a pool of one worker, which is running
the thunk it popped (as when `chooseMove` itself runs on the pool); no worker is
idle, and whatever is enqueued, no turn of a worker takes it from the queue.
Called in that state on the initial position with `depth = maxDepth = 1` and the
full window, `alphaBeta` reaches the root branch, enqueues its thunks and waits:
for every fuel and all Zobrist tables the call yields no result. -/
theorem alphaBeta_root_waits_forever :
    busyPool.workers = [Worker.running 0] ∧ busyPool.idle = 0 ∧
      (∀ (tasks : List Nat) (i : Nat),
        Pool.wake { busyPool with tasks := tasks } i = { busyPool with tasks := tasks }) ∧
      ∀ (z : Zobrist) (fuel : Nat),
        alphaBetaP z (fuel + 1) busyPool.idle 1 {} (-100000) 100000 true
          { opt := { maxDepth := 1 } } = .error .blocked := by
  have hidle : busyPool.idle = 0 := by decide
  refine ⟨by decide, hidle, fun tasks i => wake_of_no_idle _ i hidle, ?_⟩
  intro z fuel
  obtain ⟨ms, hms, hne⟩ : ∃ ms, Game.legalMoves {} = .ok ms ∧ ms.isEmpty = false :=
    ⟨_, rfl, rfl⟩
  rw [hidle, alphaBetaP]
  have hp : (({} : TranspositionTable).probe (hashPosition z {}) {}).2 = {} := probe_default _
  simp only [Bool.false_eq_true, if_false, hp]
  have hdep : ¬ ((({} : TTEntry).depth) ≥ (1 : Int)) := by decide
  simp only [hdep, decide_False, Bool.and_false, Bool.false_and, Bool.false_eq_true, if_false,
    one_ne_zero]
  have h3 : ¬ (True ∧ (3 : Int) ≤ 1) := by decide
  rw [if_neg h3]
  exact searchMovesP_blocked z _ _ _ _ _ _ _ ms hms hne rfl

/-- C35 (amended): for every game, window, engine state, depth that is not
negative and fuel above the depth, `alphaBeta` called while at least one worker
of the pool is idle, or with a depth below `maxDepth`, returns, and returns the
result of the search function defined by recursion on the depth as a natural
number: every recursive call is made with a depth that is smaller and not
negative, the root branch finds a worker for its thunks, and the thunks, one
level below `maxDepth`, never reach the root branch. -/
theorem alphaBeta_terminates (z : Zobrist) (g : Game) (alpha beta : Int) (n : Bool)
    (st : EngineState) (depth : Int) (fuel idle : Nat) (h0 : 0 ≤ depth) (hf : depth < fuel)
    (hw : 1 ≤ idle ∨ depth < st.opt.maxDepth) :
    alphaBetaP z fuel idle depth g alpha beta n st =
      .ok (alphaBeta z depth.toNat g alpha beta n st) := by
  have h := alphaBetaP_eq z fuel depth.toNat (by omega) idle g alpha beta n st
    (by rw [Int.toNat_of_nonneg h0]; exact hw)
  rw [Int.toNat_of_nonneg h0] at h
  exact h

theorem alphaBeta_terminates_witness :
    alphaBetaP flatZobrist 4 (Pool.create 1).idle 3 {} (-50) 50 true {} =
      .ok (alphaBeta flatZobrist (3 : Int).toNat {} (-50) 50 true {}) :=
  alphaBeta_terminates flatZobrist {} (-50) 50 true {} 3 4 (Pool.create 1).idle (by decide)
    (by decide) (Or.inl (by decide))

/-- C36: for every engine whose `maxDepth` is between 1 and 63, every root game
reachable from the initial position by legal moves, every clock and all Zobrist
tables, `chooseMove` with a test before every access to `castleHash`, `epHash`,
`zobristTable`, `m_history` and `m_killers` runs without a failed test and
returns what `chooseMove` returns. -/
theorem chooseMove_indices_in_range (z : Zobrist) (clock : Nat → Bool) (st : EngineState)
    (root : Game) (h1 : 1 ≤ st.opt.maxDepth) (h2 : st.opt.maxDepth ≤ 63)
    (hr : Reachable root) :
    chooseMoveG ⟨true, false⟩ z clock 64 st root = .ok (chooseMove z clock st root) :=
  chooseMoveG_eq ⟨true, false⟩ z clock 64 st root (by omega)
    (fun _ => ⟨smallGame_of_reachable hr, by omega, h2⟩)

theorem chooseMove_indices_in_range_witness :
    chooseMoveG ⟨true, false⟩ flatZobrist (fun _ => false) 64 {} {} =
      .ok (chooseMove flatZobrist (fun _ => false) {} {}) :=
  chooseMove_indices_in_range flatZobrist (fun _ => false) {} {} (by decide) (by decide)
    Reachable.init

/-- C37: for every engine state, root game, clock and Zobrist tables,
`chooseMove` with the branch `if (m_stop) return evaluate(g)` of `alphaBeta`
replaced by a mark that ends the search runs without reaching the mark and
returns what `chooseMove` returns; the mark is reached by every `alphaBeta` call
that finds the stop flag set. -/
theorem chooseMove_never_takes_stop_branch (z : Zobrist) (clock : Nat → Bool)
    (st : EngineState) (root : Game) :
    chooseMoveG ⟨false, true⟩ z clock (st.opt.maxDepth.toNat + 1) st root =
        .ok (chooseMove z clock st root) ∧
      ∀ (fuel : Nat) (depth : Int) (g : Game) (alpha beta : Int) (n : Bool) (s : EngineState),
        alphaBetaG ⟨false, true⟩ z (fuel + 1) depth g alpha beta n { s with stop := true } =
          .error .stopSeen := by
  refine ⟨chooseMoveG_eq ⟨false, true⟩ z clock _ st root (le_refl _) (fun h => by cases h), ?_⟩
  intro fuel depth g alpha beta n s
  rw [alphaBetaG]
  simp

end chess
